import Mathlib

/-!
# pdbconv: a PDB (MSF) to MSFZ transcoder

A shallow embedding of the compressor (`compression.cpp`), the decompressor
(`decompression.cpp`), the byte-stream primitives they use (`y_data.h`,
`y_misc.h`, `definitions.h`), the strategy option of the command line
(`main.cpp`, `y_args.h`) and the parallel runner (`y_thread.h`).

Conventions of the embedding:

* a byte buffer is a `List Nat`; a byte is read modulo 256;
* `uint32_t` values are naturals, and every 32-bit operation that can wrap is
  written with an explicit `% 4294967296`;
* 64-bit quantities (`size_t`, `uint64_t` offsets into a mapped file) are naturals
  without reduction: a mapped file is far smaller than `2^64` bytes; the `uint64_t`
  hole arithmetic of the decompressor's stream-with-holes, which subtracts, is written
  with an explicit reduction modulo `2^64` (`wrap64`, `sub64`);
* `ThrowError` (which prints and exits) is the `none` of `Option`;
* a loop whose trip count is not bounded by its input carries a fuel argument.
-/

namespace PdbConv

/-! ## Part I. Definitions -/

/-- A byte buffer. -/
abbrev Bytes := List Nat

/-- The ceiling of `a / b`, as the specification writes it (`ceil(a/b)`). -/
def ceilDiv (a b : Nat) : Nat := (a + b - 1) / b

/-- `ynw::AlignTo<uint32_t>` (y_misc.h:31-35):
`((someNumeric + (alignment - 1)) / alignment) * alignment` in 32-bit unsigned
arithmetic. A zero `alignment` divides by zero in the source; here the quotient is 0. -/
def AlignTo (someNumeric alignment : Nat) : Nat :=
  ((someNumeric + (alignment + 4294967295) % 4294967296) % 4294967296 / alignment * alignment)
    % 4294967296

/-- `ynw::AlignTo<size_t>` (y_misc.h:31-41): the same expression on 64-bit operands,
which do not wrap on the files handled. -/
def AlignTo64 (someNumeric alignment : Nat) : Nat :=
  (someNumeric + (alignment - 1)) / alignment * alignment

/-- `ynw::StrictCastTo<uint32_t>` (y_misc.h:20-29): the value when it fits in 32 bits,
a range-check failure otherwise. -/
def StrictCastTo32 (someNumeric : Nat) : Option Nat :=
  if someNumeric < 4294967296 then some someNumeric else none

/-- `CompressionStrategy` (definitions.h:40-45). -/
inductive CompressionStrategy where
  | NoCompression
  | SingleFragment
  | MultiFragment
  deriving DecidableEq, Repr

/-- `ProgramCommandLineArgs` (definitions.h:47-61), the fields the core reads. The
`std::optional` fields are taken as engaged, which `ParseCommandLineOptions` and the
test driver ensure for the fields each mode reads. -/
structure ProgramCommandLineArgs where
  m_CompressionStrategy : CompressionStrategy
  m_CompressionLevel : Nat
  m_FixedFragmentSize : Nat
  m_MaxFragmentsPerStream : Nat
  m_BlockSize : Nat
  deriving DecidableEq, Repr

/-- `Compression::GetFragmentSizeForStream` (compression.cpp:28-42). -/
def GetFragmentSizeForStream (streamSize : Nat) (args : ProgramCommandLineArgs) : Nat :=
  match args.m_CompressionStrategy with
  | .MultiFragment =>
      let fixedFragmentSize := args.m_FixedFragmentSize
      let maxFrps := args.m_MaxFragmentsPerStream
      min streamSize (max fixedFragmentSize (AlignTo streamSize maxFrps / maxFrps))
  | _ => streamSize

/-- Little-endian `uint32_t` stored at byte offset `off` of a buffer. -/
def le32 (d : Bytes) (off : Nat) : Nat :=
  d.getD off 0 % 256 + 256 * (d.getD (off + 1) 0 % 256)
    + 65536 * (d.getD (off + 2) 0 % 256) + 16777216 * (d.getD (off + 3) 0 % 256)

/-- The four bytes of a `uint32_t`, little-endian. -/
def toLe32 (v : Nat) : Bytes :=
  [v % 256, v / 256 % 256, v / 65536 % 256, v / 16777216 % 256]

/-- `ynw::ImmutableStream` (y_data.h:185-282): a read cursor over the bytes
`[m_Data, m_Data + m_Length)`; `m_Length` is the length of `m_Data`. The stream over
`nullptr` of length 0 has `m_Data = []`. -/
structure ImmutableStream where
  m_Data : Bytes
  m_Offset : Nat
  deriving DecidableEq, Repr

namespace ImmutableStream

/-- The field `m_Length`. -/
def m_Length (s : ImmutableStream) : Nat := s.m_Data.length

/-- `ImmutableStream(data, numBytes)` (y_data.h:188-193). -/
def ofBytes (d : Bytes) : ImmutableStream := { m_Data := d, m_Offset := 0 }

/-- `CanRead()` (y_data.h:195). -/
def CanRead (s : ImmutableStream) : Bool := decide (s.m_Offset < s.m_Length)

/-- `CanRead(howManyBytes)` (y_data.h:196). -/
def CanReadN (s : ImmutableStream) (howManyBytes : Nat) : Bool :=
  decide (s.m_Offset + howManyBytes ≤ s.m_Length)

/-- `CanRead(fromOffset, howManyBytes)` (y_data.h:197). -/
def CanReadAt (s : ImmutableStream) (fromOffset howManyBytes : Nat) : Bool :=
  decide (fromOffset < s.m_Length) && decide (fromOffset + howManyBytes ≤ s.m_Length)

/-- The bytes `[m_Data + offset, m_Data + offset + size)`: what a span built from
`PeekAtOffset<uint8_t>(offset)` and `size` denotes. -/
def span (s : ImmutableStream) (offset size : Nat) : Bytes :=
  (s.m_Data.drop offset).take size

/-- `GetStreamAtOffset(offset, size = 0)` (y_data.h:199-213). -/
def GetStreamAtOffset (s : ImmutableStream) (offset : Nat) (size : Nat) : ImmutableStream :=
  if size = 0 ∧ s.CanReadAt offset 0 = true then
    ofBytes (s.m_Data.drop offset)
  else if size ≠ 0 ∧ s.CanReadAt offset size = true then
    ofBytes (s.span offset size)
  else
    ofBytes []

/-- `Seek(where)` (y_data.h:221-229): the stream after the seek, `none` for `false`. -/
def Seek (s : ImmutableStream) (pos : Nat) : Option ImmutableStream :=
  if pos > s.m_Length then none else some { s with m_Offset := pos }

/-- `Peek<uint32_t>()` (y_data.h:242-250); `none` is the null pointer. -/
def Peek32 (s : ImmutableStream) : Option Nat :=
  if s.m_Offset + 4 > s.m_Length then none else some (le32 s.m_Data s.m_Offset)

/-- `Read<uint32_t>()` (y_data.h:231-240): the value and the advanced stream. -/
def Read32 (s : ImmutableStream) : Option (Nat × ImmutableStream) :=
  match s.Peek32 with
  | none => none
  | some v => some (v, { s with m_Offset := s.m_Offset + 4 })

/-- `PeekAtOffset<uint32_t>(where)` (y_data.h:252-260). -/
def PeekAtOffset32 (s : ImmutableStream) (pos : Nat) : Option Nat :=
  if pos > s.m_Length ∨ pos + 4 > s.m_Length then none else some (le32 s.m_Data pos)

end ImmutableStream

/-- `Compression::PDBStreamInfo` (compression.cpp:22-26). -/
structure PDBStreamInfo where
  m_StreamSize : Nat
  m_StreamBlockIndices : List Nat
  deriving DecidableEq, Repr

/-- `std::is_sorted` on 32-bit block indices: no element is less than its predecessor. -/
def is_sorted : List Nat → Bool
  | [] => true
  | [_] => true
  | a :: b :: rest => decide (a ≤ b) && is_sorted (b :: rest)

/-- The copying loop of `CoalesceDataFromStream` (compression.cpp:100-111): for each
block index, in order, append `min(streamSizeLeftover, blockSize)` bytes read at the
32-bit offset `blockSize * blockIndex`. The result is the content of
`coalescedDataStream` after the loop. -/
def CoalesceDataFromStream.copyBlocks (pdbFileStream : ImmutableStream) (blockSize : Nat) :
    List Nat → Nat → Option Bytes
  | [], _ => some []
  | blockIndex :: rest, streamSizeLeftover =>
      let blockOffset := (blockSize * blockIndex) % 4294967296
      let sizeToRead := min streamSizeLeftover blockSize
      if pdbFileStream.CanReadAt blockOffset sizeToRead = true then
        (copyBlocks pdbFileStream blockSize rest (streamSizeLeftover - sizeToRead)).map
          (fun tl => pdbFileStream.span blockOffset sizeToRead ++ tl)
      else none

/-- `Compression::CoalesceDataFromStream` (compression.cpp:82-116). The source calls
`front()` and `back()` on the block list without testing for emptiness; an empty list
(undefined behaviour there) is an error here. -/
def CoalesceDataFromStream (pdbFileStream : ImmutableStream) (streamInfo : PDBStreamInfo)
    (blockSize : Nat) : Option Bytes :=
  let streamBlockIndices := streamInfo.m_StreamBlockIndices
  let streamSize := streamInfo.m_StreamSize
  match streamBlockIndices.head?, streamBlockIndices.getLast? with
  | some front, some back =>
      let areStreamBlocksContiguous :=
        is_sorted streamBlockIndices
          && decide ((back + 4294967296 - front) % 4294967296 ≤ streamBlockIndices.length)
      if areStreamBlocksContiguous = true then
        let streamOffset := (blockSize * front) % 4294967296
        if pdbFileStream.CanReadAt streamOffset streamSize = true then
          some (pdbFileStream.span streamOffset streamSize)
        else none
      else
        CoalesceDataFromStream.copyBlocks pdbFileStream blockSize streamBlockIndices streamSize
  | _, _ => none

/-- The specification's stream content: the first `s` bytes of the concatenation of the
blocks `B[0], B[1], ...` of the file, in list order. -/
def streamContentSpec (file : Bytes) (blockSize s : Nat) (B : List Nat) : Bytes :=
  ((B.map (fun b => (file.drop (b * blockSize)).take blockSize)).flatten).take s

/-- A six-block file of block size 512 whose byte at offset `i` is the index `i / 512` of
its block. -/
def sixBlockFile : Bytes := (List.range 3072).map (fun i => i / 512)

/-- `PDBSuperBlock` (definitions.h:63-72) without its signature and padding bytes. -/
structure PDBSuperBlock where
  m_BlockSize : Nat
  m_FreeBlockMapIndex : Nat
  m_BlockCount : Nat
  m_DirectorySize : Nat
  m_Unknown1_32t : Nat
  deriving DecidableEq, Repr

/-- The first `n` little-endian 32-bit words of a buffer. -/
def wordsOf (d : Bytes) (n : Nat) : List Nat :=
  (List.range n).map (fun j => le32 d (4 * j))

/-- The inner loop of `ParseStreamDirectory` (compression.cpp:178-186):
`for (blockIterator = 0; blockIterator < *streamSizePtr; blockIterator += blockSize)`
reads one block index per iteration; `blockIterator` is a `uint32_t`. Every iteration
consumes four bytes of the stream or fails, so a fuel above the number of words left is
never exhausted. Returns the indices pushed and the advanced stream. -/
def ParseStreamDirectory.readBlockIndices (blockSize streamSize : Nat) :
    Nat → Nat → ImmutableStream → Option (List Nat × ImmutableStream)
  | 0, _, _ => none
  | fuel + 1, blockIterator, blockIndicesStream =>
      if blockIterator < streamSize then
        match blockIndicesStream.Read32 with
        | none => none
        | some (blockIndex, rest) =>
            (readBlockIndices blockSize streamSize fuel
                ((blockIterator + blockSize) % 4294967296) rest).map
              (fun r => (blockIndex :: r.1, r.2))
      else some ([], blockIndicesStream)

/-- The outer loop of `ParseStreamDirectory` (compression.cpp:161-187) over the
`numStreams` records still to fill. -/
def ParseStreamDirectory.readStreams (blockSize : Nat) :
    Nat → ImmutableStream → ImmutableStream → Option (List PDBStreamInfo)
  | 0, _, _ => some []
  | n + 1, streamSizesStream, blockIndicesStream =>
      match streamSizesStream.Read32 with
      | none => none
      | some (streamSize, sizesRest) =>
          if streamSize = 4294967295 ∨ streamSize = 0 then
            (readStreams blockSize n sizesRest blockIndicesStream).map
              (fun tl => { m_StreamSize := 0, m_StreamBlockIndices := [] } :: tl)
          else
            match ParseStreamDirectory.readBlockIndices blockSize streamSize
                (blockIndicesStream.m_Length + 1) 0 blockIndicesStream with
            | none => none
            | some (streamBlockIndices, indicesRest) =>
                (readStreams blockSize n sizesRest indicesRest).map
                  (fun tl => { m_StreamSize := streamSize,
                               m_StreamBlockIndices := streamBlockIndices } :: tl)

/-- The second half of `ParseStreamDirectory` (compression.cpp:149-187): the parse of
the coalesced directory payload. -/
def ParseStreamDirectory.parseDirectory (directoryData : Bytes) (blockSize : Nat) :
    Option (List PDBStreamInfo) :=
  let directoryStream := ImmutableStream.ofBytes directoryData
  match directoryStream.PeekAtOffset32 0 with
  | none => none
  | some numStreams =>
      let streamSizesStream := directoryStream.GetStreamAtOffset 4 (4 * numStreams)
      let blockIndicesStream := directoryStream.GetStreamAtOffset (4 + 4 * numStreams) 0
      ParseStreamDirectory.readStreams blockSize numStreams streamSizesStream blockIndicesStream

/-- The first half of `ParseStreamDirectory` (compression.cpp:120-147): the directory
payload, reached through the directory-index blocks listed after the superblock.
`ReadData` copies the whole sub-stream into the zero-filled index vector and its result
is not tested, so a sub-stream that could not be formed leaves the zeros. Reads past the
end of a buffer (`memcpy` of more words than were coalesced) are errors here. -/
def ParseStreamDirectory.directoryData (pdbFileStream : ImmutableStream)
    (pdbSuperblock : PDBSuperBlock) : Option Bytes :=
  let blockSize := pdbSuperblock.m_BlockSize
  let directorySizeInBytes := pdbSuperblock.m_DirectorySize
  let directoryBlockIndicesSize := AlignTo directorySizeInBytes blockSize / blockSize
  let directoryBlockIndicesByteSize := (directoryBlockIndicesSize * 4) % 4294967296
  let directoryBlockIndicesStreamSize :=
    AlignTo directoryBlockIndicesByteSize blockSize / blockSize
  let directoryBlockIndicesStream :=
    pdbFileStream.GetStreamAtOffset 52 (directoryBlockIndicesStreamSize * 4)
  let indexBlocks :=
    if directoryBlockIndicesStream.m_Length = directoryBlockIndicesStreamSize * 4 then
      wordsOf directoryBlockIndicesStream.m_Data directoryBlockIndicesStreamSize
    else List.replicate directoryBlockIndicesStreamSize 0
  match CoalesceDataFromStream pdbFileStream
      { m_StreamSize := directoryBlockIndicesByteSize, m_StreamBlockIndices := indexBlocks }
      blockSize with
  | none => none
  | some directoryIndicesData =>
      if directoryIndicesData.length < directoryBlockIndicesSize * 4 then none
      else
        CoalesceDataFromStream pdbFileStream
          { m_StreamSize := directorySizeInBytes,
            m_StreamBlockIndices := wordsOf directoryIndicesData directoryBlockIndicesSize }
          blockSize

/-- `Compression::ParseStreamDirectory` (compression.cpp:118-188). -/
def ParseStreamDirectory (pdbFileStream : ImmutableStream) (pdbSuperblock : PDBSuperBlock) :
    Option (List PDBStreamInfo) :=
  match ParseStreamDirectory.directoryData pdbFileStream pdbSuperblock with
  | none => none
  | some directoryData =>
      ParseStreamDirectory.parseDirectory directoryData pdbSuperblock.m_BlockSize

/-- The signature `g_PdbSignatureBytes` (definitions.h:31): the 29 characters of
`"Microsoft C/C++ MSF 7.00\r\n\x1aDS"` and the terminating zero. -/
def g_PdbSignatureBytes : Bytes :=
  [77, 105, 99, 114, 111, 115, 111, 102, 116, 32, 67, 47, 67, 43, 43, 32, 77, 83, 70, 32,
   55, 46, 48, 48, 13, 10, 26, 68, 83, 0]

/-- `Peek<PDBSuperBlock>()` on the input file with the signature test of `RunCompression`
(compression.cpp:351-359). -/
def readSuperBlock (file : Bytes) : Option PDBSuperBlock :=
  if 52 > file.length then none
  else if file.take 30 ≠ g_PdbSignatureBytes then none
  else some { m_BlockSize := le32 file 32, m_FreeBlockMapIndex := le32 file 36,
              m_BlockCount := le32 file 40, m_DirectorySize := le32 file 44,
              m_Unknown1_32t := le32 file 48 }

/-- The stream size the parser records for a size word: `0xFFFFFFFF` is empty. -/
def normSize (w : Nat) : Nat := if w = 4294967295 then 0 else w

/-- A 92-byte PDB whose superblock announces the block size `0x60000001`: the
directory-index word at offset 52 is 56, the directory-block word at offset 56 is 64
(both `index * blockSize` wrap to the index itself), and the 28-byte directory at
offset 64 holds one stream of size `0xD0000000` followed by five block words. -/
def oddBlockSizePdb : Bytes :=
  g_PdbSignatureBytes ++ [0, 0] ++ toLe32 1610612737 ++ toLe32 1 ++ toLe32 1 ++ toLe32 28
    ++ toLe32 0 ++ toLe32 56 ++ toLe32 64 ++ [0, 0, 0, 0]
    ++ toLe32 1 ++ toLe32 3489660928
    ++ toLe32 7 ++ toLe32 8 ++ toLe32 9 ++ toLe32 10 ++ toLe32 11

/-- The record the specification gives stream `i` of a directory: its size word
(`0xFFFFFFFF` read as 0) and the `ceil(size/bs)` consecutive block words that follow the
words of streams `0 .. i-1`. `sizeWord k` is the `k`-th size word and `blockWord k` the
`k`-th word of the block-index area. -/
def recordSpec (bs : Nat) (sizeWord blockWord : Nat → Nat) (i : Nat) : PDBStreamInfo :=
  { m_StreamSize := normSize (sizeWord i),
    m_StreamBlockIndices :=
      (List.range (ceilDiv (normSize (sizeWord i)) bs)).map
        (fun j => blockWord
          (((List.range i).map (fun k => ceilDiv (normSize (sizeWord k)) bs)).sum + j)) }

/-- The records the specification reads off a directory payload: a 32-bit `N`, then `N`
size words, then the block-index area. -/
def directorySpec (payload : Bytes) (bs : Nat) : List PDBStreamInfo :=
  (List.range (le32 payload 0)).map
    (recordSpec bs (fun i => le32 payload (4 + 4 * i))
      (fun k => le32 payload (4 + 4 * le32 payload 0 + 4 * k)))

/-- A block padded with zero bytes to `bs` bytes. -/
def padBlock (bs : Nat) (d : Bytes) : Bytes := d ++ List.replicate (bs - d.length) 0

/-- A six-block PDB of block size 512: block 0 holds the superblock and the
directory-index word 4, block 3 the five bytes of stream 0, block 4 the directory-block
word 5, and block 5 the 16-byte directory of two streams (sizes 5 and `0xFFFFFFFF`). -/
def tinyPdb : Bytes :=
  padBlock 512 (g_PdbSignatureBytes ++ [0, 0] ++ toLe32 512 ++ toLe32 1 ++ toLe32 6
      ++ toLe32 16 ++ toLe32 0 ++ toLe32 4)
    ++ List.replicate 1024 0
    ++ padBlock 512 [1, 2, 3, 4, 5]
    ++ padBlock 512 (toLe32 5)
    ++ padBlock 512 (toLe32 2 ++ toLe32 5 ++ toLe32 4294967295 ++ toLe32 3)

/-- The superblock of `tinyPdb`. -/
def tinySuperBlock : PDBSuperBlock :=
  { m_BlockSize := 512, m_FreeBlockMapIndex := 1, m_BlockCount := 6, m_DirectorySize := 16,
    m_Unknown1_32t := 0 }

/-- The superblock of `oddBlockSizePdb`. -/
def oddSuperBlock : PDBSuperBlock :=
  { m_BlockSize := 1610612737, m_FreeBlockMapIndex := 1, m_BlockCount := 1,
    m_DirectorySize := 28, m_Unknown1_32t := 0 }

/-! ### The MSFZ writer -/

/-- `MsfzChunk` (definitions.h:90-97). -/
structure MsfzChunk where
  m_OffsetToChunkData : Nat
  m_OriginToChunk : Nat
  m_IsCompressed : Nat
  m_CompressedSize : Nat
  m_DecompressedSize : Nat
  deriving DecidableEq, Repr

/-- The 20 bytes of a chunk descriptor, as `Write(chunkDesc)` stores them. -/
def MsfzChunk.toBytes (c : MsfzChunk) : Bytes :=
  toLe32 c.m_OffsetToChunkData ++ toLe32 c.m_OriginToChunk ++ toLe32 c.m_IsCompressed
    ++ toLe32 c.m_CompressedSize ++ toLe32 c.m_DecompressedSize

/-- The chunk descriptor stored at byte offset `off` of a buffer. -/
def MsfzChunk.ofBytes (d : Bytes) (off : Nat) : MsfzChunk :=
  { m_OffsetToChunkData := le32 d off, m_OriginToChunk := le32 d (off + 4),
    m_IsCompressed := le32 d (off + 8), m_CompressedSize := le32 d (off + 12),
    m_DecompressedSize := le32 d (off + 16) }

/-- `MsfzFragment` (definitions.h:99-108). -/
structure MsfzFragment where
  m_DataSize : Nat
  m_DataOffset : Nat
  m_ChunkIndexOrDataOrigin : Nat
  deriving DecidableEq, Repr

/-- `MsfzFragment::SetChunkIndex` (definitions.h:105): `value | (1 << 31)`. -/
def MsfzFragment.SetChunkIndex (value : Nat) : Nat := value ||| 2147483648

/-- `MsfzFragment::GetChunkIndex` (definitions.h:106): the tag `& ~(1 << 31)`. -/
def MsfzFragment.GetChunkIndex (f : MsfzFragment) : Nat :=
  f.m_ChunkIndexOrDataOrigin &&& 2147483647

/-- `MsfzFragment::IsLocatedInChunk` (definitions.h:107): the tag `& (1 << 31)`. -/
def MsfzFragment.IsLocatedInChunk (f : MsfzFragment) : Bool :=
  f.m_ChunkIndexOrDataOrigin &&& 2147483648 != 0

/-- The 12 bytes of a fragment descriptor. -/
def MsfzFragment.toBytes (f : MsfzFragment) : Bytes :=
  toLe32 f.m_DataSize ++ toLe32 f.m_DataOffset ++ toLe32 f.m_ChunkIndexOrDataOrigin

/-- The ZSTD codec, an external collaborator: `compressBound` is `ZSTD_compressBound`,
`compress level src` is `ZSTD_compress` into a buffer of `compressBound src.length`
bytes and `decompress dstCapacity src` is `ZSTD_decompress`; `none` is a result for
which `ZSTD_isError` holds. -/
structure Codec where
  compressBound : Nat → Nat
  compress : Nat → Bytes → Option Bytes
  decompress : Nat → Bytes → Option Bytes

/-- The buffer after `memcpy(buffer + pos, data, data.length)`. -/
def writeAt (out : Bytes) (pos : Nat) (data : Bytes) : Bytes :=
  out.take pos ++ data ++ out.drop (pos + data.length)

/-- `ynw::MutableStreamFixed` (y_data.h:9-80): a write cursor over a window of the
mapped output file. `m_Data` is the position of the window's first byte in the mapping,
`none` for `nullptr`. -/
structure MutableStreamFixed where
  m_Data : Option Nat
  m_Size : Nat
  m_Offset : Nat
  deriving DecidableEq, Repr

namespace MutableStreamFixed

/-- `MutableStreamFixed{ nullptr, 0 }`. -/
def null : MutableStreamFixed := { m_Data := none, m_Size := 0, m_Offset := 0 }

/-- `MutableStreamFixed::WriteBytes` (y_data.h:40-50) in a release build (`assert` is
compiled out): the result flag, the advanced stream and the mapping after the copy. -/
def WriteBytes (s : MutableStreamFixed) (out : Bytes) (data : Bytes) :
    Bool × MutableStreamFixed × Bytes :=
  if s.m_Offset + data.length > s.m_Size then (false, s, out)
  else
    (true, { s with m_Offset := s.m_Offset + data.length },
      match s.m_Data with
      | some base => writeAt out (base + s.m_Offset) data
      | none => out)

/-- `MutableStreamFixed::GetStreamAtOffset` (y_data.h:52-65). -/
def GetStreamAtOffset (s : MutableStreamFixed) (offset : Nat) (size : Nat) :
    MutableStreamFixed :=
  let size := if size = 0 then s.m_Size - offset else size
  if offset > s.m_Size ∨ offset + size > s.m_Size then null
  else { m_Data := s.m_Data.map (· + offset), m_Size := size, m_Offset := 0 }

/-- `SimpleMutableStreamFixedThreadSafe::GetRegionSubstreamForWriting`
(y_data.h:138-153), one critical section: the sub-stream, the value left in
`outRegionOffset` (its previous value when the test of line 141 refuses the region) and
the stream with its bump cursor advanced. `m_Offset`, `regionSize` and `m_Size` are
`uint64_t`, so the sum of the test and the advanced cursor are reduced modulo `2^64`. -/
def GetRegionSubstreamForWriting (s : MutableStreamFixed) (regionSize : Nat)
    (outRegionOffset : Nat) : MutableStreamFixed × Nat × MutableStreamFixed :=
  if (s.m_Offset + regionSize) % 18446744073709551616 > s.m_Size then
    (null, outRegionOffset, s)
  else
    ({ m_Data := s.m_Data.map (· + s.m_Offset), m_Size := regionSize, m_Offset := 0 },
      s.m_Offset, { s with m_Offset := (s.m_Offset + regionSize) % 18446744073709551616 })

end MutableStreamFixed

/-- The state the workers of `CompressAndWriteStreamData` share: the mapped output file
and the two region allocators over it. -/
structure Shared where
  out : Bytes
  outChunkMetadataStream : MutableStreamFixed
  outChunkDataStream : MutableStreamFixed
  deriving DecidableEq, Repr

/-- Where one call of `WriteSingleStreamData` stands. `start`: before line 203.
`loopHead`: at the loop test of line 210. `reserved`: inside the loop body after the
chunk-descriptor slot was reserved and the fragment pushed (line 220), before the
payload is produced. `done`: returned. -/
inductive WorkerState where
  | start
  | loopHead (streamData : Bytes) (maxFragmentSize dataOffset : Nat)
  | reserved (streamData : Bytes) (maxFragmentSize dataOffset : Nat)
      (chunkDescStream : MutableStreamFixed) (fragmentSize : Nat)
  | done
  deriving DecidableEq, Repr

/-- One call of `WriteSingleStreamData`: its position and `outStreamDesc.m_Fragments`. -/
structure Worker where
  state : WorkerState
  m_Fragments : List MsfzFragment
  deriving DecidableEq, Repr

/-- Lines 212-220 of `WriteSingleStreamData`: reserve the descriptor slot (one critical
section of the chunk-metadata allocator) and push the fragment descriptor. -/
def WriteSingleStreamData.reserveSlot (streamData : Bytes) (maxFragmentSize dataOffset : Nat)
    (sh : Shared) (frags : List MsfzFragment) : Option (Shared × Worker) :=
  let (chunkDescStream, chunkDescOffset, metaStream) :=
    sh.outChunkMetadataStream.GetRegionSubstreamForWriting 20 0
  match StrictCastTo32 (chunkDescOffset / 20) with
  | none => none
  | some chunkIndex =>
      let fragmentSize := min maxFragmentSize (streamData.length - dataOffset)
      let fragment : MsfzFragment :=
        { m_DataSize := fragmentSize, m_DataOffset := 0,
          m_ChunkIndexOrDataOrigin := MsfzFragment.SetChunkIndex chunkIndex }
      some ({ sh with outChunkMetadataStream := metaStream },
        { state :=
            WorkerState.reserved streamData maxFragmentSize dataOffset chunkDescStream
              fragmentSize,
          m_Fragments := frags ++ [fragment] })

/-- The payload of a fragment (compression.cpp:222-246): the compressed fragment
bytes, or under `NoCompression` the first `fragmentSize` bytes of the stream. -/
def WriteSingleStreamData.payload (codec : Codec) (args : ProgramCommandLineArgs)
    (streamData : Bytes) (dataOffset fragmentSize : Nat) : Option Bytes :=
  if args.m_CompressionStrategy ≠ .NoCompression then
    codec.compress args.m_CompressionLevel ((streamData.drop dataOffset).take fragmentSize)
  else some (streamData.take fragmentSize)

/-- Lines 222-258 of `WriteSingleStreamData`: produce the payload, reserve its region
(one critical section of the chunk-data allocator), copy it in and write the chunk
descriptor into the slot reserved before; then the loop increment
`dataOffset += maxFragmentSize` in 32 bits. -/
def WriteSingleStreamData.writeChunk (codec : Codec) (args : ProgramCommandLineArgs)
    (chunkDataOffset : Nat) (streamData : Bytes) (maxFragmentSize dataOffset : Nat)
    (chunkDescStream : MutableStreamFixed) (fragmentSize : Nat)
    (sh : Shared) (frags : List MsfzFragment) : Option (Shared × Worker) :=
  match WriteSingleStreamData.payload codec args streamData dataOffset fragmentSize with
  | none => none
  | some streamDataToWrite =>
      let (chunkDataSubstreamForWriting, chunkDataOffsetForWriting, dataStream) :=
        sh.outChunkDataStream.GetRegionSubstreamForWriting streamDataToWrite.length 0
      let out1 := (chunkDataSubstreamForWriting.WriteBytes sh.out streamDataToWrite).2.2
      match StrictCastTo32 (chunkDataOffset + chunkDataOffsetForWriting),
          StrictCastTo32 streamDataToWrite.length with
      | some offsetToChunkData, some compressedSize =>
          let chunkDesc : MsfzChunk :=
            { m_OffsetToChunkData := offsetToChunkData, m_OriginToChunk := 0,
              m_IsCompressed :=
                if args.m_CompressionStrategy ≠ .NoCompression then 1 else 0,
              m_CompressedSize := compressedSize, m_DecompressedSize := fragmentSize }
          let out2 := (chunkDescStream.WriteBytes out1 chunkDesc.toBytes).2.2
          some ({ sh with out := out2, outChunkDataStream := dataStream },
            { state :=
                WorkerState.loopHead streamData maxFragmentSize
                  ((dataOffset + maxFragmentSize) % 4294967296),
              m_Fragments := frags })
      | _, _ => none

/-- One step of `WriteSingleStreamData` (compression.cpp:190-261) from the position
recorded in the worker. Each step holds at most one of the two allocator locks, so the
steps of concurrent calls interleave as wholes; the copies into the reserved windows,
which no other call touches, are done within the step that reserved them. -/
def WriteSingleStreamData.step (codec : Codec) (pdbFileStream : ImmutableStream)
    (streamInfo : PDBStreamInfo) (blockSize chunkDataOffset : Nat)
    (args : ProgramCommandLineArgs) (sh : Shared) (w : Worker) : Option (Shared × Worker) :=
  match w.state with
  | .start =>
      if streamInfo.m_StreamSize > 0 then
        match CoalesceDataFromStream pdbFileStream streamInfo blockSize with
        | none => none
        | some streamData =>
            match StrictCastTo32 streamData.length with
            | none => none
            | some streamDataLength =>
                let maxFragmentSize := GetFragmentSizeForStream streamDataLength args
                some (sh, { w with state := WorkerState.loopHead streamData maxFragmentSize 0 })
      else some (sh, { w with state := .done })
  | .loopHead streamData maxFragmentSize dataOffset =>
      if dataOffset < streamData.length then
        WriteSingleStreamData.reserveSlot streamData maxFragmentSize dataOffset sh
          w.m_Fragments
      else some (sh, { w with state := .done })
  | .reserved streamData maxFragmentSize dataOffset chunkDescStream fragmentSize =>
      WriteSingleStreamData.writeChunk codec args chunkDataOffset streamData maxFragmentSize
        dataOffset chunkDescStream fragmentSize sh w.m_Fragments
  | .done => some (sh, w)

/-- The outcome of running code whose loops need not terminate: an error was raised,
the fuel ran out before the code returned, or it returned. -/
inductive Run (α : Type) where
  | failed
  | unfinished
  | finished (a : α)
  deriving DecidableEq, Repr

/-- The steps of one call of `WriteSingleStreamData` run without interruption, at most
`fuel` of them. -/
def WriteSingleStreamData.run (codec : Codec) (pdbFileStream : ImmutableStream)
    (streamInfo : PDBStreamInfo) (blockSize chunkDataOffset : Nat)
    (args : ProgramCommandLineArgs) : Nat → Shared → Worker → Run (Shared × Worker)
  | 0, sh, w => if w.state = .done then .finished (sh, w) else .unfinished
  | fuel + 1, sh, w =>
      if w.state = .done then .finished (sh, w)
      else
        match WriteSingleStreamData.step codec pdbFileStream streamInfo blockSize
            chunkDataOffset args sh w with
        | none => .failed
        | some (sh', w') =>
            WriteSingleStreamData.run codec pdbFileStream streamInfo blockSize
              chunkDataOffset args fuel sh' w'

/-- `Compression::WriteSingleStreamData` (compression.cpp:190-261) called on its own
with an empty `outStreamDesc`: the shared state after the call and the fragment
descriptors it pushed. -/
def WriteSingleStreamData (codec : Codec) (pdbFileStream : ImmutableStream)
    (streamInfo : PDBStreamInfo) (blockSize chunkDataOffset : Nat)
    (args : ProgramCommandLineArgs) (fuel : Nat) (sh : Shared) :
    Run (Shared × List MsfzFragment) :=
  match WriteSingleStreamData.run codec pdbFileStream streamInfo blockSize chunkDataOffset
      args fuel sh { state := .start, m_Fragments := [] } with
  | .failed => .failed
  | .unfinished => .unfinished
  | .finished (sh', w) => .finished (sh', w.m_Fragments)

/-- `Compression::CalculateOutputRegionSizes` (compression.cpp:44-80): the triple
`(outDirectoryNumBytes, outChunkDescNumBytes, outChunkDataMaxNumBytes)`; the three
accumulators are `uint32_t`. A fragment size of 0 divides by zero in the source; here
the quotient is 0. -/
def CalculateOutputRegionSizes (codec : Codec) (streamInfos : List PDBStreamInfo)
    (args : ProgramCommandLineArgs) : Option (Nat × Nat × Nat) :=
  streamInfos.foldlM
    (fun (acc : Nat × Nat × Nat) (streamInfo : PDBStreamInfo) =>
      let (numDirectoryBytes, numChunkDescBytes, maxNumChunkDataBytes) := acc
      let streamSize := streamInfo.m_StreamSize
      let fragmentSize := if streamSize ≠ 0 then GetFragmentSizeForStream streamSize args else 0
      let numFragments :=
        if streamSize ≠ 0 then AlignTo streamSize fragmentSize / fragmentSize else 0
      let numDirectoryBytes := (numDirectoryBytes + (4 + 12 * numFragments)) % 4294967296
      let numChunkDescBytes := (numChunkDescBytes + 20 * numFragments) % 4294967296
      if args.m_CompressionStrategy = .NoCompression then
        some (numDirectoryBytes, numChunkDescBytes,
          (maxNumChunkDataBytes + streamSize) % 4294967296)
      else
        match StrictCastTo32 (codec.compressBound fragmentSize) with
        | none => none
        | some bound =>
            some (numDirectoryBytes, numChunkDescBytes,
              (maxNumChunkDataBytes + numFragments * bound % 4294967296) % 4294967296))
    (0, 0, 0)

/-- The parallel phase of `CompressAndWriteStreamData` (compression.cpp:286-294):
`schedule` lists, in the order in which they happen, the index of the stream whose
worker performs its next step. Every interleaving the thread pool can produce is such a
schedule. An index outside the stream list is skipped. -/
def CompressAndWriteStreamData.runSchedule (codec : Codec) (pdbFile : ImmutableStream)
    (streamInfos : List PDBStreamInfo) (args : ProgramCommandLineArgs)
    (blockSize chunkDataOffset : Nat) :
    List Nat → Shared → List Worker → Option (Shared × List Worker)
  | [], sh, ws => some (sh, ws)
  | i :: rest, sh, ws =>
      match streamInfos[i]?, ws[i]? with
      | some streamInfo, some w =>
          match WriteSingleStreamData.step codec pdbFile streamInfo blockSize
              chunkDataOffset args sh w with
          | none => none
          | some (sh', w') =>
              runSchedule codec pdbFile streamInfos args blockSize chunkDataOffset rest sh'
                (ws.set i w')
      | _, _ =>
          runSchedule codec pdbFile streamInfos args blockSize chunkDataOffset rest sh ws

/-- The directory buffer of `CompressAndWriteStreamData` (compression.cpp:296-304): for
each stream its fragment descriptors, then the separator word 0. -/
def serializeDirectory (streamDescriptors : List (List MsfzFragment)) : Bytes :=
  (streamDescriptors.map
    (fun frags => (frags.map MsfzFragment.toBytes).flatten ++ toLe32 0)).flatten

/-- The schedule in which the streams are converted one after the other, in index
order, each with `fuel` steps. -/
def sequentialSchedule (numStreams fuel : Nat) : List Nat :=
  (List.range numStreams).flatMap (fun i => List.replicate fuel i)

/-- `MsfzHeader` (definitions.h:74-88) without its signature and reserved 64-bit word. -/
structure MsfzHeader where
  m_StreamDirectoryDataOffset : Nat
  m_StreamDirectoryDataOrigin : Nat
  m_ChunkMetadataOffset : Nat
  m_ChunkMetadataOrigin : Nat
  m_NumMSFStreams : Nat
  m_IsStreamDirectoryDataCompressed : Nat
  m_StreamDirectoryDataLengthCompressed : Nat
  m_StreamDirectoryDataLengthDecompressed : Nat
  m_NumChunks : Nat
  m_ChunkMetadataLength : Nat
  deriving DecidableEq, Repr

/-- The signature `g_MsfzSignatureBytes` (definitions.h:24-29). -/
def g_MsfzSignatureBytes : Bytes :=
  [0x4D, 0x69, 0x63, 0x72, 0x6F, 0x73, 0x6F, 0x66, 0x74, 0x20, 0x4D,
   0x53, 0x46, 0x5A, 0x20, 0x43, 0x6F, 0x6E, 0x74, 0x61, 0x69, 0x6E,
   0x65, 0x72, 0x0D, 0x0A, 0x1A, 0x41, 0x4C, 0x44, 0x00, 0x00]

/-- The 80 bytes of an MSFZ header with the MSFZ signature. -/
def MsfzHeader.toBytes (h : MsfzHeader) : Bytes :=
  g_MsfzSignatureBytes ++ List.replicate 8 0
    ++ toLe32 h.m_StreamDirectoryDataOffset ++ toLe32 h.m_StreamDirectoryDataOrigin
    ++ toLe32 h.m_ChunkMetadataOffset ++ toLe32 h.m_ChunkMetadataOrigin
    ++ toLe32 h.m_NumMSFStreams ++ toLe32 h.m_IsStreamDirectoryDataCompressed
    ++ toLe32 h.m_StreamDirectoryDataLengthCompressed
    ++ toLe32 h.m_StreamDirectoryDataLengthDecompressed
    ++ toLe32 h.m_NumChunks ++ toLe32 h.m_ChunkMetadataLength

/-- The header fields stored in the first 80 bytes of a buffer. -/
def MsfzHeader.ofBytes (d : Bytes) : MsfzHeader :=
  { m_StreamDirectoryDataOffset := le32 d 40, m_StreamDirectoryDataOrigin := le32 d 44,
    m_ChunkMetadataOffset := le32 d 48, m_ChunkMetadataOrigin := le32 d 52,
    m_NumMSFStreams := le32 d 56, m_IsStreamDirectoryDataCompressed := le32 d 60,
    m_StreamDirectoryDataLengthCompressed := le32 d 64,
    m_StreamDirectoryDataLengthDecompressed := le32 d 68,
    m_NumChunks := le32 d 72, m_ChunkMetadataLength := le32 d 76 }

/-- What `CompressAndWriteStreamData` hands back: the shared state after the parallel
phase, the per-stream fragment lists, the content of `outDirectoryDataStream`, and the
header fields `m_NumMSFStreams` and `m_IsStreamDirectoryDataCompressed`. -/
structure CompressResult where
  sh : Shared
  streamDescriptors : List (List MsfzFragment)
  directoryData : Bytes
  m_NumMSFStreams : Nat
  m_IsStreamDirectoryDataCompressed : Nat
  deriving DecidableEq, Repr

/-- `Compression::CompressAndWriteStreamData` (compression.cpp:263-336) on a runner
with `numThreads` worker threads (`m_NumThreads`, y_thread.h:52), under the interleaving
`schedule` of the calls of `WriteSingleStreamData`. With no worker thread `Execute`
makes no call (y_thread.h:92-99) and every stream keeps its empty descriptor; with at
least one, every call is made. `unfinished`: the schedule ends before every call
returned. -/
def CompressAndWriteStreamData (codec : Codec) (pdbFile : ImmutableStream)
    (streamInfos : List PDBStreamInfo) (args : ProgramCommandLineArgs)
    (blockSize chunkDataOffset : Nat) (numThreads : Nat) (schedule : List Nat)
    (sh : Shared) : Run CompressResult :=
  match StrictCastTo32 streamInfos.length with
  | none => .failed
  | some numStreams =>
      match CompressAndWriteStreamData.runSchedule codec pdbFile streamInfos args blockSize
          chunkDataOffset (if numThreads = 0 then [] else schedule) sh
          (List.replicate streamInfos.length { state := .start, m_Fragments := [] }) with
      | none => .failed
      | some (sh', ws) =>
          if numThreads = 0 ∨ ws.all (fun w => decide (w.state = .done)) then
            let streamDescriptors := ws.map (fun w => w.m_Fragments)
            let streamDirectoryData := serializeDirectory streamDescriptors
            if args.m_CompressionStrategy ≠ .NoCompression then
              match codec.compress 3 streamDirectoryData with
              | none => .failed
              | some compressedStreamDirectoryData =>
                  .finished
                    { sh := sh', streamDescriptors := streamDescriptors,
                      directoryData := compressedStreamDirectoryData,
                      m_NumMSFStreams := numStreams,
                      m_IsStreamDirectoryDataCompressed := 1 }
            else
              .finished
                { sh := sh', streamDescriptors := streamDescriptors,
                  directoryData := streamDirectoryData,
                  m_NumMSFStreams := numStreams,
                  m_IsStreamDirectoryDataCompressed := 0 }
          else .unfinished

/-- `SimpleWinFile::Resize` (y_file.h:20-35) on the content of a file: truncated, or
extended with zero bytes. -/
def resizeFile (content : Bytes) (newSize : Nat) : Bytes :=
  content.take newSize ++ List.replicate (newSize - content.length) 0

/-- What `RunCompression` leaves behind: the output file and the header it wrote. -/
structure CompressionOutput where
  file : Bytes
  header : MsfzHeader
  streamDescriptors : List (List MsfzFragment)
  deriving DecidableEq, Repr

/-- Lines 412-431 of `RunCompression`: the directory write, the header and the final
length of the file, from the state in which `CompressAndWriteStreamData` left the
mapping (`out`), the chunk-data cursor (`chunkDataStreamOffset`) and the directory
buffer. -/
def RunCompression.finalize (outputFileSize chunkDataOffset numBytesForDirectoryData
    numBytesForChunkDescriptors : Nat) (out : Bytes) (chunkDataStreamOffset : Nat)
    (directoryData : Bytes) (m_NumMSFStreams m_IsStreamDirectoryDataCompressed : Nat)
    (streamDescriptors : List (List MsfzFragment)) : Run CompressionOutput :=
  let outputFileStream : MutableStreamFixed :=
    { m_Data := some 0, m_Size := outputFileSize, m_Offset := 0 }
  match StrictCastTo32 chunkDataStreamOffset, StrictCastTo32 directoryData.length with
  | some streamDataFinalSize, some directoryDataFinalSize =>
      let directoryDataOffset := (chunkDataOffset + streamDataFinalSize) % 4294967296
      let directoryDataStreamFinal :=
        outputFileStream.GetStreamAtOffset directoryDataOffset directoryDataFinalSize
      let out1 := (directoryDataStreamFinal.WriteBytes out directoryData).2.2
      let header : MsfzHeader :=
        { m_StreamDirectoryDataOffset := directoryDataOffset,
          m_StreamDirectoryDataOrigin := 0,
          m_ChunkMetadataOffset := 80,
          m_ChunkMetadataOrigin := 0,
          m_NumMSFStreams := m_NumMSFStreams,
          m_IsStreamDirectoryDataCompressed := m_IsStreamDirectoryDataCompressed,
          m_StreamDirectoryDataLengthCompressed := directoryDataFinalSize,
          m_StreamDirectoryDataLengthDecompressed := numBytesForDirectoryData,
          m_NumChunks := numBytesForChunkDescriptors / 20,
          m_ChunkMetadataLength := numBytesForChunkDescriptors }
      let headerStream := outputFileStream.GetStreamAtOffset 0 80
      let out2 := (headerStream.WriteBytes out1 header.toBytes).2.2
      let realFileLength :=
        80 + numBytesForChunkDescriptors + streamDataFinalSize + directoryDataFinalSize
      .finished { file := resizeFile out2 realFileLength, header := header,
                  streamDescriptors := streamDescriptors }
  | _, _ => .failed

/-- Lines 367-431 of `RunCompression`: everything after the stream directory was
parsed. -/
def RunCompression.convert (codec : Codec) (args : ProgramCommandLineArgs)
    (fileStream : ImmutableStream) (pdbSuperblock : PDBSuperBlock)
    (streamInfos : List PDBStreamInfo) (numThreads : Nat) (schedule : List Nat) :
    Run CompressionOutput :=
  match CalculateOutputRegionSizes codec streamInfos args with
  | none => .failed
  | some (numBytesForDirectoryData, numBytesForChunkDescriptors, numBytesForChunkDataMax) =>
  let outputFileSize :=
    80 + numBytesForDirectoryData + numBytesForChunkDescriptors + numBytesForChunkDataMax
  let chunkMetadataOffset := 80
  let chunkDataOffset := (chunkMetadataOffset + numBytesForChunkDescriptors) % 4294967296
  let outputFileStream : MutableStreamFixed :=
    { m_Data := some 0, m_Size := outputFileSize, m_Offset := 0 }
  let chunkMetadataStream := outputFileStream.GetStreamAtOffset chunkMetadataOffset 0
  let chunkDataStream := outputFileStream.GetStreamAtOffset chunkDataOffset
    numBytesForChunkDataMax
  match CompressAndWriteStreamData codec fileStream streamInfos args
      pdbSuperblock.m_BlockSize chunkDataOffset numThreads schedule
      { out := List.replicate outputFileSize 0, outChunkMetadataStream := chunkMetadataStream,
        outChunkDataStream := chunkDataStream } with
  | .failed => .failed
  | .unfinished => .unfinished
  | .finished r =>
      RunCompression.finalize outputFileSize chunkDataOffset numBytesForDirectoryData
        numBytesForChunkDescriptors r.sh.out r.sh.outChunkDataStream.m_Offset r.directoryData
        r.m_NumMSFStreams r.m_IsStreamDirectoryDataCompressed r.streamDescriptors

/-- `Compression::RunCompression` (compression.cpp:338-438) on the content of the
input file, with `numThreads` worker threads and under the interleaving `schedule` of
the calls they make. The output file is created empty, so its bytes are zero until
written. -/
def RunCompression (codec : Codec) (args : ProgramCommandLineArgs) (pdbFile : Bytes)
    (numThreads : Nat) (schedule : List Nat) : Run CompressionOutput :=
  match readSuperBlock pdbFile with
  | none => .failed
  | some pdbSuperblock =>
      match ParseStreamDirectory (ImmutableStream.ofBytes pdbFile) pdbSuperblock with
      | none => .failed
      | some streamInfos =>
          RunCompression.convert codec args (ImmutableStream.ofBytes pdbFile) pdbSuperblock
            streamInfos numThreads schedule

/-- A codec that stores its input behind a one-byte marker: `compress` prepends the
byte 1 and `decompress` removes it. -/
def storeCodec : Codec :=
  { compressBound := fun n => n + 1,
    compress := fun _ src => some (1 :: src),
    decompress := fun dstCapacity src =>
      match src with
      | 1 :: rest => if rest.length ≤ dstCapacity then some rest else none
      | _ => none }

/-! ### The MSFZ reader -/

/-- Reduction of a 64-bit unsigned result. -/
def wrap64 (n : Nat) : Nat := n % 18446744073709551616

/-- 64-bit unsigned subtraction `a - b`. -/
def sub64 (a b : Nat) : Nat := wrap64 (a + 18446744073709551616 - wrap64 b)

/-- `std::clamp(v, lo, hi)`. -/
def clamp (v lo hi : Nat) : Nat := if v < lo then lo else if hi < v then hi else v

/-- `memcpy(dst, src, n)` into the mapped output file: `dst` is a position in the
mapping or the null pointer. Copying no byte changes nothing; a copy through the null
pointer, past the end of the mapping or of more bytes than `src` holds has no defined
result and is an error here. -/
def memcpyTo (out : Bytes) (dst : Option Nat) (src : Bytes) (n : Nat) : Option Bytes :=
  if n = 0 then some out
  else
    match dst with
    | none => none
    | some pos =>
        if src.length < n ∨ out.length < pos + n then none
        else some (writeAt out pos (src.take n))

/-- `Decompression::MutableStreamFixedWithHoles` (decompression.cpp:28-126): a
`MutableStreamFixed` with the list `m_HoleOffsets` of byte ranges that writes skip. -/
structure MutableStreamFixedWithHoles where
  m_Data : Option Nat
  m_Size : Nat
  m_Offset : Nat
  m_HoleOffsets : List (Nat × Nat)
  deriving DecidableEq, Repr

namespace MutableStreamFixedWithHoles

/-- The converting constructor from a `MutableStreamFixed` (decompression.cpp:33-36). -/
def ofFixed (s : MutableStreamFixed) : MutableStreamFixedWithHoles :=
  { m_Data := s.m_Data, m_Size := s.m_Size, m_Offset := s.m_Offset, m_HoleOffsets := [] }

/-- The `MutableStreamFixed` base of the stream. -/
def toFixed (s : MutableStreamFixedWithHoles) : MutableStreamFixed :=
  { m_Data := s.m_Data, m_Size := s.m_Size, m_Offset := s.m_Offset }

/-- `AddHole` (decompression.cpp:38-42) in a release build. -/
def AddHole (s : MutableStreamFixedWithHoles) (beginOffset endOffset : Nat) :
    MutableStreamFixedWithHoles :=
  { s with m_HoleOffsets := s.m_HoleOffsets ++ [(beginOffset, endOffset)] }

/-- `AdjustOffset` (decompression.cpp:112-123). -/
def AdjustOffset (holes : List (Nat × Nat)) (offset : Nat) : Nat :=
  holes.foldl
    (fun resultOffset offsetPair =>
      if offsetPair.1 ≤ resultOffset then
        wrap64 (resultOffset + sub64 offsetPair.2 offsetPair.1)
      else resultOffset)
    offset

/-- `AdjustWriteSpans` (decompression.cpp:91-110) in a release build. -/
def AdjustWriteSpans (holes : List (Nat × Nat)) (beginSpan endSpan : Nat) :
    List (Nat × Nat) :=
  let currentEndSpan := AdjustOffset holes endSpan
  let r := holes.foldl
    (fun (acc : List (Nat × Nat) × Nat) offsetPair =>
      if offsetPair.1 ≥ acc.2 ∧ offsetPair.1 < currentEndSpan then
        (if acc.2 ≠ offsetPair.1 then acc.1 ++ [(acc.2, offsetPair.1)] else acc.1,
          offsetPair.2)
      else acc)
    (([] : List (Nat × Nat)), AdjustOffset holes beginSpan)
  r.1 ++ [(r.2, currentEndSpan)]

/-- The copy loop of `WriteBytes` (decompression.cpp:53-59): one `memcpy` per span, the
source pointer advancing by the length of each. -/
def copySpans (base : Option Nat) : List (Nat × Nat) → Bytes → Bytes → Option Bytes
  | [], _, out => some out
  | span :: rest, srcData, out =>
      let numBytesToWrite := sub64 span.2 span.1
      match memcpyTo out (base.map (· + span.1)) srcData numBytesToWrite with
      | none => none
      | some out1 => copySpans base rest (srcData.drop numBytesToWrite) out1

/-- `WriteBytes` (decompression.cpp:44-62) in a release build: the result flag, the
advanced stream and the mapping after the copies. -/
def WriteBytes (s : MutableStreamFixedWithHoles) (out : Bytes) (data : Bytes) :
    Option (Bool × MutableStreamFixedWithHoles × Bytes) :=
  let writeSpans := AdjustWriteSpans s.m_HoleOffsets s.m_Offset (s.m_Offset + data.length)
  match writeSpans.getLast? with
  | none => none
  | some back =>
      if back.2 > AdjustOffset s.m_HoleOffsets s.m_Size then some (false, s, out)
      else
        (copySpans s.m_Data writeSpans data out).map
          (fun out1 => (true, { s with m_Offset := s.m_Offset + data.length }, out1))

/-- `GetSubStreamAtOffset` (decompression.cpp:64-84). -/
def GetSubStreamAtOffset (s : MutableStreamFixedWithHoles) (offset size : Nat) :
    MutableStreamFixedWithHoles :=
  let size := if size = 0 then sub64 s.m_Size offset else size
  let realOffset := AdjustOffset s.m_HoleOffsets offset
  let realSize := sub64 (AdjustOffset s.m_HoleOffsets (wrap64 (offset + size))) realOffset
  let resultStream := ofFixed (s.toFixed.GetStreamAtOffset realOffset size)
  s.m_HoleOffsets.foldl
    (fun (r : MutableStreamFixedWithHoles) offsetPair =>
      let beginOffsetClamped := clamp offsetPair.1 realOffset (wrap64 (realOffset + realSize))
      let endOffsetClamped := clamp offsetPair.2 realOffset (wrap64 (realOffset + realSize))
      if beginOffsetClamped ≠ endOffsetClamped then
        r.AddHole (sub64 beginOffsetClamped realOffset) (sub64 endOffsetClamped realOffset)
      else r)
    resultStream

end MutableStreamFixedWithHoles

/-- The loop of `GetStreamFromBlockIndices` (decompression.cpp:140-149) over the block
indices after the first; `prevRelBlockIndex` and the products are `uint32_t`. -/
def GetStreamFromBlockIndices.addHoles (firstBlockIndex blockSize : Nat) :
    List Nat → Nat → MutableStreamFixedWithHoles → MutableStreamFixedWithHoles
  | [], _, resultStream => resultStream
  | blockIndex :: rest, prevRelBlockIndex, resultStream =>
      let relBlockIndex := (blockIndex + 4294967296 - firstBlockIndex) % 4294967296
      let next := (prevRelBlockIndex + 1) % 4294967296
      addHoles firstBlockIndex blockSize rest relBlockIndex
        (if relBlockIndex ≠ next then
          resultStream.AddHole (next * blockSize % 4294967296)
            (relBlockIndex * blockSize % 4294967296)
        else resultStream)

/-- `Decompression::GetStreamFromBlockIndices` (decompression.cpp:129-152). -/
def GetStreamFromBlockIndices (sourceStream : MutableStreamFixed) (blockIndices : List Nat)
    (blockSize : Nat) : MutableStreamFixedWithHoles :=
  match blockIndices.head?, blockIndices.getLast? with
  | some firstBlockIndex, some lastBlockIndex =>
      let resultStream := MutableStreamFixedWithHoles.ofFixed
        (sourceStream.GetStreamAtOffset (blockSize * firstBlockIndex % 4294967296)
          (((lastBlockIndex + 4294967296 - firstBlockIndex) % 4294967296 + 1) % 4294967296
            * blockSize % 4294967296))
      GetStreamFromBlockIndices.addHoles firstBlockIndex blockSize blockIndices.tail 0
        resultStream
  | _, _ => MutableStreamFixedWithHoles.ofFixed MutableStreamFixed.null

/-- `Decompression::IsBlockReserved` (decompression.cpp:154-158). -/
def IsBlockReserved (blockIndex blockSize : Nat) : Bool :=
  blockIndex % blockSize == 1 || blockIndex % blockSize == 2

/-- `Decompression::GetStreamDirectoryData` (decompression.cpp:160-191). When the
directory offset cannot be peeked the output stays empty. -/
def GetStreamDirectoryData (codec : Codec) (msfzFileStream : ImmutableStream)
    (header : MsfzHeader) : Option Bytes :=
  if header.m_StreamDirectoryDataOffset + 1 > msfzFileStream.m_Length then some []
  else if msfzFileStream.CanReadAt header.m_StreamDirectoryDataOffset
      header.m_StreamDirectoryDataLengthCompressed = false then none
  else
    let streamDataDirectoryInFile :=
      msfzFileStream.span header.m_StreamDirectoryDataOffset
        header.m_StreamDirectoryDataLengthCompressed
    if header.m_IsStreamDirectoryDataCompressed ≠ 0 then
      match codec.decompress header.m_StreamDirectoryDataLengthDecompressed
          streamDataDirectoryInFile with
      | none => none
      | some decompressed =>
          if decompressed.length < header.m_StreamDirectoryDataLengthDecompressed then none
          else some (decompressed.take header.m_StreamDirectoryDataLengthDecompressed)
    else some streamDataDirectoryInFile

/-- The loop of `ParseStreamDirectoryData` (decompression.cpp:197-226). `done` are the
descriptors closed by a separator, `currentDesc` the one being filled (`none` for the
null pointer). Every iteration consumes at least four bytes or fails, so a fuel above
the number of bytes left is never exhausted. -/
def ParseStreamDirectoryData.loop :
    Nat → ImmutableStream → List (List MsfzFragment) → Option (List MsfzFragment) →
      Option (List (List MsfzFragment))
  | 0, _, _, _ => none
  | fuel + 1, s, done, currentDesc =>
      if s.CanRead = true then
        let current := currentDesc.getD []
        match s.Peek32 with
        | none => none
        | some separatorOrFragment =>
            if separatorOrFragment = 0 then
              loop fuel { s with m_Offset := s.m_Offset + 4 } (done ++ [current]) none
            else if s.m_Offset + 12 > s.m_Length then none
            else
              let fragmentDesc : MsfzFragment :=
                { m_DataSize := le32 s.m_Data s.m_Offset,
                  m_DataOffset := le32 s.m_Data (s.m_Offset + 4),
                  m_ChunkIndexOrDataOrigin := le32 s.m_Data (s.m_Offset + 8) }
              loop fuel { s with m_Offset := s.m_Offset + 12 } done
                (some (current ++ [fragmentDesc]))
      else some (done ++ currentDesc.toList)

/-- `Decompression::ParseStreamDirectoryData` (decompression.cpp:193-227): the fragment
lists of the streams. -/
def ParseStreamDirectoryData (streamDirectoryData : Bytes) : Option (List (List MsfzFragment)) :=
  ParseStreamDirectoryData.loop (streamDirectoryData.length + 1)
    (ImmutableStream.ofBytes streamDirectoryData) [] none

/-- `Decompression::GetChunkDescriptorsData` (decompression.cpp:229-247): the
`m_NumChunks` descriptors at the chunk-metadata offset. -/
def GetChunkDescriptorsData (msfzFileStream : ImmutableStream) (header : MsfzHeader) :
    Option (List MsfzChunk) :=
  match msfzFileStream.Seek header.m_ChunkMetadataOffset with
  | none => none
  | some s =>
      if s.CanReadN header.m_ChunkMetadataLength = false then none
      else if header.m_ChunkMetadataLength % 20 ≠ 0 then none
      else if header.m_NumChunks * 20 ≠ header.m_ChunkMetadataLength then none
      else
        some ((List.range header.m_NumChunks).map
          (fun i => MsfzChunk.ofBytes s.m_Data (s.m_Offset + 20 * i)))

/-- `MsfzStream::CalculateSize` (definitions.h:113-121): the sum of the fragment sizes,
range-checked to 32 bits after every addition. -/
def CalculateSize (m_Fragments : List MsfzFragment) : Option Nat :=
  m_Fragments.foldlM (fun sizeValue fragmentDesc =>
    StrictCastTo32 (sizeValue + fragmentDesc.m_DataSize)) 0

/-- The lambda `AssignNextNBlocks` of `AssignBlocksToStreams` (decompression.cpp:260-272)
for one block: the index assigned and the advanced `currentBlockIndex`. The `while` loop
skips reserved blocks; of three consecutive indices at most two are reserved, so it runs
at most twice. -/
def AssignNextNBlocks.next (blockSize currentBlockIndex : Nat) : Nat × Nat :=
  if IsBlockReserved currentBlockIndex blockSize = false then
    (currentBlockIndex, (currentBlockIndex + 1) % 4294967296)
  else if IsBlockReserved ((currentBlockIndex + 1) % 4294967296) blockSize = false then
    ((currentBlockIndex + 1) % 4294967296, (currentBlockIndex + 2) % 4294967296)
  else ((currentBlockIndex + 2) % 4294967296, (currentBlockIndex + 3) % 4294967296)

/-- The lambda `AssignNextNBlocks` (decompression.cpp:260-272): the `nBlocks` indices
pushed and the advanced `currentBlockIndex`. -/
def AssignNextNBlocks (blockSize : Nat) : Nat → Nat → List Nat × Nat
  | 0, currentBlockIndex => ([], currentBlockIndex)
  | nBlocks + 1, currentBlockIndex =>
      let (assignedBlockIndex, current1) := AssignNextNBlocks.next blockSize currentBlockIndex
      let (restIndices, current2) := AssignNextNBlocks blockSize nBlocks current1
      (assignedBlockIndex :: restIndices, current2)

/-- What `AssignBlocksToStreams` hands back. -/
structure BlockAssignment where
  outBlocksForStreams : List (List Nat)
  outBlocksForDirectory : List Nat
  outBlocksForDirectoryIndices : List Nat
  outBlocksForFreeBlockMap : List Nat
  outNumBlocks : Nat
  deriving DecidableEq, Repr

/-- The first loop of `AssignBlocksToStreams` (decompression.cpp:275-288): the block
lists of the streams, `currentBlockIndex` and `totalNumBytesForDirectory` after it. -/
def AssignBlocksToStreams.streams (blockSize : Nat) :
    List (List MsfzFragment) → Nat → Nat → Option (List (List Nat) × Nat × Nat)
  | [], currentBlockIndex, totalNumBytesForDirectory =>
      some ([], currentBlockIndex, totalNumBytesForDirectory)
  | streamDesc :: rest, currentBlockIndex, totalNumBytesForDirectory =>
      match CalculateSize streamDesc with
      | none => none
      | some streamSize =>
          let numBlocksRequired := AlignTo streamSize blockSize / blockSize
          let (blockIndices, current1) :=
            AssignNextNBlocks blockSize numBlocksRequired currentBlockIndex
          (AssignBlocksToStreams.streams blockSize rest current1
              (totalNumBytesForDirectory + (4 + 4 * numBlocksRequired))).map
            (fun r => (blockIndices :: r.1, r.2))

/-- `Decompression::AssignBlocksToStreams` (decompression.cpp:249-308). -/
def AssignBlocksToStreams (streamDescriptors : List (List MsfzFragment)) (blockSize : Nat) :
    Option BlockAssignment :=
  match AssignBlocksToStreams.streams blockSize streamDescriptors 3 4 with
  | none => none
  | some (outBlocksForStreams, current1, totalNumBytesForDirectory) =>
      match StrictCastTo32 (AlignTo64 totalNumBytesForDirectory blockSize / blockSize) with
      | none => none
      | some numBlocksForDirectory =>
          let (outBlocksForDirectory, current2) :=
            AssignNextNBlocks blockSize numBlocksForDirectory current1
          match StrictCastTo32 (AlignTo64 (numBlocksForDirectory * 4) blockSize / blockSize) with
          | none => none
          | some numBlocksForDirectoryIndices =>
              let (outBlocksForDirectoryIndices, current3) :=
                AssignNextNBlocks blockSize numBlocksForDirectoryIndices current2
              let maxBlockIndex := current3
              let numBlocksForFreeBlockMap :=
                AlignTo (AlignTo maxBlockIndex 8 / 8) blockSize / blockSize
              some
                { outBlocksForStreams := outBlocksForStreams,
                  outBlocksForDirectory := outBlocksForDirectory,
                  outBlocksForDirectoryIndices := outBlocksForDirectoryIndices,
                  outBlocksForFreeBlockMap :=
                    (List.range numBlocksForFreeBlockMap).map
                      (fun i => (i * blockSize + 1) % 4294967296),
                  outNumBlocks := maxBlockIndex }

/-- The bytes of one fragment (decompression.cpp:317-371): read from the file when the
fragment is not located in a chunk, from its chunk otherwise. A span that reaches past
the end of the buffer it points into is an error here. -/
def WriteSingleStreamDataToPDB.fragmentData (codec : Codec) (msfzFileStream : ImmutableStream)
    (chunkDescriptors : List MsfzChunk) (fragmentDesc : MsfzFragment) : Option Bytes :=
  if fragmentDesc.IsLocatedInChunk = false then
    if msfzFileStream.CanReadAt fragmentDesc.m_DataOffset fragmentDesc.m_DataSize = false then
      none
    else some (msfzFileStream.span fragmentDesc.m_DataOffset fragmentDesc.m_DataSize)
  else
    let chunkIndex := fragmentDesc.GetChunkIndex
    match chunkDescriptors[chunkIndex]? with
    | none => none
    | some chunkDesc =>
        if fragmentDesc.m_DataOffset > chunkDesc.m_DecompressedSize
            ∨ (fragmentDesc.m_DataOffset + fragmentDesc.m_DataSize) % 4294967296
                > chunkDesc.m_DecompressedSize then none
        else if msfzFileStream.CanReadAt chunkDesc.m_OffsetToChunkData
            chunkDesc.m_CompressedSize = false then none
        else if chunkDesc.m_IsCompressed ≠ 0 then
          match codec.decompress chunkDesc.m_DecompressedSize
              (msfzFileStream.span chunkDesc.m_OffsetToChunkData chunkDesc.m_CompressedSize) with
          | none => none
          | some decompressed =>
              if decompressed.length < chunkDesc.m_DecompressedSize then none
              else
                let chunkData := decompressed.take chunkDesc.m_DecompressedSize
                if chunkData.length < fragmentDesc.m_DataOffset + fragmentDesc.m_DataSize then
                  none
                else some ((chunkData.drop fragmentDesc.m_DataOffset).take fragmentDesc.m_DataSize)
        else
          let start := chunkDesc.m_OffsetToChunkData + fragmentDesc.m_DataOffset
          if msfzFileStream.m_Length < start + fragmentDesc.m_DataSize then none
          else some (msfzFileStream.span start fragmentDesc.m_DataSize)

/-- `Decompression::WriteSingleStreamDataToPDB` (decompression.cpp:310-376): the output
stream and the mapping after the fragments were written; the result of `WriteSpan` is
not tested. -/
def WriteSingleStreamDataToPDB (codec : Codec) (msfzFileStream : ImmutableStream)
    (chunkDescriptors : List MsfzChunk) :
    List MsfzFragment → MutableStreamFixedWithHoles → Bytes →
      Option (MutableStreamFixedWithHoles × Bytes)
  | [], outputStream, out => some (outputStream, out)
  | fragmentDesc :: rest, outputStream, out =>
      match WriteSingleStreamDataToPDB.fragmentData codec msfzFileStream chunkDescriptors
          fragmentDesc with
      | none => none
      | some fragmentData =>
          match outputStream.WriteBytes out fragmentData with
          | none => none
          | some (_, outputStream1, out1) =>
              WriteSingleStreamDataToPDB codec msfzFileStream chunkDescriptors rest
                outputStream1 out1

/-- The parallel loop of `WriteStreamsAndDirectoryToPDB` (decompression.cpp:393-400):
`order` lists the stream indices in the order in which their calls run. Each call
writes through its own view of the output mapping. An index outside the stream list is
skipped. -/
def WriteStreamsAndDirectoryToPDB.streams (codec : Codec) (msfzFileStream : ImmutableStream)
    (chunkDescriptors : List MsfzChunk) (streamDescriptors : List (List MsfzFragment))
    (blockSize : Nat) (blockIndicesForStreams : List (List Nat))
    (outputFileStream : MutableStreamFixed) : List Nat → Bytes → Option Bytes
  | [], out => some out
  | streamIndex :: rest, out =>
      match streamDescriptors[streamIndex]?, blockIndicesForStreams[streamIndex]? with
      | some streamDesc, some blockIndices =>
          let streamDataStream :=
            GetStreamFromBlockIndices outputFileStream blockIndices blockSize
          match WriteSingleStreamDataToPDB codec msfzFileStream chunkDescriptors streamDesc
              streamDataStream out with
          | none => none
          | some (_, out1) =>
              WriteStreamsAndDirectoryToPDB.streams codec msfzFileStream chunkDescriptors
                streamDescriptors blockSize blockIndicesForStreams outputFileStream rest out1
      | _, _ =>
          WriteStreamsAndDirectoryToPDB.streams codec msfzFileStream chunkDescriptors
            streamDescriptors blockSize blockIndicesForStreams outputFileStream rest out

/-- The little-endian bytes of a vector of `uint32_t`. -/
def wordsToBytes (ws : List Nat) : Bytes := (ws.map toLe32).flatten

/-- The directory loop of `WriteStreamsAndDirectoryToPDB` (decompression.cpp:411-417):
for each stream its size into `streamSizesStream` and its block indices into
`blockIndicesStream`; returns the mapping and `directorySizeInBytes`. -/
def WriteStreamsAndDirectoryToPDB.directory :
    List (List MsfzFragment) → List (List Nat) → MutableStreamFixedWithHoles →
      MutableStreamFixedWithHoles → Bytes → Nat → Option (Bytes × Nat)
  | [], _, _, _, out, directorySizeInBytes => some (out, directorySizeInBytes)
  | _ :: _, [], _, _, _, _ => none
  | streamDesc :: rest, blockIndices :: restIndices, streamSizesStream, blockIndicesStream,
      out, directorySizeInBytes =>
      match CalculateSize streamDesc with
      | none => none
      | some streamSize =>
          match streamSizesStream.WriteBytes out (toLe32 streamSize) with
          | none => none
          | some (_, streamSizesStream1, out1) =>
              match blockIndicesStream.WriteBytes out1 (wordsToBytes blockIndices) with
              | none => none
              | some (_, blockIndicesStream1, out2) =>
                  WriteStreamsAndDirectoryToPDB.directory rest restIndices streamSizesStream1
                    blockIndicesStream1 out2
                    (directorySizeInBytes + (4 + 4 * blockIndices.length))

/-- `Decompression::WriteStreamsAndDirectoryToPDB` (decompression.cpp:378-420): the
mapping after the streams and the directory were written, and
`outDirectorySizeInBytes`. -/
def WriteStreamsAndDirectoryToPDB (codec : Codec) (msfzFileStream : ImmutableStream)
    (chunkDescriptors : List MsfzChunk) (streamDescriptors : List (List MsfzFragment))
    (blockSize : Nat) (blockIndicesForDirectory : List Nat)
    (blockIndicesForStreams : List (List Nat)) (outputFileStream : MutableStreamFixed)
    (order : List Nat) (out : Bytes) : Option (Bytes × Nat) :=
  match StrictCastTo32 streamDescriptors.length with
  | none => none
  | some numStreams =>
      match WriteStreamsAndDirectoryToPDB.streams codec msfzFileStream chunkDescriptors
          streamDescriptors blockSize blockIndicesForStreams outputFileStream order out with
      | none => none
      | some out1 =>
          let directoryDataStream :=
            GetStreamFromBlockIndices outputFileStream blockIndicesForDirectory blockSize
          let streamSizesStream := directoryDataStream.GetSubStreamAtOffset 4 (numStreams * 4)
          let blockIndicesStream :=
            directoryDataStream.GetSubStreamAtOffset (4 + numStreams * 4) 0
          match directoryDataStream.WriteBytes out1 (toLe32 numStreams) with
          | none => none
          | some (_, _, out2) =>
              match WriteStreamsAndDirectoryToPDB.directory streamDescriptors
                  blockIndicesForStreams streamSizesStream blockIndicesStream out2 4 with
              | none => none
              | some (out3, directorySizeInBytes) =>
                  (StrictCastTo32 directorySizeInBytes).map (fun size => (out3, size))

/-- `ynw::DynamicBitset` (y_container.h:97-158). -/
structure DynamicBitset where
  m_Data : Bytes
  m_ModularSizeInBits : Nat
  deriving DecidableEq, Repr

namespace DynamicBitset

/-- `Resize` (y_container.h:103-107) of an empty bitset: `AlignTo(size, 8u) / 8u` zero
bytes. -/
def Resize (size : Nat) : DynamicBitset :=
  { m_Data := List.replicate (AlignTo size 8 / 8) 0, m_ModularSizeInBits := size % 8 }

/-- `GetSize` (y_container.h:153). -/
def GetSize (b : DynamicBitset) : Nat := b.m_Data.length * 8 + b.m_ModularSizeInBits

/-- `SetAll` (y_container.h:109-112). -/
def SetAll (b : DynamicBitset) : DynamicBitset := { b with m_Data := b.m_Data.map (fun _ => 255) }

/-- `Set` (y_container.h:119-130); the result flag is dropped. Indexing the vector past
its end is an error here. -/
def Set (b : DynamicBitset) (offset : Nat) : Option DynamicBitset :=
  if offset > b.GetSize then some b
  else
    match b.m_Data[offset / 8]? with
    | none => none
    | some byte =>
        some { b with m_Data := b.m_Data.set (offset / 8) ((byte ||| 2 ^ (offset % 8)) % 256) }

/-- `Unset` (y_container.h:132-143); the result flag is dropped. Indexing the vector
past its end is an error here. -/
def Unset (b : DynamicBitset) (offset : Nat) : Option DynamicBitset :=
  if offset > b.GetSize then some b
  else
    match b.m_Data[offset / 8]? with
    | none => none
    | some byte =>
        some { b with m_Data := b.m_Data.set (offset / 8) (byte &&& (255 - 2 ^ (offset % 8))) }

end DynamicBitset

/-- The 52 bytes of a `PDBSuperBlock` (definitions.h:63-72) with the PDB signature and
zero padding. -/
def PDBSuperBlock.toBytes (s : PDBSuperBlock) : Bytes :=
  g_PdbSignatureBytes ++ [0, 0] ++ toLe32 s.m_BlockSize ++ toLe32 s.m_FreeBlockMapIndex
    ++ toLe32 s.m_BlockCount ++ toLe32 s.m_DirectorySize ++ toLe32 s.m_Unknown1_32t

/-- The free block map of `RunDecompression` (decompression.cpp:541-565): all bits set,
the bits of the blocks `0 .. numBlocksTotal - 1` cleared, the bits of the blocks
`first .. first + count - 1` of stream 0 set again. Indexing `blockIndicesForStreams[0]`
when there is no stream is an error here. -/
def RunDecompression.freeBlockMap (blockSize numBlocksTotal : Nat)
    (blockIndicesForStreams : List (List Nat)) (blockIndicesForFPM : List Nat) :
    Option Bytes :=
  match StrictCastTo32 blockIndicesForFPM.length with
  | none => none
  | some numBlocksForFreeBlockMap =>
      let bitset0 :=
        (DynamicBitset.Resize (numBlocksForFreeBlockMap * blockSize * 8 % 4294967296)).SetAll
      match (List.range numBlocksTotal).foldlM (fun b i => DynamicBitset.Unset b i) bitset0 with
      | none => none
      | some bitset1 =>
          match blockIndicesForStreams.head? with
          | none => none
          | some blockIndicesForStreamZero =>
              match blockIndicesForStreamZero.head? with
              | none => some bitset1.m_Data
              | some streamZeroFirstBlockIndex =>
                  match StrictCastTo32 blockIndicesForStreamZero.length with
                  | none => none
                  | some streamZeroBlockCount =>
                      let streamZeroLastBlockIndex :=
                        (streamZeroFirstBlockIndex + streamZeroBlockCount) % 4294967296
                      ((List.range'
                          streamZeroFirstBlockIndex
                          (streamZeroLastBlockIndex - streamZeroFirstBlockIndex)).foldlM
                        (fun b i => DynamicBitset.Set b i) bitset1).map
                        (fun b => b.m_Data)

/-- How a call of `RunDecompression` ends. -/
inductive DecompressionResult where
  /-- `ThrowError`, or an operation without a defined result. -/
  | error
  /-- Returned `false`: a limit is exceeded in test mode. -/
  | refused
  /-- Returned `true` without creating the output: the input is shorter than a header. -/
  | skipped
  /-- Returned `true`; the content of the output file. -/
  | written (file : Bytes)
  deriving DecidableEq, Repr

/-- Lines 529-569 of `RunDecompression`: the directory indices, the superblock and the
free block map. -/
def RunDecompression.finish (blockSize : Nat) (a : BlockAssignment)
    (outputFileStream : MutableStreamFixed) (out : Bytes) (directorySizeInBytes : Nat) :
    Option Bytes :=
  let outputSuperblock : PDBSuperBlock :=
    { m_BlockSize := blockSize, m_FreeBlockMapIndex := 1, m_BlockCount := a.outNumBlocks,
      m_DirectorySize := directorySizeInBytes, m_Unknown1_32t := 0 }
  let directoryIndicesDataStream :=
    GetStreamFromBlockIndices outputFileStream a.outBlocksForDirectoryIndices blockSize
  match directoryIndicesDataStream.WriteBytes out (wordsToBytes a.outBlocksForDirectory) with
  | none => none
  | some (_, _, out1) =>
      let superblockStream := outputFileStream.GetStreamAtOffset 0 0
      let (_, superblockStream1, out2) := superblockStream.WriteBytes out1 outputSuperblock.toBytes
      let out3 :=
        (superblockStream1.WriteBytes out2 (wordsToBytes a.outBlocksForDirectoryIndices)).2.2
      match RunDecompression.freeBlockMap blockSize a.outNumBlocks a.outBlocksForStreams
          a.outBlocksForFreeBlockMap with
      | none => none
      | some freeBlockMapBytes =>
          let freeBlockMapDataStream :=
            GetStreamFromBlockIndices outputFileStream a.outBlocksForFreeBlockMap blockSize
          (freeBlockMapDataStream.WriteBytes out3 freeBlockMapBytes).map (fun r => r.2.2)

/-- `Decompression::RunDecompression` (decompression.cpp:428-575) on the content of the
input file; `order` is the order in which the per-stream calls of the parallel loop run.
The output file is created empty, so its bytes are zero until written; mapping a file
of length 0 fails, for the input (`Open`, y_file.h:37-59) as for the output. -/
def RunDecompression (codec : Codec) (args : ProgramCommandLineArgs) (testMode : Bool)
    (order : List Nat) (msfzFile : Bytes) : DecompressionResult :=
  let fileStream := ImmutableStream.ofBytes msfzFile
  if msfzFile.length = 0 then .error
  else if 80 > msfzFile.length then .skipped
  else if msfzFile.take 32 ≠ g_MsfzSignatureBytes then .error
  else
    let header := MsfzHeader.ofBytes msfzFile
    match (GetStreamDirectoryData codec fileStream header).bind ParseStreamDirectoryData with
    | none => .error
    | some streamDescriptors =>
        if streamDescriptors.length ≠ header.m_NumMSFStreams then .error
        else
          match GetChunkDescriptorsData fileStream header with
          | none => .error
          | some chunkDescriptors =>
              let blockSize := args.m_BlockSize
              match AssignBlocksToStreams streamDescriptors blockSize with
              | none => .error
              | some a =>
                  let numBlocksTotal := a.outNumBlocks
                  if numBlocksTotal > 1048576 then (if testMode then .refused else .error)
                  else if streamDescriptors.length > 65536 then
                    (if testMode then .refused else .error)
                  else
                    let totalSizeOfOutputFile := numBlocksTotal * blockSize % 4294967296
                    if totalSizeOfOutputFile = 0 then .error
                    else
                      let outputFileStream : MutableStreamFixed :=
                        { m_Data := some 0, m_Size := totalSizeOfOutputFile, m_Offset := 0 }
                      match WriteStreamsAndDirectoryToPDB codec fileStream chunkDescriptors
                          streamDescriptors blockSize a.outBlocksForDirectory
                          a.outBlocksForStreams outputFileStream order
                          (List.replicate totalSizeOfOutputFile 0) with
                      | none => .error
                      | some (out1, directorySizeInBytes) =>
                          match RunDecompression.finish blockSize a outputFileStream out1
                              directorySizeInBytes with
                          | none => .error
                          | some out2 => .written out2

/-! ### The round trip -/

/-- The round trip of the test driver (test.cpp:29-98) on a machine whose runners have
`numThreads` worker threads: `RunCompression` on `pdbFile`, then `RunDecompression` on
the file it wrote; the PDB that comes back, if both ran to the end. With no worker
thread the parallel loop of the decompressor makes no call either. -/
def roundTrip (codec : Codec) (args : ProgramCommandLineArgs) (testMode : Bool)
    (numThreads : Nat) (schedule order : List Nat) (pdbFile : Bytes) : Option Bytes :=
  match RunCompression codec args pdbFile numThreads schedule with
  | .finished msfz =>
      match RunDecompression codec args testMode (if numThreads = 0 then [] else order)
          msfz.file with
      | .written pdb => some pdb
      | _ => none
  | _ => none

/-- The stream directory payload of a PDB file: `numStreams`, the stream sizes and the
per-stream block-index arrays, as `ParseStreamDirectory` coalesces them. -/
def directoryPayload (pdbFile : Bytes) : Option Bytes :=
  (readSuperBlock pdbFile).bind
    (fun sb => ParseStreamDirectory.directoryData (ImmutableStream.ofBytes pdbFile) sb)

/-- The streams of a PDB file as the specification reads them: for each record of the
stream directory, the first `size` bytes of the concatenation of its blocks. -/
def pdbStreams (pdbFile : Bytes) : Option (List Bytes) :=
  (readSuperBlock pdbFile).bind
    (fun sb =>
      (ParseStreamDirectory (ImmutableStream.ofBytes pdbFile) sb).map
        (fun infos => infos.map
          (fun info =>
            streamContentSpec pdbFile sb.m_BlockSize info.m_StreamSize
              info.m_StreamBlockIndices)))

/-- `NoCompression`, block size 512 for the way back. -/
def noCompression512 : ProgramCommandLineArgs :=
  { m_CompressionStrategy := .NoCompression, m_CompressionLevel := 3,
    m_FixedFragmentSize := 4096, m_MaxFragmentsPerStream := 4096, m_BlockSize := 512 }

/-- An eight-block PDB of block size 512 with two streams that interleave: stream 0 has
1024 bytes in blocks 3 and 5, stream 1 has 512 bytes in block 4; every byte of block `b`
is `b`. Block 6 is the directory, block 7 lists it. -/
def gapPdb : Bytes :=
  padBlock 512 (g_PdbSignatureBytes ++ [0, 0] ++ toLe32 512 ++ toLe32 1 ++ toLe32 8
      ++ toLe32 24 ++ toLe32 0 ++ toLe32 7)
    ++ List.replicate 1024 0
    ++ List.replicate 512 3 ++ List.replicate 512 4 ++ List.replicate 512 5
    ++ padBlock 512 (toLe32 2 ++ toLe32 1024 ++ toLe32 512 ++ toLe32 3 ++ toLe32 5 ++ toLe32 4)
    ++ padBlock 512 (toLe32 6)

/-- A seven-block PDB of block size 512 with two one-block streams stored in reverse
order: stream 0 in block 4, stream 1 in block 3; every byte of block `b` is `b`. Block 5
is the directory, block 6 lists it. -/
def swappedPdb : Bytes :=
  padBlock 512 (g_PdbSignatureBytes ++ [0, 0] ++ toLe32 512 ++ toLe32 1 ++ toLe32 7
      ++ toLe32 20 ++ toLe32 0 ++ toLe32 6)
    ++ List.replicate 1024 0
    ++ List.replicate 512 3 ++ List.replicate 512 4
    ++ padBlock 512 (toLe32 2 ++ toLe32 512 ++ toLe32 512 ++ toLe32 4 ++ toLe32 3)
    ++ padBlock 512 (toLe32 5)

/-- A seven-block PDB of block size 512 in the layout the decompressor produces: stream 0
(512 bytes 4) in block 3, stream 1 (512 bytes 3) in block 4, the directory in block 5,
its index in block 6, and the free block map in block 1 (blocks 0 to 6 in use, block 3
marked free again). -/
def canonPdb : Bytes :=
  padBlock 512 (g_PdbSignatureBytes ++ [0, 0] ++ toLe32 512 ++ toLe32 1 ++ toLe32 7
      ++ toLe32 20 ++ toLe32 0 ++ toLe32 6)
    ++ ([136] ++ List.replicate 511 255)
    ++ List.replicate 512 0
    ++ List.replicate 512 4 ++ List.replicate 512 3
    ++ padBlock 512 (toLe32 2 ++ toLe32 512 ++ toLe32 512 ++ toLe32 3 ++ toLe32 4)
    ++ padBlock 512 (toLe32 5)

/-! ### The block counts of a PDB written by the decompressor -/

/-- The number of blocks of all streams: the sum of `ceil(size/bs)`. -/
def numStreamBlocks (bs : Nat) (sizes : List Nat) : Nat :=
  (sizes.map (fun s => ceilDiv s bs)).sum

/-- The number of directory blocks: the directory has a count word, one size word per
stream and one word per stream block. -/
def numDirectoryBlocks (bs : Nat) (sizes : List Nat) : Nat :=
  ceilDiv (4 + 4 * sizes.length + 4 * numStreamBlocks bs sizes) bs

/-- The number of blocks that list the directory blocks. -/
def numDirectoryIndexBlocks (bs : Nat) (sizes : List Nat) : Nat :=
  ceilDiv (4 * numDirectoryBlocks bs sizes) bs

/-! ### Invariants of the writer under `NoCompression` -/

/-- The shared state of the workers is well formed: the mapping has `L` bytes, the
chunk-table allocator is a window at `mb` of `ms` bytes inside it, the chunk-data
allocator a window at `db` of `ds` bytes inside it, neither cursor has passed the end of
its window; the chunk-data window has the `numData` bytes the sizing pass counted,
unless it counted none and nothing was reserved; and `L` is below `2^32`. -/
def SharedInv (L mb ms db ds numData : Nat) (sh : Shared) : Prop :=
  sh.out.length = L
    ∧ sh.outChunkMetadataStream.m_Data = some mb ∧ sh.outChunkMetadataStream.m_Size = ms
    ∧ mb + ms ≤ L
    ∧ sh.outChunkDataStream.m_Data = some db ∧ sh.outChunkDataStream.m_Size = ds
    ∧ db + ds ≤ L ∧ sh.outChunkDataStream.m_Offset ≤ ds
    ∧ (ds = numData ∨ (numData = 0 ∧ sh.outChunkDataStream.m_Offset = 0))
    ∧ sh.outChunkMetadataStream.m_Offset ≤ ms ∧ L < 4294967296

/-- The fragment list of a worker for a stream of `s` bytes under `NoCompression`, by
position: empty before the loop body ran, the single fragment of `s` bytes after. -/
def WorkerInv (L s : Nat) (w : Worker) : Prop :=
  match w.state with
  | .start => w.m_Fragments = []
  | .loopHead streamData maxFragmentSize dataOffset =>
      streamData.length = s ∧ 0 < s ∧ maxFragmentSize = s
        ∧ ((dataOffset = 0 ∧ w.m_Fragments = [])
          ∨ (dataOffset = s
            ∧ ∃ tag, tag < 4294967296 ∧ w.m_Fragments = [⟨s, 0, tag⟩]))
  | .reserved streamData maxFragmentSize dataOffset chunkDescStream fragmentSize =>
      streamData.length = s ∧ 0 < s ∧ maxFragmentSize = s ∧ dataOffset = 0
        ∧ fragmentSize = s
        ∧ (∃ tag, tag < 4294967296 ∧ w.m_Fragments = [⟨s, 0, tag⟩])
        ∧ (chunkDescStream = MutableStreamFixed.null
          ∨ ∃ p, chunkDescStream = { m_Data := some p, m_Size := 20, m_Offset := 0 }
              ∧ p + 20 ≤ L)
  | .done =>
      (s = 0 ∧ w.m_Fragments = [])
        ∨ (0 < s ∧ ∃ tag, tag < 4294967296 ∧ w.m_Fragments = [⟨s, 0, tag⟩])

/-- The number of non-empty streams among streams of the given sizes: under
`NoCompression` each of them is stored as one fragment in one chunk. -/
def numNonEmpty (sizes : List Nat) : Nat :=
  (sizes.map (fun s => if s = 0 then 0 else 1)).sum

/-- The fragment list of a stream of `s` bytes that is stored whole: no fragment when the
stream is empty, else one fragment of `s` bytes at offset 0 of a chunk. -/
def StoredWhole (s : Nat) (frags : List MsfzFragment) : Prop :=
  (s = 0 ∧ frags = [])
    ∨ (0 < s ∧ ∃ tag, tag < 4294967296 ∧ frags = [⟨s, 0, tag⟩])

/-! ### Inputs on which 32-bit arithmetic wraps -/

/-- A file of `len` zero bytes. -/
def zeroFile (len : Nat) : Bytes := List.replicate len 0

/-- `MultiFragment` with fixed fragment size `0x60000001` and at most 3 fragments per
stream. -/
def wrapArgs : ProgramCommandLineArgs :=
  { m_CompressionStrategy := .MultiFragment, m_CompressionLevel := 3,
    m_FixedFragmentSize := 1610612737, m_MaxFragmentsPerStream := 3, m_BlockSize := 4096 }

/-- A stream of `0xD0000000` bytes in the 851968 consecutive blocks `3 ..` of block size
4096. -/
def wrapInfo : PDBStreamInfo :=
  { m_StreamSize := 3489660928, m_StreamBlockIndices := List.range' 3 851968 }

/-- The shared state `RunCompression` builds for the single stream `wrapInfo` under
`wrapArgs`: its sizing pass counts no fragment (`AlignTo` wraps), so the output file has
the 80 header bytes and 4 directory bytes and both regions are the 4 bytes after the
header. -/
def wrapShared : Shared :=
  { out := List.replicate 84 0,
    outChunkMetadataStream := { m_Data := some 80, m_Size := 4, m_Offset := 0 },
    outChunkDataStream := { m_Data := some 80, m_Size := 4, m_Offset := 0 } }

/-- `NoCompression`. -/
def noCompressionArgs : ProgramCommandLineArgs :=
  { m_CompressionStrategy := .NoCompression, m_CompressionLevel := 3,
    m_FixedFragmentSize := 4096, m_MaxFragmentsPerStream := 4096, m_BlockSize := 4096 }

/-- A stream of `0x80000001` bytes (2 GiB + 1) in the 524289 consecutive blocks `3 ..` of
block size 4096. -/
def bigInfo : PDBStreamInfo :=
  { m_StreamSize := 2147483649, m_StreamBlockIndices := List.range' 3 524289 }

/-- A superblock of block size 4096 for the PDB that holds `bigInfo`. -/
def bigSuperBlock : PDBSuperBlock :=
  { m_BlockSize := 4096, m_FreeBlockMapIndex := 1, m_BlockCount := 524806,
    m_DirectorySize := 2097164, m_Unknown1_32t := 0 }

/-- The header `RunCompression` writes for the single stream `bigInfo` under
`NoCompression`. -/
def bigHeader : MsfzHeader :=
  { m_StreamDirectoryDataOffset := 2147483729, m_StreamDirectoryDataOrigin := 0,
    m_ChunkMetadataOffset := 80, m_ChunkMetadataOrigin := 0, m_NumMSFStreams := 1,
    m_IsStreamDirectoryDataCompressed := 0, m_StreamDirectoryDataLengthCompressed := 16,
    m_StreamDirectoryDataLengthDecompressed := 4, m_NumChunks := 0, m_ChunkMetadataLength := 0 }

/-! ### Inputs for the sizing pass -/

/-- `SingleFragment` at compression level 3. -/
def singleFragmentArgs : ProgramCommandLineArgs :=
  { m_CompressionStrategy := .SingleFragment, m_CompressionLevel := 3,
    m_FixedFragmentSize := 4096, m_MaxFragmentsPerStream := 4096, m_BlockSize := 512 }

/-- A five-block PDB of block size 512 with one empty stream: block 0 holds the superblock
and the directory-index word 3, block 3 the directory-block word 4, and block 4 the 8-byte
directory (one stream of size 0). -/
def emptyStreamPdb : Bytes :=
  padBlock 512 (g_PdbSignatureBytes ++ [0, 0] ++ toLe32 512 ++ toLe32 1 ++ toLe32 5
      ++ toLe32 8 ++ toLe32 0 ++ toLe32 3)
    ++ List.replicate 1024 0
    ++ padBlock 512 (toLe32 4)
    ++ padBlock 512 (toLe32 1 ++ toLe32 0)

/-- The superblock of `emptyStreamPdb`. -/
def emptySuperBlock : PDBSuperBlock :=
  { m_BlockSize := 512, m_FreeBlockMapIndex := 1, m_BlockCount := 5, m_DirectorySize := 8,
    m_Unknown1_32t := 0 }

/-- The header `RunCompression` writes for `emptyStreamPdb` under `SingleFragment` when the
compressed directory has `c` bytes. -/
def emptyHeader (c : Nat) : MsfzHeader :=
  { m_StreamDirectoryDataOffset := 80, m_StreamDirectoryDataOrigin := 0,
    m_ChunkMetadataOffset := 80, m_ChunkMetadataOrigin := 0, m_NumMSFStreams := 1,
    m_IsStreamDirectoryDataCompressed := 1, m_StreamDirectoryDataLengthCompressed := c,
    m_StreamDirectoryDataLengthDecompressed := 4, m_NumChunks := 0, m_ChunkMetadataLength := 0 }

/-! ### Inputs for the block assignment -/

/-- The descriptor list of an MSFZ file with one stream of 511 * 512 bytes, stored as one
fragment in chunk 0. -/
def longStreamDescriptors : List (List MsfzFragment) :=
  [[{ m_DataSize := 261632, m_DataOffset := 0, m_ChunkIndexOrDataOrigin := 2147483648 }]]

/-- The block assignment of `longStreamDescriptors` at block size 512: stream 0 gets the
blocks 3 to 512 and, past the reserved pair 513 and 514, block 515; the directory gets
the blocks 516 to 520 and the directory index block 521. -/
def longStreamAssignment : BlockAssignment :=
  { outBlocksForStreams := [List.range' 3 510 ++ [515]],
    outBlocksForDirectory := [516, 517, 518, 519, 520],
    outBlocksForDirectoryIndices := [521],
    outBlocksForFreeBlockMap := [1],
    outNumBlocks := 522 }

/-- Bit `b` of a bitset stored LSB first: bit `b % 8` of byte `b / 8`. -/
def bitAt (bitset : Bytes) (b : Nat) : Nat := bitset.getD (b / 8) 0 / 2 ^ (b % 8) % 2

/-! ### Fragment lists that survive the directory round trip -/

/-- A fragment descriptor whose three fields are 32-bit values and whose size is not 0:
its first word is not taken for a separator when the directory is parsed. -/
def FragmentOk (f : MsfzFragment) : Prop :=
  0 < f.m_DataSize ∧ f.m_DataSize < 4294967296
    ∧ f.m_DataOffset < 4294967296 ∧ f.m_ChunkIndexOrDataOrigin < 4294967296

/-- What holds of a call of `WriteSingleStreamData` for a stream of `s` bytes at every
position, under every strategy: an empty stream pushes no fragment and only starts and
returns; every fragment pushed is `FragmentOk`, unless the chosen fragment size is 0, in
which case the loop counter stays 0 below the stream length and the call never returns. -/
def WorkerOk (s : Nat) (w : Worker) : Prop :=
  (s = 0 → w.m_Fragments = [] ∧ (w.state = .start ∨ w.state = .done))
    ∧ match w.state with
      | .start => w.m_Fragments = []
      | .loopHead streamData maxFragmentSize dataOffset =>
          streamData.length < 4294967296 ∧ (maxFragmentSize = 0 → dataOffset = 0)
            ∧ ((∀ f ∈ w.m_Fragments, FragmentOk f)
              ∨ (maxFragmentSize = 0 ∧ 0 < streamData.length))
      | .reserved streamData maxFragmentSize dataOffset _ _ =>
          streamData.length < 4294967296 ∧ (maxFragmentSize = 0 → dataOffset = 0)
            ∧ ((∀ f ∈ w.m_Fragments, FragmentOk f)
              ∨ (maxFragmentSize = 0 ∧ 0 < streamData.length))
      | .done => ∀ f ∈ w.m_Fragments, FragmentOk f

/-- `MultiFragment` with fragments of 2 bytes. -/
def twoByteFragments : ProgramCommandLineArgs :=
  { m_CompressionStrategy := .MultiFragment, m_CompressionLevel := 3,
    m_FixedFragmentSize := 2, m_MaxFragmentsPerStream := 4096, m_BlockSize := 512 }

/-- The shared state `RunCompression` builds for `tinyPdb` under `twoByteFragments` with
`storeCodec`: 80 header bytes, 44 directory bytes, 60 chunk-descriptor bytes and at most 9
payload bytes. -/
def tinyShared : Shared :=
  { out := zeroFile 193,
    outChunkMetadataStream := { m_Data := some 80, m_Size := 113, m_Offset := 0 },
    outChunkDataStream := { m_Data := some 140, m_Size := 9, m_Offset := 0 } }

/-- What `CompressAndWriteStreamData` hands back for `tinyPdb` under `twoByteFragments`
with `storeCodec`: the five bytes of stream 0 are stored as three chunks of three, three
and two bytes. -/
def tinyCompressResult : CompressResult :=
  { sh :=
      { out := zeroFile 80 ++ MsfzChunk.toBytes ⟨140, 0, 1, 3, 2⟩
          ++ MsfzChunk.toBytes ⟨143, 0, 1, 3, 2⟩ ++ MsfzChunk.toBytes ⟨146, 0, 1, 2, 1⟩
          ++ [1, 1, 2, 1, 3, 4, 1, 5] ++ zeroFile 45,
        outChunkMetadataStream := { m_Data := some 80, m_Size := 113, m_Offset := 60 },
        outChunkDataStream := { m_Data := some 140, m_Size := 9, m_Offset := 8 } },
    streamDescriptors :=
      [[⟨2, 0, 2147483648⟩, ⟨2, 0, 2147483649⟩, ⟨1, 0, 2147483650⟩], []],
    directoryData :=
      1 :: serializeDirectory
        [[⟨2, 0, 2147483648⟩, ⟨2, 0, 2147483649⟩, ⟨1, 0, 2147483650⟩], []],
    m_NumMSFStreams := 2,
    m_IsStreamDirectoryDataCompressed := 1 }

/-! ### An input at the block limit -/

/-- The descriptor list of an MSFZ file with one stream of `1047039 * 4096` bytes, stored
as one fragment in chunk 0. -/
def hugeDescriptors : List (List MsfzFragment) :=
  [[{ m_DataSize := 4288671744, m_DataOffset := 0, m_ChunkIndexOrDataOrigin := 2147483648 }]]

/-- The header of `hugeMsfz`. -/
def hugeHeader : MsfzHeader :=
  { m_StreamDirectoryDataOffset := 104, m_StreamDirectoryDataOrigin := 0,
    m_ChunkMetadataOffset := 80, m_ChunkMetadataOrigin := 0, m_NumMSFStreams := 1,
    m_IsStreamDirectoryDataCompressed := 0, m_StreamDirectoryDataLengthCompressed := 16,
    m_StreamDirectoryDataLengthDecompressed := 16, m_NumChunks := 1,
    m_ChunkMetadataLength := 20 }

/-- An MSFZ file of 120 bytes with one stream of `1047039 * 4096` bytes: the header, one
chunk descriptor (a compressed chunk of 4 bytes at offset 100 that decompresses to the
stream), the 4 bytes of the chunk, and the uncompressed directory of one fragment
descriptor and one separator. -/
def hugeMsfz : Bytes :=
  hugeHeader.toBytes ++ MsfzChunk.toBytes ⟨100, 0, 1, 4, 4288671744⟩ ++ [40, 181, 47, 253]
    ++ serializeDirectory hugeDescriptors

/-! ### Streams with holes: the arithmetic without 64-bit reduction -/

/-- The loop of `AdjustOffset` (decompression.cpp:115-122) over the holes left, in
natural numbers: the real offset of a virtual offset. -/
def adjustOffsetNat : List (Nat × Nat) → Nat → Nat
  | [], offset => offset
  | offsetPair :: rest, offset =>
      adjustOffsetNat rest
        (if offsetPair.1 ≤ offset then offset + (offsetPair.2 - offsetPair.1) else offset)

/-- The loop of `AdjustWriteSpans` (decompression.cpp:97-109) over the holes left, from
the loop state `currentBeginSpan`: the spans it emits, the closing span included. -/
def spansFrom : List (Nat × Nat) → Nat → Nat → List (Nat × Nat)
  | [], currentBeginSpan, currentEndSpan => [(currentBeginSpan, currentEndSpan)]
  | offsetPair :: rest, currentBeginSpan, currentEndSpan =>
      if offsetPair.1 ≥ currentBeginSpan ∧ offsetPair.1 < currentEndSpan then
        (if currentBeginSpan ≠ offsetPair.1 then [(currentBeginSpan, offsetPair.1)] else [])
          ++ spansFrom rest offsetPair.2 currentEndSpan
      else spansFrom rest currentBeginSpan currentEndSpan

/-- The holes of a stream are sorted, pairwise disjoint and inside the range from `lo` to
`hi`: each hole begins at or after the end of the hole before it (`lo` for the first) and
ends at or before `hi`. -/
def HolesOk : Nat → List (Nat × Nat) → Nat → Prop
  | lo, [], hi => lo ≤ hi
  | lo, offsetPair :: rest, hi =>
      lo ≤ offsetPair.1 ∧ offsetPair.1 ≤ offsetPair.2 ∧ HolesOk offsetPair.2 rest hi

/-- The holes the loop of `GetStreamFromBlockIndices` (decompression.cpp:140-148) adds for
the block indices after the first, in natural numbers: one hole for every gap between a
block and the block before it. -/
def blockHoles (firstBlockIndex blockSize : Nat) : List Nat → Nat → List (Nat × Nat)
  | [], _ => []
  | blockIndex :: rest, prevRelBlockIndex =>
      (if blockIndex - firstBlockIndex ≠ prevRelBlockIndex + 1 then
          [((prevRelBlockIndex + 1) * blockSize, (blockIndex - firstBlockIndex) * blockSize)]
        else [])
        ++ blockHoles firstBlockIndex blockSize rest (blockIndex - firstBlockIndex)

/-- A sequence of `WriteBytes` calls through one stream, as `WriteSingleStreamDataToPDB`
makes them: the conjunction of the result flags, the stream and the mapping after the
last call. -/
def writeSequence :
    MutableStreamFixedWithHoles → Bytes → List Bytes →
      Option (Bool × MutableStreamFixedWithHoles × Bytes)
  | s, out, [] => some (true, s, out)
  | s, out, data :: rest =>
      match s.WriteBytes out data with
      | none => none
      | some (ok, s1, out1) =>
          (writeSequence s1 out1 rest).map (fun r => (ok && r.1, r.2))

/-! ### Inputs for the directory emission -/

/-- The descriptor list of an MSFZ file with 128 streams: stream 0 is one fragment of
509 * 512 bytes stored uncompressed at file offset 0, the streams 1 to 127 are empty. -/
def straddleDescriptors : List (List MsfzFragment) :=
  [{ m_DataSize := 260608, m_DataOffset := 0, m_ChunkIndexOrDataOrigin := 0 }]
    :: List.replicate 127 []

/-- The block assignment of `straddleDescriptors` at block size 512: stream 0 gets the
blocks 3 to 511; the directory of 2552 bytes gets block 512 and, past the reserved pair
513 and 514, the blocks 515 to 518; block 519 is the directory index block. -/
def straddleAssignment : BlockAssignment :=
  { outBlocksForStreams := List.range' 3 509 :: List.replicate 127 [],
    outBlocksForDirectory := [512, 515, 516, 517, 518],
    outBlocksForDirectoryIndices := [519],
    outBlocksForFreeBlockMap := [1],
    outNumBlocks := 520 }

/-! ### The command line of a compress invocation -/

/-- The accepted-values test of `StringValueCommandLineOption::ParseValue`
(y_args.h:320-350) on the text after the equals sign: the value stored in the option, or
`none` when `ThrowArgsError` is raised because the list of accepted values is not empty
and does not contain the value. -/
def StringValueCommandLineOption.ParseValue (m_AcceptedValues : List String)
    (argValue : String) : Option String :=
  if ¬ m_AcceptedValues.isEmpty then
    if argValue ∉ m_AcceptedValues then none else some argValue
  else some argValue

/-- The list given to `strategyOption->SetAcceptedValues` (main.cpp:47). -/
def strategyAcceptedValues : List String := ["NoCompression", "SingleFragment", "MultiFragment"]

/-- The strategy that `ParseCommandLineOptions` stores for a compress invocation
(main.cpp:137-159) in a release build, where `assert(false)` is compiled out: `none` is
the `std::optional` left empty. -/
def ParseCommandLineOptions.strategy (strategy : String) : Option CompressionStrategy :=
  if strategy = "None" then some .NoCompression
  else if strategy = "SingleFragment" then some .SingleFragment
  else if strategy = "MultiFragment" then some .MultiFragment
  else none

/-- The path of the value of `--strategy` through a compress invocation: `ParseValue`
against the accepted values (an argument error is `none`), then the strategy that
`ParseCommandLineOptions` stores in `outArgs.m_CompressionStrategy`. -/
def ParseCommandLineOptions.compressStrategy (argValue : String) :
    Option (Option CompressionStrategy) :=
  (StringValueCommandLineOption.ParseValue strategyAcceptedValues argValue).map
    ParseCommandLineOptions.strategy

/-! ### Sequences of region reservations -/

/-- What one call of `GetRegionSubstreamForWriting` in a sequence of calls did: the size
asked for, the cursor `m_Offset` of the writer before the call, whether the call
reserved (the test of y_data.h:141, evaluated in 64 bits, did not refuse it), the
sub-writer returned, the value left in `outRegionOffset`, which the caller had set to 0,
and the cursor of the writer after the call. -/
structure RegionCall where
  regionSize : Nat
  cursorBefore : Nat
  fitted : Bool
  subStream : MutableStreamFixed
  outRegionOffset : Nat
  cursorAfter : Nat
  deriving DecidableEq, Repr

/-- A sequence of `GetRegionSubstreamForWriting` calls on one writer, one per requested
size: the record of every call and the writer after the last. -/
def reserveRegions : MutableStreamFixed → List Nat → List RegionCall × MutableStreamFixed
  | s, [] => ([], s)
  | s, regionSize :: rest =>
      let (subStream, outRegionOffset, s1) := s.GetRegionSubstreamForWriting regionSize 0
      let (calls, s2) := reserveRegions s1 rest
      ({ regionSize := regionSize, cursorBefore := s.m_Offset,
         fitted := decide (¬ (s.m_Offset + regionSize) % 18446744073709551616 > s.m_Size),
         subStream := subStream, outRegionOffset := outRegionOffset,
         cursorAfter := s1.m_Offset } :: calls, s2)

/-- The windows `(offset, size)` of the calls that reserved, in call order. -/
def fittedWindows (calls : List RegionCall) : List (Nat × Nat) :=
  (calls.filter (fun c => c.fitted)).map (fun c => (c.outRegionOffset, c.regionSize))

/-! ### Scenario S4 -/

/-- Two stream descriptors of sizes 1 and 8192, each one fragment in a chunk of its
own. -/
def scenarioS4 : List (List MsfzFragment) :=
  [[{ m_DataSize := 1, m_DataOffset := 0, m_ChunkIndexOrDataOrigin := 2147483648 }],
   [{ m_DataSize := 8192, m_DataOffset := 0, m_ChunkIndexOrDataOrigin := 2147483649 }]]

/-! ### The size of the output PDB -/

/-- The value `totalSizeOfOutputFile` of `RunDecompression` (decompression.cpp:499):
the product `numBlocksTotal * blockSize` of two `uint32_t`, computed in 32 bits before it
is widened to `size_t`. It is the argument of `outputFile.Resize`. -/
def RunDecompression.totalSizeOfOutputFile (numBlocksTotal blockSize : Nat) : Nat :=
  numBlocksTotal * blockSize % 4294967296

/-! ### A fragment that reaches past its chunk -/

/-- An MSFZ file image of `2^32 + 1` bytes, every byte 7. -/
def pastChunkFile : Bytes := List.replicate 4294967297 7

/-- One uncompressed chunk at offset 0 of `2^32 - 1` bytes. -/
def pastChunkChunk : MsfzChunk :=
  { m_OffsetToChunkData := 0, m_OriginToChunk := 0, m_IsCompressed := 0,
    m_CompressedSize := 4294967295, m_DecompressedSize := 4294967295 }

/-- A fragment of chunk 0 with `dataOffset = 2^32 - 1` and `dataSize = 2`. -/
def pastChunkFragment : MsfzFragment :=
  { m_DataSize := 2, m_DataOffset := 4294967295, m_ChunkIndexOrDataOrigin := 2147483648 }

/-! ### Fragment descriptors up to the chunk index -/

/-- The per-stream fragment lists a finished `RunCompression` leaves in the directory. -/
def streamDescriptorsOf (r : Run CompressionOutput) : Option (List (List MsfzFragment)) :=
  match r with
  | .finished o => some o.streamDescriptors
  | _ => none

/-- What a fragment descriptor says apart from the index of its chunk: `dataSize`,
`dataOffset` and bit 31 of the tag. -/
def fragmentShape (f : MsfzFragment) : Nat × Nat × Bool :=
  (f.m_DataSize, f.m_DataOffset, f.IsLocatedInChunk)

/-- The position of a worker without the window of its chunk descriptor. -/
def WorkerState.forget : WorkerState → WorkerState
  | .reserved streamData maxFragmentSize dataOffset _ fragmentSize =>
      .reserved streamData maxFragmentSize dataOffset MutableStreamFixed.null fragmentSize
  | s => s

/-- The position of a worker and the shapes of the fragments it has pushed. -/
def Worker.shape (w : Worker) : WorkerState × List (Nat × Nat × Bool) :=
  (w.state.forget, w.m_Fragments.map fragmentShape)

/-- `StepsTo k w w1`: the worker of one stream gets from `w` to `w1` in `k` steps of
`WriteSingleStreamData`, each taken in some state of the shared allocators. -/
def StepsTo (codec : Codec) (pdbFileStream : ImmutableStream) (streamInfo : PDBStreamInfo)
    (blockSize chunkDataOffset : Nat) (args : ProgramCommandLineArgs) :
    Nat → Worker → Worker → Prop
  | 0, w, w1 => w = w1
  | k + 1, w, w1 =>
      ∃ sh sh2 w2,
        WriteSingleStreamData.step codec pdbFileStream streamInfo blockSize chunkDataOffset
            args sh w = some (sh2, w2)
          ∧ StepsTo codec pdbFileStream streamInfo blockSize chunkDataOffset args k w2 w1

/-- The per-stream fragment lists of a finished `CompressAndWriteStreamData`. -/
def compressedDescriptors (r : Run CompressResult) : Option (List (List MsfzFragment)) :=
  match r with
  | .finished a => some a.streamDescriptors
  | _ => none

/-- The shared state `RunCompression` builds for `canonPdb` under `NoCompression`: an
output mapping of `80 + 32 + 40 + 1024` zero bytes, the chunk-descriptor allocator over
the bytes from offset 80 on and the chunk-data allocator over the 1024 bytes from offset
120 on. -/
def canonShared : Shared :=
  { out := zeroFile 1176,
    outChunkMetadataStream := { m_Data := some 80, m_Size := 1096, m_Offset := 0 },
    outChunkDataStream := { m_Data := some 120, m_Size := 1024, m_Offset := 0 } }

/-! ### The two readings of the directory indirection -/

/-- The test `areStreamBlocksContiguous` of `CoalesceDataFromStream` (compression.cpp:86)
on a block list: sorted, and last minus first (in 32 bits) at most the number of
blocks. `false` for the empty list. -/
def areStreamBlocksContiguous (streamBlockIndices : List Nat) : Bool :=
  match streamBlockIndices.head?, streamBlockIndices.getLast? with
  | some front, some back =>
      is_sorted streamBlockIndices
        && decide ((back + 4294967296 - front) % 4294967296 ≤ streamBlockIndices.length)
  | _, _ => false

/-- A block list on which the contiguity test of `CoalesceDataFromStream` is right: the
test holds only if the list is a run of consecutive indices. -/
def ContiguityTestExact (streamBlockIndices : List Nat) : Prop :=
  areStreamBlocksContiguous streamBlockIndices = true →
    streamBlockIndices = List.range' (streamBlockIndices.headD 0) streamBlockIndices.length

/-- The directory payload in the one-level reading: with `K = ceil(D/bs)`, the `K`
32-bit words at offset 52 are taken as the indices of the directory blocks. -/
def directoryOneLevel (file : Bytes) (sb : PDBSuperBlock) : Bytes :=
  streamContentSpec file sb.m_BlockSize sb.m_DirectorySize
    (wordsOf (file.drop 52) (ceilDiv sb.m_DirectorySize sb.m_BlockSize))

/-- The first level of the two-level reading: with `K = ceil(D/bs)`, the
`ceil(4 * K / bs)` 32-bit words at offset 52, the indices of the directory-index
blocks. -/
def directoryIndexBlockIndices (file : Bytes) (sb : PDBSuperBlock) : List Nat :=
  wordsOf (file.drop 52)
    (ceilDiv (4 * ceilDiv sb.m_DirectorySize sb.m_BlockSize) sb.m_BlockSize)

/-- The second level: the first `K` words of the concatenation of the directory-index
blocks, the indices of the directory blocks. -/
def directoryBlockIndices (file : Bytes) (sb : PDBSuperBlock) : List Nat :=
  wordsOf
    (streamContentSpec file sb.m_BlockSize (4 * ceilDiv sb.m_DirectorySize sb.m_BlockSize)
      (directoryIndexBlockIndices file sb))
    (ceilDiv sb.m_DirectorySize sb.m_BlockSize)

/-- The directory payload in the two-level reading: the first `D` bytes of the
concatenation of the directory blocks. -/
def directoryTwoLevel (file : Bytes) (sb : PDBSuperBlock) : Bytes :=
  streamContentSpec file sb.m_BlockSize sb.m_DirectorySize (directoryBlockIndices file sb)

/-! ### The PDB written for the straddling directory -/

/-- The superblock `RunDecompression` writes for `straddleDescriptors` at block size
512: 520 blocks and a directory of 2552 bytes. -/
def straddleSuperBlock : PDBSuperBlock :=
  { m_BlockSize := 512, m_FreeBlockMapIndex := 1, m_BlockCount := 520,
    m_DirectorySize := 2552, m_Unknown1_32t := 0 }

/-- The directory payload found in the PDB written for `straddleDescriptors`: the stream
count 128, the size of stream 0, and zero bytes for the other 127 sizes and for the 509
block indices of stream 0. -/
def straddlePayload : Bytes := toLe32 128 ++ toLe32 260608 ++ zeroFile 2544

/-- The stream records `ParseStreamDirectory` returns for that PDB: stream 0 with 509
block indices 0, and 127 empty streams. -/
def straddleParsed : List PDBStreamInfo :=
  { m_StreamSize := 260608, m_StreamBlockIndices := List.replicate 509 0 }
    :: List.replicate 127 { m_StreamSize := 0, m_StreamBlockIndices := [] }

/-! ### Inputs for the bounds checks of the readers and writers -/

/-- A stream-with-holes of real length 12 at position 0 of the mapping with the hole
`[3, 5)`: its virtual length is 10. -/
def holeStream : MutableStreamFixedWithHoles :=
  { m_Data := some 0, m_Size := 12, m_Offset := 0, m_HoleOffsets := [(3, 5)] }

/-- The header fields of an MSFZ file of 80 bytes whose directory is announced at offset
80, the end of the file, with 16 bytes. -/
def truncatedHeader : MsfzHeader :=
  { m_StreamDirectoryDataOffset := 80, m_StreamDirectoryDataOrigin := 0,
    m_ChunkMetadataOffset := 80, m_ChunkMetadataOrigin := 0, m_NumMSFStreams := 0,
    m_IsStreamDirectoryDataCompressed := 0, m_StreamDirectoryDataLengthCompressed := 16,
    m_StreamDirectoryDataLengthDecompressed := 16, m_NumChunks := 0,
    m_ChunkMetadataLength := 0 }

/-- A file of two 512-byte blocks: block 0 holds zeros, block 1 holds sevens. -/
def twoBlockFile : Bytes := List.replicate 512 0 ++ List.replicate 512 7

/-- A stream record of 512 bytes whose single block index is `2^23 + 1`: at block size
512 its block begins at byte `2^32 + 512`. -/
def farBlockInfo : PDBStreamInfo :=
  { m_StreamSize := 512, m_StreamBlockIndices := [8388609] }

/-- An MSFZ file image of eight bytes. -/
def shortChunkFile : Bytes := [10, 11, 12, 13, 14, 15, 16, 17]

/-- An uncompressed chunk at offset 0 with `compressedSize = 4` and
`decompressedSize = 8`. -/
def shortChunk : MsfzChunk :=
  { m_OffsetToChunkData := 0, m_OriginToChunk := 0, m_IsCompressed := 0,
    m_CompressedSize := 4, m_DecompressedSize := 8 }

/-- A fragment of chunk 0 with `dataOffset = 4` and `dataSize = 4`. -/
def shortChunkFragment : MsfzFragment :=
  { m_DataSize := 4, m_DataOffset := 4, m_ChunkIndexOrDataOrigin := 2147483648 }

/-- One stream descriptor with a single fragment of `2^32 - 1` bytes. -/
def wrapSizeDescriptors : List (List MsfzFragment) :=
  [[{ m_DataSize := 4294967295, m_DataOffset := 0, m_ChunkIndexOrDataOrigin := 0 }]]

/-! ### The parallel runner -/

/-- `ThreadConfig::GetDefaultNumThreads` (y_thread.h:19-36) on a machine with
`dwNumberOfProcessors` processors: the configured value when it is not zero, otherwise
`static_cast<uint32_t>(dwNumberOfProcessors * 0.75f)`, the product truncated (the
`float` product is exact for the processor counts of real machines). -/
def ThreadConfig.GetDefaultNumThreads (g_DefaultNumThreads dwNumberOfProcessors : Nat) : Nat :=
  if g_DefaultNumThreads ≠ 0 then g_DefaultNumThreads
  else dwNumberOfProcessors * 3 / 4

/-- `ynw::ParallelForRunner` (y_thread.h:42-105); the score function is optional. -/
structure ParallelForRunner (ElementType : Type) where
  m_Elements : List ElementType
  m_ScoreFunction : Option (ElementType → Nat → Nat)
  m_NumThreads : Nat

namespace ParallelForRunner

/-- The constructor (y_thread.h:49-53): the number of threads is the default of
`ThreadConfig`. -/
def ofElements {ElementType : Type} (elements : List ElementType)
    (g_DefaultNumThreads dwNumberOfProcessors : Nat) : ParallelForRunner ElementType :=
  { m_Elements := elements, m_ScoreFunction := none,
    m_NumThreads := ThreadConfig.GetDefaultNumThreads g_DefaultNumThreads dwNumberOfProcessors }

/-- `SetScoreFunction` (y_thread.h:55). -/
def SetScoreFunction {ElementType : Type} (r : ParallelForRunner ElementType)
    (scoreFn : ElementType → Nat → Nat) : ParallelForRunner ElementType :=
  { r with m_ScoreFunction := some scoreFn }

/-- `SetNumThreads` (y_thread.h:56). -/
def SetNumThreads {ElementType : Type} (r : ParallelForRunner ElementType) (numThreads : Nat) :
    ParallelForRunner ElementType :=
  { r with m_NumThreads := numThreads }

/-- The score of the element at an index of the queue; 0 for an index outside the
sequence, which the queue never holds. -/
def scoreAt {ElementType : Type} (r : ParallelForRunner ElementType)
    (scoreFn : ElementType → Nat → Nat) (i : Nat) : Nat :=
  match r.m_Elements[i]? with
  | some element => scoreFn element i
  | none => 0

/-- The index queue of `Execute` (y_thread.h:60-73): the indices `0 .. size - 1`, sorted
with the comparator `score(lhs) > score(rhs)` when a score function is set. `sort` stands
for `std::sort`, whose order among equal scores is not specified. -/
def indexQueue {ElementType : Type} (sort : (Nat → Nat → Bool) → List Nat → List Nat)
    (r : ParallelForRunner ElementType) : List Nat :=
  match r.m_ScoreFunction with
  | none => List.range r.m_Elements.length
  | some scoreFn =>
      sort (fun lhs rhs => decide (r.scoreAt scoreFn lhs > r.scoreAt scoreFn rhs))
        (List.range r.m_Elements.length)

/-- The state shared by the worker threads of `Execute`: the atomic counter, for every
worker whether it has returned, and the calls of the action made so far, in order. -/
structure State (ElementType : Type) where
  currentWorkingIndex : Nat
  returned : List Bool
  invoked : List (ElementType × Nat)

/-- One iteration of the loop of `workerThreadFn` (y_thread.h:78-88) by worker `tid`:
fetch and increment the counter, return when it is past the sequence, call the action on
the queued element otherwise. A worker that has returned does nothing. -/
def workerStep {ElementType : Type} (r : ParallelForRunner ElementType) (queue : List Nat)
    (st : State ElementType) (tid : Nat) : State ElementType :=
  match st.returned[tid]? with
  | some false =>
      let workingIndex := st.currentWorkingIndex
      if workingIndex ≥ r.m_Elements.length then
        { st with currentWorkingIndex := workingIndex + 1,
                  returned := st.returned.set tid true }
      else
        match queue[workingIndex]? with
        | none => { st with currentWorkingIndex := workingIndex + 1 }
        | some elementIndex =>
            match r.m_Elements[elementIndex]? with
            | none => { st with currentWorkingIndex := workingIndex + 1 }
            | some element =>
                { st with currentWorkingIndex := workingIndex + 1,
                          invoked := st.invoked ++ [(element, elementIndex)] }
  | _ => st

/-- `Execute` (y_thread.h:58-100): `m_NumThreads` workers are started on the queue and
joined; `schedule` lists the workers in the order in which they take their iterations
and the atomic counter starts at 0. The result is the sequence of calls
`actionFn(element, elementIndex)`, `none` when the schedule ends before every worker has
returned. -/
def Execute {ElementType : Type} (sort : (Nat → Nat → Bool) → List Nat → List Nat)
    (r : ParallelForRunner ElementType) (schedule : List Nat) :
    Option (List (ElementType × Nat)) :=
  let queue := r.indexQueue sort
  let st := schedule.foldl (r.workerStep queue)
    { currentWorkingIndex := 0, returned := List.replicate r.m_NumThreads false, invoked := [] }
  if st.returned.all id = true then some st.invoked else none

end ParallelForRunner

/-! ### The run of the block cursor -/

/-- All blocks `AssignBlocksToStreams` hands out through `AssignNextNBlocks`, in the order
of the calls: the block lists of the streams in stream order, then the directory blocks,
then the directory-index blocks. -/
def BlockAssignment.assignedBlocks (a : BlockAssignment) : List Nat :=
  a.outBlocksForStreams.flatten ++ (a.outBlocksForDirectory ++ a.outBlocksForDirectoryIndices)

/-- No post-increment `currentBlockIndex++` wraps while `AssignNextNBlocks` hands out
`nBlocks` blocks from `currentBlockIndex`: every block leaves the 32-bit cursor above the
value it had before (a block advances it by 1, 2 or 3 modulo `2^32`). -/
def AssignNextNBlocks.noOverflow (blockSize : Nat) : Nat → Nat → Bool
  | 0, _ => true
  | nBlocks + 1, currentBlockIndex =>
      decide (currentBlockIndex < (AssignNextNBlocks.next blockSize currentBlockIndex).2)
        && noOverflow blockSize nBlocks (AssignNextNBlocks.next blockSize currentBlockIndex).2

/-! ### An input whose block cursor ends right below `2^32` -/

/-- The descriptors of 516 streams of `8226296 * 512 = 4211863552` bytes each, one
fragment per stream. At block size 512 the streams need `516 * 8226296` blocks, the
directory 33162260 and the directory index 259081, and the cursor ends at `2^32 - 2`. -/
def fpmWrapDescriptors : List (List MsfzFragment) :=
  List.replicate 516
    [{ m_DataSize := 4211863552, m_DataOffset := 0, m_ChunkIndexOrDataOrigin := 0 }]

/-- A five-block file of block size 512 whose byte at offset `i` is the index `i / 512` of
its block. -/
def fiveBlockFile : Bytes := (List.range 2560).map (fun i => i / 512)


/-! ### The chunk table under `NoCompression` -/

/-- The index of the chunk-table slot that the first fragment of a worker names. -/
def Worker.slot (w : Worker) : Nat :=
  match w.m_Fragments with
  | [] => 0
  | f :: _ => f.GetChunkIndex

/-- The worker has written the payload and the chunk descriptor of the fragment it
pushed: it is past line 258 of the loop body. -/
def Worker.wrote (w : Worker) : Bool :=
  match w.state with
  | .reserved _ _ _ _ _ => false
  | _ => !w.m_Fragments.isEmpty

/-- An upper bound on the steps a call of `WriteSingleStreamData` still takes under
`NoCompression`: the body of the loop runs once. -/
def WorkerState.stepsLeft : WorkerState → Nat
  | .start => 4
  | .loopHead streamData _ dataOffset => if dataOffset < streamData.length then 3 else 1
  | .reserved _ _ _ _ _ => 2
  | .done => 0

/-- The workers and the two allocators fit together under `NoCompression`, for streams
of the given sizes of which `K` are non-empty and which have `T` bytes in all. The
chunk table starts at `mb` and the chunk data at `cdo` in the mapping. The cursor of the
chunk-table allocator is a multiple of 20 and has 20 bytes left for every non-empty
stream that has not reserved its slot; the cursor of the chunk-data allocator has the
size of the stream left for every stream that has not written its payload; a worker
that pushed a fragment names in it a slot below the cursor of the table, holds the
window of that slot while it is in the loop body, and once it has written, the slot
holds the descriptor of an uncompressed chunk of the stream's size that lies below the
cursor of the chunk data; and no two workers name the same slot. -/
def SlotsInv (K T mb cdo : Nat) (sizes : List Nat) (sh : Shared) (ws : List Worker) : Prop :=
  20 ∣ sh.outChunkMetadataStream.m_Offset
    ∧ sh.outChunkMetadataStream.m_Offset
        + (List.zipWith (fun (w : Worker) (s : Nat) =>
            if w.m_Fragments = [] ∧ s ≠ 0 then 20 else 0) ws sizes).sum = 20 * K
    ∧ sh.outChunkDataStream.m_Offset
        + (List.zipWith (fun (w : Worker) (s : Nat) =>
            if w.wrote = true then 0 else s) ws sizes).sum = T
    ∧ (∀ (i : Nat) (w : Worker) (s : Nat), ws[i]? = some w → sizes[i]? = some s →
        w.m_Fragments ≠ [] →
        20 * w.slot + 20 ≤ sh.outChunkMetadataStream.m_Offset
          ∧ w.m_Fragments = [⟨s, 0, MsfzFragment.SetChunkIndex w.slot⟩]
          ∧ (∀ streamData maxFragmentSize dataOffset chunkDescStream fragmentSize,
              w.state
                  = .reserved streamData maxFragmentSize dataOffset chunkDescStream
                      fragmentSize →
              chunkDescStream = { m_Data := some (mb + 20 * w.slot), m_Size := 20, m_Offset := 0 })
          ∧ (w.wrote = true →
              ∃ o, o + s ≤ sh.outChunkDataStream.m_Offset
                ∧ (sh.out.drop (mb + 20 * w.slot)).take 20
                  = MsfzChunk.toBytes
                      { m_OffsetToChunkData := cdo + o, m_OriginToChunk := 0,
                        m_IsCompressed := 0, m_CompressedSize := s,
                        m_DecompressedSize := s }))
    ∧ (∀ (i j : Nat) (wi wj : Worker), i ≠ j → ws[i]? = some wi → ws[j]? = some wj →
        wi.m_Fragments ≠ [] → wj.m_Fragments ≠ [] → wi.slot ≠ wj.slot)

/-! ### The layout `AssignBlocksToStreams` gives the PDB that is written -/

/-- The block indices `AssignBlocksToStreams` hands to streams of the given sizes, in
stream order: the lambda `AssignNextNBlocks` run from block 3 for the sum of
`ceil(size/bs)` blocks. -/
def assignedStreamBlocks (bs : Nat) (sizes : List Nat) : List Nat :=
  (AssignNextNBlocks bs (numStreamBlocks bs sizes) 3).1

/-- The block indices `AssignBlocksToStreams` hands to the directory: the lambda run on
from where the streams left `currentBlockIndex`. -/
def assignedDirectoryBlocks (bs : Nat) (sizes : List Nat) : List Nat :=
  (AssignNextNBlocks bs (numDirectoryBlocks bs sizes)
    (AssignNextNBlocks bs (numStreamBlocks bs sizes) 3).2).1

/-- The value `AssignBlocksToStreams` leaves in `outNumBlocks`: `currentBlockIndex`
after the streams, the directory and the directory index got their blocks. -/
def assignedBlockCount (bs : Nat) (sizes : List Nat) : Nat :=
  (AssignNextNBlocks bs (numDirectoryIndexBlocks bs sizes)
    (AssignNextNBlocks bs (numDirectoryBlocks bs sizes)
      (AssignNextNBlocks bs (numStreamBlocks bs sizes) 3).2).2).2

/-- The directory payload of that layout: the stream count, the sizes, and the block
indices of the streams in stream order. -/
def assignedDirectory (bs : Nat) (sizes : List Nat) : Bytes :=
  toLe32 sizes.length ++ wordsToBytes sizes ++ wordsToBytes (assignedStreamBlocks bs sizes)

/-- The count word and the size words of the directory, `4 + 4 * N` bytes, end before
the first reserved pair the directory blocks step over: wherever block `j + 1` of the
directory does not follow block `j` directly, the `j + 1` blocks before the gap hold
more than `4 + 4 * N` bytes. -/
def directoryHeadBeforeGap (bs : Nat) (sizes : List Nat) : Bool :=
  (List.range ((assignedDirectoryBlocks bs sizes).length - 1)).all
    (fun j =>
      decide ((assignedDirectoryBlocks bs sizes).getD (j + 1) 0
          = (assignedDirectoryBlocks bs sizes).getD j 0 + 1)
        || decide (4 + 4 * sizes.length < (j + 1) * bs))

/-! ## Part II. Lemmas and theorems -/

theorem AlignTo_eq_of_lt (n a : Nat) (ha : 1 ≤ a) (ha2 : a ≤ 4294967296)
    (h : n + (a - 1) < 4294967296) :
    AlignTo n a = (n + (a - 1)) / a * a := by
  unfold AlignTo
  have h1 : (a + 4294967295) % 4294967296 = a - 1 := by omega
  rw [h1, Nat.mod_eq_of_lt h]
  apply Nat.mod_eq_of_lt
  calc (n + (a - 1)) / a * a ≤ n + (a - 1) := Nat.div_mul_le_self _ _
    _ < 4294967296 := h

theorem AlignTo_div_eq_ceilDiv (n a : Nat) (ha : 1 ≤ a) (ha2 : a ≤ 4294967296)
    (h : n + (a - 1) < 4294967296) :
    AlignTo n a / a = ceilDiv n a := by
  rw [AlignTo_eq_of_lt n a ha ha2 h, Nat.mul_div_cancel _ (by omega : 0 < a)]
  unfold ceilDiv
  congr 1
  omega

theorem GetFragmentSizeForStream_of_noWrap (s : Nat) (args : ProgramCommandLineArgs)
    (hm : args.m_CompressionStrategy = .MultiFragment)
    (hM : 1 ≤ args.m_MaxFragmentsPerStream)
    (h : s + (args.m_MaxFragmentsPerStream - 1) < 4294967296) :
    GetFragmentSizeForStream s args
      = min s (max args.m_FixedFragmentSize (ceilDiv s args.m_MaxFragmentsPerStream)) := by
  unfold GetFragmentSizeForStream
  rw [hm]
  simp only
  rw [AlignTo_div_eq_ceilDiv s _ hM (by omega) h]

/-- C6 (defect). `GetFragmentSizeForStream` does not return
`min(s, max(F, ceil(s/M)))` for every 32-bit stream size: for `s = 0xFFFFFFFE`,
`F = 4096`, `M = 3` the 32-bit sum `s + (M - 1)` wraps to 0, the function returns
`4096`, and the formula gives `1431655765`. -/
theorem GetFragmentSizeForStream_wraps :
    GetFragmentSizeForStream 4294967294
        { m_CompressionStrategy := .MultiFragment, m_CompressionLevel := 3,
          m_FixedFragmentSize := 4096, m_MaxFragmentsPerStream := 3, m_BlockSize := 4096 }
      = 4096
    ∧ min 4294967294 (max 4096 (ceilDiv 4294967294 3)) = 1431655765 := by
  decide

/-- C5 (defect). The borrowed path of `CoalesceDataFromStream` is not the concatenation
of the stream's blocks: for the block list `[3, 5]` (sorted, `5 - 3 <= 2`) of a 1024-byte
stream with block size 512 it returns the bytes of blocks 3 and 4, while the stream
consists of blocks 3 and 5. -/
theorem CoalesceDataFromStream_borrows_gap :
    CoalesceDataFromStream (ImmutableStream.ofBytes sixBlockFile)
        { m_StreamSize := 1024, m_StreamBlockIndices := [3, 5] } 512
      = some (List.replicate 512 3 ++ List.replicate 512 4)
    ∧ streamContentSpec sixBlockFile 512 1024 [3, 5]
      = List.replicate 512 3 ++ List.replicate 512 5 := by
  decide!

/-! ### The directory parser -/

theorem le32_lt (d : Bytes) (off : Nat) : le32 d off < 4294967296 := by
  unfold le32
  omega

theorem Read32_eq_some (s : ImmutableStream) (v : Nat) (s' : ImmutableStream)
    (h : s.Read32 = some (v, s')) :
    s.m_Offset + 4 ≤ s.m_Data.length ∧ v = le32 s.m_Data s.m_Offset
      ∧ s' = { s with m_Offset := s.m_Offset + 4 } := by
  unfold ImmutableStream.Read32 ImmutableStream.Peek32 ImmutableStream.m_Length at h
  by_cases hc : s.m_Offset + 4 > s.m_Data.length
  · simp [hc] at h
  · simp only [hc, if_false, Option.some.injEq, Prod.mk.injEq] at h
    exact ⟨by omega, h.1.symm, h.2.symm⟩

theorem dvd_step (bs it : Nat) (hbs : bs ∣ 4294967296) (hit : bs ∣ it)
    (hlt : it < 4294967296) : it + bs ≤ 4294967296 := by
  have h1 : bs ∣ 4294967296 - it := Nat.dvd_sub' hbs hit
  have h2 : bs ≤ 4294967296 - it := Nat.le_of_dvd (by omega) h1
  omega

theorem dvd_step_mod (bs it : Nat) (hbs : bs ∣ 4294967296) (hit : bs ∣ it) :
    bs ∣ (it + bs) % 4294967296 :=
  (Nat.dvd_mod_iff hbs).mpr (Nat.dvd_add hit (Nat.dvd_refl bs))

/-- Once the stream size exceeds `2^32 - blockSize`, the 32-bit counter can never reach
it: the loop reads until the block-index words run out and fails. -/
theorem readBlockIndices_stuck (bs size : Nat) (hbs : bs ∣ 4294967296)
    (hsz : 4294967296 - bs < size) :
    ∀ (fuel it : Nat) (st : ImmutableStream), bs ∣ it → it < 4294967296 →
      ParseStreamDirectory.readBlockIndices bs size fuel it st = none := by
  intro fuel
  induction fuel with
  | zero => intro it st _ _; rfl
  | succ fuel ih =>
    intro it st hit hlt
    have hstep := dvd_step bs it hbs hit hlt
    have hlt' : it < size := by omega
    unfold ParseStreamDirectory.readBlockIndices
    rw [if_pos hlt']
    cases hr : st.Read32 with
    | none => rfl
    | some p =>
      obtain ⟨w, rest⟩ := p
      simp only
      rw [ih _ rest (dvd_step_mod bs it hbs hit) (Nat.mod_lt _ (by norm_num))]
      rfl

theorem ceilDiv_zero (bs : Nat) : ceilDiv 0 bs = 0 := by
  unfold ceilDiv
  rcases Nat.eq_zero_or_pos bs with h | h
  · subst h; simp
  · simp only [Nat.zero_add]
    exact Nat.div_eq_of_lt (by omega)

theorem ceilDiv_step (n bs : Nat) (hbs : 0 < bs) (hn : 0 < n) :
    ceilDiv n bs = ceilDiv (n - bs) bs + 1 := by
  unfold ceilDiv
  by_cases h : bs ≤ n
  · have : n + bs - 1 = (n - bs + bs - 1) + bs := by omega
    rw [this, Nat.add_div_right _ hbs]
  · have h1 : n - bs = 0 := by omega
    rw [h1]
    have h2 : (0 + bs - 1) / bs = 0 := Nat.div_eq_of_lt (by omega)
    rw [h2]
    have h3 : n + bs - 1 = (n - 1) + bs := by omega
    rw [h3, Nat.add_div_right _ hbs, Nat.div_eq_of_lt (by omega)]

/-- What the block-index loop returns when the block size divides `2^32`: exactly
`ceil((size - blockIterator) / blockSize)` consecutive words of the stream. -/
theorem readBlockIndices_spec (bs size : Nat) (hbs : bs ∣ 4294967296) :
    ∀ (fuel it : Nat) (st : ImmutableStream) (l : List Nat) (st' : ImmutableStream),
      bs ∣ it → it < 4294967296 →
      ParseStreamDirectory.readBlockIndices bs size fuel it st = some (l, st') →
      l.length = ceilDiv (size - it) bs ∧ st'.m_Data = st.m_Data
        ∧ st'.m_Offset = st.m_Offset + 4 * l.length
        ∧ l = (List.range l.length).map (fun j => le32 st.m_Data (st.m_Offset + 4 * j)) := by
  have hpos : 0 < bs := Nat.pos_of_dvd_of_pos hbs (by norm_num)
  intro fuel
  induction fuel with
  | zero => intro it st l st' _ _ h; simp [ParseStreamDirectory.readBlockIndices] at h
  | succ fuel ih =>
    intro it st l st' hit hlt h
    unfold ParseStreamDirectory.readBlockIndices at h
    by_cases hc : it < size
    · rw [if_pos hc] at h
      cases hr : st.Read32 with
      | none => rw [hr] at h; simp at h
      | some p =>
        obtain ⟨w, rest⟩ := p
        rw [hr] at h
        simp only [Option.map_eq_some'] at h
        obtain ⟨⟨l', st''⟩, hrec, heq⟩ := h
        simp only [Prod.mk.injEq] at heq
        obtain ⟨hl, hst⟩ := heq
        subst hl hst
        obtain ⟨hlen, hv, hrest⟩ := Read32_eq_some st w rest hr
        have hstep := dvd_step bs it hbs hit hlt
        rcases Nat.lt_or_ge (it + bs) 4294967296 with hw | hw
        · rw [Nat.mod_eq_of_lt hw] at hrec
          obtain ⟨h1, h2, h3, h4⟩ := ih (it + bs) rest l' st''
            (Nat.dvd_add hit (Nat.dvd_refl bs)) hw hrec
          subst hrest
          simp only at h2 h3 h4
          refine ⟨?_, h2, ?_, ?_⟩
          · rw [List.length_cons, h1, ceilDiv_step (size - it) bs hpos (by omega)]
            congr 2
            omega
          · rw [h3, List.length_cons]; omega
          · rw [List.length_cons, List.range_succ_eq_map, List.map_cons, List.map_map]
            rw [hv]
            congr 1
            rw [h4]
            simp only [List.length_map, List.length_range]
            apply List.map_congr_left
            intro j _
            simp only [Function.comp]
            congr 1
            omega
        · have hz : it + bs = 4294967296 := by omega
          rw [hz, Nat.mod_self] at hrec
          rw [readBlockIndices_stuck bs size hbs (by omega) fuel 0 rest (Nat.dvd_zero bs)
            (by norm_num)] at hrec
          simp at hrec
    · rw [if_neg hc] at h
      simp only [Option.some.injEq, Prod.mk.injEq] at h
      obtain ⟨hl, hst⟩ := h
      subst hl hst
      have : size - it = 0 := by omega
      simp [this, ceilDiv_zero]

theorem recordSpec_succ (bs : Nat) (sw bw : Nat → Nat) (i : Nat) :
    recordSpec bs sw bw (i + 1)
      = recordSpec bs (fun k => sw (k + 1))
          (fun k => bw (ceilDiv (normSize (sw 0)) bs + k)) i := by
  unfold recordSpec
  simp only [PDBStreamInfo.mk.injEq, true_and]
  apply List.map_congr_left
  intro j _
  rw [List.range_succ_eq_map, List.map_cons, List.sum_cons, List.map_map, Nat.add_assoc]
  rfl

theorem map_recordSpec_succ (bs : Nat) (sw bw : Nat → Nat) (n : Nat) :
    (List.range (n + 1)).map (recordSpec bs sw bw)
      = recordSpec bs sw bw 0
        :: (List.range n).map (recordSpec bs (fun k => sw (k + 1))
            (fun k => bw (ceilDiv (normSize (sw 0)) bs + k))) := by
  rw [List.range_succ_eq_map, List.map_cons, List.map_map]
  congr 1
  apply List.map_congr_left
  intro i _
  exact recordSpec_succ bs sw bw i

/-- The outer parse loop returns the records of the specification, read at the cursors
of its two streams. -/
theorem readStreams_spec (bs : Nat) (hbs : bs ∣ 4294967296) :
    ∀ (n : Nat) (ss bi : ImmutableStream) (streams : List PDBStreamInfo),
      ParseStreamDirectory.readStreams bs n ss bi = some streams →
      streams = (List.range n).map
        (recordSpec bs (fun i => le32 ss.m_Data (ss.m_Offset + 4 * i))
          (fun k => le32 bi.m_Data (bi.m_Offset + 4 * k))) := by
  intro n
  induction n with
  | zero =>
    intro ss bi streams h
    simp [ParseStreamDirectory.readStreams] at h
    simp [h]
  | succ n ih =>
    intro ss bi streams h
    unfold ParseStreamDirectory.readStreams at h
    cases hr : ss.Read32 with
    | none => rw [hr] at h; simp at h
    | some p =>
      obtain ⟨w, sizesRest⟩ := p
      rw [hr] at h
      obtain ⟨_, hv, hrest⟩ := Read32_eq_some ss w sizesRest hr
      simp only at h
      rw [map_recordSpec_succ]
      by_cases hc : w = 4294967295 ∨ w = 0
      · rw [if_pos hc] at h
        simp only [Option.map_eq_some'] at h
        obtain ⟨tl, htl, heq⟩ := h
        have hn : normSize w = 0 := by
          unfold normSize
          rcases hc with hc | hc <;> simp [hc]
        have hih := ih sizesRest bi tl htl
        subst heq
        congr 1
        · unfold recordSpec
          simp only [Nat.mul_zero, Nat.add_zero, ← hv, hn, ceilDiv_zero, List.range_zero,
            List.map_nil]
        · rw [hih, hrest]
          simp only [Nat.mul_zero, Nat.add_zero, ← hv, hn, ceilDiv_zero, Nat.zero_add]
          apply List.map_congr_left
          intro i _
          congr 1
          funext k
          congr 1
          omega
      · rw [if_neg hc] at h
        cases hb : ParseStreamDirectory.readBlockIndices bs w (bi.m_Length + 1) 0 bi with
        | none => rw [hb] at h; simp at h
        | some q =>
          obtain ⟨l, indicesRest⟩ := q
          rw [hb] at h
          simp only [Option.map_eq_some'] at h
          obtain ⟨tl, htl, heq⟩ := h
          obtain ⟨h1, h2, h3, h4⟩ := readBlockIndices_spec bs w hbs _ 0 bi l indicesRest
            (Nat.dvd_zero bs) (by norm_num) hb
          have hn : normSize w = w := by
            unfold normSize
            have : w ≠ 4294967295 := fun e => hc (Or.inl e)
            simp [this]
          have hih := ih sizesRest indicesRest tl htl
          subst heq
          congr 1
          · unfold recordSpec
            simp only [Nat.mul_zero, Nat.add_zero, ← hv, hn, List.range_zero, List.map_nil,
              List.sum_nil, Nat.zero_add, PDBStreamInfo.mk.injEq, true_and]
            rw [h4, h1]
            simp
          · rw [hih, hrest, h2, h3, h1]
            simp only [Nat.mul_zero, Nat.add_zero, ← hv, hn, Nat.sub_zero]
            apply List.map_congr_left
            intro i _
            congr 1
            · funext k
              congr 1
              omega
            · funext k
              congr 1
              omega

theorem le32_drop (d : Bytes) (a off : Nat) : le32 (d.drop a) off = le32 d (a + off) := by
  unfold le32
  simp only [List.getD_eq_getElem?_getD, List.getElem?_drop, Nat.add_assoc]

theorem le32_take (d : Bytes) (n off : Nat) (h : off + 4 ≤ n) :
    le32 (d.take n) off = le32 d off := by
  unfold le32
  simp only [List.getD_eq_getElem?_getD]
  rw [List.getElem?_take_of_lt (by omega), List.getElem?_take_of_lt (by omega),
    List.getElem?_take_of_lt (by omega), List.getElem?_take_of_lt (by omega)]

theorem le32_of_length_le (d : Bytes) (off : Nat) (h : d.length ≤ off) : le32 d off = 0 := by
  unfold le32
  simp only [List.getD_eq_getElem?_getD]
  rw [List.getElem?_eq_none (by omega), List.getElem?_eq_none (by omega),
    List.getElem?_eq_none (by omega), List.getElem?_eq_none (by omega)]
  rfl

theorem recordSpec_congr (bs : Nat) (sw sw' bw bw' : Nat → Nat) (i : Nat)
    (hs : ∀ k, k ≤ i → sw k = sw' k) (hb : ∀ k, bw k = bw' k) :
    recordSpec bs sw bw i = recordSpec bs sw' bw' i := by
  unfold recordSpec
  have hsum : (List.range i).map (fun k => ceilDiv (normSize (sw k)) bs)
      = (List.range i).map (fun k => ceilDiv (normSize (sw' k)) bs) := by
    apply List.map_congr_left
    intro k hk
    rw [hs k (by have := List.mem_range.mp hk; omega)]
  rw [hs i (Nat.le_refl i), hsum]
  simp only [PDBStreamInfo.mk.injEq, true_and]
  apply List.map_congr_left
  intro j _
  exact hb _

theorem readStreams_nil_sizes (bs n : Nat) (bi : ImmutableStream) :
    ParseStreamDirectory.readStreams bs (n + 1) (ImmutableStream.ofBytes []) bi = none := by
  simp [ParseStreamDirectory.readStreams, ImmutableStream.Read32, ImmutableStream.Peek32,
    ImmutableStream.ofBytes, ImmutableStream.m_Length]

/-- The parse of a directory payload, for a block size that divides `2^32`: the records
are those the specification reads off the payload. -/
theorem parseDirectory_spec (payload : Bytes) (bs : Nat) (hbs : bs ∣ 4294967296)
    (streams : List PDBStreamInfo)
    (h : ParseStreamDirectory.parseDirectory payload bs = some streams) :
    streams = directorySpec payload bs := by
  unfold ParseStreamDirectory.parseDirectory at h
  simp only [ImmutableStream.PeekAtOffset32, ImmutableStream.ofBytes,
    ImmutableStream.m_Length] at h
  by_cases hlen : 0 > payload.length ∨ 0 + 4 > payload.length
  · rw [if_pos hlen] at h; simp at h
  · rw [if_neg hlen] at h
    simp only at h
    unfold directorySpec
    generalize hN : le32 payload 0 = N at h ⊢
    cases N with
    | zero =>
      simp [ParseStreamDirectory.readStreams] at h
      simp [h]
    | succ n =>
      simp only [ImmutableStream.GetStreamAtOffset, ImmutableStream.ofBytes,
        ImmutableStream.CanReadAt, ImmutableStream.m_Length, ImmutableStream.span] at h
      by_cases hs : 4 * (n + 1) ≠ 0 ∧
          (decide (4 < payload.length) && decide (4 + 4 * (n + 1) ≤ payload.length)) = true
      · have h0 : ¬ (4 * (n + 1) = 0 ∧
            (decide (4 < payload.length) && decide (4 + 0 ≤ payload.length)) = true) := by
          omega
        rw [if_neg h0, if_pos hs] at h
        have hs2 : 4 + 4 * (n + 1) ≤ payload.length := by
          have := hs.2
          simp only [Bool.and_eq_true, decide_eq_true_eq] at this
          exact this.2
        have hspec := readStreams_spec bs hbs (n + 1) _ _ streams h
        rw [hspec]
        apply List.map_congr_left
        intro i hi
        have hi' : i < n + 1 := List.mem_range.mp hi
        apply recordSpec_congr
        · intro k hk
          simp only [Nat.zero_add]
          rw [le32_take _ _ _ (by omega), le32_drop]
        · intro k
          by_cases hb : 4 + 4 * (n + 1) < payload.length
          · have e : True ∧
                (decide (4 + 4 * (n + 1) < payload.length)
                  && decide (4 + 4 * (n + 1) + 0 ≤ payload.length)) = true := by
              simp only [Bool.and_eq_true, decide_eq_true_eq, true_and]
              omega
            rw [if_pos e]
            simp only [Nat.zero_add]
            rw [le32_drop]
          · have e1 : ¬ (True ∧
                (decide (4 + 4 * (n + 1) < payload.length)
                  && decide (4 + 4 * (n + 1) + 0 ≤ payload.length)) = true) := by
              simp only [Bool.and_eq_true, decide_eq_true_eq, true_and]
              omega
            have e2 : ¬ ((0 : Nat) ≠ 0 ∧
                (decide (4 + 4 * (n + 1) < payload.length)
                  && decide (4 + 4 * (n + 1) + 0 ≤ payload.length)) = true) := by
              simp
            rw [if_neg e1, if_neg e2]
            rw [le32_of_length_le [] _ (by simp), le32_of_length_le payload _ (by omega)]
      · have h0 : ¬ (4 * (n + 1) = 0 ∧
            (decide (4 < payload.length) && decide (4 + 0 ≤ payload.length)) = true) := by
          omega
        rw [if_neg h0, if_neg hs] at h
        have := readStreams_nil_sizes bs n
        simp only [ImmutableStream.ofBytes] at this
        rw [this] at h
        simp at h

theorem ParseStreamDirectory_eq_directorySpec (pdbFileStream : ImmutableStream)
    (pdbSuperblock : PDBSuperBlock) (streams : List PDBStreamInfo)
    (hbs : pdbSuperblock.m_BlockSize ∣ 4294967296)
    (h : ParseStreamDirectory pdbFileStream pdbSuperblock = some streams) :
    ∃ payload, ParseStreamDirectory.directoryData pdbFileStream pdbSuperblock = some payload
      ∧ streams = directorySpec payload pdbSuperblock.m_BlockSize := by
  unfold ParseStreamDirectory at h
  cases hd : ParseStreamDirectory.directoryData pdbFileStream pdbSuperblock with
  | none => rw [hd] at h; simp at h
  | some payload =>
    rw [hd] at h
    exact ⟨payload, rfl, parseDirectory_spec payload _ hbs streams h⟩

/-- C3 (amended). For every PDB whose block size divides `2^32` (every power of two, so
every valid block size) and on which `ParseStreamDirectory` succeeds: the result has
exactly `N` records, `N` the first 32-bit word of the directory payload; record `i` has
the size of the `i`-th size word, 0 when that word is `0xFFFFFFFF`; and its block list is
the `ceil(size_i/bs)` consecutive words of the block-index area that follow the words of
streams `0 .. i-1`. -/
theorem ParseStreamDirectory_records (pdbFileStream : ImmutableStream)
    (pdbSuperblock : PDBSuperBlock) (streams : List PDBStreamInfo)
    (hbs : pdbSuperblock.m_BlockSize ∣ 4294967296)
    (h : ParseStreamDirectory pdbFileStream pdbSuperblock = some streams) :
    ∃ payload, ParseStreamDirectory.directoryData pdbFileStream pdbSuperblock = some payload
      ∧ streams.length = le32 payload 0
      ∧ ∀ i, i < le32 payload 0 →
          streams[i]? = some
            (recordSpec pdbSuperblock.m_BlockSize (fun k => le32 payload (4 + 4 * k))
              (fun k => le32 payload (4 + 4 * le32 payload 0 + 4 * k)) i) := by
  obtain ⟨payload, hp, hs⟩ :=
    ParseStreamDirectory_eq_directorySpec pdbFileStream pdbSuperblock streams hbs h
  refine ⟨payload, hp, ?_, ?_⟩
  · rw [hs]; simp [directorySpec]
  · intro i hi
    rw [hs]
    unfold directorySpec
    rw [List.getElem?_map, List.getElem?_range hi]
    rfl

/-- C3, witness: the two records of `tinyPdb`. -/
theorem ParseStreamDirectory_records_witness :
    512 ∣ 4294967296
    ∧ ParseStreamDirectory (ImmutableStream.ofBytes tinyPdb) tinySuperBlock
        = some [{ m_StreamSize := 5, m_StreamBlockIndices := [3] },
                { m_StreamSize := 0, m_StreamBlockIndices := [] }]
    ∧ ∃ payload,
        ParseStreamDirectory.directoryData (ImmutableStream.ofBytes tinyPdb) tinySuperBlock
          = some payload
        ∧ [({ m_StreamSize := 5, m_StreamBlockIndices := [3] } : PDBStreamInfo),
            { m_StreamSize := 0, m_StreamBlockIndices := [] }].length = le32 payload 0
        ∧ ∀ i, i < le32 payload 0 →
          [({ m_StreamSize := 5, m_StreamBlockIndices := [3] } : PDBStreamInfo),
            { m_StreamSize := 0, m_StreamBlockIndices := [] }][i]? = some
            (recordSpec tinySuperBlock.m_BlockSize (fun k => le32 payload (4 + 4 * k))
              (fun k => le32 payload (4 + 4 * le32 payload 0 + 4 * k)) i) :=
  ⟨by decide, by decide!,
    ParseStreamDirectory_records (ImmutableStream.ofBytes tinyPdb) tinySuperBlock _
      (by decide) (by decide!)⟩

/-- C3, counterexample: on `oddBlockSizePdb` (block size `0x60000001`, one stream of
size `0xD0000000`) the parse succeeds with five block words, the 32-bit loop counter
having wrapped once, while `ceil(size/bs) = 3` words make the record of the
specification. -/
theorem ParseStreamDirectory_overreads :
    readSuperBlock oddBlockSizePdb = some oddSuperBlock
    ∧ ParseStreamDirectory (ImmutableStream.ofBytes oddBlockSizePdb) oddSuperBlock
        = some [{ m_StreamSize := 3489660928, m_StreamBlockIndices := [7, 8, 9, 10, 11] }]
    ∧ (ParseStreamDirectory.directoryData (ImmutableStream.ofBytes oddBlockSizePdb)
          oddSuperBlock).map (fun payload => directorySpec payload 1610612737)
        = some [{ m_StreamSize := 3489660928, m_StreamBlockIndices := [7, 8, 9] }] := by
  decide!

/-- C4 (amended). For every PDB whose block size divides `2^32` (every valid block
size), every stream record returned by a successful `ParseStreamDirectory` has
`ceil(size/bs)` block indices when `size > 0` and none when `size = 0`, for every
input, stream sizes within one block of `2^32` included. -/
theorem ParseStreamDirectory_block_count (pdbFileStream : ImmutableStream)
    (pdbSuperblock : PDBSuperBlock) (streams : List PDBStreamInfo)
    (hbs : pdbSuperblock.m_BlockSize ∣ 4294967296)
    (h : ParseStreamDirectory pdbFileStream pdbSuperblock = some streams) :
    ∀ r ∈ streams,
      (0 < r.m_StreamSize →
        r.m_StreamBlockIndices.length = ceilDiv r.m_StreamSize pdbSuperblock.m_BlockSize)
      ∧ (r.m_StreamSize = 0 → r.m_StreamBlockIndices.length = 0) := by
  obtain ⟨payload, _, hs⟩ :=
    ParseStreamDirectory_eq_directorySpec pdbFileStream pdbSuperblock streams hbs h
  intro r hr
  rw [hs] at hr
  unfold directorySpec at hr
  obtain ⟨i, _, hi⟩ := List.mem_map.mp hr
  have hlen : r.m_StreamBlockIndices.length
      = ceilDiv r.m_StreamSize pdbSuperblock.m_BlockSize := by
    rw [← hi]
    simp [recordSpec]
  refine ⟨fun _ => hlen, fun h0 => ?_⟩
  rw [hlen, h0, ceilDiv_zero]

/-- C4, witness: the records of `tinyPdb`. -/
theorem ParseStreamDirectory_block_count_witness :
    512 ∣ 4294967296
    ∧ ParseStreamDirectory (ImmutableStream.ofBytes tinyPdb) tinySuperBlock
        = some [{ m_StreamSize := 5, m_StreamBlockIndices := [3] },
                { m_StreamSize := 0, m_StreamBlockIndices := [] }]
    ∧ ∀ r ∈ [({ m_StreamSize := 5, m_StreamBlockIndices := [3] } : PDBStreamInfo),
              { m_StreamSize := 0, m_StreamBlockIndices := [] }],
        (0 < r.m_StreamSize →
          r.m_StreamBlockIndices.length = ceilDiv r.m_StreamSize tinySuperBlock.m_BlockSize)
        ∧ (r.m_StreamSize = 0 → r.m_StreamBlockIndices.length = 0) :=
  ⟨by decide, by decide!,
    ParseStreamDirectory_block_count (ImmutableStream.ofBytes tinyPdb) tinySuperBlock _
      (by decide) (by decide!)⟩

/-- C4, counterexample: the record parsed from `oddBlockSizePdb` has size `0xD0000000`
and five block indices, and `ceil(0xD0000000 / 0x60000001) = 3`. -/
theorem ParseStreamDirectory_block_count_fails :
    ¬ (∀ streams : List PDBStreamInfo,
        ParseStreamDirectory (ImmutableStream.ofBytes oddBlockSizePdb) oddSuperBlock
            = some streams →
        ∀ r ∈ streams,
          (0 < r.m_StreamSize →
            r.m_StreamBlockIndices.length = ceilDiv r.m_StreamSize oddSuperBlock.m_BlockSize)
          ∧ (r.m_StreamSize = 0 → r.m_StreamBlockIndices.length = 0)) := by
  intro hall
  have hparse : ParseStreamDirectory (ImmutableStream.ofBytes oddBlockSizePdb) oddSuperBlock
      = some [{ m_StreamSize := 3489660928, m_StreamBlockIndices := [7, 8, 9, 10, 11] }] := by
    decide!
  have h := (hall _ hparse _ (List.mem_singleton.mpr rfl)).1 (by decide)
  revert h
  decide

/-! ### The fragment writer on inputs where 32-bit arithmetic wraps -/

theorem SetChunkIndex_zero : MsfzFragment.SetChunkIndex 0 = 2147483648 := by decide

theorem length_MsfzChunk_toBytes (c : MsfzChunk) : c.toBytes.length = 20 := by
  simp [MsfzChunk.toBytes, toLe32]

theorem length_zeroFile (len : Nat) : (zeroFile len).length = len := List.length_replicate _ _

theorem is_sorted_range' (n a : Nat) : is_sorted (List.range' a n) = true := by
  induction n generalizing a with
  | zero => rfl
  | succ n ih =>
    cases n with
    | zero => rfl
    | succ m =>
      have := ih (a + 1)
      simp only [List.range'_succ] at this ⊢
      simp only [is_sorted, this, Bool.and_true, decide_eq_true_eq]
      omega

theorem coalesce_range' (len size a n bs : Nat) (hn : 0 < n) (ha : a + n ≤ 4294967296)
    (hoff : bs * a < 4294967296) (h1 : bs * a < len) (h2 : bs * a + size ≤ len) :
    CoalesceDataFromStream (ImmutableStream.ofBytes (zeroFile len))
      { m_StreamSize := size, m_StreamBlockIndices := List.range' a n } bs
      = some (zeroFile size) := by
  obtain ⟨m, rfl⟩ : ∃ m, n = m + 1 := ⟨n - 1, by omega⟩
  unfold CoalesceDataFromStream zeroFile
  simp only [List.head?_range', List.getLast?_range']
  simp [is_sorted_range', ImmutableStream.CanReadAt, ImmutableStream.ofBytes, ImmutableStream.m_Length,
    ImmutableStream.span, Nat.mod_eq_of_lt hoff, h1, h2]
  have hc : (a + m + 4294967296 - a) % 4294967296 ≤ m + 1 := by omega
  rw [if_pos hc]
  congr
  omega

theorem wrap_loop (data : Bytes) (hlen : data.length = 3489660928) (file : ImmutableStream)
    (info : PDBStreamInfo) :
    WriteSingleStreamData.run storeCodec file info 4096 80 wrapArgs 11 wrapShared
        { state := .loopHead data 1610612737 0, m_Fragments := [] }
      = .finished (wrapShared, { state := .done, m_Fragments :=
          [⟨1610612737, 0, 2147483648⟩, ⟨1610612737, 0, 2147483648⟩, ⟨268435454, 0, 2147483648⟩,
           ⟨1610612737, 0, 2147483648⟩, ⟨1342177276, 0, 2147483648⟩] }) := by
  simp [WriteSingleStreamData.run, WriteSingleStreamData.step, WriteSingleStreamData.reserveSlot,
    WriteSingleStreamData.writeChunk, WriteSingleStreamData.payload, wrapShared, wrapArgs, hlen,
    MutableStreamFixed.GetRegionSubstreamForWriting, MutableStreamFixed.WriteBytes,
    MutableStreamFixed.null, StrictCastTo32, storeCodec, SetChunkIndex_zero, length_MsfzChunk_toBytes]

theorem wrap_run_gen (file : ImmutableStream) (info : PDBStreamInfo) (data : Bytes)
    (hsz : info.m_StreamSize = 3489660928)
    (hco : CoalesceDataFromStream file info 4096 = some data)
    (hlen : data.length = 3489660928) :
    WriteSingleStreamData storeCodec file info 4096 80 wrapArgs 12 wrapShared
      = .finished (wrapShared,
          [⟨1610612737, 0, 2147483648⟩, ⟨1610612737, 0, 2147483648⟩, ⟨268435454, 0, 2147483648⟩,
           ⟨1610612737, 0, 2147483648⟩, ⟨1342177276, 0, 2147483648⟩]) := by
  have hf : GetFragmentSizeForStream 3489660928 wrapArgs = 1610612737 := by decide
  unfold WriteSingleStreamData
  rw [WriteSingleStreamData.run]
  simp only [WriteSingleStreamData.step, hsz, hco, hlen, StrictCastTo32, hf]
  simp only [Nat.reduceLT, Nat.reduceGT, if_true, if_false, reduceCtorEq]
  rw [hf, wrap_loop data hlen]

theorem wrap_run :
    WriteSingleStreamData storeCodec (ImmutableStream.ofBytes (zeroFile 3489673216)) wrapInfo
        4096 80 wrapArgs 12 wrapShared
      = .finished (wrapShared,
          [⟨1610612737, 0, 2147483648⟩, ⟨1610612737, 0, 2147483648⟩, ⟨268435454, 0, 2147483648⟩,
           ⟨1610612737, 0, 2147483648⟩, ⟨1342177276, 0, 2147483648⟩]) :=
  wrap_run_gen _ wrapInfo (zeroFile 3489660928) rfl
    (coalesce_range' 3489673216 3489660928 3 851968 4096 (by norm_num) (by norm_num)
      (by norm_num) (by norm_num) (by norm_num))
    (length_zeroFile _)
theorem big_sizes (codec : Codec) (info : PDBStreamInfo) (hsz : info.m_StreamSize = 2147483649) :
    CalculateOutputRegionSizes codec [info] noCompressionArgs = some (4, 0, 2147483649) := by
  have hf : GetFragmentSizeForStream 2147483649 noCompressionArgs = 2147483649 := by decide
  have ha : AlignTo 2147483649 2147483649 = 0 := by decide
  have hs : noCompressionArgs.m_CompressionStrategy = .NoCompression := rfl
  simp only [CalculateOutputRegionSizes, List.foldlM, hsz, hf, ha, hs]
  simp [ha]

theorem big_schedule (file : ImmutableStream) (info : PDBStreamInfo) (data : Bytes) (out : Bytes)
    (hsz : info.m_StreamSize = 2147483649)
    (hco : CoalesceDataFromStream file info 4096 = some data)
    (hlen : data.length = 2147483649) :
    CompressAndWriteStreamData.runSchedule storeCodec file [info] noCompressionArgs 4096 80 [0, 0, 0, 0]
      { out := out,
        outChunkMetadataStream := { m_Data := some 80, m_Size := 2147483653, m_Offset := 0 },
        outChunkDataStream := { m_Data := some 80, m_Size := 2147483649, m_Offset := 0 } }
      [{ state := .start, m_Fragments := [] }]
    = some ({ out := writeAt (writeAt out 80 data) 80
                (MsfzChunk.toBytes ⟨80, 0, 0, 2147483649, 2147483649⟩),
              outChunkMetadataStream := { m_Data := some 80, m_Size := 2147483653, m_Offset := 20 },
              outChunkDataStream := { m_Data := some 80, m_Size := 2147483649, m_Offset := 2147483649 } },
            [{ state := .done, m_Fragments := [⟨2147483649, 0, 2147483648⟩] }]) := by
  have hf : GetFragmentSizeForStream 2147483649 noCompressionArgs = 2147483649 := by decide
  have hs : noCompressionArgs.m_CompressionStrategy = .NoCompression := rfl
  have htake : List.take 2147483649 data = data := List.take_of_length_le (by omega)
  simp [CompressAndWriteStreamData.runSchedule,
    WriteSingleStreamData.step, WriteSingleStreamData.reserveSlot,
    WriteSingleStreamData.writeChunk, WriteSingleStreamData.payload, hco, hf, hsz, hlen, hs, htake,
    MutableStreamFixed.GetRegionSubstreamForWriting, MutableStreamFixed.WriteBytes,
    MutableStreamFixed.null, StrictCastTo32, SetChunkIndex_zero, length_MsfzChunk_toBytes]

theorem length_writeAt (out : Bytes) (pos : Nat) (data : Bytes)
    (h : pos + data.length ≤ out.length) : (writeAt out pos data).length = out.length := by
  unfold writeAt
  simp only [List.length_append, List.length_take, List.length_drop]
  omega

theorem getD_writeAt_inside (out : Bytes) (pos : Nat) (data : Bytes) (i d : Nat)
    (hpos : pos ≤ out.length) (h1 : pos ≤ i) (h2 : i < pos + data.length) :
    (writeAt out pos data).getD i d = data.getD (i - pos) d := by
  unfold writeAt
  simp only [List.getD_eq_getElem?_getD, List.append_assoc]
  rw [List.getElem?_append_right (by simp; omega)]
  rw [List.getElem?_append_left (by simp; omega)]
  simp [Nat.min_eq_left hpos]

theorem getD_writeAt_before (out : Bytes) (pos : Nat) (data : Bytes) (i d : Nat)
    (hpos : pos ≤ out.length) (h : i < pos) :
    (writeAt out pos data).getD i d = out.getD i d := by
  unfold writeAt
  simp only [List.getD_eq_getElem?_getD, List.append_assoc]
  rw [List.getElem?_append_left (by simp; omega)]
  rw [List.getElem?_take_of_lt h]

theorem getD_writeAt_after (out : Bytes) (pos : Nat) (data : Bytes) (i d : Nat)
    (hpos : pos + data.length ≤ out.length) (h : pos + data.length ≤ i) :
    (writeAt out pos data).getD i d = out.getD i d := by
  unfold writeAt
  simp only [List.getD_eq_getElem?_getD, List.append_assoc]
  rw [List.getElem?_append_right (by simp; omega)]
  rw [List.getElem?_append_right (by simp; omega)]
  simp only [List.length_take, List.getElem?_drop]
  congr 2
  omega
theorem length_MsfzHeader_toBytes (h : MsfzHeader) : h.toBytes.length = 80 := by
  simp [MsfzHeader.toBytes, toLe32, g_MsfzSignatureBytes]

theorem big_compress (file : ImmutableStream) (info : PDBStreamInfo) (data : Bytes) (out : Bytes)
    (hsz : info.m_StreamSize = 2147483649)
    (hco : CoalesceDataFromStream file info 4096 = some data)
    (hlen : data.length = 2147483649) :
    CompressAndWriteStreamData storeCodec file [info] noCompressionArgs 4096 80 1 [0, 0, 0, 0]
      { out := out,
        outChunkMetadataStream := { m_Data := some 80, m_Size := 2147483653, m_Offset := 0 },
        outChunkDataStream := { m_Data := some 80, m_Size := 2147483649, m_Offset := 0 } }
    = .finished
        { sh := { out := writeAt (writeAt out 80 data) 80
                    (MsfzChunk.toBytes ⟨80, 0, 0, 2147483649, 2147483649⟩),
                  outChunkMetadataStream := { m_Data := some 80, m_Size := 2147483653, m_Offset := 20 },
                  outChunkDataStream := { m_Data := some 80, m_Size := 2147483649, m_Offset := 2147483649 } },
          streamDescriptors := [[⟨2147483649, 0, 2147483648⟩]],
          directoryData := [1, 0, 0, 128, 0, 0, 0, 0, 0, 0, 0, 128, 0, 0, 0, 0],
          m_NumMSFStreams := 1,
          m_IsStreamDirectoryDataCompressed := 0 } := by
  have hs : noCompressionArgs.m_CompressionStrategy = .NoCompression := rfl
  have hsched := big_schedule file info data out hsz hco hlen
  have hdir : serializeDirectory [[(⟨2147483649, 0, 2147483648⟩ : MsfzFragment)]]
      = [1, 0, 0, 128, 0, 0, 0, 0, 0, 0, 0, 128, 0, 0, 0, 0] := by decide
  unfold CompressAndWriteStreamData
  simp only [List.length_singleton, StrictCastTo32, List.replicate_one, Nat.one_ne_zero, if_false]
  rw [hsched]
  simp only [hs, hdir, List.all_cons, List.all_nil, decide_True, Bool.and_self, if_true, List.map_cons,
    List.map_nil, ne_eq, not_true_eq_false, if_false, Nat.one_lt_ofNat, or_true]

theorem big_finalize (out : Bytes) (descs : List (List MsfzFragment)) :
    RunCompression.finalize 2147483733 80 4 0 out 2147483649
        [1, 0, 0, 128, 0, 0, 0, 0, 0, 0, 0, 128, 0, 0, 0, 0] 1 0 descs
      = .finished { file := resizeFile (writeAt out 0 bigHeader.toBytes) 2147483745,
                    header := bigHeader, streamDescriptors := descs } := by
  have h1 : StrictCastTo32 2147483649 = some 2147483649 := by decide
  have h2 : StrictCastTo32 16 = some 16 := by decide
  unfold RunCompression.finalize
  simp only [List.length_cons, List.length_nil, Nat.reduceAdd, h1, h2]
  have h3 : MutableStreamFixed.GetStreamAtOffset ⟨some 0, 2147483733, 0⟩ 2147483729 16
      = MutableStreamFixed.null := by decide
  have h4 : MutableStreamFixed.GetStreamAtOffset ⟨some 0, 2147483733, 0⟩ 0 80 = ⟨some 0, 80, 0⟩ := by
    decide
  have h5 : (80 + 2147483649) % 4294967296 = 2147483729 := by norm_num
  simp only [h5, h3, h4]
  have hl : bigHeader.toBytes.length = 80 := length_MsfzHeader_toBytes _
  have hw1 : (MutableStreamFixed.null.WriteBytes out
      [1, 0, 0, 128, 0, 0, 0, 0, 0, 0, 0, 128, 0, 0, 0, 0]).2.2 = out := by
    simp [MutableStreamFixed.WriteBytes, MutableStreamFixed.null]
  have hw2 : ((⟨some 0, 80, 0⟩ : MutableStreamFixed).WriteBytes out bigHeader.toBytes).2.2
      = writeAt out 0 bigHeader.toBytes := by
    simp [MutableStreamFixed.WriteBytes, hl]
  rw [hw1]
  exact congrArg
    (fun f => Run.finished (CompressionOutput.mk (resizeFile f 2147483745) bigHeader descs)) hw2

theorem big_convert_gen (file : ImmutableStream) (info : PDBStreamInfo) (data : Bytes)
    (sb : PDBSuperBlock) (hbs : sb.m_BlockSize = 4096) (hsz : info.m_StreamSize = 2147483649)
    (hco : CoalesceDataFromStream file info 4096 = some data) (hlen : data.length = 2147483649) :
    RunCompression.convert storeCodec noCompressionArgs file sb [info] 1 [0, 0, 0, 0]
      = .finished
          { file := resizeFile (writeAt (writeAt (writeAt (zeroFile 2147483733) 80 data) 80
                      (MsfzChunk.toBytes ⟨80, 0, 0, 2147483649, 2147483649⟩)) 0
                      bigHeader.toBytes) 2147483745,
            header := bigHeader, streamDescriptors := [[⟨2147483649, 0, 2147483648⟩]] } := by
  rw [RunCompression.convert, big_sizes storeCodec info hsz]
  simp only [Nat.reduceAdd]
  have hz : List.replicate 2147483733 0 = zeroFile 2147483733 := rfl
  rw [hz]
  have hcomp := big_compress file info data (zeroFile 2147483733) hsz hco hlen
  have h1 : MutableStreamFixed.GetStreamAtOffset ⟨some 0, 2147483733, 0⟩ 80 0
      = ⟨some 80, 2147483653, 0⟩ := by decide
  have h2 : MutableStreamFixed.GetStreamAtOffset ⟨some 0, 2147483733, 0⟩ 80 2147483649
      = ⟨some 80, 2147483649, 0⟩ := by decide
  have h3 : 80 % 4294967296 = 80 := by norm_num
  rw [h3, h1, h2, hbs, hcomp]
  simp only []
  exact big_finalize _ _

theorem getD_resizeFile (content : Bytes) (n i : Nat) (hi : i < n) (hc : i < content.length) :
    (resizeFile content n).getD i 0 = content.getD i 0 := by
  unfold resizeFile
  simp only [List.getD_eq_getElem?_getD]
  rw [List.getElem?_append_left (by simp; omega), List.getElem?_take_of_lt hi]

theorem wrap_sizes (codec : Codec) (info : PDBStreamInfo) (hsz : info.m_StreamSize = 3489660928)
    (hb : codec.compressBound 1610612737 < 4294967296) :
    CalculateOutputRegionSizes codec [info] wrapArgs = some (4, 0, 0) := by
  have hf : GetFragmentSizeForStream 3489660928 wrapArgs = 1610612737 := by decide
  have ha : AlignTo 3489660928 1610612737 = 0 := by decide
  have hs : wrapArgs.m_CompressionStrategy = .MultiFragment := rfl
  have h0 : (3489660928 : Nat) ≠ 0 := by norm_num
  simp only [CalculateOutputRegionSizes, List.foldlM, hsz, hf, hs, StrictCastTo32, if_pos h0,
    if_pos hb, ha]
  simp

theorem big_convert :
    RunCompression.convert storeCodec noCompressionArgs
        (ImmutableStream.ofBytes (zeroFile 2149605376)) bigSuperBlock [bigInfo] 1 [0, 0, 0, 0]
      = .finished
          { file := resizeFile (writeAt (writeAt (writeAt (zeroFile 2147483733) 80
                      (zeroFile 2147483649)) 80
                      (MsfzChunk.toBytes ⟨80, 0, 0, 2147483649, 2147483649⟩)) 0
                      bigHeader.toBytes) 2147483745,
            header := bigHeader, streamDescriptors := [[⟨2147483649, 0, 2147483648⟩]] } :=
  big_convert_gen _ bigInfo (zeroFile 2147483649) bigSuperBlock rfl rfl
    (coalesce_range' 2149605376 2147483649 3 524289 4096 (by norm_num) (by norm_num)
      (by norm_num) (by norm_num) (by norm_num))
    (length_zeroFile _)

theorem big_file_byte (data : Bytes) (hlen : data.length = 2147483649) (i : Nat) (hi : i < 20) :
    (resizeFile (writeAt (writeAt (writeAt (zeroFile 2147483733) 80 data) 80
        (MsfzChunk.toBytes ⟨80, 0, 0, 2147483649, 2147483649⟩)) 0 bigHeader.toBytes)
        2147483745).getD (80 + i) 0
      = (MsfzChunk.toBytes ⟨80, 0, 0, 2147483649, 2147483649⟩).getD i 0 := by
  have hd : (MsfzChunk.toBytes ⟨80, 0, 0, 2147483649, 2147483649⟩).length = 20 :=
    length_MsfzChunk_toBytes _
  have hh : bigHeader.toBytes.length = 80 := length_MsfzHeader_toBytes _
  have h1 : (writeAt (zeroFile 2147483733) 80 data).length = 2147483733 := by
    rw [length_writeAt _ _ _ (by rw [length_zeroFile]; omega), length_zeroFile]
  have h2 : (writeAt (writeAt (zeroFile 2147483733) 80 data) 80
      (MsfzChunk.toBytes ⟨80, 0, 0, 2147483649, 2147483649⟩)).length = 2147483733 := by
    rw [length_writeAt _ _ _ (by rw [h1]; omega), h1]
  have h3 : (writeAt (writeAt (writeAt (zeroFile 2147483733) 80 data) 80
      (MsfzChunk.toBytes ⟨80, 0, 0, 2147483649, 2147483649⟩)) 0 bigHeader.toBytes).length
      = 2147483733 := by
    rw [length_writeAt _ _ _ (by rw [h2]; omega), h2]
  rw [getD_resizeFile _ _ _ (by omega) (by rw [h3]; omega),
    getD_writeAt_after _ _ _ _ _ (by rw [h2]; omega) (by omega),
    getD_writeAt_inside _ _ _ _ _ (by rw [h1]; omega) (by omega) (by omega)]
  congr 1
  omega

theorem getD_zeroFile (len i : Nat) : (zeroFile len).getD i 0 = 0 := by
  unfold zeroFile
  rw [List.getD_eq_getElem?_getD, List.getElem?_replicate]
  split <;> rfl

/-! ### Claims C7 to C10 on the wrapping inputs -/

/-- C7, evaluated where it fails. The stream `wrapInfo` has `0xD0000000` bytes; under
`MultiFragment` with fixed size `0x60000001` and cap 3 the chosen fragment size is
`0x60000001`. The loop counter `dataOffset` of `WriteSingleStreamData` wraps past `2^32`
and re-enters the stream, so the call pushes 5 fragments, more than the cap of 3, and the
third fragment, which is not the final one, is smaller than the chosen fragment size. -/
theorem WriteSingleStreamData_exceeds_fragment_budget :
    ∃ sh frags,
      WriteSingleStreamData storeCodec (ImmutableStream.ofBytes (zeroFile 3489673216)) wrapInfo
          4096 80 wrapArgs 12 wrapShared = .finished (sh, frags) ∧
      wrapArgs.m_MaxFragmentsPerStream = 3 ∧
      frags.length = 5 ∧
      GetFragmentSizeForStream wrapInfo.m_StreamSize wrapArgs = 1610612737 ∧
      frags.map (fun f => f.m_DataSize)
        = [1610612737, 1610612737, 268435454, 1610612737, 1342177276] := by
  refine ⟨_, _, wrap_run, ?_, ?_, ?_, ?_⟩ <;> decide

/-- C8, evaluated where it fails. For the stream `wrapInfo` of `s = 0xD0000000` bytes and
chosen fragment size `f = 0x60000001`, `WriteSingleStreamData` does not push
`ceil(s/f) = 3` fragments whose sizes sum to `s`: it pushes 5, and their sizes sum to
`6442450941`. -/
theorem WriteSingleStreamData_fragment_sizes_wrap :
    ∃ sh frags,
      WriteSingleStreamData storeCodec (ImmutableStream.ofBytes (zeroFile 3489673216)) wrapInfo
          4096 80 wrapArgs 12 wrapShared = .finished (sh, frags) ∧
      ceilDiv wrapInfo.m_StreamSize (GetFragmentSizeForStream wrapInfo.m_StreamSize wrapArgs) = 3 ∧
      frags.length ≠
        ceilDiv wrapInfo.m_StreamSize (GetFragmentSizeForStream wrapInfo.m_StreamSize wrapArgs) ∧
      (frags.map (fun f => f.m_DataSize)).sum = 6442450941 ∧
      (frags.map (fun f => f.m_DataSize)).sum ≠ wrapInfo.m_StreamSize := by
  refine ⟨_, _, wrap_run, ?_, ?_, ?_, ?_⟩ <;> decide

/-- C9, evaluated where it fails. For one stream of `0x80000001` zero bytes under
`NoCompression` the sizing pass counts no chunk descriptor, so the chunk-data region
starts at offset 80, where the chunk table starts. The writer emits one fragment with
chunk index 0; the 20 bytes of its descriptor (whose `offsetToChunkData` is 80) are
stored at offsets 80 to 99 of the file, over the first 20 payload bytes: the byte at
`offsetToChunkData` is 80, the first source byte is 0. -/
theorem RunCompression_descriptor_overwrites_payload :
    ∃ out data,
      RunCompression.convert storeCodec noCompressionArgs
          (ImmutableStream.ofBytes (zeroFile 2149605376)) bigSuperBlock [bigInfo] 1 [0, 0, 0, 0]
        = .finished out ∧
      CoalesceDataFromStream (ImmutableStream.ofBytes (zeroFile 2149605376)) bigInfo 4096
        = some data ∧
      out.streamDescriptors = [[⟨2147483649, 0, 2147483648⟩]] ∧
      out.header.m_ChunkMetadataOffset = 80 ∧
      (∀ i : Fin 20, out.file.getD (80 + i.val) 0
        = (MsfzChunk.toBytes ⟨80, 0, 0, 2147483649, 2147483649⟩).getD i.val 0) ∧
      out.file.getD 80 0 = 80 ∧
      data.getD 0 0 = 0 :=
  ⟨_, _, big_convert,
    coalesce_range' 2149605376 2147483649 3 524289 4096 (by norm_num) (by norm_num)
      (by norm_num) (by norm_num) (by norm_num),
    rfl, rfl, fun i => big_file_byte _ (length_zeroFile _) i.val i.isLt,
    big_file_byte _ (length_zeroFile _) 0 (by norm_num), getD_zeroFile _ _⟩

/-- C10, evaluated where it fails. For one stream of `0x80000001` bytes under
`NoCompression` the header the writer emits has `numChunks = 0`, while the only fragment
descriptor of the stream carries chunk index 0, which is not below `numChunks`. -/
theorem RunCompression_chunk_index_not_below_numChunks :
    ∃ out fragment,
      RunCompression.convert storeCodec noCompressionArgs
          (ImmutableStream.ofBytes (zeroFile 2149605376)) bigSuperBlock [bigInfo] 1 [0, 0, 0, 0]
        = .finished out ∧
      out.streamDescriptors = [[fragment]] ∧
      out.header.m_NumChunks = 0 ∧
      fragment.GetChunkIndex = 0 ∧
      ¬ fragment.GetChunkIndex < out.header.m_NumChunks :=
  ⟨_, _, big_convert, rfl, rfl, by decide, by decide⟩

/-! ### The round trip of the directory under `NoCompression` -/

theorem getElem?_writeAt (out : Bytes) (pos : Nat) (data : Bytes) (i : Nat)
    (h : pos + data.length ≤ out.length) :
    (writeAt out pos data)[i]? =
      if pos ≤ i ∧ i < pos + data.length then data[i - pos]? else out[i]? := by
  unfold writeAt
  by_cases h1 : i < pos
  · rw [if_neg (by omega), List.append_assoc, List.getElem?_append_left (by simp; omega),
      List.getElem?_take_of_lt h1]
  · by_cases h2 : i < pos + data.length
    · rw [if_pos ⟨by omega, h2⟩, List.append_assoc,
        List.getElem?_append_right (by simp; omega),
        List.getElem?_append_left (by simp; omega)]
      simp [Nat.min_eq_left (show pos ≤ out.length by omega)]
    · rw [if_neg (by omega), List.getElem?_append_right (by simp; omega)]
      simp only [List.length_append, List.length_take, List.getElem?_drop]
      congr 1
      omega

theorem writeAt_nil (out : Bytes) (pos : Nat) : writeAt out pos [] = out := by
  simp [writeAt]

theorem take_drop_writeAt_self (out : Bytes) (pos : Nat) (data : Bytes)
    (h : pos + data.length ≤ out.length) :
    ((writeAt out pos data).drop pos).take data.length = data := by
  apply List.ext_getElem?
  intro i
  rw [List.getElem?_take]
  split
  · rw [List.getElem?_drop, getElem?_writeAt _ _ _ _ h, if_pos (by omega)]
    congr 1
    omega
  · rw [List.getElem?_eq_none (by omega)]

theorem take_drop_writeAt_disjoint (out : Bytes) (pos : Nat) (data : Bytes) (off n : Nat)
    (h : pos + data.length ≤ out.length) (hd : off + n ≤ pos ∨ pos + data.length ≤ off) :
    ((writeAt out pos data).drop off).take n = (out.drop off).take n := by
  apply List.ext_getElem?
  intro i
  rw [List.getElem?_take, List.getElem?_take]
  split
  · rw [List.getElem?_drop, List.getElem?_drop, getElem?_writeAt _ _ _ _ h, if_neg (by omega)]
  · rfl

theorem sub64_add_left (a n : Nat) (h : a + n < 18446744073709551616) : sub64 (a + n) a = n := by
  unfold sub64 wrap64
  rw [Nat.mod_eq_of_lt (show a < 18446744073709551616 by omega)]
  omega

theorem memcpyTo_length (out : Bytes) (dst : Option Nat) (src : Bytes) (n : Nat) (out1 : Bytes)
    (h : memcpyTo out dst src n = some out1) : out1.length = out.length := by
  unfold memcpyTo at h
  split at h
  · cases h; rfl
  · cases dst with
    | none => cases h
    | some pos =>
      simp only at h
      split at h
      · cases h
      · cases h
        rename_i hc
        rw [length_writeAt]
        rw [List.length_take]
        omega

theorem copySpans_length (base : Option Nat) (spans : List (Nat × Nat)) (src out out1 : Bytes)
    (h : MutableStreamFixedWithHoles.copySpans base spans src out = some out1) :
    out1.length = out.length := by
  induction spans generalizing src out with
  | nil =>
    simp only [MutableStreamFixedWithHoles.copySpans] at h
    cases h; rfl
  | cons sp rest ih =>
    simp only [MutableStreamFixedWithHoles.copySpans] at h
    split at h
    · cases h
    · rename_i o2 hm
      rw [ih _ _ h, memcpyTo_length _ _ _ _ _ hm]

theorem WriteBytes_length (s s1 : MutableStreamFixedWithHoles) (out data out1 : Bytes) (b : Bool)
    (h : s.WriteBytes out data = some (b, s1, out1)) : out1.length = out.length := by
  unfold MutableStreamFixedWithHoles.WriteBytes at h
  simp only at h
  split at h
  · cases h
  · split at h
    · cases h; rfl
    · cases hc : MutableStreamFixedWithHoles.copySpans s.m_Data
          (MutableStreamFixedWithHoles.AdjustWriteSpans s.m_HoleOffsets s.m_Offset
            (s.m_Offset + data.length)) data out with
      | none => rw [hc] at h; cases h
      | some o =>
        rw [hc] at h
        simp only [Option.map_some', Option.some.injEq, Prod.mk.injEq] at h
        rw [← h.2.2]
        exact copySpans_length _ _ _ _ _ hc

theorem WriteBytes_noHoles (base size offset : Nat) (out data : Bytes)
    (hfit : offset + data.length ≤ size) (hin : base + size ≤ out.length)
    (h64 : out.length < 18446744073709551616) :
    MutableStreamFixedWithHoles.WriteBytes
        { m_Data := some base, m_Size := size, m_Offset := offset, m_HoleOffsets := [] } out data
      = some (true,
          { m_Data := some base, m_Size := size, m_Offset := offset + data.length,
            m_HoleOffsets := [] },
          writeAt out (base + offset) data) := by
  unfold MutableStreamFixedWithHoles.WriteBytes
  simp only [MutableStreamFixedWithHoles.AdjustWriteSpans,
    MutableStreamFixedWithHoles.AdjustOffset, List.foldl_nil, List.nil_append,
    List.getLast?_singleton]
  rw [if_neg (by omega)]
  simp only [MutableStreamFixedWithHoles.copySpans, Option.map_some']
  rw [sub64_add_left _ _ (by omega)]
  unfold memcpyTo
  by_cases h0 : data.length = 0
  · rw [if_pos h0]
    have : data = [] := List.length_eq_zero.mp h0
    subst this
    simp [writeAt_nil]
  · rw [if_neg h0]
    simp only [Option.map_some']
    rw [if_neg (by omega)]
    simp [List.take_length]

theorem AlignTo64_div (n bs : Nat) (hbs : 0 < bs) : AlignTo64 n bs / bs = ceilDiv n bs := by
  unfold AlignTo64 ceilDiv
  rw [Nat.mul_div_cancel _ hbs]
  congr 1
  omega

theorem ceilDiv_eq_one (x bs : Nat) (h1 : 1 ≤ x) (h2 : x ≤ bs) : ceilDiv x bs = 1 := by
  unfold ceilDiv
  have : x + bs - 1 = bs + (x - 1) := by omega
  rw [this]
  rw [Nat.add_div (by omega), Nat.div_self (by omega), Nat.div_eq_of_lt (by omega)]
  rw [Nat.mod_self, Nat.mod_eq_of_lt (by omega : x - 1 < bs)]
  simp
  omega

theorem addHoles_range (c bs : Nat) :
    ∀ (m k : Nat) (r : MutableStreamFixedWithHoles), c + k + m < 4294967296 →
      GetStreamFromBlockIndices.addHoles c bs (List.range' (c + k + 1) m) k r = r := by
  intro m
  induction m with
  | zero => intro k r _; rfl
  | succ m ih =>
    intro k r h
    simp only [List.range'_succ, GetStreamFromBlockIndices.addHoles]
    have h1 : (c + k + 1 + 4294967296 - c) % 4294967296 = k + 1 := by omega
    have h2 : (k + 1) % 4294967296 = k + 1 := by omega
    rw [h1, h2]
    simp only [ne_eq, not_true_eq_false, if_false]
    exact ih (k + 1) r (by omega)

theorem GetStreamFromBlockIndices_range (total bs c n : Nat) (hn : 1 ≤ n) (hbs : 1 ≤ bs)
    (hin : bs * (c + n) ≤ total) (hlt : bs * (c + n) < 4294967296) :
    GetStreamFromBlockIndices { m_Data := some 0, m_Size := total, m_Offset := 0 }
        (List.range' c n) bs
      = { m_Data := some (bs * c), m_Size := n * bs, m_Offset := 0, m_HoleOffsets := [] } := by
  obtain ⟨m, rfl⟩ : ∃ m, n = m + 1 := ⟨n - 1, by omega⟩
  have hcn : c + (m + 1) < 4294967296 := by
    have : c + (m + 1) ≤ bs * (c + (m + 1)) := Nat.le_mul_of_pos_left _ hbs
    omega
  have hexp : bs * (c + (m + 1)) = bs * c + (m + 1) * bs := by ring
  have hpos : 1 ≤ (m + 1) * bs := Nat.one_le_iff_ne_zero.mpr (Nat.mul_ne_zero (by omega) (by omega))
  unfold GetStreamFromBlockIndices
  simp only [List.head?_range', List.getLast?_range']
  rw [if_neg (by omega), if_neg (by omega)]
  simp only []
  have h1 : (c + (m + 1) - 1 + 4294967296 - c) % 4294967296 = m := by omega
  have h2 : (m + 1) % 4294967296 = m + 1 := by omega
  have h3 : (m + 1) * bs % 4294967296 = (m + 1) * bs := by omega
  have h4 : bs * c % 4294967296 = bs * c := by omega
  rw [h1, h2, h3, h4]
  simp only [List.range'_succ, List.tail_cons]
  rw [addHoles_range c bs m 0 _ (by omega)]
  have h0 : ¬ ((m + 1) * bs = 0) := by omega
  simp only [MutableStreamFixed.GetStreamAtOffset, h0, if_false]
  rw [if_neg (by omega)]
  simp [MutableStreamFixedWithHoles.ofFixed]

theorem length_toLe32 (v : Nat) : (toLe32 v).length = 4 := rfl

theorem wordsToBytes_cons (w : Nat) (ws : List Nat) :
    wordsToBytes (w :: ws) = toLe32 w ++ wordsToBytes ws := by
  simp [wordsToBytes]

theorem wordsToBytes_append (xs ys : List Nat) :
    wordsToBytes (xs ++ ys) = wordsToBytes xs ++ wordsToBytes ys := by
  simp [wordsToBytes]

theorem length_wordsToBytes (ws : List Nat) : (wordsToBytes ws).length = 4 * ws.length := by
  induction ws with
  | nil => rfl
  | cons w ws ih =>
    rw [wordsToBytes_cons, List.length_append, ih, length_toLe32, List.length_cons]
    omega

theorem length_PDBSuperBlock_toBytes (s : PDBSuperBlock) : s.toBytes.length = 52 := by
  simp [PDBSuperBlock.toBytes, g_PdbSignatureBytes, toLe32]

theorem ceilDiv_pos (x bs : Nat) (hx : 1 ≤ x) (hbs : 1 ≤ bs) : 1 ≤ ceilDiv x bs := by
  unfold ceilDiv
  exact (Nat.one_le_div_iff (by omega)).mpr (by omega)

theorem le_ceilDiv_mul (x bs : Nat) (hbs : 1 ≤ bs) : x ≤ ceilDiv x bs * bs := by
  unfold ceilDiv
  have h1 := Nat.div_add_mod (x + bs - 1) bs
  have h2 := Nat.mod_lt (x + bs - 1) (show bs > 0 by omega)
  have h3 : (x + bs - 1) / bs * bs = bs * ((x + bs - 1) / bs) := Nat.mul_comm _ _
  omega

theorem layered_reads (outS payload idx sbB sbIdx f : Bytes) (D E bs : Nat)
    (hsb : sbB.length = 52) (hf : f.length = bs) (h1 : 52 + sbIdx.length ≤ bs)
    (h2 : bs + bs ≤ D) (h3 : D + payload.length ≤ E) (h4 : E + idx.length ≤ outS.length)
    (pdb : Bytes)
    (hpdb : pdb = writeAt (writeAt (writeAt (writeAt (writeAt outS D payload) E idx) 0 sbB) 52
      sbIdx) bs f) :
    pdb.length = outS.length ∧ pdb.take 52 = sbB
      ∧ (pdb.drop 52).take sbIdx.length = sbIdx
      ∧ (pdb.drop E).take idx.length = idx
      ∧ (pdb.drop D).take payload.length = payload := by
  have l1 : (writeAt outS D payload).length = outS.length := length_writeAt _ _ _ (by omega)
  have l2 : (writeAt (writeAt outS D payload) E idx).length = outS.length := by
    rw [length_writeAt _ _ _ (by omega), l1]
  have l3 : (writeAt (writeAt (writeAt outS D payload) E idx) 0 sbB).length = outS.length := by
    rw [length_writeAt _ _ _ (by omega), l2]
  have l4 : (writeAt (writeAt (writeAt (writeAt outS D payload) E idx) 0 sbB) 52
      sbIdx).length = outS.length := by
    rw [length_writeAt _ _ _ (by omega), l3]
  subst hpdb
  refine ⟨by rw [length_writeAt _ _ _ (by omega), l4], ?_, ?_, ?_, ?_⟩
  · have := take_drop_writeAt_disjoint
      (writeAt (writeAt (writeAt (writeAt outS D payload) E idx) 0 sbB) 52 sbIdx) bs f 0 52
      (by omega) (by omega)
    rw [List.drop_zero, List.drop_zero] at this
    rw [this]
    have := take_drop_writeAt_disjoint
      (writeAt (writeAt (writeAt outS D payload) E idx) 0 sbB) 52 sbIdx 0 52
      (by omega) (by omega)
    rw [List.drop_zero, List.drop_zero] at this
    rw [this]
    have := take_drop_writeAt_self (writeAt (writeAt outS D payload) E idx) 0 sbB (by omega)
    rw [List.drop_zero, hsb] at this
    exact this
  · rw [take_drop_writeAt_disjoint _ bs f 52 _ (by omega) (by omega)]
    exact take_drop_writeAt_self _ 52 sbIdx (by omega)
  · rw [take_drop_writeAt_disjoint _ bs f E _ (by omega) (by omega),
      take_drop_writeAt_disjoint _ 52 sbIdx E _ (by omega) (by omega),
      take_drop_writeAt_disjoint _ 0 sbB E _ (by omega) (by omega)]
    exact take_drop_writeAt_self _ E idx (by omega)
  · rw [take_drop_writeAt_disjoint _ bs f D _ (by omega) (by omega),
      take_drop_writeAt_disjoint _ 52 sbIdx D _ (by omega) (by omega),
      take_drop_writeAt_disjoint _ 0 sbB D _ (by omega) (by omega),
      take_drop_writeAt_disjoint _ E idx D _ (by omega) (by omega)]
    exact take_drop_writeAt_self _ D payload (by omega)

theorem coalesce_range (file : Bytes) (size a n bs : Nat) (hn : 0 < n)
    (ha : a + n ≤ 4294967296) (hoff : bs * a < 4294967296) (h1 : bs * a < file.length)
    (h2 : bs * a + size ≤ file.length) :
    CoalesceDataFromStream (ImmutableStream.ofBytes file)
      { m_StreamSize := size, m_StreamBlockIndices := List.range' a n } bs
      = some ((file.drop (bs * a)).take size) := by
  obtain ⟨m, rfl⟩ : ∃ m, n = m + 1 := ⟨n - 1, by omega⟩
  unfold CoalesceDataFromStream
  simp only [List.head?_range', List.getLast?_range']
  simp [is_sorted_range', ImmutableStream.CanReadAt, ImmutableStream.ofBytes,
    ImmutableStream.m_Length, ImmutableStream.span, Nat.mod_eq_of_lt hoff, h1, h2]
  intro hc
  omega

theorem le32_toLe32_append (pre post : Bytes) (v : Nat) (hv : v < 4294967296) :
    le32 (pre ++ toLe32 v ++ post) pre.length = v := by
  have h := le32_drop (pre ++ toLe32 v ++ post) pre.length 0
  rw [List.append_assoc, List.drop_left, Nat.add_zero] at h
  rw [List.append_assoc, ← h]
  simp only [le32, toLe32, List.cons_append, List.getD_cons_zero, List.getD_cons_succ]
  omega

theorem wordsOf_wordsToBytes (ws : List Nat) (post : Bytes) (h : ∀ w ∈ ws, w < 4294967296) :
    wordsOf (wordsToBytes ws ++ post) ws.length = ws := by
  unfold wordsOf
  apply List.ext_getElem
  · simp
  · intro i h1 h2
    simp only [List.getElem_map, List.getElem_range]
    have hi : i < ws.length := by simpa using h1
    have hsplit : ws = ws.take i ++ ws[i] :: ws.drop (i + 1) := by
      rw [List.getElem_cons_drop, List.take_append_drop]
    have := le32_toLe32_append (wordsToBytes (ws.take i))
      (wordsToBytes (ws.drop (i + 1)) ++ post) ws[i] (h _ (List.getElem_mem _))
    rw [length_wordsToBytes, List.length_take, Nat.min_eq_left (by omega)] at this
    rw [← this]
    congr 1
    conv_lhs => rw [hsplit]
    rw [wordsToBytes_append, wordsToBytes_cons]
    simp only [List.append_assoc]
theorem readSuperBlock_of_take (file : Bytes) (sb : PDBSuperBlock)
    (h : file.take 52 = sb.toBytes)
    (h1 : sb.m_BlockSize < 4294967296) (h2 : sb.m_FreeBlockMapIndex < 4294967296)
    (h3 : sb.m_BlockCount < 4294967296) (h4 : sb.m_DirectorySize < 4294967296)
    (h5 : sb.m_Unknown1_32t < 4294967296) :
    readSuperBlock file = some sb := by
  have hlen : 52 ≤ file.length := by
    have := congrArg List.length h
    rw [List.length_take, length_PDBSuperBlock_toBytes] at this
    omega
  have hle : ∀ off, off + 4 ≤ 52 → le32 file off = le32 sb.toBytes off := by
    intro off ho
    rw [← h, le32_take _ _ _ ho]
  have hsig : file.take 30 = g_PdbSignatureBytes := by
    have : file.take 30 = (file.take 52).take 30 := by
      rw [List.take_take]; rfl
    rw [this, h]
    simp [PDBSuperBlock.toBytes, g_PdbSignatureBytes]
  have e1 : le32 sb.toBytes 32 = sb.m_BlockSize := by
    have := le32_toLe32_append (g_PdbSignatureBytes ++ [0, 0])
      (toLe32 sb.m_FreeBlockMapIndex ++ toLe32 sb.m_BlockCount ++ toLe32 sb.m_DirectorySize
        ++ toLe32 sb.m_Unknown1_32t) sb.m_BlockSize h1
    simpa [PDBSuperBlock.toBytes, g_PdbSignatureBytes] using this
  have e2 : le32 sb.toBytes 36 = sb.m_FreeBlockMapIndex := by
    have := le32_toLe32_append (g_PdbSignatureBytes ++ [0, 0] ++ toLe32 sb.m_BlockSize)
      (toLe32 sb.m_BlockCount ++ toLe32 sb.m_DirectorySize
        ++ toLe32 sb.m_Unknown1_32t) sb.m_FreeBlockMapIndex h2
    simpa [PDBSuperBlock.toBytes, g_PdbSignatureBytes, length_toLe32] using this
  have e3 : le32 sb.toBytes 40 = sb.m_BlockCount := by
    have := le32_toLe32_append (g_PdbSignatureBytes ++ [0, 0] ++ toLe32 sb.m_BlockSize
      ++ toLe32 sb.m_FreeBlockMapIndex)
      (toLe32 sb.m_DirectorySize ++ toLe32 sb.m_Unknown1_32t) sb.m_BlockCount h3
    simpa [PDBSuperBlock.toBytes, g_PdbSignatureBytes, length_toLe32] using this
  have e4 : le32 sb.toBytes 44 = sb.m_DirectorySize := by
    have := le32_toLe32_append (g_PdbSignatureBytes ++ [0, 0] ++ toLe32 sb.m_BlockSize
      ++ toLe32 sb.m_FreeBlockMapIndex ++ toLe32 sb.m_BlockCount)
      (toLe32 sb.m_Unknown1_32t) sb.m_DirectorySize h4
    simpa [PDBSuperBlock.toBytes, g_PdbSignatureBytes, length_toLe32] using this
  have e5 : le32 sb.toBytes 48 = sb.m_Unknown1_32t := by
    have := le32_toLe32_append (g_PdbSignatureBytes ++ [0, 0] ++ toLe32 sb.m_BlockSize
      ++ toLe32 sb.m_FreeBlockMapIndex ++ toLe32 sb.m_BlockCount ++ toLe32 sb.m_DirectorySize)
      [] sb.m_Unknown1_32t h5
    simpa [PDBSuperBlock.toBytes, g_PdbSignatureBytes, length_toLe32] using this
  unfold readSuperBlock
  rw [if_neg (by omega), if_neg (by rw [hsig]; simp)]
  rw [hle 32 (by omega), hle 36 (by omega), hle 40 (by omega), hle 44 (by omega),
    hle 48 (by omega), e1, e2, e3, e4, e5]
theorem ceilDiv_le (x bs k : Nat) (hbs : 1 ≤ bs) (h : x ≤ k * bs) : ceilDiv x bs ≤ k := by
  unfold ceilDiv
  apply Nat.le_of_lt_succ
  rw [Nat.div_lt_iff_lt_mul (by omega)]
  have : k.succ * bs = k * bs + bs := Nat.succ_mul k bs
  omega

theorem length_MsfzFragment_toBytes (f : MsfzFragment) : f.toBytes.length = 12 := rfl

theorem le32_of_drop_eq (data : Bytes) (o : Nat) (v : Nat) (post : Bytes)
    (hv : v < 4294967296) (h : data.drop o = toLe32 v ++ post) : le32 data o = v := by
  have h1 := le32_drop data o 0
  rw [Nat.add_zero] at h1
  rw [← h1, h]
  have := le32_toLe32_append [] post v hv
  simpa using this

theorem length_ge_of_drop_eq (data : Bytes) (o : Nat) (x : Bytes) (h : data.drop o = x) :
    x.length ≠ 0 → o + x.length ≤ data.length := by
  intro hx
  have := congrArg List.length h
  rw [List.length_drop] at this
  omega

theorem drop_add_of_drop_eq (data : Bytes) (o : Nat) (x y : Bytes)
    (h : data.drop o = x ++ y) : data.drop (o + x.length) = y := by
  rw [← List.drop_drop, h, List.drop_left]

theorem parse_loop_stream (data R : Bytes) :
    ∀ (frags : List MsfzFragment) (fuel o : Nat) (cur : Option (List MsfzFragment))
      (done : List (List MsfzFragment)),
      data.drop o = (frags.map MsfzFragment.toBytes).flatten ++ (toLe32 0 ++ R) →
      (∀ f ∈ frags, 0 < f.m_DataSize ∧ f.m_DataSize < 4294967296
        ∧ f.m_DataOffset < 4294967296 ∧ f.m_ChunkIndexOrDataOrigin < 4294967296) →
      ParseStreamDirectoryData.loop (fuel + frags.length + 1) { m_Data := data, m_Offset := o }
          done cur
        = ParseStreamDirectoryData.loop fuel
            { m_Data := data, m_Offset := o + 12 * frags.length + 4 }
            (done ++ [cur.getD [] ++ frags]) none := by
  intro frags
  induction frags with
  | nil =>
    intro fuel o cur done hd _
    simp only [List.map_nil, List.flatten_nil, List.nil_append] at hd
    have hlen := length_ge_of_drop_eq data o _ hd (by simp [length_toLe32])
    simp only [List.length_append, length_toLe32] at hlen
    have hv := le32_of_drop_eq data o 0 R (by omega) hd
    simp only [List.length_nil, Nat.add_zero, Nat.mul_zero, List.append_nil]
    conv_lhs => rw [ParseStreamDirectoryData.loop.eq_def]
    simp only [ImmutableStream.CanRead, ImmutableStream.m_Length, ImmutableStream.Peek32,
      decide_eq_true_eq]
    rw [if_pos (by omega), if_neg (by omega)]
    simp only [hv, if_true]
  | cons f fs ih =>
    intro fuel o cur done hd hf
    simp only [List.map_cons, List.flatten_cons, List.append_assoc] at hd
    have hlen := length_ge_of_drop_eq data o _ hd (by
      simp [length_MsfzFragment_toBytes])
    simp only [List.length_append, length_MsfzFragment_toBytes] at hlen
    obtain ⟨hf1, hf2, hf3, hf4⟩ := hf f (List.mem_cons_self _ _)
    have hd1 : data.drop o = toLe32 f.m_DataSize
        ++ (toLe32 f.m_DataOffset ++ (toLe32 f.m_ChunkIndexOrDataOrigin
        ++ ((fs.map MsfzFragment.toBytes).flatten ++ (toLe32 0 ++ R)))) := by
      rw [hd]; simp [MsfzFragment.toBytes]
    have hv1 := le32_of_drop_eq data o _ _ hf2 hd1
    have hd2 := drop_add_of_drop_eq data o _ _ hd1
    rw [length_toLe32] at hd2
    have hv2 := le32_of_drop_eq data (o + 4) _ _ hf3 hd2
    have hd3 := drop_add_of_drop_eq data (o + 4) _ _ hd2
    rw [length_toLe32] at hd3
    have hv3 := le32_of_drop_eq data (o + 4 + 4) _ _ hf4 hd3
    have hd4 := drop_add_of_drop_eq data (o + 4 + 4) _ _ hd3
    rw [length_toLe32] at hd4
    have e1 : fuel + (f :: fs).length + 1 = (fuel + fs.length + 1) + 1 := by
      simp only [List.length_cons]; omega
    rw [e1]
    conv_lhs => rw [ParseStreamDirectoryData.loop.eq_def]
    simp only [ImmutableStream.CanRead, ImmutableStream.m_Length, ImmutableStream.Peek32,
      decide_eq_true_eq]
    rw [if_pos (by omega), if_neg (by omega)]
    simp only [hv1]
    rw [if_neg (by omega), if_neg (by omega)]
    have e2 : o + 4 + 4 = o + 8 := by omega
    rw [e2] at hv3 hd4
    have e3 : o + 8 + 4 = o + 12 := by omega
    rw [e3] at hd4
    rw [hv2, hv3, ih fuel (o + 12) _ done hd4 (fun g hg => hf g (List.mem_cons_of_mem _ hg))]
    simp only [Option.getD_some, List.append_assoc, List.singleton_append, List.length_cons]
    congr 2
    omega
theorem serializeDirectory_cons (frags : List MsfzFragment) (rest : List (List MsfzFragment)) :
    serializeDirectory (frags :: rest)
      = (frags.map MsfzFragment.toBytes).flatten ++ (toLe32 0 ++ serializeDirectory rest) := by
  simp [serializeDirectory]

theorem length_flatten_toBytes (frags : List MsfzFragment) :
    ((frags.map MsfzFragment.toBytes).flatten).length = 12 * frags.length := by
  induction frags with
  | nil => rfl
  | cons f fs ih =>
    simp only [List.map_cons, List.flatten_cons, List.length_append, ih,
      length_MsfzFragment_toBytes, List.length_cons]
    omega

theorem parse_loop_streams (data : Bytes) :
    ∀ (streams : List (List MsfzFragment)) (fuel o : Nat) (done : List (List MsfzFragment)),
      data.drop o = serializeDirectory streams →
      (∀ frags ∈ streams, ∀ f ∈ frags, 0 < f.m_DataSize ∧ f.m_DataSize < 4294967296
        ∧ f.m_DataOffset < 4294967296 ∧ f.m_ChunkIndexOrDataOrigin < 4294967296) →
      (serializeDirectory streams).length < fuel →
      ParseStreamDirectoryData.loop fuel { m_Data := data, m_Offset := o } done none
        = some (done ++ streams) := by
  intro streams
  induction streams with
  | nil =>
    intro fuel o done hd _ hfuel
    obtain ⟨k, rfl⟩ : ∃ k, fuel = k + 1 := ⟨fuel - 1, by omega⟩
    have hlen : data.length ≤ o := by
      have := congrArg List.length hd
      simp only [List.length_drop, serializeDirectory, List.map_nil, List.flatten_nil,
        List.length_nil] at this
      omega
    rw [ParseStreamDirectoryData.loop.eq_def]
    simp only [ImmutableStream.CanRead, ImmutableStream.m_Length, decide_eq_true_eq]
    rw [if_neg (by omega)]
    simp
  | cons frags rest ih =>
    intro fuel o done hd hf hfuel
    rw [serializeDirectory_cons] at hd hfuel
    simp only [List.length_append, length_flatten_toBytes, length_toLe32] at hfuel
    obtain ⟨k, rfl⟩ : ∃ k, fuel = k + frags.length + 1 :=
      ⟨fuel - frags.length - 1, by omega⟩
    rw [parse_loop_stream data _ frags k o none done hd (hf frags (List.mem_cons_self _ _))]
    have hd2 : data.drop (o + 12 * frags.length + 4) = serializeDirectory rest := by
      have h1 := drop_add_of_drop_eq data o _ _ hd
      rw [length_flatten_toBytes] at h1
      have h2 := drop_add_of_drop_eq data (o + 12 * frags.length) _ _ h1
      rwa [length_toLe32] at h2
    rw [ih k _ _ hd2 (fun g hg => hf g (List.mem_cons_of_mem _ hg)) (by omega)]
    simp

theorem ParseStreamDirectoryData_serializeDirectory (streams : List (List MsfzFragment))
    (hf : ∀ frags ∈ streams, ∀ f ∈ frags, 0 < f.m_DataSize ∧ f.m_DataSize < 4294967296
      ∧ f.m_DataOffset < 4294967296 ∧ f.m_ChunkIndexOrDataOrigin < 4294967296) :
    ParseStreamDirectoryData (serializeDirectory streams) = some streams := by
  unfold ParseStreamDirectoryData
  have := parse_loop_streams (serializeDirectory streams) streams
    ((serializeDirectory streams).length + 1) 0 [] (by simp) hf (by omega)
  simpa [ImmutableStream.ofBytes] using this
theorem length_span_of_CanReadAt (fs : ImmutableStream) (off size : Nat)
    (h : fs.CanReadAt off size = true) : (fs.span off size).length = size := by
  simp only [ImmutableStream.CanReadAt, ImmutableStream.m_Length, Bool.and_eq_true,
    decide_eq_true_eq] at h
  simp only [ImmutableStream.span, List.length_take, List.length_drop]
  omega

theorem copyBlocks_length (fs : ImmutableStream) (bs : Nat) :
    ∀ (blocks : List Nat) (leftover : Nat) (data : Bytes),
      CoalesceDataFromStream.copyBlocks fs bs blocks leftover = some data →
      data.length = min leftover (blocks.length * bs) := by
  intro blocks
  induction blocks with
  | nil =>
    intro leftover data h
    simp only [CoalesceDataFromStream.copyBlocks, Option.some.injEq] at h
    subst h
    simp
  | cons b rest ih =>
    intro leftover data h
    simp only [CoalesceDataFromStream.copyBlocks] at h
    split at h
    · rename_i hc
      cases hr : CoalesceDataFromStream.copyBlocks fs bs rest (leftover - min leftover bs) with
      | none => rw [hr] at h; cases h
      | some tl =>
        rw [hr] at h
        simp only [Option.map_some', Option.some.injEq] at h
        subst h
        rw [List.length_append, length_span_of_CanReadAt _ _ _ hc, ih _ _ hr, List.length_cons,
          Nat.succ_mul]
        omega
    · cases h

theorem CoalesceDataFromStream_length (fs : ImmutableStream) (info : PDBStreamInfo) (bs : Nat)
    (data : Bytes) (hbs : 1 ≤ bs)
    (hn : info.m_StreamBlockIndices.length = ceilDiv info.m_StreamSize bs)
    (h : CoalesceDataFromStream fs info bs = some data) :
    data.length = info.m_StreamSize := by
  unfold CoalesceDataFromStream at h
  simp only at h
  split at h
  · split at h
    · split at h
      · rename_i hc
        cases h
        exact length_span_of_CanReadAt _ _ _ hc
      · cases h
    · rw [copyBlocks_length _ _ _ _ _ h, hn]
      have := le_ceilDiv_mul info.m_StreamSize bs hbs
      omega
  · cases h
theorem SetChunkIndex_lt (k : Nat) (hk : k < 4294967296) :
    MsfzFragment.SetChunkIndex k < 4294967296 := by
  unfold MsfzFragment.SetChunkIndex
  exact Nat.or_lt_two_pow hk (by norm_num : 2147483648 < 2 ^ 32)

theorem GetFragmentSizeForStream_noCompression (s : Nat) (args : ProgramCommandLineArgs)
    (hs : args.m_CompressionStrategy = .NoCompression) :
    GetFragmentSizeForStream s args = s := by
  unfold GetFragmentSizeForStream
  rw [hs]

theorem StrictCastTo32_eq_some (n k : Nat) (h : StrictCastTo32 n = some k) :
    k = n ∧ n < 4294967296 := by
  unfold StrictCastTo32 at h
  split at h
  · simp only [Option.some.injEq] at h
    exact ⟨h.symm, by assumption⟩
  · cases h

theorem reserveSlot_inv (L mb ms db ds numData s : Nat) (data : Bytes) (sh sh1 : Shared)
    (w1 : Worker) (hdl : data.length = s) (hpos : 0 < s)
    (h : WriteSingleStreamData.reserveSlot data s 0 sh [] = some (sh1, w1))
    (hI : SharedInv L mb ms db ds numData sh) :
    SharedInv L mb ms db ds numData sh1 ∧ WorkerInv L s w1 := by
  obtain ⟨hL, hm1, hm2, hm3, hd1, hd2, hd3, hd4, hd5, hm4, hL32⟩ := hI
  unfold WriteSingleStreamData.reserveSlot at h
  have hmod : (sh.outChunkMetadataStream.m_Offset + 20) % 18446744073709551616
      = sh.outChunkMetadataStream.m_Offset + 20 := Nat.mod_eq_of_lt (by omega)
  simp only [MutableStreamFixed.GetRegionSubstreamForWriting, hmod] at h
  by_cases hfull : sh.outChunkMetadataStream.m_Offset + 20 > sh.outChunkMetadataStream.m_Size
  · rw [if_pos hfull] at h
    simp only at h
    split at h
    · cases h
    · rename_i k hk
      simp only [Option.some.injEq, Prod.mk.injEq] at h
      obtain ⟨rfl, rfl⟩ := h
      refine ⟨⟨hL, hm1, hm2, hm3, hd1, hd2, hd3, hd4, hd5, hm4, hL32⟩, ?_⟩
      simp only [WorkerInv, List.nil_append, hdl, Nat.sub_zero, Nat.min_self]
      exact ⟨trivial, hpos, trivial, trivial, trivial,
        ⟨_, SetChunkIndex_lt k (by have := StrictCastTo32_eq_some _ _ hk; omega), rfl⟩,
        Or.inl trivial⟩
  · rw [if_neg hfull] at h
    simp only at h
    split at h
    · cases h
    · rename_i k hk
      simp only [Option.some.injEq, Prod.mk.injEq] at h
      obtain ⟨rfl, rfl⟩ := h
      refine ⟨⟨hL, hm1, hm2, hm3, hd1, hd2, hd3, hd4, hd5, by simp only; omega, hL32⟩, ?_⟩
      simp only [WorkerInv, List.nil_append, hdl, Nat.sub_zero, Nat.min_self]
      refine ⟨trivial, hpos, trivial, trivial, trivial,
        ⟨_, SetChunkIndex_lt k (by have := StrictCastTo32_eq_some _ _ hk; omega), rfl⟩,
        Or.inr ⟨mb + sh.outChunkMetadataStream.m_Offset, ?_, by omega⟩⟩
      rw [hm1]
      rfl
theorem WriteBytes_null_length (out data : Bytes) :
    ((MutableStreamFixed.null).WriteBytes out data).2.2 = out := by
  unfold MutableStreamFixed.WriteBytes MutableStreamFixed.null
  simp only
  split <;> rfl

theorem WriteBytes_window_length (p size : Nat) (out data : Bytes)
    (h : p + size ≤ out.length) :
    ((MutableStreamFixed.WriteBytes { m_Data := some p, m_Size := size, m_Offset := 0 } out
      data).2.2).length = out.length := by
  unfold MutableStreamFixed.WriteBytes
  simp only
  split
  · rfl
  · rename_i hfit
    simp only
    rw [length_writeAt _ _ _ (by omega)]

theorem writeChunk_inv (codec : Codec) (args : ProgramCommandLineArgs)
    (L mb ms db ds numData s cdo tag : Nat) (data : Bytes) (cds : MutableStreamFixed)
    (sh sh1 : Shared) (w1 : Worker)
    (hs : args.m_CompressionStrategy = .NoCompression)
    (hdl : data.length = s) (hpos : 0 < s) (hmem : s ≤ numData) (htag : tag < 4294967296)
    (hcds : cds = MutableStreamFixed.null
      ∨ ∃ p, cds = { m_Data := some p, m_Size := 20, m_Offset := 0 } ∧ p + 20 ≤ L)
    (h : WriteSingleStreamData.writeChunk codec args cdo data s 0 cds s sh [⟨s, 0, tag⟩]
      = some (sh1, w1))
    (hI : SharedInv L mb ms db ds numData sh) :
    SharedInv L mb ms db ds numData sh1 ∧ WorkerInv L s w1 := by
  obtain ⟨hL, hm1, hm2, hm3, hd1, hd2, hd3, hd4, hd5, hm4, hL32⟩ := hI
  unfold WriteSingleStreamData.writeChunk at h
  have hp : WriteSingleStreamData.payload codec args data 0 s = some data := by
    unfold WriteSingleStreamData.payload
    rw [hs]
    simp only [ne_eq, not_true_eq_false, if_false]
    rw [← hdl, List.take_length]
  rw [hp] at h
  have hmod : (sh.outChunkDataStream.m_Offset + s) % 18446744073709551616
      = sh.outChunkDataStream.m_Offset + s := Nat.mod_eq_of_lt (by omega)
  simp only [MutableStreamFixed.GetRegionSubstreamForWriting, hdl, hmod] at h
  have hlenD : ∀ (o : Bytes) (c : MsfzChunk), o.length = L →
      ((cds.WriteBytes o c.toBytes).2.2).length = L := by
    intro o c ho
    rcases hcds with rfl | ⟨p, rfl, hp20⟩
    · rw [WriteBytes_null_length, ho]
    · rw [WriteBytes_window_length p 20 o _ (by omega), ho]
  by_cases hfull : sh.outChunkDataStream.m_Offset + s > sh.outChunkDataStream.m_Size
  · rw [if_pos hfull] at h
    simp only at h
    split at h
    · rename_i o1 c1 ho1 hc1
      simp only [Option.some.injEq, Prod.mk.injEq] at h
      obtain ⟨rfl, rfl⟩ := h
      have hs1 := StrictCastTo32_eq_some _ _ hc1
      refine ⟨⟨?_, hm1, hm2, hm3, hd1, hd2, hd3, hd4, hd5, hm4, hL32⟩, ?_⟩
      · simp only
        exact hlenD _ _ (by rw [WriteBytes_null_length, hL])
      · simp only [WorkerInv, Nat.zero_add]
        rw [Nat.mod_eq_of_lt (by omega)]
        exact ⟨hdl, hpos, trivial, Or.inr ⟨rfl, tag, htag, rfl⟩⟩
    · cases h
  · rw [if_neg hfull] at h
    simp only at h
    split at h
    · rename_i o1 c1 ho1 hc1
      simp only [Option.some.injEq, Prod.mk.injEq] at h
      obtain ⟨rfl, rfl⟩ := h
      have hs1 := StrictCastTo32_eq_some _ _ hc1
      refine ⟨⟨?_, hm1, hm2, hm3, hd1, hd2, hd3, ?_, ?_, hm4, hL32⟩, ?_⟩
      · simp only
        refine hlenD _ _ ?_
        rw [hd1]
        simp only [Option.map_some']
        rw [WriteBytes_window_length _ s sh.out data (by omega), hL]
      · simp only
        omega
      · simp only
        rcases hd5 with h5 | h5
        · exact Or.inl h5
        · omega
      · simp only [WorkerInv, Nat.zero_add]
        rw [Nat.mod_eq_of_lt (by omega)]
        exact ⟨hdl, hpos, trivial, Or.inr ⟨rfl, tag, htag, rfl⟩⟩
    · cases h
theorem step_inv (codec : Codec) (file : ImmutableStream) (info : PDBStreamInfo)
    (bs cdo : Nat) (args : ProgramCommandLineArgs) (L mb ms db ds numData : Nat)
    (sh sh1 : Shared) (w w1 : Worker)
    (hs : args.m_CompressionStrategy = .NoCompression)
    (hco : ∀ data, CoalesceDataFromStream file info bs = some data →
      data.length = info.m_StreamSize)
    (hmem : info.m_StreamSize ≤ numData)
    (h : WriteSingleStreamData.step codec file info bs cdo args sh w = some (sh1, w1))
    (hI : SharedInv L mb ms db ds numData sh) (hW : WorkerInv L info.m_StreamSize w) :
    SharedInv L mb ms db ds numData sh1 ∧ WorkerInv L info.m_StreamSize w1 := by
  unfold WriteSingleStreamData.step at h
  cases hst : w.state with
  | start =>
    rw [hst] at h
    simp only [WorkerInv, hst] at hW
    simp only at h
    split at h
    · rename_i hpos
      split at h
      · cases h
      · rename_i data hdata
        split at h
        · cases h
        · rename_i len hlen
          simp only [Option.some.injEq, Prod.mk.injEq] at h
          obtain ⟨rfl, rfl⟩ := h
          refine ⟨hI, ?_⟩
          have hdl := hco data hdata
          have hl := StrictCastTo32_eq_some _ _ hlen
          simp only [WorkerInv, GetFragmentSizeForStream_noCompression _ _ hs, hl.1]
          exact ⟨hdl, hpos, hdl, Or.inl ⟨trivial, hW⟩⟩
    · rename_i hpos
      simp only [Option.some.injEq, Prod.mk.injEq] at h
      obtain ⟨rfl, rfl⟩ := h
      refine ⟨hI, ?_⟩
      simp only [WorkerInv]
      exact Or.inl ⟨by omega, hW⟩
  | loopHead data f off =>
    rw [hst] at h
    simp only [WorkerInv, hst] at hW
    obtain ⟨hdl, hpos, hf, hcase⟩ := hW
    simp only at h
    split at h
    · rename_i hlt
      have hoff : off = 0 ∧ w.m_Fragments = [] := by
        rcases hcase with hc | hc
        · exact hc
        · omega
      rw [hoff.1, hoff.2, hf] at h
      exact reserveSlot_inv L mb ms db ds numData _ data sh sh1 w1 hdl hpos h hI
    · rename_i hge
      simp only [Option.some.injEq, Prod.mk.injEq] at h
      obtain ⟨rfl, rfl⟩ := h
      refine ⟨hI, ?_⟩
      simp only [WorkerInv]
      rcases hcase with hc | hc
      · omega
      · exact Or.inr ⟨hpos, hc.2⟩
  | reserved data f off cds fsz =>
    rw [hst] at h
    simp only [WorkerInv, hst] at hW
    obtain ⟨hdl, hpos, hf, hoff, hfsz, ⟨tag, htag, hfr⟩, hcds⟩ := hW
    simp only at h
    rw [hf, hoff, hfsz, hfr] at h
    exact writeChunk_inv codec args L mb ms db ds numData _ cdo tag data cds sh sh1 w1 hs hdl
      hpos hmem htag hcds h hI
  | done =>
    rw [hst] at h
    simp only [Option.some.injEq, Prod.mk.injEq] at h
    obtain ⟨rfl, rfl⟩ := h
    exact ⟨hI, hW⟩
theorem runSchedule_inv (codec : Codec) (file : ImmutableStream) (infos : List PDBStreamInfo)
    (args : ProgramCommandLineArgs) (bs cdo L mb ms db ds numData : Nat)
    (hs : args.m_CompressionStrategy = .NoCompression)
    (hco : ∀ info ∈ infos, ∀ data, CoalesceDataFromStream file info bs = some data →
      data.length = info.m_StreamSize)
    (hmem : ∀ info ∈ infos, info.m_StreamSize ≤ numData) :
    ∀ (schedule : List Nat) (sh : Shared) (ws : List Worker) (sh1 : Shared) (ws1 : List Worker),
      CompressAndWriteStreamData.runSchedule codec file infos args bs cdo schedule sh ws
        = some (sh1, ws1) →
      SharedInv L mb ms db ds numData sh →
      (∀ (i : Nat) (info : PDBStreamInfo) (w : Worker), infos[i]? = some info → ws[i]? = some w →
        WorkerInv L info.m_StreamSize w) →
      ws.length = infos.length →
      SharedInv L mb ms db ds numData sh1
        ∧ (∀ (i : Nat) (info : PDBStreamInfo) (w : Worker), infos[i]? = some info →
            ws1[i]? = some w →
            WorkerInv L info.m_StreamSize w)
        ∧ ws1.length = infos.length := by
  intro schedule
  induction schedule with
  | nil =>
    intro sh ws sh1 ws1 h hI hW hl
    simp only [CompressAndWriteStreamData.runSchedule, Option.some.injEq, Prod.mk.injEq] at h
    obtain ⟨rfl, rfl⟩ := h
    exact ⟨hI, hW, hl⟩
  | cons i rest ih =>
    intro sh ws sh1 ws1 h hI hW hl
    simp only [CompressAndWriteStreamData.runSchedule] at h
    cases hinfo : infos[i]? with
    | none =>
      rw [hinfo] at h
      exact ih sh ws sh1 ws1 h hI hW hl
    | some info =>
      cases hw : ws[i]? with
      | none =>
        rw [hinfo, hw] at h
        exact ih sh ws sh1 ws1 h hI hW hl
      | some w =>
        rw [hinfo, hw] at h
        simp only at h
        split at h
        · cases h
        · rename_i sh2 w2 hstep
          have hmemi : info ∈ infos := List.getElem?_mem hinfo
          obtain ⟨hI2, hW2⟩ := step_inv codec file info bs cdo args L mb ms db ds numData sh
            sh2 w w2 hs (hco info hmemi) (hmem info hmemi) hstep hI (hW i info w hinfo hw)
          refine ih sh2 (ws.set i w2) sh1 ws1 h hI2 ?_ (by rw [List.length_set, hl])
          intro j info' w' hj hwj
          rw [List.getElem?_set] at hwj
          split at hwj
          · rename_i hij
            subst hij
            split at hwj
            · simp only [Option.some.injEq] at hwj
              subst hwj
              rw [hinfo] at hj
              simp only [Option.some.injEq] at hj
              subst hj
              exact hW2
            · cases hwj
          · exact hW j info' w' hj hwj
theorem AlignTo_self_div (s : Nat) (h0 : 0 < s) (h : s ≤ 2147483648) : AlignTo s s / s = 1 := by
  rw [AlignTo_div_eq_ceilDiv s s (by omega) (by omega) (by omega)]
  exact ceilDiv_eq_one s s (by omega) (by omega)

theorem foldlM_sizes (F : Nat × Nat × Nat → PDBStreamInfo → Option (Nat × Nat × Nat))
    (hF : ∀ (a b c : Nat) (info : PDBStreamInfo), info.m_StreamSize ≤ 2147483648 →
      F (a, b, c) info
        = some ((a + (4 + 12 * (if info.m_StreamSize = 0 then 0 else 1))) % 4294967296,
            (b + 20 * (if info.m_StreamSize = 0 then 0 else 1)) % 4294967296,
            (c + info.m_StreamSize) % 4294967296)) :
    ∀ (infos : List PDBStreamInfo) (a b c : Nat),
      (∀ info ∈ infos, info.m_StreamSize ≤ 2147483648) →
      a + 4 * infos.length + 12 * numNonEmpty (infos.map (fun i => i.m_StreamSize))
        < 4294967296 →
      b + 20 * numNonEmpty (infos.map (fun i => i.m_StreamSize)) < 4294967296 →
      c + (infos.map (fun i => i.m_StreamSize)).sum < 4294967296 →
      infos.foldlM F (a, b, c)
      = some (a + 4 * infos.length + 12 * numNonEmpty (infos.map (fun i => i.m_StreamSize)),
          b + 20 * numNonEmpty (infos.map (fun i => i.m_StreamSize)),
          c + (infos.map (fun i => i.m_StreamSize)).sum) := by
  intro infos
  induction infos with
  | nil => intro a b c _ _ _ _; simp [numNonEmpty]
  | cons info rest ih =>
    intro a b c hle ha hb hc
    have hK : numNonEmpty ((info :: rest).map (fun i => i.m_StreamSize))
        = (if info.m_StreamSize = 0 then 0 else 1)
          + numNonEmpty (rest.map (fun i => i.m_StreamSize)) := by
      simp [numNonEmpty]
    rw [hK] at ha hb ⊢
    simp only [List.map_cons, List.sum_cons, List.length_cons] at hc ha ⊢
    have hif : (if info.m_StreamSize = 0 then 0 else 1) ≤ 1 := by split <;> omega
    rw [List.foldlM_cons, hF a b c info (hle info (List.mem_cons_self _ _))]
    simp only [Option.bind_eq_bind, Option.some_bind]
    rw [Nat.mod_eq_of_lt (by omega), Nat.mod_eq_of_lt (by omega), Nat.mod_eq_of_lt (by omega)]
    rw [ih _ _ _ (fun x hx => hle x (List.mem_cons_of_mem _ hx)) (by omega) (by omega)
      (by omega)]
    congr 1
    refine Prod.ext ?_ (Prod.ext ?_ ?_) <;> simp only <;> omega

theorem CalculateOutputRegionSizes_noCompression (codec : Codec)
    (args : ProgramCommandLineArgs) (hs : args.m_CompressionStrategy = .NoCompression)
    (infos : List PDBStreamInfo)
    (hle : ∀ info ∈ infos, info.m_StreamSize ≤ 2147483648)
    (ha : 4 * infos.length + 12 * numNonEmpty (infos.map (fun i => i.m_StreamSize))
      < 4294967296)
    (hb : 20 * numNonEmpty (infos.map (fun i => i.m_StreamSize)) < 4294967296)
    (hc : (infos.map (fun i => i.m_StreamSize)).sum < 4294967296) :
    CalculateOutputRegionSizes codec infos args
      = some (4 * infos.length + 12 * numNonEmpty (infos.map (fun i => i.m_StreamSize)),
          20 * numNonEmpty (infos.map (fun i => i.m_StreamSize)),
          (infos.map (fun i => i.m_StreamSize)).sum) := by
  unfold CalculateOutputRegionSizes
  rw [foldlM_sizes _ ?_ infos 0 0 0 hle (by omega) (by omega) (by omega)]
  · simp
  · intro a b c info hi
    simp only [hs, if_true, GetFragmentSizeForStream_noCompression _ _ hs]
    by_cases h0 : info.m_StreamSize = 0
    · simp [h0]
    · simp only [ne_eq, h0, not_false_eq_true, if_true, if_false]
      rw [AlignTo_self_div _ (by omega) hi]
theorem mem_le_sum (l : List Nat) (x : Nat) (h : x ∈ l) : x ≤ l.sum := by
  induction l with
  | nil => cases h
  | cons a rest ih =>
    simp only [List.sum_cons]
    rcases List.mem_cons.mp h with rfl | h1
    · omega
    · have := ih h1
      omega

theorem CompressAndWriteStreamData_spec (codec : Codec) (file : ImmutableStream)
    (infos : List PDBStreamInfo) (args : ProgramCommandLineArgs)
    (bs cdo L mb ms db ds numData : Nat) (numThreads : Nat) (schedule : List Nat)
    (sh : Shared) (r : CompressResult)
    (hs : args.m_CompressionStrategy = .NoCompression)
    (hco : ∀ info ∈ infos, ∀ data, CoalesceDataFromStream file info bs = some data →
      data.length = info.m_StreamSize)
    (hmem : ∀ info ∈ infos, info.m_StreamSize ≤ numData)
    (hI : SharedInv L mb ms db ds numData sh)
    (hth : numThreads ≠ 0)
    (h : CompressAndWriteStreamData codec file infos args bs cdo numThreads schedule sh
      = .finished r) :
    SharedInv L mb ms db ds numData r.sh
      ∧ List.Forall₂ StoredWhole (infos.map (fun i => i.m_StreamSize)) r.streamDescriptors
      ∧ r.directoryData = serializeDirectory r.streamDescriptors
      ∧ r.m_NumMSFStreams = infos.length
      ∧ r.m_IsStreamDirectoryDataCompressed = 0 := by
  unfold CompressAndWriteStreamData at h
  simp only [hth, if_false, false_or] at h
  split at h
  · cases h
  · rename_i n hn
    have hn2 := StrictCastTo32_eq_some _ _ hn
    split at h
    · cases h
    · rename_i sh1 ws hrun
      obtain ⟨hI1, hW1, hl1⟩ := runSchedule_inv codec file infos args bs cdo L mb ms db ds
        numData hs hco hmem schedule sh _ sh1 ws hrun hI
        (by
          intro i info w _ hw
          rw [List.getElem?_replicate] at hw
          split at hw
          · simp only [Option.some.injEq] at hw
            subst hw
            simp [WorkerInv]
          · cases hw)
        (by simp)
      split at h
      · rename_i hall
        rw [hs] at h
        simp only [ne_eq, not_true_eq_false, if_false, Run.finished.injEq] at h
        subst h
        refine ⟨hI1, ?_, rfl, hn2.1, rfl⟩
        simp only
        rw [List.forall₂_iff_get]
        refine ⟨by simp [hl1], ?_⟩
        intro i h1 h2
        simp only [List.length_map] at h1 h2
        simp only [List.get_eq_getElem, List.getElem_map]
        have hw := hW1 i infos[i] ws[i] (List.getElem?_eq_getElem h1)
          (List.getElem?_eq_getElem h2)
        have hd : ws[i].state = .done := by
          rw [List.all_eq_true] at hall
          have := hall ws[i] (List.getElem_mem _)
          simpa using this
        simp only [WorkerInv, hd] at hw
        exact hw
      · cases h
theorem serializeDirectory_nil : serializeDirectory [] = [] := rfl

theorem StoredWhole_serialize_length :
    ∀ (sizes : List Nat) (descs : List (List MsfzFragment)),
      List.Forall₂ StoredWhole sizes descs →
      (serializeDirectory descs).length = 4 * sizes.length + 12 * numNonEmpty sizes := by
  intro sizes
  induction sizes with
  | nil =>
    intro descs h
    cases h
    rfl
  | cons s ss ih =>
    intro descs h
    cases h with
    | cons hd htl =>
      rename_i frags ds
      rw [serializeDirectory_cons]
      simp only [List.length_append, length_flatten_toBytes, length_toLe32, ih _ htl,
        List.length_cons, numNonEmpty, List.map_cons, List.sum_cons]
      rcases hd with ⟨h0, hf⟩ | ⟨hpos, tag, _, hf⟩
      · subst hf
        simp only [h0, List.length_nil, if_true]
        omega
      · subst hf
        have : ¬ (s = 0) := by omega
        simp only [this, List.length_singleton, if_false]
        omega

theorem StoredWhole_CalculateSize :
    ∀ (sizes : List Nat) (descs : List (List MsfzFragment)),
      (∀ s ∈ sizes, s < 4294967296) →
      List.Forall₂ StoredWhole sizes descs →
      descs.map CalculateSize = sizes.map some := by
  intro sizes
  induction sizes with
  | nil =>
    intro descs _ h
    cases h
    rfl
  | cons s ss ih =>
    intro descs hlt h
    cases h with
    | cons hd htl =>
      rename_i frags ds
      simp only [List.map_cons, List.cons.injEq]
      refine ⟨?_, ih _ (fun x hx => hlt x (List.mem_cons_of_mem _ hx)) htl⟩
      have hs := hlt s (List.mem_cons_self _ _)
      rcases hd with ⟨h0, hf⟩ | ⟨hpos, tag, _, hf⟩
      · subst hf
        subst h0
        rfl
      · subst hf
        simp only [CalculateSize, List.foldlM, Nat.zero_add, StrictCastTo32, hs, if_true]
        simp

theorem StoredWhole_valid :
    ∀ (sizes : List Nat) (descs : List (List MsfzFragment)),
      (∀ s ∈ sizes, s < 4294967296) →
      List.Forall₂ StoredWhole sizes descs →
      ∀ frags ∈ descs, ∀ f ∈ frags, 0 < f.m_DataSize ∧ f.m_DataSize < 4294967296
        ∧ f.m_DataOffset < 4294967296 ∧ f.m_ChunkIndexOrDataOrigin < 4294967296 := by
  intro sizes
  induction sizes with
  | nil =>
    intro descs _ h
    cases h
    intro frags hf
    cases hf
  | cons s ss ih =>
    intro descs hlt h
    cases h with
    | cons hd htl =>
      rename_i frags ds
      intro fr hfr f hf
      rcases List.mem_cons.mp hfr with rfl | hrest
      · have hs := hlt s (List.mem_cons_self _ _)
        rcases hd with ⟨h0, hfe⟩ | ⟨hpos, tag, htag, hfe⟩
        · subst hfe
          cases hf
        · subst hfe
          rw [List.mem_singleton] at hf
          subst hf
          exact ⟨hpos, hs, by norm_num, htag⟩
      · exact ih _ (fun x hx => hlt x (List.mem_cons_of_mem _ hx)) htl fr hrest f hf
theorem GetStreamAtOffset_window (L off size : Nat) (h : off + size ≤ L) :
    ∃ ds, MutableStreamFixed.GetStreamAtOffset { m_Data := some 0, m_Size := L, m_Offset := 0 }
        off size = { m_Data := some off, m_Size := ds, m_Offset := 0 }
      ∧ off + ds ≤ L ∧ (size ≠ 0 → ds = size) := by
  unfold MutableStreamFixed.GetStreamAtOffset
  by_cases h0 : size = 0
  · refine ⟨L - off, ?_, by omega, fun hne => absurd h0 hne⟩
    simp only [h0, if_true]
    rw [if_neg (by omega)]
    simp
  · refine ⟨size, ?_, by omega, fun _ => rfl⟩
    simp only [h0, if_false]
    rw [if_neg (by omega)]
    simp

theorem MsfzHeader_ofBytes_of_le32 (d : Bytes) (hdr : MsfzHeader)
    (hle : ∀ off, off + 4 ≤ 80 → le32 d off = le32 hdr.toBytes off)
    (h1 : hdr.m_StreamDirectoryDataOffset < 4294967296)
    (h2 : hdr.m_StreamDirectoryDataOrigin < 4294967296)
    (h3 : hdr.m_ChunkMetadataOffset < 4294967296)
    (h4 : hdr.m_ChunkMetadataOrigin < 4294967296)
    (h5 : hdr.m_NumMSFStreams < 4294967296)
    (h6 : hdr.m_IsStreamDirectoryDataCompressed < 4294967296)
    (h7 : hdr.m_StreamDirectoryDataLengthCompressed < 4294967296)
    (h8 : hdr.m_StreamDirectoryDataLengthDecompressed < 4294967296)
    (h9 : hdr.m_NumChunks < 4294967296)
    (h10 : hdr.m_ChunkMetadataLength < 4294967296) :
    MsfzHeader.ofBytes d = hdr := by
  have e1 : le32 hdr.toBytes 40 = hdr.m_StreamDirectoryDataOffset := by
    have := le32_toLe32_append (g_MsfzSignatureBytes ++ List.replicate 8 0)
      (toLe32 hdr.m_StreamDirectoryDataOrigin
        ++ toLe32 hdr.m_ChunkMetadataOffset ++ toLe32 hdr.m_ChunkMetadataOrigin
        ++ toLe32 hdr.m_NumMSFStreams ++ toLe32 hdr.m_IsStreamDirectoryDataCompressed
        ++ toLe32 hdr.m_StreamDirectoryDataLengthCompressed
        ++ toLe32 hdr.m_StreamDirectoryDataLengthDecompressed
        ++ toLe32 hdr.m_NumChunks ++ toLe32 hdr.m_ChunkMetadataLength) _ h1
    simpa [MsfzHeader.toBytes, g_MsfzSignatureBytes, length_toLe32] using this
  have e2 : le32 hdr.toBytes 44 = hdr.m_StreamDirectoryDataOrigin := by
    have := le32_toLe32_append (g_MsfzSignatureBytes ++ List.replicate 8 0
        ++ toLe32 hdr.m_StreamDirectoryDataOffset)
      (toLe32 hdr.m_ChunkMetadataOffset ++ toLe32 hdr.m_ChunkMetadataOrigin
        ++ toLe32 hdr.m_NumMSFStreams ++ toLe32 hdr.m_IsStreamDirectoryDataCompressed
        ++ toLe32 hdr.m_StreamDirectoryDataLengthCompressed
        ++ toLe32 hdr.m_StreamDirectoryDataLengthDecompressed
        ++ toLe32 hdr.m_NumChunks ++ toLe32 hdr.m_ChunkMetadataLength) _ h2
    simpa [MsfzHeader.toBytes, g_MsfzSignatureBytes, length_toLe32] using this
  have e3 : le32 hdr.toBytes 48 = hdr.m_ChunkMetadataOffset := by
    have := le32_toLe32_append (g_MsfzSignatureBytes ++ List.replicate 8 0
        ++ toLe32 hdr.m_StreamDirectoryDataOffset ++ toLe32 hdr.m_StreamDirectoryDataOrigin)
      (toLe32 hdr.m_ChunkMetadataOrigin
        ++ toLe32 hdr.m_NumMSFStreams ++ toLe32 hdr.m_IsStreamDirectoryDataCompressed
        ++ toLe32 hdr.m_StreamDirectoryDataLengthCompressed
        ++ toLe32 hdr.m_StreamDirectoryDataLengthDecompressed
        ++ toLe32 hdr.m_NumChunks ++ toLe32 hdr.m_ChunkMetadataLength) _ h3
    simpa [MsfzHeader.toBytes, g_MsfzSignatureBytes, length_toLe32] using this
  have e4 : le32 hdr.toBytes 52 = hdr.m_ChunkMetadataOrigin := by
    have := le32_toLe32_append (g_MsfzSignatureBytes ++ List.replicate 8 0
        ++ toLe32 hdr.m_StreamDirectoryDataOffset ++ toLe32 hdr.m_StreamDirectoryDataOrigin
        ++ toLe32 hdr.m_ChunkMetadataOffset)
      (toLe32 hdr.m_NumMSFStreams ++ toLe32 hdr.m_IsStreamDirectoryDataCompressed
        ++ toLe32 hdr.m_StreamDirectoryDataLengthCompressed
        ++ toLe32 hdr.m_StreamDirectoryDataLengthDecompressed
        ++ toLe32 hdr.m_NumChunks ++ toLe32 hdr.m_ChunkMetadataLength) _ h4
    simpa [MsfzHeader.toBytes, g_MsfzSignatureBytes, length_toLe32] using this
  have e5 : le32 hdr.toBytes 56 = hdr.m_NumMSFStreams := by
    have := le32_toLe32_append (g_MsfzSignatureBytes ++ List.replicate 8 0
        ++ toLe32 hdr.m_StreamDirectoryDataOffset ++ toLe32 hdr.m_StreamDirectoryDataOrigin
        ++ toLe32 hdr.m_ChunkMetadataOffset ++ toLe32 hdr.m_ChunkMetadataOrigin)
      (toLe32 hdr.m_IsStreamDirectoryDataCompressed
        ++ toLe32 hdr.m_StreamDirectoryDataLengthCompressed
        ++ toLe32 hdr.m_StreamDirectoryDataLengthDecompressed
        ++ toLe32 hdr.m_NumChunks ++ toLe32 hdr.m_ChunkMetadataLength) _ h5
    simpa [MsfzHeader.toBytes, g_MsfzSignatureBytes, length_toLe32] using this
  have e6 : le32 hdr.toBytes 60 = hdr.m_IsStreamDirectoryDataCompressed := by
    have := le32_toLe32_append (g_MsfzSignatureBytes ++ List.replicate 8 0
        ++ toLe32 hdr.m_StreamDirectoryDataOffset ++ toLe32 hdr.m_StreamDirectoryDataOrigin
        ++ toLe32 hdr.m_ChunkMetadataOffset ++ toLe32 hdr.m_ChunkMetadataOrigin
        ++ toLe32 hdr.m_NumMSFStreams)
      (toLe32 hdr.m_StreamDirectoryDataLengthCompressed
        ++ toLe32 hdr.m_StreamDirectoryDataLengthDecompressed
        ++ toLe32 hdr.m_NumChunks ++ toLe32 hdr.m_ChunkMetadataLength) _ h6
    simpa [MsfzHeader.toBytes, g_MsfzSignatureBytes, length_toLe32] using this
  have e7 : le32 hdr.toBytes 64 = hdr.m_StreamDirectoryDataLengthCompressed := by
    have := le32_toLe32_append (g_MsfzSignatureBytes ++ List.replicate 8 0
        ++ toLe32 hdr.m_StreamDirectoryDataOffset ++ toLe32 hdr.m_StreamDirectoryDataOrigin
        ++ toLe32 hdr.m_ChunkMetadataOffset ++ toLe32 hdr.m_ChunkMetadataOrigin
        ++ toLe32 hdr.m_NumMSFStreams ++ toLe32 hdr.m_IsStreamDirectoryDataCompressed)
      (toLe32 hdr.m_StreamDirectoryDataLengthDecompressed
        ++ toLe32 hdr.m_NumChunks ++ toLe32 hdr.m_ChunkMetadataLength) _ h7
    simpa [MsfzHeader.toBytes, g_MsfzSignatureBytes, length_toLe32] using this
  have e8 : le32 hdr.toBytes 68 = hdr.m_StreamDirectoryDataLengthDecompressed := by
    have := le32_toLe32_append (g_MsfzSignatureBytes ++ List.replicate 8 0
        ++ toLe32 hdr.m_StreamDirectoryDataOffset ++ toLe32 hdr.m_StreamDirectoryDataOrigin
        ++ toLe32 hdr.m_ChunkMetadataOffset ++ toLe32 hdr.m_ChunkMetadataOrigin
        ++ toLe32 hdr.m_NumMSFStreams ++ toLe32 hdr.m_IsStreamDirectoryDataCompressed
        ++ toLe32 hdr.m_StreamDirectoryDataLengthCompressed)
      (toLe32 hdr.m_NumChunks ++ toLe32 hdr.m_ChunkMetadataLength) _ h8
    simpa [MsfzHeader.toBytes, g_MsfzSignatureBytes, length_toLe32] using this
  have e9 : le32 hdr.toBytes 72 = hdr.m_NumChunks := by
    have := le32_toLe32_append (g_MsfzSignatureBytes ++ List.replicate 8 0
        ++ toLe32 hdr.m_StreamDirectoryDataOffset ++ toLe32 hdr.m_StreamDirectoryDataOrigin
        ++ toLe32 hdr.m_ChunkMetadataOffset ++ toLe32 hdr.m_ChunkMetadataOrigin
        ++ toLe32 hdr.m_NumMSFStreams ++ toLe32 hdr.m_IsStreamDirectoryDataCompressed
        ++ toLe32 hdr.m_StreamDirectoryDataLengthCompressed
        ++ toLe32 hdr.m_StreamDirectoryDataLengthDecompressed)
      (toLe32 hdr.m_ChunkMetadataLength) _ h9
    simpa [MsfzHeader.toBytes, g_MsfzSignatureBytes, length_toLe32] using this
  have e10 : le32 hdr.toBytes 76 = hdr.m_ChunkMetadataLength := by
    have := le32_toLe32_append (g_MsfzSignatureBytes ++ List.replicate 8 0
        ++ toLe32 hdr.m_StreamDirectoryDataOffset ++ toLe32 hdr.m_StreamDirectoryDataOrigin
        ++ toLe32 hdr.m_ChunkMetadataOffset ++ toLe32 hdr.m_ChunkMetadataOrigin
        ++ toLe32 hdr.m_NumMSFStreams ++ toLe32 hdr.m_IsStreamDirectoryDataCompressed
        ++ toLe32 hdr.m_StreamDirectoryDataLengthCompressed
        ++ toLe32 hdr.m_StreamDirectoryDataLengthDecompressed ++ toLe32 hdr.m_NumChunks)
      [] _ h10
    simpa [MsfzHeader.toBytes, g_MsfzSignatureBytes, length_toLe32] using this
  unfold MsfzHeader.ofBytes
  rw [hle 40 (by omega), hle 44 (by omega), hle 48 (by omega), hle 52 (by omega),
    hle 56 (by omega), hle 60 (by omega), hle 64 (by omega), hle 68 (by omega),
    hle 72 (by omega), hle 76 (by omega), e1, e2, e3, e4, e5, e6, e7, e8, e9, e10]
theorem resizeFile_of_le (content : Bytes) (n : Nat) (h : n ≤ content.length) :
    resizeFile content n = content.take n := by
  unfold resizeFile
  rw [Nat.sub_eq_zero_of_le h]
  simp

theorem msfz_directory_read (codec : Codec) (out dir : Bytes) (hdr : MsfzHeader) (O : Nat)
    (file : Bytes)
    (hfile : file = resizeFile (writeAt (writeAt out O dir) 0 hdr.toBytes) (O + dir.length))
    (hO : 80 ≤ O) (hin : O + dir.length ≤ out.length) (hdir1 : 1 ≤ dir.length)
    (h1 : hdr.m_StreamDirectoryDataOffset = O)
    (h2 : hdr.m_StreamDirectoryDataOrigin < 4294967296)
    (h3 : hdr.m_ChunkMetadataOffset < 4294967296)
    (h4 : hdr.m_ChunkMetadataOrigin < 4294967296)
    (h5 : hdr.m_NumMSFStreams < 4294967296)
    (h6 : hdr.m_IsStreamDirectoryDataCompressed = 0)
    (h7 : hdr.m_StreamDirectoryDataLengthCompressed = dir.length)
    (h8 : hdr.m_StreamDirectoryDataLengthDecompressed < 4294967296)
    (h9 : hdr.m_NumChunks < 4294967296)
    (h10 : hdr.m_ChunkMetadataLength < 4294967296)
    (h32 : out.length < 4294967296) :
    MsfzHeader.ofBytes file = hdr
      ∧ GetStreamDirectoryData codec (ImmutableStream.ofBytes file) hdr = some dir := by
  have hb := length_MsfzHeader_toBytes hdr
  have l1 : (writeAt out O dir).length = out.length := length_writeAt _ _ _ hin
  have l2 : (writeAt (writeAt out O dir) 0 hdr.toBytes).length = out.length := by
    rw [length_writeAt _ _ _ (by omega), l1]
  have hf : file = (writeAt (writeAt out O dir) 0 hdr.toBytes).take (O + dir.length) := by
    rw [hfile, resizeFile_of_le _ _ (by omega)]
  have hfl : file.length = O + dir.length := by
    rw [hf, List.length_take, l2]
    omega
  have ht : (writeAt (writeAt out O dir) 0 hdr.toBytes).take 80 = hdr.toBytes := by
    have := take_drop_writeAt_self (writeAt out O dir) 0 hdr.toBytes (by omega)
    rwa [List.drop_zero, hb] at this
  have hle : ∀ off, off + 4 ≤ 80 → le32 file off = le32 hdr.toBytes off := by
    intro off ho
    rw [hf, le32_take _ _ _ (by omega)]
    have := le32_take (writeAt (writeAt out O dir) 0 hdr.toBytes) 80 off ho
    rw [ht] at this
    exact this.symm
  have hspan : (file.drop O).take dir.length = dir := by
    have hd := take_drop_writeAt_disjoint (writeAt out O dir) 0 hdr.toBytes O dir.length
      (by omega) (by omega)
    rw [take_drop_writeAt_self out O dir hin] at hd
    rw [hf, List.drop_take, Nat.add_sub_cancel_left, List.take_take, Nat.min_self, hd]
  refine ⟨MsfzHeader_ofBytes_of_le32 file hdr hle (by omega) h2 h3 h4 h5 (by omega) (by omega)
    h8 h9 h10, ?_⟩
  unfold GetStreamDirectoryData
  simp only [ImmutableStream.ofBytes, ImmutableStream.m_Length, ImmutableStream.CanReadAt,
    ImmutableStream.span, h1, h6, h7, hfl]
  rw [if_neg (by omega)]
  have hcr : (decide (O < O + dir.length) && decide (O + dir.length ≤ O + dir.length)) = true := by
    rw [Bool.and_eq_true, decide_eq_true_eq, decide_eq_true_eq]
    omega
  rw [hcr]
  simp [hspan]
theorem directorySpec_block_count (payload : Bytes) (bs : Nat) :
    ∀ info ∈ directorySpec payload bs,
      info.m_StreamBlockIndices.length = ceilDiv info.m_StreamSize bs := by
  intro info hi
  unfold directorySpec at hi
  rw [List.mem_map] at hi
  obtain ⟨i, _, rfl⟩ := hi
  simp [recordSpec]

/-! ### Claims C1 and C2: the round trip -/

/-- C1, evaluated where it fails. In `gapPdb` stream 0 occupies blocks 3 and 5 and stream 1
block 4. Compressing with `NoCompression` and decompressing with block size 512 gives a
PDB with two streams of the same sizes, but stream 0 comes back as the bytes of blocks 3
and 4 of the input instead of blocks 3 and 5. -/
theorem roundTrip_changes_stream_bytes :
    pdbStreams gapPdb
      = some [List.replicate 512 3 ++ List.replicate 512 5, List.replicate 512 4] ∧
    (roundTrip storeCodec noCompression512 false 2 (sequentialSchedule 2 4) [0, 1] gapPdb).bind
        pdbStreams
      = some [List.replicate 512 3 ++ List.replicate 512 4, List.replicate 512 4] := by
  decide!

/-- C2 as stated fails. In `swappedPdb` stream 0 is stored in block 4 and stream 1 in
block 3. After the round trip under `NoCompression` with the same block size the
directory lists block 3 for stream 0 and block 4 for stream 1, so the payloads differ in
the block-index words. -/
theorem roundTrip_directory_not_byte_equal :
    directoryPayload swappedPdb
      = some (toLe32 2 ++ toLe32 512 ++ toLe32 512 ++ toLe32 4 ++ toLe32 3) ∧
    (roundTrip storeCodec noCompression512 false 2 (sequentialSchedule 2 4) [0, 1]
        swappedPdb).bind directoryPayload
      = some (toLe32 2 ++ toLe32 512 ++ toLe32 512 ++ toLe32 3 ++ toLe32 4) ∧
    (roundTrip storeCodec noCompression512 false 2 (sequentialSchedule 2 4) [0, 1]
        swappedPdb).bind directoryPayload ≠ directoryPayload swappedPdb := by
  decide!

/-! ### Lemmas on the sizing pass, the block assignment and the streams with holes -/

theorem emptyStream_superblock : readSuperBlock emptyStreamPdb = some emptySuperBlock := by
  decide!

theorem emptyStream_parse :
    ParseStreamDirectory (ImmutableStream.ofBytes emptyStreamPdb) emptySuperBlock
      = some [⟨0, []⟩] := by
  decide!

theorem emptyStream_sizes (codec : Codec) (hb : codec.compressBound 0 < 4294967296) :
    CalculateOutputRegionSizes codec [⟨0, []⟩] singleFragmentArgs = some (4, 0, 0) := by
  have hs : singleFragmentArgs.m_CompressionStrategy = .SingleFragment := rfl
  simp [CalculateOutputRegionSizes, List.foldlM, hs, StrictCastTo32, hb]

theorem emptyStream_compress (codec : Codec) (c : Bytes) (file : ImmutableStream)
    (sh : Shared) (hc : codec.compress 3 (toLe32 0) = some c) :
    CompressAndWriteStreamData codec file [⟨0, []⟩] singleFragmentArgs 512 80 1 [0] sh
      = .finished
          { sh := sh, streamDescriptors := [[]], directoryData := c, m_NumMSFStreams := 1,
            m_IsStreamDirectoryDataCompressed := 1 } := by
  have hs : singleFragmentArgs.m_CompressionStrategy = .SingleFragment := rfl
  simp [CompressAndWriteStreamData, CompressAndWriteStreamData.runSchedule,
    WriteSingleStreamData.step, StrictCastTo32, hs, serializeDirectory, hc]

theorem emptyStream_finalize (c out : Bytes) (h4 : 4 < c.length) (hlt : c.length < 4294967296) :
    RunCompression.finalize 84 80 4 0 out 0 c 1 1 [[]]
      = .finished
          { file := resizeFile (writeAt out 0 (emptyHeader c.length).toBytes) (80 + c.length),
            header := emptyHeader c.length, streamDescriptors := [[]] } := by
  have hne : c.length ≠ 0 := by omega
  have hg : MutableStreamFixed.GetStreamAtOffset ⟨some 0, 84, 0⟩ 80 c.length
      = MutableStreamFixed.null := by
    simp only [MutableStreamFixed.GetStreamAtOffset, if_neg hne]
    rw [if_pos]
    right
    omega
  have hw : (MutableStreamFixed.null.WriteBytes out c).2.2 = out := by
    simp only [MutableStreamFixed.WriteBytes, MutableStreamFixed.null]
    rw [if_pos (by omega)]
  have hh : MutableStreamFixed.GetStreamAtOffset ⟨some 0, 84, 0⟩ 0 80 = ⟨some 0, 80, 0⟩ := by
    decide
  have hl : (emptyHeader c.length).toBytes.length = 80 := length_MsfzHeader_toBytes _
  have hw2 : ((⟨some 0, 80, 0⟩ : MutableStreamFixed).WriteBytes out
      (emptyHeader c.length).toBytes).2.2 = writeAt out 0 (emptyHeader c.length).toBytes := by
    simp only [MutableStreamFixed.WriteBytes, hl]
    simp
  have h0 : (0 : Nat) < 4294967296 := by norm_num
  simp only [RunCompression.finalize, StrictCastTo32, if_pos h0, if_pos hlt]
  have e1 : (80 + 0) % 4294967296 = 80 := by norm_num
  rw [e1, hg, hw, hh]
  have e2 : ∀ n, MsfzHeader.mk 80 0 80 0 1 1 n 4 (0 / 20) 0 = emptyHeader n := fun _ => rfl
  rw [e2, hw2]

theorem emptyStream_convert (codec : Codec) (c : Bytes) (file : ImmutableStream)
    (hb : codec.compressBound 0 < 4294967296)
    (hc : codec.compress 3 (toLe32 0) = some c) (h4 : 4 < c.length)
    (hlt : c.length < 4294967296) :
    RunCompression.convert codec singleFragmentArgs file emptySuperBlock [⟨0, []⟩] 1 [0]
      = .finished
          { file := resizeFile (writeAt (zeroFile 84) 0 (emptyHeader c.length).toBytes)
              (80 + c.length),
            header := emptyHeader c.length, streamDescriptors := [[]] } := by
  rw [RunCompression.convert, emptyStream_sizes codec hb]
  have hbs : emptySuperBlock.m_BlockSize = 512 := rfl
  simp only [hbs, Nat.reduceAdd, Nat.reduceMod]
  rw [emptyStream_compress codec c file _ hc]
  simp only []
  rw [MutableStreamFixed.GetStreamAtOffset]
  exact emptyStream_finalize c _ h4 hlt

theorem emptyStream_run (codec : Codec) (c : Bytes)
    (hb : codec.compressBound 0 < 4294967296)
    (hc : codec.compress 3 (toLe32 0) = some c) (h4 : 4 < c.length)
    (hlt : c.length < 4294967296) :
    RunCompression codec singleFragmentArgs emptyStreamPdb 1 [0]
      = .finished
          { file := resizeFile (writeAt (zeroFile 84) 0 (emptyHeader c.length).toBytes)
              (80 + c.length),
            header := emptyHeader c.length, streamDescriptors := [[]] } := by
  rw [RunCompression, emptyStream_superblock]
  simp only []
  rw [emptyStream_parse]
  exact emptyStream_convert codec c _ hb hc h4 hlt
theorem next_not_reserved (bs c : Nat) (hbs : bs ∈ [512, 1024, 2048, 4096, 8192]) :
    IsBlockReserved (AssignNextNBlocks.next bs c).1 bs = false := by
  unfold AssignNextNBlocks.next
  by_cases h1 : IsBlockReserved c bs = false
  · rw [if_pos h1]
    exact h1
  · rw [if_neg h1]
    by_cases h2 : IsBlockReserved ((c + 1) % 4294967296) bs = false
    · rw [if_pos h2]
      exact h2
    · rw [if_neg h2]
      simp only [IsBlockReserved, Bool.or_eq_false_iff, beq_eq_false_iff_ne, ne_eq, not_and,
        Decidable.not_not, Bool.not_eq_false, Bool.or_eq_true, beq_iff_eq] at h1 h2 ⊢
      simp only [List.mem_cons, List.mem_singleton, List.not_mem_nil, or_false] at hbs
      rcases hbs with rfl | rfl | rfl | rfl | rfl <;> omega

theorem AssignNextNBlocks_not_reserved (bs : Nat) (hbs : bs ∈ [512, 1024, 2048, 4096, 8192]) :
    ∀ (n c : Nat), ∀ b ∈ (AssignNextNBlocks bs n c).1, IsBlockReserved b bs = false := by
  intro n
  induction n with
  | zero =>
      intro c b hb
      simp [AssignNextNBlocks] at hb
  | succ n ih =>
      intro c b hb
      simp only [AssignNextNBlocks, List.mem_cons] at hb
      rcases hb with rfl | hb
      · exact next_not_reserved bs c hbs
      · exact ih _ b hb

theorem streams_not_reserved (bs : Nat) (hbs : bs ∈ [512, 1024, 2048, 4096, 8192]) :
    ∀ (descs : List (List MsfzFragment)) (c t : Nat) (r : List (List Nat) × Nat × Nat),
      AssignBlocksToStreams.streams bs descs c t = some r →
      ∀ l ∈ r.1, ∀ b ∈ l, IsBlockReserved b bs = false := by
  intro descs
  induction descs with
  | nil =>
      intro c t r h l hl
      simp only [AssignBlocksToStreams.streams, Option.some.injEq] at h
      subst h
      simp at hl
  | cons d rest ih =>
      intro c t r h l hl b hb
      simp only [AssignBlocksToStreams.streams] at h
      cases hsz : CalculateSize d with
      | none => simp [hsz] at h
      | some sz =>
          simp only [hsz, Option.map_eq_some'] at h
          obtain ⟨r1, hr1, rfl⟩ := h
          simp only [List.mem_cons] at hl
          rcases hl with rfl | hl
          · exact AssignNextNBlocks_not_reserved bs hbs _ _ b hb
          · exact ih _ _ r1 hr1 l hl b hb

theorem IsBlockReserved_false_iff (b bs : Nat) :
    IsBlockReserved b bs = false ↔ b % bs ≠ 1 ∧ b % bs ≠ 2 := by
  simp [IsBlockReserved]
theorem longStream_assign :
    AssignBlocksToStreams longStreamDescriptors 512 = some longStreamAssignment := by
  decide!

theorem step_ok (codec : Codec) (file : ImmutableStream) (info : PDBStreamInfo)
    (bs cdo : Nat) (args : ProgramCommandLineArgs) (sh sh1 : Shared) (w w1 : Worker)
    (h : WriteSingleStreamData.step codec file info bs cdo args sh w = some (sh1, w1))
    (hW : WorkerOk info.m_StreamSize w) : WorkerOk info.m_StreamSize w1 := by
  obtain ⟨hz, hW⟩ := hW
  unfold WriteSingleStreamData.step at h
  cases hst : w.state with
  | start =>
    rw [hst] at h
    simp only [hst] at hW
    simp only at h
    split at h
    · rename_i hpos
      split at h
      · cases h
      · rename_i data hdata
        split at h
        · cases h
        · rename_i len hlen
          simp only [Option.some.injEq, Prod.mk.injEq] at h
          obtain ⟨rfl, rfl⟩ := h
          have hl := StrictCastTo32_eq_some _ _ hlen
          refine ⟨fun h0 => by omega, ?_⟩
          simp only
          refine ⟨hl.2, fun _ => trivial, Or.inl ?_⟩
          rw [hW]
          intro f hf
          cases hf
    · rename_i hpos
      simp only [Option.some.injEq, Prod.mk.injEq] at h
      obtain ⟨rfl, rfl⟩ := h
      refine ⟨fun _ => ⟨hW, Or.inr rfl⟩, ?_⟩
      simp only
      rw [hW]
      intro f hf
      cases hf
  | loopHead data m off =>
    rw [hst] at h
    simp only [hst] at hW
    obtain ⟨hdl, hm, hcase⟩ := hW
    have hs0 : info.m_StreamSize ≠ 0 := by
      intro h0
      have := (hz h0).2
      rw [hst] at this
      rcases this with h1 | h1 <;> cases h1
    simp only at h
    split at h
    · rename_i hlt
      unfold WriteSingleStreamData.reserveSlot at h
      simp only at h
      split at h
      · cases h
      · rename_i idx hidx
        simp only [Option.some.injEq, Prod.mk.injEq] at h
        obtain ⟨rfl, rfl⟩ := h
        have hi := StrictCastTo32_eq_some _ _ hidx
        refine ⟨fun h0 => absurd h0 hs0, ?_⟩
        simp only
        refine ⟨hdl, hm, ?_⟩
        by_cases hm0 : m = 0
        · exact Or.inr ⟨hm0, by omega⟩
        · left
          rcases hcase with hc | hc
          · intro f hf
            rw [List.mem_append, List.mem_singleton] at hf
            rcases hf with hf | rfl
            · exact hc f hf
            · refine ⟨?_, ?_, ?_, ?_⟩
              · simp only
                omega
              · simp only
                omega
              · simp only
                omega
              · simp only
                rw [hi.1]
                exact SetChunkIndex_lt _ hi.2
          · exact absurd hc.1 hm0
    · rename_i hge
      simp only [Option.some.injEq, Prod.mk.injEq] at h
      obtain ⟨rfl, rfl⟩ := h
      refine ⟨fun h0 => absurd h0 hs0, ?_⟩
      simp only
      rcases hcase with hc | hc
      · exact hc
      · have := hm hc.1
        omega
  | reserved data m off cds fsz =>
    rw [hst] at h
    simp only [hst] at hW
    obtain ⟨hdl, hm, hcase⟩ := hW
    have hs0 : info.m_StreamSize ≠ 0 := by
      intro h0
      have := (hz h0).2
      rw [hst] at this
      rcases this with h1 | h1 <;> cases h1
    simp only at h
    unfold WriteSingleStreamData.writeChunk at h
    split at h
    · cases h
    · simp only at h
      split at h
      · simp only [Option.some.injEq, Prod.mk.injEq] at h
        obtain ⟨rfl, rfl⟩ := h
        refine ⟨fun h0 => absurd h0 hs0, ?_⟩
        simp only
        refine ⟨hdl, ?_, hcase⟩
        intro hm0
        rw [hm0, hm hm0]
      · cases h
  | done =>
    rw [hst] at h
    simp only [Option.some.injEq, Prod.mk.injEq] at h
    obtain ⟨rfl, rfl⟩ := h
    exact ⟨hz, by simp only [hst] at hW ⊢; exact hW⟩

theorem runSchedule_ok (codec : Codec) (file : ImmutableStream) (infos : List PDBStreamInfo)
    (args : ProgramCommandLineArgs) (bs cdo : Nat) :
    ∀ (schedule : List Nat) (sh : Shared) (ws : List Worker) (sh1 : Shared) (ws1 : List Worker),
      CompressAndWriteStreamData.runSchedule codec file infos args bs cdo schedule sh ws
        = some (sh1, ws1) →
      (∀ (i : Nat) (info : PDBStreamInfo) (w : Worker), infos[i]? = some info → ws[i]? = some w →
        WorkerOk info.m_StreamSize w) →
      ws.length = infos.length →
      (∀ (i : Nat) (info : PDBStreamInfo) (w : Worker), infos[i]? = some info →
            ws1[i]? = some w → WorkerOk info.m_StreamSize w)
        ∧ ws1.length = infos.length := by
  intro schedule
  induction schedule with
  | nil =>
    intro sh ws sh1 ws1 h hW hl
    simp only [CompressAndWriteStreamData.runSchedule, Option.some.injEq, Prod.mk.injEq] at h
    obtain ⟨rfl, rfl⟩ := h
    exact ⟨hW, hl⟩
  | cons i rest ih =>
    intro sh ws sh1 ws1 h hW hl
    simp only [CompressAndWriteStreamData.runSchedule] at h
    cases hinfo : infos[i]? with
    | none =>
      rw [hinfo] at h
      exact ih sh ws sh1 ws1 h hW hl
    | some info =>
      cases hw : ws[i]? with
      | none =>
        rw [hinfo, hw] at h
        exact ih sh ws sh1 ws1 h hW hl
      | some w =>
        rw [hinfo, hw] at h
        simp only at h
        split at h
        · cases h
        · rename_i sh2 w2 hstep
          have hW2 := step_ok codec file info bs cdo args sh sh2 w w2 hstep (hW i info w hinfo hw)
          refine ih sh2 (ws.set i w2) sh1 ws1 h ?_ (by rw [List.length_set, hl])
          intro j info' w' hj hwj
          rw [List.getElem?_set] at hwj
          split at hwj
          · rename_i hij
            subst hij
            split at hwj
            · simp only [Option.some.injEq] at hwj
              subst hwj
              rw [hinfo] at hj
              simp only [Option.some.injEq] at hj
              subst hj
              exact hW2
            · cases hwj
          · exact hW j info' w' hj hwj
theorem IsBlockReserved_period (bs k c : Nat) (h1 : k * bs + 3 ≤ c) (h2 : c ≤ k * bs + bs) :
    IsBlockReserved c bs = false := by
  have hc : c = (c - k * bs) + k * bs := by omega
  unfold IsBlockReserved
  rw [hc, Nat.add_mul_mod_self_right]
  rcases Nat.lt_or_ge (c - k * bs) bs with h | h
  · rw [Nat.mod_eq_of_lt h]
    simp
    omega
  · have : c - k * bs = bs := by omega
    rw [this]
    simp

theorem AssignNextNBlocks_segment (bs k : Nat) :
    ∀ (n c : Nat), k * bs + 3 ≤ c → c + n ≤ k * bs + bs + 1 → c + n < 4294967296 →
      AssignNextNBlocks bs n c = (List.range' c n, c + n) := by
  intro n
  induction n with
  | zero => intro c _ _ _; simp [AssignNextNBlocks]
  | succ n ih =>
    intro c hc h h32
    simp only [AssignNextNBlocks, AssignNextNBlocks.next]
    rw [if_pos (IsBlockReserved_period bs k c hc (by omega))]
    simp only
    rw [Nat.mod_eq_of_lt (by omega), ih (c + 1) (by omega) (by omega) (by omega)]
    simp only [List.range'_succ]
    congr 1
    omega

theorem AssignNextNBlocks_append (bs : Nat) :
    ∀ (n m c : Nat),
      AssignNextNBlocks bs (n + m) c
        = ((AssignNextNBlocks bs n c).1
            ++ (AssignNextNBlocks bs m (AssignNextNBlocks bs n c).2).1,
          (AssignNextNBlocks bs m (AssignNextNBlocks bs n c).2).2) := by
  intro n
  induction n with
  | zero => intro m c; simp [AssignNextNBlocks]
  | succ n ih =>
    intro m c
    rw [Nat.succ_add]
    simp only [AssignNextNBlocks]
    rw [ih]
    simp

theorem next_skip (bs k : Nat) (hbs : 4 ≤ bs) (h32 : k * bs + 4 < 4294967296) :
    AssignNextNBlocks.next bs (k * bs + 1) = (k * bs + 3, k * bs + 4) := by
  have h1 : IsBlockReserved (k * bs + 1) bs = true := by
    unfold IsBlockReserved
    rw [Nat.add_comm, Nat.add_mul_mod_self_right, Nat.mod_eq_of_lt (by omega)]
    simp
  have e1 : (k * bs + 1 + 1) % 4294967296 = 2 + k * bs := by
    rw [Nat.mod_eq_of_lt (by omega)]
    omega
  have e2 : (k * bs + 1 + 2) % 4294967296 = k * bs + 3 := Nat.mod_eq_of_lt (by omega)
  have e3 : (k * bs + 1 + 3) % 4294967296 = k * bs + 4 := Nat.mod_eq_of_lt (by omega)
  have h2 : IsBlockReserved ((k * bs + 1 + 1) % 4294967296) bs = true := by
    rw [e1]
    unfold IsBlockReserved
    rw [Nat.add_mul_mod_self_right, Nat.mod_eq_of_lt (by omega)]
    simp
  unfold AssignNextNBlocks.next
  rw [if_neg (by simp [h1]), if_neg (by simp [h2]), e2, e3]

theorem AssignNextNBlocks_skip (bs k : Nat) (hbs : 4 ≤ bs) :
    ∀ (n : Nat), n + 3 ≤ bs → k * bs + 4 + n < 4294967296 →
      AssignNextNBlocks bs (n + 1) (k * bs + 1)
        = (List.range' (k * bs + 3) (n + 1), k * bs + 4 + n) := by
  intro n hn h32
  simp only [AssignNextNBlocks]
  rw [next_skip bs k hbs (by omega)]
  simp only
  rw [AssignNextNBlocks_segment bs k n (k * bs + 4) (by omega) (by omega) (by omega)]
  simp only [List.range'_succ]

theorem AssignNextNBlocks_periods (bs : Nat) (hbs : 4 ≤ bs) :
    ∀ (j k : Nat), (k + j) * bs + 1 < 4294967296 →
      (AssignNextNBlocks bs (j * (bs - 2)) (k * bs + 1)).2 = (k + j) * bs + 1 := by
  intro j
  induction j with
  | zero => intro k _; simp [AssignNextNBlocks]
  | succ j ih =>
    intro k h32
    have e1 : (j + 1) * (bs - 2) = (bs - 3 + 1) + j * (bs - 2) := by
      rw [Nat.succ_mul]
      omega
    have e2 : (k + (j + 1)) * bs = (k + 1 + j) * bs := by
      congr 1
      omega
    have e3 : (k + 1 + j) * bs = k * bs + bs + j * bs := by ring
    rw [e1, AssignNextNBlocks_append,
      AssignNextNBlocks_skip bs k hbs (bs - 3) (by omega) (by omega)]
    simp only
    have e4 : k * bs + 4 + (bs - 3) = (k + 1) * bs + 1 := by
      rw [Nat.succ_mul]
      omega
    rw [e4, ih (k + 1) (by rw [← e2]; exact h32), e2]
theorem AssignNextNBlocks_append_snd (bs n m c : Nat) :
    (AssignNextNBlocks bs (n + m) c).2
      = (AssignNextNBlocks bs m (AssignNextNBlocks bs n c).2).2 := by
  rw [AssignNextNBlocks_append]

theorem AssignNextNBlocks_periods_eq (bs j k n c c1 : Nat) (hbs : 4 ≤ bs)
    (hn : n = j * (bs - 2)) (hc : c = k * bs + 1) (hc1 : c1 = (k + j) * bs + 1)
    (h32 : c1 < 4294967296) : (AssignNextNBlocks bs n c).2 = c1 := by
  subst hn hc hc1
  exact AssignNextNBlocks_periods bs hbs j k h32

theorem AssignNextNBlocks_skip_eq (bs k n c c1 : Nat) (hbs : 4 ≤ bs) (hn : n + 3 ≤ bs)
    (hc : c = k * bs + 1) (hc1 : c1 = k * bs + 4 + n) (h32 : c1 < 4294967296) :
    (AssignNextNBlocks bs (n + 1) c).2 = c1 := by
  subst hc hc1
  rw [AssignNextNBlocks_skip bs k hbs n hn h32]

theorem AssignNextNBlocks_segment_eq (bs k n c c1 : Nat) (h1 : k * bs + 3 ≤ c)
    (h2 : c + n ≤ k * bs + bs + 1) (hc1 : c1 = c + n) (h32 : c1 < 4294967296) :
    AssignNextNBlocks bs n c = (List.range' c n, c1) := by
  subst hc1
  exact AssignNextNBlocks_segment bs k n c h1 h2 h32

theorem AssignNextNBlocks_segment_snd (bs k n c c1 : Nat) (h1 : k * bs + 3 ≤ c)
    (h2 : c + n ≤ k * bs + bs + 1) (hc1 : c1 = c + n) (h32 : c1 < 4294967296) :
    (AssignNextNBlocks bs n c).2 = c1 := by
  rw [AssignNextNBlocks_segment_eq bs k n c c1 h1 h2 hc1 h32]

theorem AssignNextNBlocks_cursor3 (bs n1 n2 n3 n c1 c2 c3 c : Nat)
    (hn : n = n1 + (n2 + n3))
    (h1 : (AssignNextNBlocks bs n1 c).2 = c1)
    (h2 : (AssignNextNBlocks bs n2 c1).2 = c2)
    (h3 : (AssignNextNBlocks bs n3 c2).2 = c3) :
    (AssignNextNBlocks bs n c).2 = c3 := by
  rw [hn, AssignNextNBlocks_append_snd, AssignNextNBlocks_append_snd, h1, h2, h3]

theorem huge_cursor : (AssignNextNBlocks 4096 1047039 3).2 = 1047552 :=
  AssignNextNBlocks_cursor3 4096 4094 1039876 (3068 + 1) 1047039 4097 1044481 1047552 3
    (by norm_num)
    (AssignNextNBlocks_segment_snd 4096 0 4094 3 4097 (by norm_num) (by norm_num)
      (by norm_num) (by norm_num))
    (AssignNextNBlocks_periods_eq 4096 254 1 1039876 4097 1044481 (by norm_num)
      (by norm_num) (by norm_num) (by norm_num) (by norm_num))
    (AssignNextNBlocks_skip_eq 4096 255 3068 1044481 1047552 (by norm_num)
      (by norm_num) (by norm_num) (by norm_num) (by norm_num))
theorem AssignBlocksToStreams_single (bs : Nat) (frags : List MsfzFragment)
    (size ns c1 nd c2 ni c3 : Nat) (ld li : List Nat)
    (hsz : CalculateSize frags = some size)
    (hns : AlignTo size bs / bs = ns)
    (hc1 : (AssignNextNBlocks bs ns 3).2 = c1)
    (hnd : StrictCastTo32 (AlignTo64 (4 + (4 + 4 * ns)) bs / bs) = some nd)
    (hd : AssignNextNBlocks bs nd c1 = (ld, c2))
    (hni : StrictCastTo32 (AlignTo64 (nd * 4) bs / bs) = some ni)
    (hi : AssignNextNBlocks bs ni c2 = (li, c3)) :
    AssignBlocksToStreams [frags] bs
      = some { outBlocksForStreams := [(AssignNextNBlocks bs ns 3).1],
               outBlocksForDirectory := ld,
               outBlocksForDirectoryIndices := li,
               outBlocksForFreeBlockMap :=
                 (List.range (AlignTo (AlignTo c3 8 / 8) bs / bs)).map
                   (fun i => (i * bs + 1) % 4294967296),
               outNumBlocks := c3 } := by
  have hpair : AssignNextNBlocks bs ns 3 = ((AssignNextNBlocks bs ns 3).1, c1) := by
    rw [← hc1]
  unfold AssignBlocksToStreams
  simp only [AssignBlocksToStreams.streams, hsz, hns]
  rw [hpair]
  simp only [Option.map_some', hnd, hd, hni, hi]

theorem huge_assign :
    AssignBlocksToStreams hugeDescriptors 4096
      = some { outBlocksForStreams := [(AssignNextNBlocks 4096 1047039 3).1],
               outBlocksForDirectory := List.range' 1047552 1023,
               outBlocksForDirectoryIndices := List.range' 1048575 1,
               outBlocksForFreeBlockMap :=
                 (List.range (AlignTo (AlignTo 1048576 8 / 8) 4096 / 4096)).map
                   (fun i => (i * 4096 + 1) % 4294967296),
               outNumBlocks := 1048576 } :=
  AssignBlocksToStreams_single 4096 _ 4288671744 1047039 1047552 1023 1048575 1 1048576 _ _
    (by decide) (by decide) huge_cursor (by decide)
    (AssignNextNBlocks_segment_eq 4096 255 1023 1047552 1048575 (by norm_num)
      (by norm_num) (by norm_num) (by norm_num))
    (by decide)
    (AssignNextNBlocks_segment_eq 4096 255 1 1048575 1048576 (by norm_num)
      (by norm_num) (by norm_num) (by norm_num))
theorem GetStreamDirectoryData_uncompressed (codec : Codec) (fs : ImmutableStream)
    (header : MsfzHeader) (h0 : header.m_IsStreamDirectoryDataCompressed = 0)
    (h1 : header.m_StreamDirectoryDataOffset + 1 ≤ fs.m_Length)
    (h2 : fs.CanReadAt header.m_StreamDirectoryDataOffset
      header.m_StreamDirectoryDataLengthCompressed = true) :
    GetStreamDirectoryData codec fs header
      = some (fs.span header.m_StreamDirectoryDataOffset
          header.m_StreamDirectoryDataLengthCompressed) := by
  unfold GetStreamDirectoryData
  rw [if_neg (by omega), if_neg (by simp [h2]), if_neg (by simp [h0])]

theorem RunDecompression_empty_output (codec : Codec) (args : ProgramCommandLineArgs)
    (testMode : Bool) (order : List Nat) (msfz : Bytes) (descs : List (List MsfzFragment))
    (chunks : List MsfzChunk) (a : BlockAssignment)
    (hlen : 80 ≤ msfz.length) (hsig : msfz.take 32 = g_MsfzSignatureBytes)
    (hdir : (GetStreamDirectoryData codec (ImmutableStream.ofBytes msfz)
      (MsfzHeader.ofBytes msfz)).bind ParseStreamDirectoryData = some descs)
    (hnum : descs.length = (MsfzHeader.ofBytes msfz).m_NumMSFStreams)
    (hch : GetChunkDescriptorsData (ImmutableStream.ofBytes msfz) (MsfzHeader.ofBytes msfz)
      = some chunks)
    (ha : AssignBlocksToStreams descs args.m_BlockSize = some a)
    (hM : a.outNumBlocks ≤ 1048576) (hN : descs.length ≤ 65536)
    (hz : a.outNumBlocks * args.m_BlockSize % 4294967296 = 0) :
    RunDecompression codec args testMode order msfz = .error := by
  unfold RunDecompression
  simp only
  rw [if_neg (by omega), if_neg (by omega), if_neg (by simp [hsig]), hdir]
  simp only
  rw [if_neg (by simp [hnum]), hch]
  simp only
  rw [ha]
  simp only
  rw [if_neg (by omega), if_neg (by omega), if_pos hz]

theorem huge_directory (codec : Codec) :
    (GetStreamDirectoryData codec (ImmutableStream.ofBytes hugeMsfz)
      (MsfzHeader.ofBytes hugeMsfz)).bind ParseStreamDirectoryData = some hugeDescriptors := by
  have hh : MsfzHeader.ofBytes hugeMsfz = hugeHeader := by decide
  rw [hh, GetStreamDirectoryData_uncompressed codec _ hugeHeader rfl (by decide) (by decide)]
  decide
open MutableStreamFixedWithHoles in
theorem AdjustOffset_cons (h : Nat × Nat) (rest : List (Nat × Nat)) (x : Nat) :
    AdjustOffset (h :: rest) x
      = AdjustOffset rest (if h.1 ≤ x then wrap64 (x + sub64 h.2 h.1) else x) := by
  simp only [AdjustOffset, List.foldl_cons]

theorem HolesOk_le : ∀ (H : List (Nat × Nat)) (lo hi : Nat), HolesOk lo H hi → lo ≤ hi := by
  intro H
  induction H with
  | nil => intro lo hi h; exact h
  | cons a rest ih =>
    intro lo hi h
    obtain ⟨h1, h2, h3⟩ := h
    have := ih _ _ h3
    omega

theorem HolesOk_mono (H : List (Nat × Nat)) (lo lo1 hi : Nat) (h : HolesOk lo H hi)
    (hl : lo1 ≤ lo) : HolesOk lo1 H hi := by
  cases H with
  | nil => exact Nat.le_trans hl h
  | cons a rest => exact ⟨Nat.le_trans hl h.1, h.2.1, h.2.2⟩

theorem sub64_of_le (a b : Nat) (hab : a ≤ b) (hb : b < 18446744073709551616) :
    sub64 b a = b - a := by
  unfold sub64 wrap64
  rw [Nat.mod_eq_of_lt (show a < 18446744073709551616 by omega)]
  have : b + 18446744073709551616 - a = (b - a) + 18446744073709551616 := by omega
  rw [this, Nat.add_mod_right, Nat.mod_eq_of_lt (by omega)]

open MutableStreamFixedWithHoles in
theorem AdjustOffset_eq_nat :
    ∀ (H : List (Nat × Nat)) (lo hi x : Nat), HolesOk lo H hi →
      hi < 18446744073709551616 → x + (hi - lo) < 18446744073709551616 →
      AdjustOffset H x = adjustOffsetNat H x := by
  intro H
  induction H with
  | nil => intro lo hi x _ _ _; rfl
  | cons a rest ih =>
    intro lo hi x h hhi hx
    obtain ⟨h1, h2, h3⟩ := h
    have hb := HolesOk_le _ _ _ h3
    rw [AdjustOffset_cons, adjustOffsetNat]
    by_cases hax : a.1 ≤ x
    · rw [if_pos hax, if_pos hax, sub64_of_le _ _ h2 (by omega)]
      have : wrap64 (x + (a.2 - a.1)) = x + (a.2 - a.1) := by
        unfold wrap64
        exact Nat.mod_eq_of_lt (by omega)
      rw [this]
      exact ih a.2 hi _ h3 hhi (by omega)
    · rw [if_neg hax, if_neg hax]
      exact ih a.2 hi _ h3 hhi (by omega)

theorem adjustOffsetNat_ge : ∀ (H : List (Nat × Nat)) (x : Nat), x ≤ adjustOffsetNat H x := by
  intro H
  induction H with
  | nil => intro x; exact Nat.le_refl _
  | cons a rest ih =>
    intro x
    rw [adjustOffsetNat]
    by_cases hax : a.1 ≤ x
    · rw [if_pos hax]
      have := ih (x + (a.2 - a.1))
      omega
    · rw [if_neg hax]
      exact ih x

theorem adjustOffsetNat_lt : ∀ (H : List (Nat × Nat)) (x y : Nat), x < y →
    adjustOffsetNat H x < adjustOffsetNat H y := by
  intro H
  induction H with
  | nil => intro x y h; exact h
  | cons a rest ih =>
    intro x y h
    rw [adjustOffsetNat, adjustOffsetNat]
    apply ih
    split <;> split <;> omega

theorem adjustOffsetNat_le (H : List (Nat × Nat)) (x y : Nat) (h : x ≤ y) :
    adjustOffsetNat H x ≤ adjustOffsetNat H y := by
  rcases Nat.eq_or_lt_of_le h with h1 | h1
  · rw [h1]
  · exact Nat.le_of_lt (adjustOffsetNat_lt H x y h1)

theorem adjustOffsetNat_of_lt : ∀ (H : List (Nat × Nat)) (lo hi x : Nat), HolesOk lo H hi →
    x < lo → adjustOffsetNat H x = x := by
  intro H
  induction H with
  | nil => intro lo hi x _ _; rfl
  | cons a rest ih =>
    intro lo hi x h hx
    obtain ⟨h1, h2, h3⟩ := h
    rw [adjustOffsetNat, if_neg (by omega)]
    exact ih a.2 hi x h3 (by omega)

theorem adjustOffsetNat_bound : ∀ (H : List (Nat × Nat)) (lo hi x : Nat), HolesOk lo H hi →
    adjustOffsetNat H x ≤ x + (hi - lo) := by
  intro H
  induction H with
  | nil => intro lo hi x _; simp [adjustOffsetNat]
  | cons a rest ih =>
    intro lo hi x h
    obtain ⟨h1, h2, h3⟩ := h
    have hb := HolesOk_le _ _ _ h3
    rw [adjustOffsetNat]
    by_cases hax : a.1 ≤ x
    · rw [if_pos hax]
      have := ih a.2 hi (x + (a.2 - a.1)) h3
      omega
    · rw [if_neg hax]
      have := ih a.2 hi x h3
      omega

theorem AdjustWriteSpans_foldl (ce : Nat) :
    ∀ (H : List (Nat × Nat)) (acc : List (Nat × Nat)) (cb : Nat),
      let r := H.foldl
        (fun (acc : List (Nat × Nat) × Nat) offsetPair =>
          if offsetPair.1 ≥ acc.2 ∧ offsetPair.1 < ce then
            (if acc.2 ≠ offsetPair.1 then acc.1 ++ [(acc.2, offsetPair.1)] else acc.1,
              offsetPair.2)
          else acc)
        (acc, cb)
      r.1 ++ [(r.2, ce)] = acc ++ spansFrom H cb ce := by
  intro H
  induction H with
  | nil => intro acc cb; rfl
  | cons a rest ih =>
    intro acc cb
    simp only [List.foldl_cons, spansFrom]
    by_cases hc : a.1 ≥ cb ∧ a.1 < ce
    · rw [if_pos hc, if_pos hc]
      by_cases hne : cb ≠ a.1
      · rw [if_pos hne, if_pos hne]
        have := ih (acc ++ [(cb, a.1)]) a.2
        simp only at this
        rw [this, List.append_assoc]
      · rw [if_neg hne, if_neg hne]
        have := ih acc a.2
        simp only at this
        rw [this, List.nil_append]
    · rw [if_neg hc, if_neg hc]
      exact ih acc cb

open MutableStreamFixedWithHoles in
theorem AdjustWriteSpans_eq (H : List (Nat × Nat)) (b e : Nat) :
    AdjustWriteSpans H b e = spansFrom H (AdjustOffset H b) (AdjustOffset H e) := by
  have := AdjustWriteSpans_foldl (AdjustOffset H e) H [] (AdjustOffset H b)
  simp only [List.nil_append] at this
  unfold AdjustWriteSpans
  exact this
theorem spansFrom_adjust :
    ∀ (H : List (Nat × Nat)) (c ce hi : Nat), HolesOk c H hi → adjustOffsetNat H c ≤ ce →
      spansFrom H c ce = spansFrom H (adjustOffsetNat H c) ce := by
  intro H
  induction H with
  | nil => intro c ce hi _ _; rfl
  | cons a rest ih =>
    intro c ce hi h hce
    obtain ⟨h1, h2, h3⟩ := h
    rcases Nat.lt_or_ge c a.1 with hlt | hge
    · have : adjustOffsetNat (a :: rest) c = c := by
        rw [adjustOffsetNat, if_neg (by omega)]
        exact adjustOffsetNat_of_lt rest a.2 hi c h3 (by omega)
      rw [this]
    · have hca : c = a.1 := by omega
      have hadj : adjustOffsetNat (a :: rest) c = adjustOffsetNat rest a.2 := by
        rw [adjustOffsetNat, if_pos (by omega)]
        congr 1
        omega
      rw [hadj] at hce ⊢
      have hge2 := adjustOffsetNat_ge rest a.2
      by_cases hlt : a.1 < ce
      · have hl : spansFrom (a :: rest) c ce = spansFrom rest a.2 ce := by
          rw [spansFrom, if_pos ⟨by omega, hlt⟩, if_neg (by omega), List.nil_append]
        rw [hl, ih a.2 ce hi h3 hce]
        rw [spansFrom]
        by_cases hc2 : a.1 ≥ adjustOffsetNat rest a.2 ∧ a.1 < ce
        · rw [if_pos hc2, if_neg (by omega), List.nil_append]
          have : a.2 = adjustOffsetNat rest a.2 := by omega
          rw [← this]
        · rw [if_neg hc2]
      · have e1 : adjustOffsetNat rest a.2 = c := by omega
        rw [e1]

theorem memcpyTo_some (out : Bytes) (pos : Nat) (src : Bytes) (n : Nat)
    (hs : n ≤ src.length) (ho : pos + n ≤ out.length) :
    memcpyTo out (some pos) src n = some (writeAt out pos (src.take n)) := by
  unfold memcpyTo
  by_cases hn : n = 0
  · subst hn
    simp [writeAt_nil]
  · rw [if_neg hn]
    simp only
    rw [if_neg (by omega)]

theorem getD_take_of_lt (l : Bytes) (n k : Nat) (h : k < n) :
    (l.take n).getD k 0 = l.getD k 0 := by
  rw [List.getD_eq_getElem?_getD, List.getD_eq_getElem?_getD, List.getElem?_take_of_lt h]

theorem getD_drop_add (l : Bytes) (n k : Nat) : (l.drop n).getD k 0 = l.getD (n + k) 0 := by
  rw [List.getD_eq_getElem?_getD, List.getD_eq_getElem?_getD, List.getElem?_drop]
open MutableStreamFixedWithHoles in
theorem copySpans_cons (base : Nat) (sp : Nat × Nat) (rest : List (Nat × Nat))
    (data out : Bytes) (h1 : sp.1 ≤ sp.2) (h64 : sp.2 < 18446744073709551616)
    (hd : sp.2 - sp.1 ≤ data.length) (ho : base + sp.2 ≤ out.length) :
    copySpans (some base) (sp :: rest) data out
      = copySpans (some base) rest (data.drop (sp.2 - sp.1))
          (writeAt out (base + sp.1) (data.take (sp.2 - sp.1))) := by
  rw [copySpans]
  simp only [Option.map_some']
  rw [sub64_of_le _ _ h1 h64, memcpyTo_some out (base + sp.1) data (sp.2 - sp.1) hd (by omega)]

open MutableStreamFixedWithHoles in
theorem copySpans_spansFrom :
    ∀ (H : List (Nat × Nat)) (lo hi xb xe base : Nat) (data out : Bytes),
      HolesOk lo H hi → xb ≤ xe → data.length = xe - xb →
      base + adjustOffsetNat H xe ≤ out.length →
      adjustOffsetNat H xe < 18446744073709551616 →
      ∃ out1,
        copySpans (some base) (spansFrom H (adjustOffsetNat H xb) (adjustOffsetNat H xe)) data out
          = some out1
        ∧ out1.length = out.length
        ∧ (∀ k, k < xe - xb →
            out1.getD (base + adjustOffsetNat H (xb + k)) 0 = data.getD k 0)
        ∧ (∀ p, (∀ k, k < xe - xb → p ≠ base + adjustOffsetNat H (xb + k)) →
            out1.getD p 0 = out.getD p 0) := by
  intro H
  induction H with
  | nil =>
    intro lo hi xb xe base data out _ hle hlen hout h64
    simp only [adjustOffsetNat] at hout h64 ⊢
    rw [spansFrom, copySpans_cons base (xb, xe) [] data out hle h64 (by simp only; omega) hout]
    simp only [copySpans]
    have htake : data.take (xe - xb) = data := List.take_of_length_le (by omega)
    rw [htake]
    refine ⟨_, rfl, length_writeAt _ _ _ (by omega), ?_, ?_⟩
    · intro k hk
      rw [getD_writeAt_inside _ _ _ _ _ (by omega) (by omega) (by omega)]
      congr 1
      omega
    · intro p hp
      by_cases h1 : p < base + xb
      · exact getD_writeAt_before _ _ _ _ _ (by omega) h1
      · by_cases h2 : base + xb + data.length ≤ p
        · exact getD_writeAt_after _ _ _ _ _ (by omega) h2
        · exfalso
          exact hp (p - (base + xb)) (by omega) (by omega)
  | cons a rest ih =>
    intro lo hi xb xe base data out h hle hlen hout h64
    obtain ⟨h1, h2, h3⟩ := h
    have hadj : ∀ x, adjustOffsetNat (a :: rest) x
        = adjustOffsetNat rest (if a.1 ≤ x then x + (a.2 - a.1) else x) := fun x => by
      rw [adjustOffsetNat]
    -- the three situations in which the hole `a` plays no part between `xb` and `xe`
    have same : adjustOffsetNat (a :: rest) xe = adjustOffsetNat rest xe →
        adjustOffsetNat (a :: rest) xb = adjustOffsetNat rest xb →
        spansFrom (a :: rest) (adjustOffsetNat rest xb) (adjustOffsetNat rest xe)
          = spansFrom rest (adjustOffsetNat rest xb) (adjustOffsetNat rest xe) →
        (∀ k, k < xe - xb → adjustOffsetNat (a :: rest) (xb + k)
          = adjustOffsetNat rest (xb + k)) →
        ∃ out1,
          copySpans (some base)
              (spansFrom (a :: rest) (adjustOffsetNat (a :: rest) xb)
                (adjustOffsetNat (a :: rest) xe)) data out = some out1
          ∧ out1.length = out.length
          ∧ (∀ k, k < xe - xb →
              out1.getD (base + adjustOffsetNat (a :: rest) (xb + k)) 0 = data.getD k 0)
          ∧ (∀ p, (∀ k, k < xe - xb → p ≠ base + adjustOffsetNat (a :: rest) (xb + k)) →
              out1.getD p 0 = out.getD p 0) := by
      intro ee eb hs hk
      rw [ee] at hout h64
      obtain ⟨out1, ho, hl, hw, hf⟩ := ih a.2 hi xb xe base data out h3 hle hlen hout h64
      rw [ee, eb, hs]
      refine ⟨out1, ho, hl, ?_, ?_⟩
      · intro k hk1
        rw [hk k hk1]
        exact hw k hk1
      · intro p hp
        apply hf
        intro k hk1
        rw [← hk k hk1]
        exact hp k hk1
    by_cases hab : a.1 ≤ xb
    · -- the hole lies at or before the begin of the write
      have eb : adjustOffsetNat (a :: rest) xb = adjustOffsetNat rest (xb + (a.2 - a.1)) := by
        rw [hadj, if_pos hab]
      have ee : adjustOffsetNat (a :: rest) xe = adjustOffsetNat rest (xe + (a.2 - a.1)) := by
        rw [hadj, if_pos (by omega)]
      have hk : ∀ k, adjustOffsetNat (a :: rest) (xb + k)
          = adjustOffsetNat rest (xb + (a.2 - a.1) + k) := by
        intro k
        rw [hadj, if_pos (by omega)]
        congr 1
        omega
      rw [ee] at hout h64
      have hcb := adjustOffsetNat_ge rest (xb + (a.2 - a.1))
      have hs : spansFrom (a :: rest) (adjustOffsetNat rest (xb + (a.2 - a.1)))
            (adjustOffsetNat rest (xe + (a.2 - a.1)))
          = spansFrom rest (adjustOffsetNat rest (xb + (a.2 - a.1)))
            (adjustOffsetNat rest (xe + (a.2 - a.1))) := by
        rw [spansFrom]
        by_cases hc : a.1 ≥ adjustOffsetNat rest (xb + (a.2 - a.1))
            ∧ a.1 < adjustOffsetNat rest (xe + (a.2 - a.1))
        · rw [if_pos hc, if_neg (by omega), List.nil_append]
          have : a.2 = adjustOffsetNat rest (xb + (a.2 - a.1)) := by omega
          rw [← this]
        · rw [if_neg hc]
      obtain ⟨out1, ho, hl, hw, hf⟩ := ih a.2 hi (xb + (a.2 - a.1)) (xe + (a.2 - a.1)) base
        data out h3 (by omega) (by omega) hout h64
      rw [eb, ee, hs]
      refine ⟨out1, ho, hl, ?_, ?_⟩
      · intro k hk1
        rw [hk k]
        exact hw k (by omega)
      · intro p hp
        apply hf
        intro k hk1
        rw [← hk k]
        exact hp k (by omega)
    · have hxb : adjustOffsetNat rest xb = xb :=
        adjustOffsetNat_of_lt rest a.2 hi xb h3 (by omega)
      have eb : adjustOffsetNat (a :: rest) xb = adjustOffsetNat rest xb := by
        rw [hadj, if_neg hab]
      by_cases hae : a.1 ≤ xe
      · have ee : adjustOffsetNat (a :: rest) xe = adjustOffsetNat rest (xe + (a.2 - a.1)) := by
          rw [hadj, if_pos hae]
        have hce := adjustOffsetNat_ge rest (xe + (a.2 - a.1))
        by_cases hlt : a.1 < adjustOffsetNat rest (xe + (a.2 - a.1))
        · -- the hole splits the write
          rw [ee] at hout h64
          have hmono : adjustOffsetNat rest a.2 ≤ adjustOffsetNat rest (xe + (a.2 - a.1)) :=
            adjustOffsetNat_le rest _ _ (by omega)
          have hs : spansFrom (a :: rest) xb (adjustOffsetNat rest (xe + (a.2 - a.1)))
              = (xb, a.1) :: spansFrom rest (adjustOffsetNat rest a.2)
                  (adjustOffsetNat rest (xe + (a.2 - a.1))) := by
            rw [spansFrom, if_pos ⟨by omega, hlt⟩, if_pos (by omega),
              spansFrom_adjust rest a.2 _ hi h3 hmono]
            rfl
          have hl0 : (writeAt out (base + xb) (data.take (a.1 - xb))).length = out.length :=
            length_writeAt _ _ _ (by rw [List.length_take]; omega)
          obtain ⟨out1, ho, hl, hw, hf⟩ := ih a.2 hi a.2 (xe + (a.2 - a.1)) base
            (data.drop (a.1 - xb)) (writeAt out (base + xb) (data.take (a.1 - xb))) h3
            (by omega) (by rw [List.length_drop]; omega) (by rw [hl0]; exact hout) h64
          rw [eb, hxb, ee, hs,
            copySpans_cons base (xb, a.1) _ data out (by simp only; omega)
              (by simp only; omega) (by simp only; omega) (by simp only; omega)]
          refine ⟨out1, ho, by rw [hl, hl0], ?_, ?_⟩
          · intro k hk1
            by_cases hka : xb + k < a.1
            · have e1 : adjustOffsetNat (a :: rest) (xb + k) = xb + k := by
                rw [hadj, if_neg (by omega)]
                exact adjustOffsetNat_of_lt rest a.2 hi _ h3 (by omega)
              rw [e1, hf (base + (xb + k)) (by
                intro j _
                have := adjustOffsetNat_ge rest (a.2 + j)
                omega)]
              rw [getD_writeAt_inside _ _ _ _ _ (by omega) (by omega)
                (by rw [List.length_take]; omega)]
              rw [getD_take_of_lt _ _ _ (by omega)]
              congr 1
              omega
            · have e1 : adjustOffsetNat (a :: rest) (xb + k)
                  = adjustOffsetNat rest (a.2 + (k - (a.1 - xb))) := by
                rw [hadj, if_pos (by omega)]
                congr 1
                omega
              rw [e1, hw (k - (a.1 - xb)) (by omega), getD_drop_add]
              congr 1
              omega
          · intro p hp
            rw [hf p (by
              intro j hj
              have := hp (a.1 - xb + j) (by omega)
              rw [hadj, if_pos (by omega)] at this
              have e2 : xb + (a.1 - xb + j) + (a.2 - a.1) = a.2 + j := by omega
              rw [e2] at this
              exact this)]
            by_cases hp1 : p < base + xb
            · exact getD_writeAt_before _ _ _ _ _ (by omega) hp1
            · by_cases hp2 : base + xb + (data.take (a.1 - xb)).length ≤ p
              · exact getD_writeAt_after _ _ _ _ _ (by rw [List.length_take]; omega) hp2
              · exfalso
                rw [List.length_take] at hp2
                have := hp (p - (base + xb)) (by omega)
                rw [hadj, if_neg (by omega),
                  adjustOffsetNat_of_lt rest a.2 hi _ h3 (by omega)] at this
                omega
        · -- an empty hole at the end of the write
          have e0 : xe + (a.2 - a.1) = xe := by omega
          rw [e0] at ee hlt hce
          exact same ee eb
            (by rw [spansFrom, if_neg (by omega)])
            (fun k hk1 => by rw [hadj, if_neg (by omega)])
      · -- the hole lies after the end of the write
        have ee : adjustOffsetNat (a :: rest) xe = adjustOffsetNat rest xe := by
          rw [hadj, if_neg hae]
        have hxe : adjustOffsetNat rest xe = xe :=
          adjustOffsetNat_of_lt rest a.2 hi xe h3 (by omega)
        exact same ee eb
          (by rw [spansFrom, if_neg (by omega)])
          (fun k hk1 => by rw [hadj, if_neg (by omega)])
theorem HolesOk_mem : ∀ (H : List (Nat × Nat)) (lo hi : Nat), HolesOk lo H hi →
    ∀ h ∈ H, lo ≤ h.1 ∧ h.1 ≤ h.2 ∧ h.2 ≤ hi := by
  intro H
  induction H with
  | nil => intro lo hi _ h hh; cases hh
  | cons a rest ih =>
    intro lo hi hok h hh
    obtain ⟨h1, h2, h3⟩ := hok
    have hle := HolesOk_le _ _ _ h3
    rcases List.mem_cons.mp hh with rfl | hm
    · exact ⟨h1, h2, hle⟩
    · have := ih a.2 hi h3 h hm
      omega

theorem spansFrom_spec :
    ∀ (H : List (Nat × Nat)) (lo hi xb xe : Nat), HolesOk lo H hi → xb ≤ xe →
      (∀ sp ∈ spansFrom H (adjustOffsetNat H xb) (adjustOffsetNat H xe),
          adjustOffsetNat H xb ≤ sp.1 ∧ sp.1 ≤ sp.2 ∧ sp.2 ≤ adjustOffsetNat H xe
            ∧ ∀ h ∈ H, sp.2 ≤ h.1 ∨ h.2 ≤ sp.1)
        ∧ ((spansFrom H (adjustOffsetNat H xb) (adjustOffsetNat H xe)).map
            (fun sp => sp.2 - sp.1)).sum = xe - xb
        ∧ (spansFrom H (adjustOffsetNat H xb) (adjustOffsetNat H xe)).Pairwise
            (fun s t => s.2 ≤ t.1) := by
  intro H
  induction H with
  | nil =>
    intro lo hi xb xe _ hle
    simp only [adjustOffsetNat, spansFrom, List.mem_singleton, List.map_cons, List.map_nil,
      List.sum_cons, List.sum_nil, List.pairwise_cons, List.not_mem_nil, List.Pairwise.nil]
    refine ⟨?_, by omega, by simp⟩
    intro sp hsp
    subst hsp
    exact ⟨Nat.le_refl _, hle, Nat.le_refl _, fun h hh => by cases hh⟩
  | cons a rest ih =>
    intro lo hi xb xe h hle
    obtain ⟨h1, h2, h3⟩ := h
    have hadj : ∀ x, adjustOffsetNat (a :: rest) x
        = adjustOffsetNat rest (if a.1 ≤ x then x + (a.2 - a.1) else x) := fun x => by
      rw [adjustOffsetNat]
    have same : adjustOffsetNat (a :: rest) xe = adjustOffsetNat rest xe →
        adjustOffsetNat (a :: rest) xb = adjustOffsetNat rest xb →
        spansFrom (a :: rest) (adjustOffsetNat rest xb) (adjustOffsetNat rest xe)
          = spansFrom rest (adjustOffsetNat rest xb) (adjustOffsetNat rest xe) →
        adjustOffsetNat rest xe ≤ a.1 →
        (∀ sp ∈ spansFrom (a :: rest) (adjustOffsetNat (a :: rest) xb)
              (adjustOffsetNat (a :: rest) xe),
            adjustOffsetNat (a :: rest) xb ≤ sp.1 ∧ sp.1 ≤ sp.2
              ∧ sp.2 ≤ adjustOffsetNat (a :: rest) xe
              ∧ ∀ h ∈ a :: rest, sp.2 ≤ h.1 ∨ h.2 ≤ sp.1)
          ∧ ((spansFrom (a :: rest) (adjustOffsetNat (a :: rest) xb)
              (adjustOffsetNat (a :: rest) xe)).map (fun sp => sp.2 - sp.1)).sum = xe - xb
          ∧ (spansFrom (a :: rest) (adjustOffsetNat (a :: rest) xb)
              (adjustOffsetNat (a :: rest) xe)).Pairwise (fun s t => s.2 ≤ t.1) := by
      intro ee eb hs hce
      obtain ⟨i1, i2, i3⟩ := ih a.2 hi xb xe h3 hle
      rw [ee, eb, hs]
      refine ⟨?_, i2, i3⟩
      intro sp hsp
      obtain ⟨j1, j2, j3, j4⟩ := i1 sp hsp
      refine ⟨j1, j2, j3, ?_⟩
      intro h hh
      rcases List.mem_cons.mp hh with rfl | hm
      · left
        omega
      · exact j4 h hm
    by_cases hab : a.1 ≤ xb
    · have eb : adjustOffsetNat (a :: rest) xb = adjustOffsetNat rest (xb + (a.2 - a.1)) := by
        rw [hadj, if_pos hab]
      have ee : adjustOffsetNat (a :: rest) xe = adjustOffsetNat rest (xe + (a.2 - a.1)) := by
        rw [hadj, if_pos (by omega)]
      have hcb := adjustOffsetNat_ge rest (xb + (a.2 - a.1))
      have hs : spansFrom (a :: rest) (adjustOffsetNat rest (xb + (a.2 - a.1)))
            (adjustOffsetNat rest (xe + (a.2 - a.1)))
          = spansFrom rest (adjustOffsetNat rest (xb + (a.2 - a.1)))
            (adjustOffsetNat rest (xe + (a.2 - a.1))) := by
        rw [spansFrom]
        by_cases hc : a.1 ≥ adjustOffsetNat rest (xb + (a.2 - a.1))
            ∧ a.1 < adjustOffsetNat rest (xe + (a.2 - a.1))
        · rw [if_pos hc, if_neg (by omega), List.nil_append]
          have : a.2 = adjustOffsetNat rest (xb + (a.2 - a.1)) := by omega
          rw [← this]
        · rw [if_neg hc]
      obtain ⟨i1, i2, i3⟩ := ih a.2 hi (xb + (a.2 - a.1)) (xe + (a.2 - a.1)) h3 (by omega)
      rw [eb, ee, hs]
      refine ⟨?_, by rw [i2]; omega, i3⟩
      intro sp hsp
      obtain ⟨j1, j2, j3, j4⟩ := i1 sp hsp
      refine ⟨j1, j2, j3, ?_⟩
      intro h hh
      rcases List.mem_cons.mp hh with rfl | hm
      · right
        omega
      · exact j4 h hm
    · have hxb : adjustOffsetNat rest xb = xb :=
        adjustOffsetNat_of_lt rest a.2 hi xb h3 (by omega)
      have eb : adjustOffsetNat (a :: rest) xb = adjustOffsetNat rest xb := by
        rw [hadj, if_neg hab]
      by_cases hae : a.1 ≤ xe
      · have ee : adjustOffsetNat (a :: rest) xe = adjustOffsetNat rest (xe + (a.2 - a.1)) := by
          rw [hadj, if_pos hae]
        have hce := adjustOffsetNat_ge rest (xe + (a.2 - a.1))
        by_cases hlt : a.1 < adjustOffsetNat rest (xe + (a.2 - a.1))
        · have hmono : adjustOffsetNat rest a.2 ≤ adjustOffsetNat rest (xe + (a.2 - a.1)) :=
            adjustOffsetNat_le rest _ _ (by omega)
          have hs : spansFrom (a :: rest) xb (adjustOffsetNat rest (xe + (a.2 - a.1)))
              = (xb, a.1) :: spansFrom rest (adjustOffsetNat rest a.2)
                  (adjustOffsetNat rest (xe + (a.2 - a.1))) := by
            rw [spansFrom, if_pos ⟨by omega, hlt⟩, if_pos (by omega),
              spansFrom_adjust rest a.2 _ hi h3 hmono]
            rfl
          have hge2 := adjustOffsetNat_ge rest a.2
          obtain ⟨i1, i2, i3⟩ := ih a.2 hi a.2 (xe + (a.2 - a.1)) h3 (by omega)
          rw [eb, hxb, ee, hs]
          refine ⟨?_, ?_, ?_⟩
          · intro sp hsp
            rcases List.mem_cons.mp hsp with rfl | hm
            · refine ⟨Nat.le_refl _, by simp only; omega, by simp only; omega, ?_⟩
              intro h hh
              left
              rcases List.mem_cons.mp hh with rfl | hm2
              · exact Nat.le_refl _
              · have := HolesOk_mem rest a.2 hi h3 h hm2
                simp only
                omega
            · obtain ⟨j1, j2, j3, j4⟩ := i1 sp hm
              refine ⟨by omega, j2, j3, ?_⟩
              intro h hh
              rcases List.mem_cons.mp hh with rfl | hm2
              · right
                omega
              · exact j4 h hm2
          · rw [List.map_cons, List.sum_cons, i2]
            simp only
            omega
          · rw [List.pairwise_cons]
            refine ⟨?_, i3⟩
            intro sp hm
            obtain ⟨j1, _, _, _⟩ := i1 sp hm
            simp only
            omega
        · have e0 : xe + (a.2 - a.1) = xe := by omega
          rw [e0] at ee hlt hce
          exact same ee eb (by rw [spansFrom, if_neg (by omega)]) (by omega)
      · have ee : adjustOffsetNat (a :: rest) xe = adjustOffsetNat rest xe := by
          rw [hadj, if_neg hae]
        have hxe : adjustOffsetNat rest xe = xe :=
          adjustOffsetNat_of_lt rest a.2 hi xe h3 (by omega)
        exact same ee eb (by rw [spansFrom, if_neg (by omega)]) (by omega)
theorem memcpyTo_cases (out : Bytes) (dst : Option Nat) (src : Bytes) (n : Nat) (out1 : Bytes)
    (h : memcpyTo out dst src n = some out1) :
    (n = 0 ∧ out1 = out)
      ∨ (∃ pos, dst = some pos ∧ 0 < n ∧ n ≤ src.length ∧ pos + n ≤ out.length
          ∧ out1 = writeAt out pos (src.take n)) := by
  unfold memcpyTo at h
  by_cases hn : n = 0
  · rw [if_pos hn] at h
    simp only [Option.some.injEq] at h
    exact Or.inl ⟨hn, h.symm⟩
  · rw [if_neg hn] at h
    cases dst with
    | none => cases h
    | some pos =>
      simp only at h
      by_cases hc : src.length < n ∨ out.length < pos + n
      · rw [if_pos hc] at h
        cases h
      · rw [if_neg hc] at h
        simp only [Option.some.injEq] at h
        exact Or.inr ⟨pos, rfl, by omega, by omega, by omega, h.symm⟩

open MutableStreamFixedWithHoles in
theorem copySpans_in_order (base : Option Nat) :
    ∀ (spans : List (Nat × Nat)) (data out out1 : Bytes),
      copySpans base spans data out = some out1 →
      (∀ sp ∈ spans, sp.1 ≤ sp.2 ∧ sp.2 < 18446744073709551616) →
      spans.Pairwise (fun s t => s.2 ≤ t.1) →
      (∀ p, (∀ sp ∈ spans, p < base.getD 0 + sp.1 ∨ base.getD 0 + sp.2 ≤ p) →
          out1.getD p 0 = out.getD p 0)
        ∧ (∀ (i : Nat) (sp : Nat × Nat), spans[i]? = some sp → ∀ j, j < sp.2 - sp.1 →
            (∃ b, base = some b) ∧ base.getD 0 + sp.2 ≤ out.length
              ∧ out1.getD (base.getD 0 + sp.1 + j) 0
                = data.getD (((spans.take i).map (fun s => s.2 - s.1)).sum + j) 0) := by
  intro spans
  induction spans with
  | nil =>
    intro data out out1 h _ _
    simp only [copySpans, Option.some.injEq] at h
    subst h
    exact ⟨fun _ _ => rfl, fun i sp hi => by simp at hi⟩
  | cons s rest ih =>
    intro data out out1 h hsp hpw
    simp only [copySpans] at h
    have hs := hsp s (List.mem_cons_self _ _)
    rw [sub64_of_le _ _ hs.1 hs.2] at h
    cases hm : memcpyTo out (Option.map (fun x => x + s.1) base) data (s.2 - s.1) with
    | none => simp [hm] at h
    | some out0 =>
      simp only [hm] at h
      obtain ⟨hfr, hrc⟩ := ih (data.drop (s.2 - s.1)) out0 out1 h
        (fun sp hsp1 => hsp sp (List.mem_cons_of_mem _ hsp1)) (List.Pairwise.of_cons hpw)
      have hl1 := copySpans_length base rest _ out0 out1 h
      have hl0 := memcpyTo_length out _ data _ out0 hm
      have hrel : ∀ t ∈ rest, s.2 ≤ t.1 := fun t ht => List.rel_of_pairwise_cons hpw ht
      rcases memcpyTo_cases out _ data _ out0 hm with ⟨hn, ho⟩ | ⟨pos, hpos, hn, hsl, hol, ho⟩
      · subst ho
        refine ⟨?_, ?_⟩
        · intro p hp
          exact hfr p (fun sp hsp1 => hp sp (List.mem_cons_of_mem _ hsp1))
        · intro i sp hi j hj
          cases i with
          | zero =>
            simp only [List.getElem?_cons_zero, Option.some.injEq] at hi
            subst hi
            omega
          | succ i =>
            simp only [List.getElem?_cons_succ] at hi
            obtain ⟨r1, r2, r3⟩ := hrc i sp hi j hj
            refine ⟨r1, r2, ?_⟩
            rw [r3, getD_drop_add]
            simp only [List.take_succ_cons, List.map_cons, List.sum_cons]
            congr 1
            omega
      · cases base with
        | none => cases hpos
        | some b =>
          simp only [Option.map_some', Option.some.injEq] at hpos
          subst hpos
          simp only [Option.getD_some] at hfr hrc ⊢
          subst ho
          refine ⟨?_, ?_⟩
          · intro p hp
            rw [hfr p (fun sp hsp1 => hp sp (List.mem_cons_of_mem _ hsp1))]
            have := hp s (List.mem_cons_self _ _)
            rcases this with h1 | h1
            · exact getD_writeAt_before _ _ _ _ _ (by omega) h1
            · exact getD_writeAt_after _ _ _ _ _ (by rw [List.length_take]; omega)
                (by rw [List.length_take]; omega)
          · intro i sp hi j hj
            cases i with
            | zero =>
              simp only [List.getElem?_cons_zero, Option.some.injEq] at hi
              subst hi
              refine ⟨⟨b, rfl⟩, by omega, ?_⟩
              rw [hfr (b + s.1 + j) (fun t ht => by
                have := hrel t ht
                omega)]
              rw [getD_writeAt_inside _ _ _ _ _ (by omega) (by omega)
                (by rw [List.length_take]; omega), getD_take_of_lt _ _ _ (by omega)]
              simp only [List.take_zero, List.map_nil, List.sum_nil]
              congr 1
              omega
            | succ i =>
              simp only [List.getElem?_cons_succ] at hi
              obtain ⟨r1, r2, r3⟩ := hrc i sp hi j hj
              refine ⟨r1, by rw [← hl0]; exact r2, ?_⟩
              rw [r3, getD_drop_add]
              simp only [List.take_succ_cons, List.map_cons, List.sum_cons]
              congr 1
              omega
theorem addHoles_eq_blockHoles (first bs : Nat) :
    ∀ (tail : List Nat) (prev : Nat) (s : MutableStreamFixedWithHoles),
      List.Chain (· < ·) (first + prev) tail →
      (∀ b ∈ tail, b < 4294967296 ∧ (b - first) * bs < 4294967296) →
      GetStreamFromBlockIndices.addHoles first bs tail prev s
        = { s with m_HoleOffsets := s.m_HoleOffsets ++ blockHoles first bs tail prev } := by
  intro tail
  induction tail with
  | nil =>
    intro prev s _ _
    simp [GetStreamFromBlockIndices.addHoles, blockHoles]
  | cons b rest ih =>
    intro prev s hch hb
    rw [List.chain_cons] at hch
    obtain ⟨hlt, hch2⟩ := hch
    have hb1 := hb b (List.mem_cons_self _ _)
    have hrel : (b + 4294967296 - first) % 4294967296 = b - first := by
      have : b + 4294967296 - first = (b - first) + 4294967296 := by omega
      rw [this, Nat.add_mod_right, Nat.mod_eq_of_lt (by omega)]
    have hnext : (prev + 1) % 4294967296 = prev + 1 := Nat.mod_eq_of_lt (by omega)
    have hmul : (prev + 1) * bs ≤ (b - first) * bs := Nat.mul_le_mul_right _ (by omega)
    have hfb : first + (b - first) = b := by omega
    rw [GetStreamFromBlockIndices.addHoles]
    simp only [hrel, hnext]
    rw [ih (b - first) _ (by rw [hfb]; exact hch2)
      (fun c hc => hb c (List.mem_cons_of_mem _ hc))]
    rw [blockHoles]
    by_cases hne : b - first ≠ prev + 1
    · rw [if_pos hne, if_pos hne, Nat.mod_eq_of_lt (by omega), Nat.mod_eq_of_lt hb1.2]
      simp [MutableStreamFixedWithHoles.AddHole]
    · rw [if_neg hne, if_neg hne]
      simp

theorem HolesOk_blockHoles (first bs : Nat) :
    ∀ (tail : List Nat) (prev : Nat), List.Chain (· < ·) (first + prev) tail →
      HolesOk ((prev + 1) * bs) (blockHoles first bs tail prev)
        ((tail.getLast?.getD (first + prev) - first + 1) * bs) := by
  intro tail
  induction tail with
  | nil =>
    intro prev _
    simp [blockHoles, HolesOk]
  | cons b rest ih =>
    intro prev hch
    rw [List.chain_cons] at hch
    obtain ⟨hlt, hch2⟩ := hch
    have hfb : first + (b - first) = b := by omega
    have hi := ih (b - first) (by rw [hfb]; exact hch2)
    rw [hfb] at hi
    have hmul : (prev + 1) * bs ≤ (b - first) * bs := Nat.mul_le_mul_right _ (by omega)
    have hmul2 : (b - first) * bs ≤ (b - first + 1) * bs := Nat.mul_le_mul_right _ (by omega)
    rw [blockHoles, List.getLast?_cons, Option.getD_some]
    by_cases hne : b - first ≠ prev + 1
    · rw [if_pos hne]
      exact ⟨Nat.le_refl _, hmul, HolesOk_mono _ _ _ _ hi hmul2⟩
    · rw [if_neg hne, List.nil_append]
      exact HolesOk_mono _ _ _ _ hi (by omega)

theorem adjustOffsetNat_blockHoles (first bs : Nat) :
    ∀ (tail : List Nat) (prev j r : Nat), List.Chain (· < ·) (first + prev) tail →
      j ≤ tail.length → r < bs →
      adjustOffsetNat (blockHoles first bs tail prev) (prev * bs + j * bs + r)
        = (((first + prev) :: tail).getD j 0 - first) * bs + r := by
  intro tail
  induction tail with
  | nil =>
    intro prev j r _ hj _
    have : j = 0 := by simpa using hj
    subst this
    simp [blockHoles, adjustOffsetNat]
  | cons b rest ih =>
    intro prev j r hch hj hr
    have hok := HolesOk_blockHoles first bs (b :: rest) prev hch
    rw [List.chain_cons] at hch
    obtain ⟨hlt, hch2⟩ := hch
    have hfb : first + (b - first) = b := by omega
    cases j with
    | zero =>
      rw [adjustOffsetNat_of_lt _ _ _ _ hok (by rw [Nat.succ_mul]; omega)]
      simp
    | succ j =>
      have hi := ih (b - first) j r (by rw [hfb]; exact hch2) (by simpa using hj) hr
      rw [hfb] at hi
      have hmul : (prev + 1) * bs ≤ (b - first) * bs := Nat.mul_le_mul_right _ (by omega)
      have e1 : (prev + 1) * bs = prev * bs + bs := Nat.succ_mul _ _
      have e2 : (j + 1) * bs = j * bs + bs := Nat.succ_mul _ _
      rw [List.getD_cons_succ, ← hi, blockHoles]
      by_cases hne : b - first ≠ prev + 1
      · rw [if_pos hne]
        simp only [List.singleton_append, adjustOffsetNat]
        rw [if_pos (by omega)]
        congr 1
        omega
      · rw [if_neg hne, List.nil_append]
        congr 1
        have : b - first = prev + 1 := by omega
        rw [this]
        omega

theorem adjustOffsetNat_blockHoles_end (first bs : Nat) :
    ∀ (tail : List Nat) (prev : Nat), List.Chain (· < ·) (first + prev) tail →
      adjustOffsetNat (blockHoles first bs tail prev) (prev * bs + (tail.length + 1) * bs)
        = (tail.getLast?.getD (first + prev) - first + 1) * bs := by
  intro tail
  induction tail with
  | nil =>
    intro prev _
    simp only [blockHoles, adjustOffsetNat, List.length_nil, List.getLast?_nil,
      Option.getD_none]
    have : first + prev - first = prev := by omega
    rw [this]
    ring
  | cons b rest ih =>
    intro prev hch
    rw [List.chain_cons] at hch
    obtain ⟨hlt, hch2⟩ := hch
    have hfb : first + (b - first) = b := by omega
    have hi := ih (b - first) (by rw [hfb]; exact hch2)
    rw [hfb] at hi
    have hmul : (prev + 1) * bs ≤ (b - first) * bs := Nat.mul_le_mul_right _ (by omega)
    have e1 : (prev + 1) * bs = prev * bs + bs := Nat.succ_mul _ _
    have e2 : ((b :: rest).length + 1) * bs = (rest.length + 1) * bs + bs := by
      rw [List.length_cons, Nat.succ_mul]
    rw [List.getLast?_cons, Option.getD_some, ← hi, blockHoles, e2]
    by_cases hne : b - first ≠ prev + 1
    · rw [if_pos hne]
      simp only [List.singleton_append, adjustOffsetNat]
      rw [if_pos (by omega)]
      congr 1
      omega
    · rw [if_neg hne, List.nil_append]
      congr 1
      have : b - first = prev + 1 := by omega
      rw [this]
      omega
theorem spansFrom_getLast : ∀ (H : List (Nat × Nat)) (cb ce : Nat),
    ∃ c, (spansFrom H cb ce).getLast? = some (c, ce) := by
  intro H
  induction H with
  | nil => intro cb ce; exact ⟨cb, rfl⟩
  | cons a rest ih =>
    intro cb ce
    rw [spansFrom]
    by_cases hc : a.1 ≥ cb ∧ a.1 < ce
    · rw [if_pos hc]
      obtain ⟨c, hcl⟩ := ih a.2 ce
      refine ⟨c, ?_⟩
      rw [List.getLast?_append, hcl]
      rfl
    · rw [if_neg hc]
      exact ih cb ce

theorem WriteBytes_spec (base size v hi : Nat) (H : List (Nat × Nat)) (out data : Bytes)
    (hok : HolesOk 0 H hi) (hhi : hi < 18446744073709551616)
    (h64 : v + data.length + hi < 18446744073709551616)
    (hfit : base + adjustOffsetNat H (v + data.length) ≤ out.length)
    (hchk : adjustOffsetNat H (v + data.length)
      ≤ MutableStreamFixedWithHoles.AdjustOffset H size) :
    ∃ out1,
      MutableStreamFixedWithHoles.WriteBytes
          { m_Data := some base, m_Size := size, m_Offset := v, m_HoleOffsets := H } out data
        = some (true,
            { m_Data := some base, m_Size := size, m_Offset := v + data.length,
              m_HoleOffsets := H }, out1)
      ∧ out1.length = out.length
      ∧ (∀ k, k < data.length →
          out1.getD (base + adjustOffsetNat H (v + k)) 0 = data.getD k 0)
      ∧ (∀ p, (∀ k, k < data.length → p ≠ base + adjustOffsetNat H (v + k)) →
          out1.getD p 0 = out.getD p 0) := by
  have e1 := AdjustOffset_eq_nat H 0 hi v hok hhi (by omega)
  have e2 := AdjustOffset_eq_nat H 0 hi (v + data.length) hok hhi (by omega)
  have hb := adjustOffsetNat_bound H 0 hi (v + data.length) hok
  obtain ⟨out1, ho, hl, hw, hf⟩ := copySpans_spansFrom H 0 hi v (v + data.length) base data out
    hok (by omega) (by omega) hfit (by omega)
  obtain ⟨c, hlast⟩ := spansFrom_getLast H (adjustOffsetNat H v)
    (adjustOffsetNat H (v + data.length))
  have hn : v + data.length - v = data.length := by omega
  rw [hn] at hw hf
  refine ⟨out1, ?_, hl, hw, hf⟩
  unfold MutableStreamFixedWithHoles.WriteBytes
  simp only
  rw [AdjustWriteSpans_eq, e1, e2, hlast]
  simp only
  rw [if_neg (by omega), ho]
  rfl

theorem writeSequence_spec (base size hi : Nat) (H : List (Nat × Nat))
    (hok : HolesOk 0 H hi) (hhi : hi < 18446744073709551616) :
    ∀ (writes : List Bytes) (v : Nat) (out : Bytes),
      v + (writes.map List.length).sum + hi < 18446744073709551616 →
      base + adjustOffsetNat H (v + (writes.map List.length).sum) ≤ out.length →
      adjustOffsetNat H (v + (writes.map List.length).sum)
        ≤ MutableStreamFixedWithHoles.AdjustOffset H size →
      ∃ out1,
        writeSequence
            { m_Data := some base, m_Size := size, m_Offset := v, m_HoleOffsets := H } out writes
          = some (true,
              { m_Data := some base, m_Size := size,
                m_Offset := v + (writes.map List.length).sum, m_HoleOffsets := H }, out1)
        ∧ out1.length = out.length
        ∧ (∀ k, k < (writes.map List.length).sum →
            out1.getD (base + adjustOffsetNat H (v + k)) 0 = writes.flatten.getD k 0)
        ∧ (∀ p, (∀ k, k < (writes.map List.length).sum →
              p ≠ base + adjustOffsetNat H (v + k)) →
            out1.getD p 0 = out.getD p 0) := by
  intro writes
  induction writes with
  | nil =>
    intro v out _ _ _
    refine ⟨out, ?_, rfl, ?_, fun _ _ => rfl⟩
    · simp [writeSequence]
    · intro k hk
      simp at hk
  | cons d rest ih =>
    intro v out h64 hfit hchk
    simp only [List.map_cons, List.sum_cons] at h64 hfit hchk ⊢
    have hm : adjustOffsetNat H (v + d.length)
        ≤ adjustOffsetNat H (v + (d.length + (rest.map List.length).sum)) :=
      adjustOffsetNat_le H _ _ (by omega)
    obtain ⟨out0, hw0, hl0, hp0, hf0⟩ := WriteBytes_spec base size v hi H out d hok hhi
      (by omega) (by omega) (by omega)
    have ea : v + d.length + (rest.map List.length).sum
        = v + (d.length + (rest.map List.length).sum) := by omega
    obtain ⟨out1, hw1, hl1, hp1, hf1⟩ := ih (v + d.length) out0 (by omega)
      (by rw [hl0, ea]; exact hfit) (by rw [ea]; exact hchk)
    refine ⟨out1, ?_, by rw [hl1, hl0], ?_, ?_⟩
    · rw [writeSequence, hw0]
      simp only
      rw [hw1]
      simp only [Option.map_some', Bool.and_self, ea]
    · intro k hk
      rw [List.flatten_cons]
      by_cases hkd : k < d.length
      · rw [List.getD_append _ _ _ _ hkd, ← hp0 k hkd]
        apply hf1
        intro j _
        have := adjustOffsetNat_lt H (v + k) (v + d.length + j) (by omega)
        omega
      · rw [List.getD_append_right _ _ _ _ (by omega)]
        have := hp1 (k - d.length) (by omega)
        have e3 : v + d.length + (k - d.length) = v + k := by omega
        rw [e3] at this
        exact this
    · intro p hp
      rw [hf1 p (fun j hj => by
        have := hp (d.length + j) (by omega)
        have e3 : v + (d.length + j) = v + d.length + j := by omega
        rw [e3] at this
        exact this)]
      exact hf0 p (fun k hk => hp k (by omega))
theorem chain_lt_bounds : ∀ (l : List Nat) (a : Nat), List.Chain (· < ·) a l →
    (∀ b ∈ l, a < b ∧ b ≤ l.getLast?.getD a) ∧ a + l.length ≤ l.getLast?.getD a := by
  intro l
  induction l with
  | nil => intro a _; simp
  | cons c rest ih =>
    intro a h
    rw [List.chain_cons] at h
    obtain ⟨hac, hch⟩ := h
    obtain ⟨i1, i2⟩ := ih c hch
    rw [List.getLast?_cons, Option.getD_some]
    refine ⟨?_, ?_⟩
    · intro b hb
      rcases List.mem_cons.mp hb with rfl | hm
      · exact ⟨hac, by omega⟩
      · have := i1 b hm
        omega
    · rw [List.length_cons]
      omega

theorem getD_ge_of_chain (l : List Nat) (a : Nat) (h : List.Chain (· < ·) a l) (j : Nat)
    (hj : j ≤ l.length) : a ≤ (a :: l).getD j 0 := by
  cases j with
  | zero => simp
  | succ j =>
    rw [List.getD_cons_succ]
    have hj2 : j < l.length := by omega
    rw [List.getD_eq_getElem _ _ hj2]
    have := ((chain_lt_bounds l a h).1 l[j] (List.getElem_mem hj2)).1
    omega

theorem GetStreamFromBlockIndices_blocks (total bs first : Nat) (tail : List Nat)
    (hbs : 1 ≤ bs) (hch : List.Chain (· < ·) first tail)
    (h32 : (tail.getLast?.getD first + 1) * bs < 4294967296)
    (hin : (tail.getLast?.getD first + 1) * bs ≤ total) :
    GetStreamFromBlockIndices { m_Data := some 0, m_Size := total, m_Offset := 0 }
        (first :: tail) bs
      = { m_Data := some (bs * first), m_Size := (tail.getLast?.getD first - first + 1) * bs,
          m_Offset := 0, m_HoleOffsets := blockHoles first bs tail 0 } := by
  obtain ⟨hb1, hb2⟩ := chain_lt_bounds tail first hch
  have hl1 : tail.getLast?.getD first + 1 ≤ (tail.getLast?.getD first + 1) * bs :=
    Nat.le_mul_of_pos_right _ hbs
  have hfl : first ≤ tail.getLast?.getD first := by omega
  have e0 : (tail.getLast?.getD first + 1) * bs
      = bs * first + (tail.getLast?.getD first - first + 1) * bs := by
    have : tail.getLast?.getD first + 1 = first + (tail.getLast?.getD first - first + 1) := by
      omega
    rw [this, Nat.add_mul, Nat.mul_comm bs first]
  have hpos : 1 ≤ (tail.getLast?.getD first - first + 1) * bs :=
    Nat.le_trans (by omega) (Nat.le_mul_of_pos_right _ hbs)
  have hoff : bs * first % 4294967296 = bs * first := Nat.mod_eq_of_lt (by omega)
  have hrel : (tail.getLast?.getD first + 4294967296 - first) % 4294967296
      = tail.getLast?.getD first - first := by
    have : tail.getLast?.getD first + 4294967296 - first
        = (tail.getLast?.getD first - first) + 4294967296 := by omega
    rw [this, Nat.add_mod_right, Nat.mod_eq_of_lt (by omega)]
  have hsz : ((tail.getLast?.getD first + 4294967296 - first) % 4294967296 + 1) % 4294967296
      * bs % 4294967296 = (tail.getLast?.getD first - first + 1) * bs := by
    have h1 : (tail.getLast?.getD first - first + 1) % 4294967296
        = tail.getLast?.getD first - first + 1 := Nat.mod_eq_of_lt (by omega)
    rw [hrel, h1]
    exact Nat.mod_eq_of_lt (by omega)
  unfold GetStreamFromBlockIndices
  simp only [List.head?_cons, List.getLast?_cons, List.tail_cons]
  rw [hoff, hsz]
  have hg : MutableStreamFixed.GetStreamAtOffset
      { m_Data := some 0, m_Size := total, m_Offset := 0 } (bs * first)
      ((tail.getLast?.getD first - first + 1) * bs)
      = { m_Data := some (bs * first), m_Size := (tail.getLast?.getD first - first + 1) * bs,
          m_Offset := 0 } := by
    have h0 : ¬ ((tail.getLast?.getD first - first + 1) * bs = 0) := by omega
    simp only [MutableStreamFixed.GetStreamAtOffset, h0, if_false]
    rw [if_neg (by omega)]
    simp
  rw [hg, addHoles_eq_blockHoles first bs tail 0 _ (by simpa using hch)
    (fun b hb => by
      have hbb := hb1 b hb
      have : (b - first) * bs ≤ (tail.getLast?.getD first + 1) * bs :=
        Nat.mul_le_mul_right _ (by omega)
      omega)]
  simp [MutableStreamFixedWithHoles.ofFixed]

theorem addHoles_zero (first : Nat) :
    ∀ (tail : List Nat) (prev : Nat) (s : MutableStreamFixedWithHoles),
      ∃ k, GetStreamFromBlockIndices.addHoles first 0 tail prev s
        = { s with m_HoleOffsets := s.m_HoleOffsets ++ List.replicate k (0, 0) } := by
  intro tail
  induction tail with
  | nil =>
    intro prev s
    exact ⟨0, by simp [GetStreamFromBlockIndices.addHoles]⟩
  | cons b rest ih =>
    intro prev s
    rw [GetStreamFromBlockIndices.addHoles]
    simp only [Nat.mul_zero, Nat.zero_mod]
    split
    · obtain ⟨k, hk⟩ := ih ((b + 4294967296 - first) % 4294967296)
        (s.AddHole 0 0)
      refine ⟨k + 1, ?_⟩
      rw [hk]
      simp [MutableStreamFixedWithHoles.AddHole, List.replicate_succ]
    · exact ih _ s

theorem HolesOk_replicate_zero : ∀ (k : Nat), HolesOk 0 (List.replicate k (0, 0)) 0 := by
  intro k
  induction k with
  | zero => simp [HolesOk]
  | succ k ih =>
    rw [List.replicate_succ]
    exact ⟨Nat.le_refl _, Nat.le_refl _, ih⟩

theorem blockHoles_position (first bs : Nat) (tail : List Nat) (hbs : 1 ≤ bs)
    (hch : List.Chain (· < ·) first tail) (k : Nat) (hk : k < (tail.length + 1) * bs) :
    bs * first + adjustOffsetNat (blockHoles first bs tail 0) k
        = (first :: tail).getD (k / bs) 0 * bs + k % bs
      ∧ (first :: tail).getD (k / bs) 0 * bs + k % bs
        < (tail.getLast?.getD first + 1) * bs := by
  have hj : k / bs ≤ tail.length := by
    have := (Nat.div_lt_iff_lt_mul (by omega : 0 < bs)).mpr hk
    omega
  have hr : k % bs < bs := Nat.mod_lt _ (by omega)
  have hdm : k = 0 * bs + k / bs * bs + k % bs := by
    have := Nat.div_add_mod k bs
    rw [Nat.mul_comm] at this
    omega
  have hch0 : List.Chain (· < ·) (first + 0) tail := by simpa using hch
  have hadj := adjustOffsetNat_blockHoles first bs tail 0 (k / bs) (k % bs) hch0 hj hr
  rw [← hdm, Nat.add_zero] at hadj
  have hge := getD_ge_of_chain tail first hch (k / bs) hj
  have hle : (first :: tail).getD (k / bs) 0 ≤ tail.getLast?.getD first := by
    obtain ⟨hb1, hb2⟩ := chain_lt_bounds tail first hch
    rcases Nat.eq_zero_or_pos (k / bs) with h0 | h0
    · rw [h0, List.getD_cons_zero]
      omega
    · obtain ⟨j, hj1⟩ : ∃ j, k / bs = j + 1 := ⟨k / bs - 1, by omega⟩
      rw [hj1, List.getD_cons_succ]
      have hj2 : j < tail.length := by omega
      rw [List.getD_eq_getElem _ _ hj2]
      exact (hb1 _ (List.getElem_mem hj2)).2
  have e1 : ((first :: tail).getD (k / bs) 0 - first) * bs + bs * first
      = (first :: tail).getD (k / bs) 0 * bs := by
    rw [Nat.mul_comm bs first, ← Nat.add_mul]
    congr 1
    omega
  have e2 : (first :: tail).getD (k / bs) 0 * bs + bs ≤ (tail.getLast?.getD first + 1) * bs := by
    have : ((first :: tail).getD (k / bs) 0 + 1) * bs ≤ (tail.getLast?.getD first + 1) * bs :=
      Nat.mul_le_mul_right _ (by omega)
    rw [Nat.succ_mul] at this
    exact this
  refine ⟨?_, by omega⟩
  rw [hadj]
  omega

theorem writeSequence_blocks (first bs : Nat) (tail : List Nat) (out : Bytes)
    (writes : List Bytes) (hbs : 1 ≤ bs) (hch : List.Chain (· < ·) first tail)
    (h32 : (tail.getLast?.getD first + 1) * bs < 4294967296)
    (hL : (writes.map List.length).sum ≤ (tail.length + 1) * bs)
    (hfile : (tail.getLast?.getD first + 1) * bs ≤ out.length) :
    ∃ s1 out1,
      writeSequence
          (GetStreamFromBlockIndices { m_Data := some 0, m_Size := out.length, m_Offset := 0 }
            (first :: tail) bs) out writes = some (true, s1, out1)
      ∧ out1.length = out.length
      ∧ (∀ k, k < (writes.map List.length).sum →
          (first :: tail).getD (k / bs) 0 * bs + k % bs < out.length
            ∧ out1.getD ((first :: tail).getD (k / bs) 0 * bs + k % bs) 0
              = writes.flatten.getD k 0)
      ∧ (∀ p, (∀ k, k < (writes.map List.length).sum →
            p ≠ (first :: tail).getD (k / bs) 0 * bs + k % bs) →
          out1.getD p 0 = out.getD p 0) := by
  obtain ⟨hb1, hb2⟩ := chain_lt_bounds tail first hch
  have hch0 : List.Chain (· < ·) (first + 0) tail := by simpa using hch
  have hok0 := HolesOk_blockHoles first bs tail 0 hch0
  simp only [Nat.add_zero] at hok0
  have hok := HolesOk_mono _ _ 0 _ hok0 (Nat.zero_le _)
  have hend := adjustOffsetNat_blockHoles_end first bs tail 0 hch0
  simp only [Nat.add_zero, Nat.zero_mul, Nat.zero_add] at hend
  have hR : bs * first + (tail.getLast?.getD first - first + 1) * bs
      = (tail.getLast?.getD first + 1) * bs := by
    have h1 : (first + (tail.getLast?.getD first - first + 1)) * bs
        = first * bs + (tail.getLast?.getD first - first + 1) * bs := Nat.add_mul _ _ _
    have h2 : first + (tail.getLast?.getD first - first + 1) = tail.getLast?.getD first + 1 := by
      omega
    rw [h2] at h1
    rw [h1, Nat.mul_comm bs first]
  have hcap : (tail.length + 1) * bs ≤ (tail.getLast?.getD first - first + 1) * bs :=
    Nat.mul_le_mul_right _ (by omega)
  have hmono := adjustOffsetNat_le (blockHoles first bs tail 0)
    (0 + (writes.map List.length).sum) ((tail.length + 1) * bs) (by omega)
  have hA := AdjustOffset_eq_nat (blockHoles first bs tail 0) 0
    ((tail.getLast?.getD first - first + 1) * bs)
    ((tail.getLast?.getD first - first + 1) * bs) hok (by omega) (by omega)
  have hge := adjustOffsetNat_ge (blockHoles first bs tail 0)
    ((tail.getLast?.getD first - first + 1) * bs)
  rw [GetStreamFromBlockIndices_blocks out.length bs first tail hbs hch h32 hfile]
  obtain ⟨out1, hw, hl, hp, hf⟩ := writeSequence_spec (bs * first)
    ((tail.getLast?.getD first - first + 1) * bs) ((tail.getLast?.getD first - first + 1) * bs)
    (blockHoles first bs tail 0) hok (by omega) writes 0 out (by omega) (by omega)
    (by rw [hA]; omega)
  refine ⟨_, out1, hw, hl, ?_, ?_⟩
  · intro k hk
    obtain ⟨p1, p2⟩ := blockHoles_position first bs tail hbs hch k (by omega)
    have := hp k hk
    rw [Nat.zero_add, p1] at this
    exact ⟨by omega, this⟩
  · intro p hpp
    apply hf
    intro k hk
    obtain ⟨p1, _⟩ := blockHoles_position first bs tail hbs hch k (by omega)
    rw [Nat.zero_add, p1]
    exact hpp k hk

theorem writeSequence_zero_blocks (first : Nat) (tail : List Nat) (out : Bytes)
    (writes : List Bytes) (hL : (writes.map List.length).sum = 0) :
    ∃ s1 out1,
      writeSequence
          (GetStreamFromBlockIndices { m_Data := some 0, m_Size := out.length, m_Offset := 0 }
            (first :: tail) 0) out writes = some (true, s1, out1)
      ∧ out1.length = out.length
      ∧ (∀ p, out1.getD p 0 = out.getD p 0) := by
  unfold GetStreamFromBlockIndices
  simp only [List.head?_cons, List.getLast?_cons, List.tail_cons, Nat.mul_zero, Nat.zero_mul,
    Nat.zero_mod]
  have hg : MutableStreamFixed.GetStreamAtOffset
      { m_Data := some 0, m_Size := out.length, m_Offset := 0 } 0 0
      = { m_Data := some 0, m_Size := out.length, m_Offset := 0 } := by
    unfold MutableStreamFixed.GetStreamAtOffset
    simp
  rw [hg]
  obtain ⟨k, hk⟩ := addHoles_zero first tail 0
    (MutableStreamFixedWithHoles.ofFixed { m_Data := some 0, m_Size := out.length, m_Offset := 0 })
  rw [hk]
  simp only [MutableStreamFixedWithHoles.ofFixed, List.nil_append]
  have hok := HolesOk_replicate_zero k
  have hb := adjustOffsetNat_bound (List.replicate k (0, 0)) 0 0 0 hok
  obtain ⟨out1, hw, hl, _, hf⟩ := writeSequence_spec 0 out.length 0 (List.replicate k (0, 0))
    hok (by omega) writes 0 out (by omega)
    (by rw [hL]; simp only [Nat.add_zero]; omega) (by rw [hL]; simp only [Nat.add_zero]; omega)
  refine ⟨_, out1, hw, hl, ?_⟩
  intro p
  apply hf
  intro j hj
  omega

theorem getLast_cons_eq_getD (first : Nat) (tail : List Nat) (h : first :: tail ≠ []) :
    (first :: tail).getLast h = tail.getLast?.getD first := by
  cases tail with
  | nil => rfl
  | cons b t =>
    rw [List.getLast_cons (List.cons_ne_nil b t), List.getLast?_eq_getLast _ (List.cons_ne_nil b t)]
    rfl

theorem straddle_assign :
    AssignBlocksToStreams straddleDescriptors 512 = some straddleAssignment := by
  decide!

theorem WriteBytes_null (out data : Bytes) :
    ∃ ok, MutableStreamFixedWithHoles.WriteBytes
        { m_Data := none, m_Size := 0, m_Offset := 0, m_HoleOffsets := [] } out data
      = some (ok, { m_Data := none, m_Size := 0, m_Offset := 0, m_HoleOffsets := [] }, out) := by
  cases data with
  | nil => exact ⟨true, rfl⟩
  | cons a t =>
    refine ⟨false, ?_⟩
    simp [MutableStreamFixedWithHoles.WriteBytes, MutableStreamFixedWithHoles.AdjustWriteSpans,
      MutableStreamFixedWithHoles.AdjustOffset]

theorem directory_null_indices :
    ∀ (descs : List (List MsfzFragment)) (blocks : List (List Nat))
      (S : MutableStreamFixedWithHoles) (out : Bytes) (d : Nat),
      descs.length = blocks.length →
      (∀ x ∈ descs, ∃ n, CalculateSize x = some n) →
      WriteStreamsAndDirectoryToPDB.directory descs blocks S
          { m_Data := none, m_Size := 0, m_Offset := 0, m_HoleOffsets := [] } out d
        = (writeSequence S out (descs.map (fun x => toLe32 ((CalculateSize x).getD 0)))).map
            (fun r => (r.2.2, d + (blocks.map (fun b => 4 + 4 * b.length)).sum)) := by
  intro descs
  induction descs with
  | nil =>
    intro blocks S out d hl _
    cases blocks with
    | nil => simp [WriteStreamsAndDirectoryToPDB.directory, writeSequence]
    | cons b bs => simp at hl
  | cons x rest ih =>
    intro blocks S out d hl hs
    cases blocks with
    | nil => simp at hl
    | cons b bs =>
      obtain ⟨n, hn⟩ := hs x (List.mem_cons_self _ _)
      simp only [WriteStreamsAndDirectoryToPDB.directory, hn, List.map_cons, Option.getD_some,
        writeSequence, List.sum_cons]
      cases hw : S.WriteBytes out (toLe32 n) with
      | none => rfl
      | some r =>
        obtain ⟨ok, S1, out1⟩ := r
        obtain ⟨ok2, hd⟩ := WriteBytes_null out1 (wordsToBytes b)
        simp only [hd]
        rw [ih bs S1 out1 _ (by simpa using hl) (fun y hy => hs y (List.mem_cons_of_mem _ hy))]
        simp only [Option.map_map]
        congr 1
        funext r
        simp only [Function.comp]
        congr 1
        omega

theorem writeSequence_single (s s1 : MutableStreamFixedWithHoles) (out out1 d : Bytes)
    (h : writeSequence s out [d] = some (true, s1, out1)) :
    s.WriteBytes out d = some (true, s1, out1) := by
  simp only [writeSequence] at h
  cases hw : s.WriteBytes out d with
  | none => rw [hw] at h; simp at h
  | some r =>
    obtain ⟨ok, s2, out2⟩ := r
    rw [hw] at h
    simp only [Option.map_some', Option.some.injEq, Prod.mk.injEq, Bool.and_true] at h
    obtain ⟨h1, h2, h3⟩ := h
    rw [h1, h2, h3]
theorem straddle_tail_last : (List.range' 4 508).getLast?.getD 3 = 511 := by
  decide!

theorem straddle_tail_chain : List.Chain (· < ·) 3 (List.range' 4 508) :=
  List.chain_iff_pairwise.mpr
    (List.pairwise_lt_range' 3 509 : List.Pairwise (· < ·) (List.range' 3 509))

theorem straddle_stream_zero (codec : Codec) (msfz out : Bytes)
    (hm : 260608 ≤ msfz.length) (hlen : out.length = 266240) :
    ∃ s1 out1,
      WriteSingleStreamDataToPDB codec (ImmutableStream.ofBytes msfz) []
          [{ m_DataSize := 260608, m_DataOffset := 0, m_ChunkIndexOrDataOrigin := 0 }]
          (GetStreamFromBlockIndices { m_Data := some 0, m_Size := 266240, m_Offset := 0 }
            (List.range' 3 509) 512) out = some (s1, out1)
      ∧ out1.length = 266240
      ∧ (∀ p, 262144 ≤ p → out1.getD p 0 = out.getD p 0) := by
  have hr : List.range' 3 509 = 3 :: List.range' 4 508 := rfl
  have hfrag : WriteSingleStreamDataToPDB.fragmentData codec (ImmutableStream.ofBytes msfz) []
      { m_DataSize := 260608, m_DataOffset := 0, m_ChunkIndexOrDataOrigin := 0 }
      = some (msfz.take 260608) := by
    have h1 : (0 : Nat) < msfz.length := by omega
    simp [WriteSingleStreamDataToPDB.fragmentData, MsfzFragment.IsLocatedInChunk,
      ImmutableStream.CanReadAt, ImmutableStream.m_Length, ImmutableStream.ofBytes,
      ImmutableStream.span, h1, hm]
  have hdl : (msfz.take 260608).length = 260608 := by
    rw [List.length_take]
    omega
  have hs : (([msfz.take 260608] : List Bytes).map List.length).sum = 260608 := by
    simp only [List.map_cons, List.map_nil, List.sum_cons, List.sum_nil, hdl, Nat.add_zero]
  obtain ⟨s1, out1, hw, hl, _, hf⟩ := writeSequence_blocks 3 512 (List.range' 4 508) out
    [msfz.take 260608] (by norm_num) straddle_tail_chain
    (by rw [straddle_tail_last]; norm_num)
    (by rw [hs, List.length_range'])
    (by rw [straddle_tail_last, hlen]; norm_num)
  rw [hlen] at hw
  have hw1 := writeSequence_single _ _ _ _ _ hw
  refine ⟨s1, out1, ?_, by rw [hl, hlen], ?_⟩
  · rw [hr]
    simp only [WriteSingleStreamDataToPDB, hfrag, hw1]
  · intro p hp
    apply hf
    intro k hk
    rw [hs] at hk
    obtain ⟨_, p2⟩ := blockHoles_position 3 512 (List.range' 4 508) (by norm_num)
      straddle_tail_chain k (by rw [List.length_range']; omega)
    rw [straddle_tail_last] at p2
    omega

theorem straddle_streams (codec : Codec) (msfz : Bytes) (hm : 260608 ≤ msfz.length) :
    ∀ (order : List Nat) (out : Bytes), out.length = 266240 →
      ∃ out1,
        WriteStreamsAndDirectoryToPDB.streams codec (ImmutableStream.ofBytes msfz) []
            straddleDescriptors 512 straddleAssignment.outBlocksForStreams
            { m_Data := some 0, m_Size := 266240, m_Offset := 0 } order out = some out1
        ∧ out1.length = 266240
        ∧ (∀ p, 262144 ≤ p → out1.getD p 0 = out.getD p 0) := by
  intro order
  induction order with
  | nil =>
    intro out hlen
    exact ⟨out, rfl, hlen, fun _ _ => rfl⟩
  | cons i rest ih =>
    intro out hlen
    cases i with
    | zero =>
      obtain ⟨s1, out1, h1, h2, h3⟩ := straddle_stream_zero codec msfz out hm hlen
      obtain ⟨out2, h4, h5, h6⟩ := ih out1 h2
      refine ⟨out2, ?_, h5, fun p hp => by rw [h6 p hp, h3 p hp]⟩
      simp only [WriteStreamsAndDirectoryToPDB.streams, straddleDescriptors, straddleAssignment,
        List.getElem?_cons_zero, h1]
      exact h4
    | succ j =>
      obtain ⟨out2, h4, h5, h6⟩ := ih out hlen
      refine ⟨out2, ?_, h5, h6⟩
      by_cases hj : j < 127
      · simp only [WriteStreamsAndDirectoryToPDB.streams, straddleDescriptors,
          straddleAssignment, List.getElem?_cons_succ, List.getElem?_replicate, if_pos hj,
          WriteSingleStreamDataToPDB]
        exact h4
      · simp only [WriteStreamsAndDirectoryToPDB.streams, straddleDescriptors,
          straddleAssignment, List.getElem?_cons_succ, List.getElem?_replicate, if_neg hj]
        exact h4
theorem straddle_directory_stream :
    GetStreamFromBlockIndices { m_Data := some 0, m_Size := 266240, m_Offset := 0 }
        [512, 515, 516, 517, 518] 512
      = { m_Data := some 262144, m_Size := 3584, m_Offset := 0,
          m_HoleOffsets := [(512, 1536)] } := by
  decide

theorem straddle_sizes_stream :
    MutableStreamFixedWithHoles.GetSubStreamAtOffset
        { m_Data := some 262144, m_Size := 3584, m_Offset := 0, m_HoleOffsets := [(512, 1536)] }
        4 (128 * 4)
      = { m_Data := some 262148, m_Size := 512, m_Offset := 0,
          m_HoleOffsets := [(508, 1532)] } := by
  decide

theorem straddle_indices_stream :
    MutableStreamFixedWithHoles.GetSubStreamAtOffset
        { m_Data := some 262144, m_Size := 3584, m_Offset := 0, m_HoleOffsets := [(512, 1536)] }
        (4 + 128 * 4) 0
      = { m_Data := none, m_Size := 0, m_Offset := 0, m_HoleOffsets := [] } := by
  decide

theorem straddle_sizes :
    straddleDescriptors.map (fun x => toLe32 ((CalculateSize x).getD 0))
      = toLe32 260608 :: List.replicate 127 (toLe32 0) := by
  decide!

theorem straddle_sizes_defined : ∀ x ∈ straddleDescriptors, ∃ n, CalculateSize x = some n := by
  have h : ∀ x ∈ straddleDescriptors, (CalculateSize x).isSome = true := by decide!
  intro x hx
  exact Option.isSome_iff_exists.mp (h x hx)

theorem straddle_directory (out1 : Bytes) (hlen : out1.length = 266240) :
    ∃ s2 out2 out3,
      MutableStreamFixedWithHoles.WriteBytes
          { m_Data := some 262144, m_Size := 3584, m_Offset := 0,
            m_HoleOffsets := [(512, 1536)] } out1 (toLe32 128) = some (true, s2, out2)
      ∧ WriteStreamsAndDirectoryToPDB.directory straddleDescriptors
          straddleAssignment.outBlocksForStreams
          { m_Data := some 262148, m_Size := 512, m_Offset := 0, m_HoleOffsets := [(508, 1532)] }
          { m_Data := none, m_Size := 0, m_Offset := 0, m_HoleOffsets := [] } out2 4
        = some (out3, 2552)
      ∧ out3.length = 266240
      ∧ (∀ k, k < 4 → out3.getD (262144 + k) 0 = (toLe32 128).getD k 0)
      ∧ (∀ k, k < 4 → out3.getD (262148 + k) 0 = (toLe32 260608).getD k 0)
      ∧ (∀ p, 263684 ≤ p → out3.getD p 0 = out1.getD p 0) := by
  have hokD : HolesOk 0 [(512, 1536)] 3584 := by simp [HolesOk]
  have hokD1 : HolesOk 512 [(512, 1536)] 1536 := by simp [HolesOk]
  have hokS : HolesOk 0 [(508, 1532)] 1532 := by simp [HolesOk]
  have hokS1 : HolesOk 508 [(508, 1532)] 1532 := by simp [HolesOk]
  obtain ⟨out2, hw2, hl2, hp2, hf2⟩ := WriteBytes_spec 262144 3584 0 3584 [(512, 1536)] out1
    (toLe32 128) hokD (by norm_num) (by decide) (by rw [hlen]; decide) (by decide!)
  have hsum : ((straddleDescriptors.map (fun x => toLe32 ((CalculateSize x).getD 0))).map
      List.length).sum = 512 := by
    decide!
  have hblocks : (straddleAssignment.outBlocksForStreams.map
      (fun b => 4 + 4 * b.length)).sum = 2548 := by
    decide!
  obtain ⟨out3, hw3, hl3, hp3, hf3⟩ := writeSequence_spec 262148 512 1532 [(508, 1532)] hokS
    (by norm_num) (straddleDescriptors.map (fun x => toLe32 ((CalculateSize x).getD 0))) 0 out2
    (by rw [hsum]; norm_num) (by rw [hsum, hl2, hlen]; decide) (by rw [hsum]; decide!)
  rw [hsum] at hp3 hf3
  have hadjS : ∀ k, k < 512 → 262148 + adjustOffsetNat [(508, 1532)] (0 + k) < 263684 := by
    intro k hk
    have := adjustOffsetNat_bound [(508, 1532)] 508 1532 (0 + k) hokS1
    omega
  have hadjD : ∀ k, k < 4 → adjustOffsetNat [(512, 1536)] (0 + k) = k := by
    intro k hk
    rw [adjustOffsetNat_of_lt _ 512 1536 _ hokD1 (by omega), Nat.zero_add]
  have hadjS0 : ∀ k, k < 4 → adjustOffsetNat [(508, 1532)] (0 + k) = k := by
    intro k hk
    rw [adjustOffsetNat_of_lt _ 508 1532 _ hokS1 (by omega), Nat.zero_add]
  have hge := adjustOffsetNat_ge [(508, 1532)]
  refine ⟨_, out2, out3, hw2, ?_, by rw [hl3, hl2, hlen], ?_, ?_, ?_⟩
  · rw [directory_null_indices _ _ _ _ _ (by decide!) straddle_sizes_defined, hw3, hblocks]
    rfl
  · intro k hk
    have h1 := hp2 k hk
    rw [hadjD k hk] at h1
    rw [← h1]
    apply hf3
    intro j hj
    have := hge (0 + j)
    omega
  · intro k hk
    have h1 := hp3 k (by omega)
    rw [hadjS0 k hk, straddle_sizes] at h1
    rw [h1]
    have : ∀ k, k < 4 → (toLe32 260608 :: List.replicate 127 (toLe32 0)).flatten.getD k 0
        = (toLe32 260608).getD k 0 := by decide!
    exact this k hk
  · intro p hp
    rw [hf3 p (fun k hk => by have := hadjS k hk; omega)]
    apply hf2
    intro k hk
    have h4 : (toLe32 128).length = 4 := rfl
    have := hadjD k (by omega)
    omega

/-! ### Claims C11 to C13: the sizing pass against what is written -/

/-- C11, evaluated where it fails. For one stream of `0x80000001` bytes under
`NoCompression` the sizing pass computes `AlignTo(s, s) / s = 0` fragments, because
`s + (s - 1)` wraps in 32 bits, so it counts 4 directory bytes and the header field
`directoryLengthDecompressed` is 4. The per-stream work emits one fragment descriptor, so
the serialized directory (one descriptor and one separator) has 16 bytes. -/
theorem RunCompression_directory_length_undercounted :
    ∃ out,
      RunCompression.convert storeCodec noCompressionArgs
          (ImmutableStream.ofBytes (zeroFile 2149605376)) bigSuperBlock [bigInfo] 1 [0, 0, 0, 0]
        = .finished out ∧
      CalculateOutputRegionSizes storeCodec [bigInfo] noCompressionArgs
        = some (4, 0, 2147483649) ∧
      out.header.m_StreamDirectoryDataLengthDecompressed = 4 ∧
      out.streamDescriptors = [[⟨2147483649, 0, 2147483648⟩]] ∧
      (serializeDirectory out.streamDescriptors).length = 16 ∧
      out.header.m_StreamDirectoryDataLengthDecompressed
        ≠ (serializeDirectory out.streamDescriptors).length :=
  ⟨_, big_convert, big_sizes storeCodec bigInfo rfl, rfl, rfl, by decide, by decide⟩

/-- C12, evaluated where it fails. `emptyStreamPdb` has one empty stream. Under
`SingleFragment` the sizing pass reserves `80 + 4 + 0 + 0 = 84` bytes: the 4 bytes are the
length of the uncompressed directory. The directory is stored compressed, and the codec
(whose output never exceeds its bound) turns its 4 bytes into 5, so the file the writer
leaves has `80 + 0 + 0 + 5 = 85` bytes: the final resize grows the file, and the window
for the directory at offset 80 does not fit the 84 reserved bytes (the stream obtained
for it is the null stream). -/
theorem RunCompression_outgrows_reserved_size :
    ∃ out,
      RunCompression storeCodec singleFragmentArgs emptyStreamPdb 1 [0] = .finished out ∧
      (∀ (level : Nat) (src dst : Bytes), storeCodec.compress level src = some dst →
        dst.length ≤ storeCodec.compressBound src.length) ∧
      ParseStreamDirectory (ImmutableStream.ofBytes emptyStreamPdb) emptySuperBlock
        = some [⟨0, []⟩] ∧
      CalculateOutputRegionSizes storeCodec [⟨0, []⟩] singleFragmentArgs = some (4, 0, 0) ∧
      out.header.m_ChunkMetadataLength = 0 ∧
      out.header.m_StreamDirectoryDataOffset = 80 ∧
      out.header.m_StreamDirectoryDataLengthCompressed = 5 ∧
      MutableStreamFixed.GetStreamAtOffset ⟨some 0, 80 + 4 + 0 + 0, 0⟩ 80 5
        = MutableStreamFixed.null ∧
      out.file.length = 85 ∧
      80 + 4 + 0 + 0 < out.file.length :=
  ⟨_, emptyStream_run storeCodec [1, 0, 0, 0, 0] (by decide) rfl (by decide) (by decide),
    fun _ src dst h => by
      simp only [storeCodec, Option.some.injEq] at h
      subst h
      simp [storeCodec],
    emptyStream_parse, emptyStream_sizes storeCodec (by decide), rfl, rfl, rfl, by decide,
    by decide!, by decide!⟩

/-- C13, evaluated where it fails. For `emptyStreamPdb` under `SingleFragment` the header
the writer emits places the directory at offset 80 with `directoryLengthCompressed = 5`,
and the file has `80 + 5` bytes; but the 5 bytes of the compressed directory were never
written: the window for them lies outside the 84 bytes reserved by the sizing pass, the
write through it is dropped, and the final resize appends zero bytes. The 5 bytes at the
directory offset are zero, not the directory. -/
theorem RunCompression_directory_bytes_missing :
    ∃ out directoryData,
      RunCompression storeCodec singleFragmentArgs emptyStreamPdb 1 [0] = .finished out ∧
      storeCodec.compress 3 (serializeDirectory out.streamDescriptors) = some directoryData ∧
      directoryData = [1, 0, 0, 0, 0] ∧
      out.header.m_ChunkMetadataOffset = 80 ∧
      out.header.m_ChunkMetadataLength = 20 * out.header.m_NumChunks ∧
      out.header.m_StreamDirectoryDataOffset = 80 + out.header.m_ChunkMetadataLength + 0 ∧
      out.header.m_StreamDirectoryDataLengthCompressed = directoryData.length ∧
      out.file.length
        = out.header.m_StreamDirectoryDataOffset
          + out.header.m_StreamDirectoryDataLengthCompressed ∧
      (out.file.drop out.header.m_StreamDirectoryDataOffset).take
          out.header.m_StreamDirectoryDataLengthCompressed = [0, 0, 0, 0, 0] ∧
      (out.file.drop out.header.m_StreamDirectoryDataOffset).take
          out.header.m_StreamDirectoryDataLengthCompressed ≠ directoryData :=
  ⟨_, _, emptyStream_run storeCodec [1, 0, 0, 0, 0] (by decide) rfl (by decide) (by decide),
    rfl, rfl, rfl, rfl, rfl, rfl, by decide!, by decide!, by decide!⟩

/-! ### Claims C15 and C16: reserved blocks and the free block map -/

/-- C15. For every list of MSFZ stream descriptors and every block size among 512, 1024,
2048, 4096 and 8192: when `AssignBlocksToStreams` returns, no block index `b` it assigned
to a stream, to the directory or to the directory index has `b % bs = 1` or
`b % bs = 2`. -/
theorem AssignBlocksToStreams_avoids_reserved (streamDescriptors : List (List MsfzFragment))
    (bs : Nat) (a : BlockAssignment) (hbs : bs ∈ [512, 1024, 2048, 4096, 8192])
    (h : AssignBlocksToStreams streamDescriptors bs = some a) :
    (∀ l ∈ a.outBlocksForStreams, ∀ b ∈ l, b % bs ≠ 1 ∧ b % bs ≠ 2)
      ∧ (∀ b ∈ a.outBlocksForDirectory, b % bs ≠ 1 ∧ b % bs ≠ 2)
      ∧ (∀ b ∈ a.outBlocksForDirectoryIndices, b % bs ≠ 1 ∧ b % bs ≠ 2) := by
  unfold AssignBlocksToStreams at h
  cases hs : AssignBlocksToStreams.streams bs streamDescriptors 3 4 with
  | none => simp [hs] at h
  | some r =>
      obtain ⟨ls, c1, t⟩ := r
      simp only [hs] at h
      cases h1 : StrictCastTo32 (AlignTo64 t bs / bs) with
      | none => simp [h1] at h
      | some nd =>
          simp only [h1] at h
          cases h2 : StrictCastTo32 (AlignTo64 (nd * 4) bs / bs) with
          | none => simp [h2] at h
          | some ni =>
              simp only [h2, Option.some.injEq] at h
              subst h
              refine ⟨fun l hl b hb => ?_, fun b hb => ?_, fun b hb => ?_⟩
              · exact (IsBlockReserved_false_iff b bs).mp
                  (streams_not_reserved bs hbs streamDescriptors 3 4 _ hs l hl b hb)
              · exact (IsBlockReserved_false_iff b bs).mp
                  (AssignNextNBlocks_not_reserved bs hbs _ _ b hb)
              · exact (IsBlockReserved_false_iff b bs).mp
                  (AssignNextNBlocks_not_reserved bs hbs _ _ b hb)

/-- Witness of C15: one stream of 511 blocks at block size 512, whose block list skips
the reserved pair 513 and 514. -/
theorem AssignBlocksToStreams_avoids_reserved_witness :
    512 ∈ [512, 1024, 2048, 4096, 8192]
      ∧ AssignBlocksToStreams longStreamDescriptors 512 = some longStreamAssignment
      ∧ ((∀ l ∈ longStreamAssignment.outBlocksForStreams, ∀ b ∈ l, b % 512 ≠ 1 ∧ b % 512 ≠ 2)
        ∧ (∀ b ∈ longStreamAssignment.outBlocksForDirectory, b % 512 ≠ 1 ∧ b % 512 ≠ 2)
        ∧ (∀ b ∈ longStreamAssignment.outBlocksForDirectoryIndices,
            b % 512 ≠ 1 ∧ b % 512 ≠ 2)) :=
  ⟨by decide, longStream_assign,
    AssignBlocksToStreams_avoids_reserved longStreamDescriptors 512 longStreamAssignment
      (by decide) longStream_assign⟩

/-- C16, evaluated where it fails. An MSFZ file with one stream of `511 * 512` bytes is
decompressed at block size 512. Stream 0 is assigned the blocks 3 to 512 and 515, since
513 and 514 are reserved. The free block map of `RunDecompression` sets the bits of the
511 consecutive indices from 3 on, that is 3 to 513: bit 513, a reserved block that is not
a block of stream 0, is 1, and bit 515, the last block of stream 0, is 0. -/
theorem RunDecompression_freeBlockMap_marks_wrong_blocks :
    ∃ fpm,
      RunDecompression.freeBlockMap 512 longStreamAssignment.outNumBlocks
          longStreamAssignment.outBlocksForStreams
          longStreamAssignment.outBlocksForFreeBlockMap = some fpm ∧
      AssignBlocksToStreams longStreamDescriptors 512 = some longStreamAssignment ∧
      longStreamAssignment.outBlocksForStreams = [List.range' 3 510 ++ [515]] ∧
      (List.range 522).filter (fun b => bitAt fpm b = 1) = List.range' 3 511 ∧
      bitAt fpm 513 = 1 ∧ 513 ∉ List.range' 3 510 ++ [515] ∧
      bitAt fpm 515 = 0 ∧ 515 ∈ List.range' 3 510 ++ [515] := by
  decide!

theorem CompressAndWriteStreamData_no_threads (codec : Codec) (file : ImmutableStream)
    (infos : List PDBStreamInfo) (args : ProgramCommandLineArgs) (bs cdo : Nat)
    (schedule : List Nat) (sh : Shared) (r : CompressResult)
    (h : CompressAndWriteStreamData codec file infos args bs cdo 0 schedule sh = .finished r) :
    r.sh = sh ∧ r.streamDescriptors = List.replicate infos.length []
      ∧ r.m_NumMSFStreams = infos.length
      ∧ (args.m_CompressionStrategy = .NoCompression →
          r.directoryData = serializeDirectory r.streamDescriptors)
      ∧ (args.m_CompressionStrategy ≠ .NoCompression →
          codec.compress 3 (serializeDirectory r.streamDescriptors) = some r.directoryData) := by
  unfold CompressAndWriteStreamData at h
  simp only [if_true, true_or, CompressAndWriteStreamData.runSchedule, List.map_replicate] at h
  cases hn : StrictCastTo32 infos.length with
  | none => simp [hn] at h
  | some numStreams =>
    have hnum := StrictCastTo32_eq_some _ _ hn
    simp only [hn] at h
    by_cases hs : args.m_CompressionStrategy = .NoCompression
    · rw [if_neg (by simpa using hs)] at h
      simp only [Run.finished.injEq] at h
      subst h
      exact ⟨rfl, rfl, hnum.1, fun _ => rfl, fun hne => absurd hs hne⟩
    · rw [if_pos hs] at h
      cases hc : codec.compress 3 (serializeDirectory (List.replicate infos.length [])) with
      | none =>
        rw [hc] at h
        cases h
      | some c =>
        rw [hc] at h
        simp only [Run.finished.injEq] at h
        subst h
        exact ⟨rfl, rfl, hnum.1, fun he => absurd he hs, fun _ => hc⟩

/-! ### Claim C14: the directory the writer serialises is parsed back -/

/-- C14. For every list of PDB streams, every strategy and every interleaving of the
stream workers: when `CompressAndWriteStreamData` returns, `ParseStreamDirectoryData`
applied to the directory bytes it serialised (for each stream its fragment descriptors,
then a zero separator word) returns exactly the per-stream fragment lists of the writer,
in stream order; there is one list per input stream, which is the header's `numStreams`,
and the list of an empty stream is empty. The bytes handed on are this serialisation
under `NoCompression` and its compressed form otherwise. -/
theorem ParseStreamDirectoryData_inverts_serializeDirectory (codec : Codec)
    (pdbFile : ImmutableStream) (streamInfos : List PDBStreamInfo)
    (args : ProgramCommandLineArgs) (blockSize chunkDataOffset : Nat) (numThreads : Nat)
    (schedule : List Nat) (sh : Shared) (r : CompressResult)
    (h : CompressAndWriteStreamData codec pdbFile streamInfos args blockSize chunkDataOffset
      numThreads schedule sh = .finished r) :
    ParseStreamDirectoryData (serializeDirectory r.streamDescriptors)
        = some r.streamDescriptors
      ∧ r.streamDescriptors.length = streamInfos.length
      ∧ r.m_NumMSFStreams = r.streamDescriptors.length
      ∧ (∀ (i : Nat) (info : PDBStreamInfo), streamInfos[i]? = some info →
          info.m_StreamSize = 0 → r.streamDescriptors[i]? = some [])
      ∧ (args.m_CompressionStrategy = .NoCompression →
          r.directoryData = serializeDirectory r.streamDescriptors)
      ∧ (args.m_CompressionStrategy ≠ .NoCompression →
          codec.compress 3 (serializeDirectory r.streamDescriptors) = some r.directoryData) := by
  by_cases hth : numThreads = 0
  · subst hth
    obtain ⟨_, hd, hnum, hnc, hc⟩ := CompressAndWriteStreamData_no_threads codec pdbFile
      streamInfos args blockSize chunkDataOffset schedule sh r h
    refine ⟨?_, ?_, ?_, ?_, hnc, hc⟩
    · apply ParseStreamDirectoryData_serializeDirectory
      intro frags hfrags f hf
      rw [hd] at hfrags
      rw [List.eq_of_mem_replicate hfrags] at hf
      cases hf
    · rw [hd, List.length_replicate]
    · rw [hnum, hd, List.length_replicate]
    · intro i info hinfo _
      rw [hd, List.getElem?_replicate, if_pos (List.getElem?_eq_some_iff.mp hinfo).1]
  unfold CompressAndWriteStreamData at h
  simp only [hth, if_false, false_or] at h
  cases hn : StrictCastTo32 streamInfos.length with
  | none => simp [hn] at h
  | some numStreams =>
    have hnum := StrictCastTo32_eq_some _ _ hn
    simp only [hn] at h
    cases hrun : CompressAndWriteStreamData.runSchedule codec pdbFile streamInfos args blockSize
        chunkDataOffset schedule sh
        (List.replicate streamInfos.length { state := .start, m_Fragments := [] }) with
    | none => simp [hrun] at h
    | some res =>
      obtain ⟨sh1, ws⟩ := res
      simp only [hrun] at h
      obtain ⟨hok, hlen⟩ := runSchedule_ok codec pdbFile streamInfos args blockSize
        chunkDataOffset schedule sh _ sh1 ws hrun
        (by
          intro i info w _ hw
          rw [List.getElem?_replicate] at hw
          split at hw
          · simp only [Option.some.injEq] at hw
            subst hw
            exact ⟨fun _ => ⟨rfl, Or.inl rfl⟩, rfl⟩
          · cases hw)
        (List.length_replicate _ _)
      by_cases hall : ws.all (fun w => decide (w.state = .done)) = true
      · rw [if_pos hall] at h
        have hdone : ∀ w ∈ ws, w.state = .done := by
          intro w hw
          have := List.all_eq_true.mp hall w hw
          simpa using this
        have hfr : ∀ frags ∈ ws.map (fun w => w.m_Fragments), ∀ f ∈ frags,
            0 < f.m_DataSize ∧ f.m_DataSize < 4294967296
              ∧ f.m_DataOffset < 4294967296 ∧ f.m_ChunkIndexOrDataOrigin < 4294967296 := by
          intro frags hfrags f hf
          rw [List.mem_map] at hfrags
          obtain ⟨w, hw, rfl⟩ := hfrags
          obtain ⟨i, hi, hwi⟩ := List.getElem_of_mem hw
          have hi2 : i < streamInfos.length := by omega
          have hwi2 : ws[i]? = some w := by rw [List.getElem?_eq_getElem hi, hwi]
          have hW := hok i streamInfos[i] w (List.getElem?_eq_getElem hi2) hwi2
          have hst := hdone w hw
          obtain ⟨_, hW2⟩ := hW
          simp only [hst] at hW2
          exact hW2 f hf
        have hempty : ∀ (i : Nat) (info : PDBStreamInfo), streamInfos[i]? = some info →
            info.m_StreamSize = 0 → (ws.map (fun w => w.m_Fragments))[i]? = some [] := by
          intro i info hinfo h0
          have hi : i < ws.length := by
            rw [hlen]
            exact (List.getElem?_eq_some_iff.mp hinfo).1
          have hwi2 : ws[i]? = some ws[i] := List.getElem?_eq_getElem hi
          have hW := hok i info ws[i] hinfo hwi2
          rw [List.getElem?_map, hwi2]
          simp only [Option.map_some', Option.some.injEq]
          exact (hW.1 h0).1
        by_cases hs : args.m_CompressionStrategy = .NoCompression
        · rw [if_neg (by simpa using hs)] at h
          simp only [Run.finished.injEq] at h
          subst h
          simp only
          refine ⟨ParseStreamDirectoryData_serializeDirectory _ hfr, ?_, ?_, hempty,
            fun _ => trivial, fun hne => absurd hs hne⟩
          · rw [List.length_map, hlen]
          · rw [List.length_map, hlen, hnum.1]
        · rw [if_pos hs] at h
          cases hc : codec.compress 3 (serializeDirectory (ws.map (fun w => w.m_Fragments))) with
          | none => simp [hc] at h
          | some c =>
            simp only [hc, Run.finished.injEq] at h
            subst h
            simp only
            refine ⟨ParseStreamDirectoryData_serializeDirectory _ hfr, ?_, ?_, hempty,
              fun he => absurd he hs, fun _ => hc⟩
            · rw [List.length_map, hlen]
            · rw [List.length_map, hlen, hnum.1]
      · rw [if_neg hall] at h
        cases h

/-- Witness of C14: the two streams of `tinyPdb` (five bytes and none) under
`MultiFragment` with fragments of two bytes. -/
theorem ParseStreamDirectoryData_inverts_serializeDirectory_witness :
    CompressAndWriteStreamData storeCodec (ImmutableStream.ofBytes tinyPdb)
        [⟨5, [3]⟩, ⟨0, []⟩] twoByteFragments 512 140 2 [0, 1, 0, 0, 0, 0, 0, 1, 0, 0, 0]
        tinyShared = .finished tinyCompressResult
      ∧ (ParseStreamDirectoryData (serializeDirectory tinyCompressResult.streamDescriptors)
          = some tinyCompressResult.streamDescriptors
        ∧ tinyCompressResult.streamDescriptors.length
          = ([⟨5, [3]⟩, ⟨0, []⟩] : List PDBStreamInfo).length
        ∧ tinyCompressResult.m_NumMSFStreams = tinyCompressResult.streamDescriptors.length
        ∧ (∀ (i : Nat) (info : PDBStreamInfo),
            ([⟨5, [3]⟩, ⟨0, []⟩] : List PDBStreamInfo)[i]? = some info →
            info.m_StreamSize = 0 → tinyCompressResult.streamDescriptors[i]? = some [])
        ∧ (twoByteFragments.m_CompressionStrategy = .NoCompression →
            tinyCompressResult.directoryData
              = serializeDirectory tinyCompressResult.streamDescriptors)
        ∧ (twoByteFragments.m_CompressionStrategy ≠ .NoCompression →
            storeCodec.compress 3 (serializeDirectory tinyCompressResult.streamDescriptors)
              = some tinyCompressResult.directoryData)) :=
  ⟨by decide!,
    ParseStreamDirectoryData_inverts_serializeDirectory storeCodec
      (ImmutableStream.ofBytes tinyPdb) [⟨5, [3]⟩, ⟨0, []⟩] twoByteFragments 512 140
      2 [0, 1, 0, 0, 0, 0, 0, 1, 0, 0, 0] tinyShared tinyCompressResult (by decide!)⟩

/-! ### Claim C17: the limits of `RunDecompression` -/

/-- C17, evaluated where it fails. `hugeMsfz` is a well-formed MSFZ file with `N = 1`
stream of `1047039 * 4096` bytes. At block size 4096 `AssignBlocksToStreams` needs
`M = 2^20` blocks, so neither limit is exceeded (`M > 2^20` and `N > 2^16` are both
false). The size of the output, `M * 4096 = 2^32`, is computed in 32 bits and is 0, and
`RunDecompression` fails on the empty output mapping, in test mode as well: `M = 2^20` is
not accepted. -/
theorem RunDecompression_fails_within_limits (codec : Codec) (args : ProgramCommandLineArgs)
    (testMode : Bool) (order : List Nat) :
    ∃ a,
      (GetStreamDirectoryData codec (ImmutableStream.ofBytes hugeMsfz)
        (MsfzHeader.ofBytes hugeMsfz)).bind ParseStreamDirectoryData = some hugeDescriptors ∧
      AssignBlocksToStreams hugeDescriptors 4096 = some a ∧
      a.outNumBlocks = 1048576 ∧
      hugeDescriptors.length = 1 ∧
      ¬ a.outNumBlocks > 1048576 ∧
      ¬ hugeDescriptors.length > 65536 ∧
      a.outNumBlocks * 4096 % 4294967296 = 0 ∧
      RunDecompression codec { args with m_BlockSize := 4096 } testMode order hugeMsfz
        = .error :=
  ⟨_, huge_directory codec, huge_assign, rfl, rfl, by decide, by decide, by decide,
    RunDecompression_empty_output codec { args with m_BlockSize := 4096 } testMode order
      hugeMsfz hugeDescriptors [⟨100, 0, 1, 4, 4288671744⟩] _ (by decide) (by decide)
      (huge_directory codec) (by decide) (by decide) huge_assign (by decide) (by decide)
      (by norm_num)⟩

/-! ### Claims C18 to C20: writes through streams with holes -/

/-- C19. For every stream-with-holes whose holes are sorted, pairwise disjoint and inside
the range (and whose 64-bit offset sums do not wrap), and every `WriteBytes` of `n` bytes
at virtual cursor `v` that succeeds: the cursor becomes `v + n`; the spans of
`AdjustWriteSpans` are in ascending order, each of them is disjoint from every hole, and
their lengths sum to `n`; the bytes of span `i` in the mapping are the source bytes that
follow those of the spans before it; and no byte outside the spans is changed. -/
theorem WriteBytes_spans_avoid_holes (s s1 : MutableStreamFixedWithHoles)
    (out out1 data : Bytes)
    (hholes : HolesOk 0 s.m_HoleOffsets s.m_Size)
    (h64 : s.m_Size + (s.m_Offset + data.length) < 18446744073709551616)
    (h : s.WriteBytes out data = some (true, s1, out1)) :
    s1 = { s with m_Offset := s.m_Offset + data.length }
      ∧ (∀ sp ∈ MutableStreamFixedWithHoles.AdjustWriteSpans s.m_HoleOffsets s.m_Offset
            (s.m_Offset + data.length),
          sp.1 ≤ sp.2 ∧ ∀ hole ∈ s.m_HoleOffsets, sp.2 ≤ hole.1 ∨ hole.2 ≤ sp.1)
      ∧ ((MutableStreamFixedWithHoles.AdjustWriteSpans s.m_HoleOffsets s.m_Offset
            (s.m_Offset + data.length)).map (fun sp => sp.2 - sp.1)).sum = data.length
      ∧ (MutableStreamFixedWithHoles.AdjustWriteSpans s.m_HoleOffsets s.m_Offset
            (s.m_Offset + data.length)).Pairwise (fun a b => a.2 ≤ b.1)
      ∧ out1.length = out.length
      ∧ (∀ (i : Nat) (sp : Nat × Nat),
          (MutableStreamFixedWithHoles.AdjustWriteSpans s.m_HoleOffsets s.m_Offset
            (s.m_Offset + data.length))[i]? = some sp →
          ∀ j, j < sp.2 - sp.1 →
            (∃ b, s.m_Data = some b) ∧ s.m_Data.getD 0 + sp.2 ≤ out.length
              ∧ out1.getD (s.m_Data.getD 0 + sp.1 + j) 0
                = data.getD
                    ((((MutableStreamFixedWithHoles.AdjustWriteSpans s.m_HoleOffsets s.m_Offset
                      (s.m_Offset + data.length)).take i).map (fun t => t.2 - t.1)).sum + j) 0)
      ∧ (∀ p,
          (∀ sp ∈ MutableStreamFixedWithHoles.AdjustWriteSpans s.m_HoleOffsets s.m_Offset
              (s.m_Offset + data.length),
            p < s.m_Data.getD 0 + sp.1 ∨ s.m_Data.getD 0 + sp.2 ≤ p) →
          out1.getD p 0 = out.getD p 0) := by
  have hlen := WriteBytes_length s s1 out data out1 true h
  have e1 := AdjustOffset_eq_nat s.m_HoleOffsets 0 s.m_Size s.m_Offset hholes (by omega)
    (by omega)
  have e2 := AdjustOffset_eq_nat s.m_HoleOffsets 0 s.m_Size (s.m_Offset + data.length) hholes
    (by omega) (by omega)
  obtain ⟨q1, q2, q3⟩ := spansFrom_spec s.m_HoleOffsets 0 s.m_Size s.m_Offset
    (s.m_Offset + data.length) hholes (by omega)
  have hb := adjustOffsetNat_bound s.m_HoleOffsets 0 s.m_Size (s.m_Offset + data.length) hholes
  rw [AdjustWriteSpans_eq, e1, e2]
  unfold MutableStreamFixedWithHoles.WriteBytes at h
  simp only at h
  rw [AdjustWriteSpans_eq, e1, e2] at h
  split at h
  · cases h
  · rename_i back hback
    split at h
    · simp only [Option.some.injEq, Prod.mk.injEq, Bool.false_eq_true, false_and] at h
    · simp only [Option.map_eq_some', Prod.mk.injEq, true_and] at h
      obtain ⟨o, hcopy, hs1, ho⟩ := h
      subst ho
      obtain ⟨g1, g2⟩ := copySpans_in_order s.m_Data _ data out o hcopy
        (fun sp hsp => by
          obtain ⟨_, r2, r3, _⟩ := q1 sp hsp
          exact ⟨r2, by omega⟩)
        q3
      refine ⟨hs1.symm, ?_, ?_, q3, hlen, g2, g1⟩
      · intro sp hsp
        obtain ⟨_, r2, _, r4⟩ := q1 sp hsp
        exact ⟨r2, r4⟩
      · rw [q2]
        omega

/-- Witness of C19: six bytes written at cursor 1 of a stream of 12 bytes at position 2 of
the mapping, with the holes `[3, 5)` and `[7, 8)`; the spans are `[1, 3)`, `[5, 7)` and
`[8, 10)`. -/
theorem WriteBytes_spans_avoid_holes_witness :
    HolesOk 0 [(3, 5), (7, 8)] 12
      ∧ 12 + (1 + 6) < 18446744073709551616
      ∧ MutableStreamFixedWithHoles.WriteBytes
          { m_Data := some 2, m_Size := 12, m_Offset := 1, m_HoleOffsets := [(3, 5), (7, 8)] }
          (List.replicate 16 0) [101, 102, 103, 104, 105, 106]
        = some (true,
            { m_Data := some 2, m_Size := 12, m_Offset := 7, m_HoleOffsets := [(3, 5), (7, 8)] },
            [0, 0, 0, 101, 102, 0, 0, 103, 104, 0, 105, 106, 0, 0, 0, 0])
      ∧ MutableStreamFixedWithHoles.AdjustWriteSpans [(3, 5), (7, 8)] 1 7
        = [(1, 3), (5, 7), (8, 10)]
      ∧ ((∀ sp ∈ MutableStreamFixedWithHoles.AdjustWriteSpans [(3, 5), (7, 8)] 1 7,
            sp.1 ≤ sp.2 ∧ ∀ hole ∈ [(3, 5), (7, 8)], sp.2 ≤ hole.1 ∨ hole.2 ≤ sp.1)
        ∧ ((MutableStreamFixedWithHoles.AdjustWriteSpans [(3, 5), (7, 8)] 1 7).map
            (fun sp => sp.2 - sp.1)).sum = 6
        ∧ (∀ p,
            (∀ sp ∈ MutableStreamFixedWithHoles.AdjustWriteSpans [(3, 5), (7, 8)] 1 7,
              p < 2 + sp.1 ∨ 2 + sp.2 ≤ p) →
            ([0, 0, 0, 101, 102, 0, 0, 103, 104, 0, 105, 106, 0, 0, 0, 0] : Bytes).getD p 0
              = (List.replicate 16 0).getD p 0)) :=
  have hw : MutableStreamFixedWithHoles.WriteBytes
      { m_Data := some 2, m_Size := 12, m_Offset := 1, m_HoleOffsets := [(3, 5), (7, 8)] }
      (List.replicate 16 0) [101, 102, 103, 104, 105, 106]
    = some (true,
        { m_Data := some 2, m_Size := 12, m_Offset := 7, m_HoleOffsets := [(3, 5), (7, 8)] },
        [0, 0, 0, 101, 102, 0, 0, 103, 104, 0, 105, 106, 0, 0, 0, 0]) := by decide
  have hh : HolesOk 0 [(3, 5), (7, 8)] 12 := by simp [HolesOk]
  have hc := WriteBytes_spans_avoid_holes _ _ _ _ _ hh (by decide) hw
  ⟨hh, by decide, hw, by decide, hc.2.1, hc.2.2.1, hc.2.2.2.2.2.2⟩

/-! ### C18: stream bytes land in the assigned blocks -/

/-- C18 as stated fails when the output file is too short for the blocks of B. With
`B = [3]` and `bs = 4` over a file of 8 bytes, `GetStreamFromBlockIndices` returns the
null stream: a write of one byte is refused and leaves the file as it was, and the
offset `3 * 4 + 0` at which byte 0 of the data should land is outside the file. -/
theorem GetStreamFromBlockIndices_writes_refused_on_short_file :
    ([3] : List Nat).Pairwise (· < ·)
      ∧ (3 + 1) * 4 < 4294967296
      ∧ (([[7]] : List Bytes).map List.length).sum ≤ ([3] : List Nat).length * 4
      ∧ GetStreamFromBlockIndices { m_Data := some 0, m_Size := 8, m_Offset := 0 } [3] 4
        = MutableStreamFixedWithHoles.ofFixed MutableStreamFixed.null
      ∧ writeSequence
          (GetStreamFromBlockIndices { m_Data := some 0, m_Size := 8, m_Offset := 0 } [3] 4)
          (zeroFile 8) [[7]]
        = some (false, MutableStreamFixedWithHoles.ofFixed MutableStreamFixed.null, zeroFile 8)
      ∧ ¬ (3 * 4 + 0 < (zeroFile 8).length)
      ∧ (zeroFile 8).getD (3 * 4 + 0) 0 ≠ 7 := by
  decide

/-- C18 (amended): for every non-empty strictly increasing block list B with
(B[last] + 1) * bs below 2^32 and every sequence of writes of total length at most
len(B) * bs made through the stream that GetStreamFromBlockIndices returns over an output
file of at least (B[last] + 1) * bs bytes, every write succeeds, byte k of the written
data ends up at output-file offset B[k / bs] * bs + (k mod bs), and no other byte of the
output is modified. -/
theorem GetStreamFromBlockIndices_writes_land_in_blocks (B : List Nat) (bs : Nat)
    (out : Bytes) (writes : List Bytes) (hne : B ≠ [])
    (hinc : B.Pairwise (· < ·))
    (h32 : (B.getLast hne + 1) * bs < 4294967296)
    (hL : (writes.map List.length).sum ≤ B.length * bs)
    (hfile : (B.getLast hne + 1) * bs ≤ out.length) :
    ∃ s1 out1,
      writeSequence
          (GetStreamFromBlockIndices { m_Data := some 0, m_Size := out.length, m_Offset := 0 }
            B bs) out writes = some (true, s1, out1)
      ∧ out1.length = out.length
      ∧ (∀ k, k < (writes.map List.length).sum →
          B.getD (k / bs) 0 * bs + k % bs < out.length
            ∧ out1.getD (B.getD (k / bs) 0 * bs + k % bs) 0 = writes.flatten.getD k 0)
      ∧ (∀ p, (∀ k, k < (writes.map List.length).sum →
            p ≠ B.getD (k / bs) 0 * bs + k % bs) →
          out1.getD p 0 = out.getD p 0) := by
  cases B with
  | nil => exact absurd rfl hne
  | cons first tail =>
    have hch : List.Chain (· < ·) first tail := List.chain_iff_pairwise.mpr hinc
    rw [getLast_cons_eq_getD] at h32 hfile
    rcases Nat.eq_zero_or_pos bs with h0 | h0
    · subst h0
      have hz : (writes.map List.length).sum = 0 := by
        simpa using hL
      obtain ⟨s1, out1, hw, hl, hf⟩ := writeSequence_zero_blocks first tail out writes hz
      refine ⟨s1, out1, hw, hl, ?_, fun p _ => hf p⟩
      intro k hk
      omega
    · exact writeSequence_blocks first bs tail out writes h0 hch h32
        (by simpa using hL) hfile

/-- Witness of C18 (amended): blocks 3 and 5 of four bytes each in a 24-byte file,
written by two calls of three bytes. -/
theorem GetStreamFromBlockIndices_writes_land_in_blocks_witness :
    ∃ s1 out1,
      writeSequence
          (GetStreamFromBlockIndices
            { m_Data := some 0, m_Size := (zeroFile 24).length, m_Offset := 0 } [3, 5] 4)
          (zeroFile 24) [[101, 102, 103], [104, 105, 106]] = some (true, s1, out1)
      ∧ out1.length = (zeroFile 24).length
      ∧ (∀ k, k < ([[101, 102, 103], [104, 105, 106]].map List.length).sum →
          [3, 5].getD (k / 4) 0 * 4 + k % 4 < (zeroFile 24).length
            ∧ out1.getD ([3, 5].getD (k / 4) 0 * 4 + k % 4) 0
              = [[101, 102, 103], [104, 105, 106]].flatten.getD k 0)
      ∧ (∀ p, (∀ k, k < ([[101, 102, 103], [104, 105, 106]].map List.length).sum →
            p ≠ [3, 5].getD (k / 4) 0 * 4 + k % 4) →
          out1.getD p 0 = (zeroFile 24).getD p 0) :=
  GetStreamFromBlockIndices_writes_land_in_blocks [3, 5] 4 (zeroFile 24)
    [[101, 102, 103], [104, 105, 106]] (by decide) (by decide) (by decide) (by decide)
    (by decide)

/-! ### C20: directory emission -/

/-- C20, evaluated at block size 512 on 128 stream descriptors whose directory of 2552
bytes gets the blocks 512, 515, 516, 517, 518, so that the reserved pair 513 and 514
falls inside the numStreams/sizes prefix of 516 bytes: `WriteStreamsAndDirectoryToPDB`
returns, the directory begins with the 32-bit 128 and the size 260608 of stream 0, but
the 2036 bytes after the prefix (from byte 4 of block 515 on, file offset 263684), where
the block indices 3, 4, ..., 511 of stream 0 belong, are all zero: the sub-stream for
the block indices is the null stream and every write to it is dropped. -/
theorem WriteStreamsAndDirectoryToPDB_block_indices_dropped (codec : Codec)
    (order : List Nat) :
    AssignBlocksToStreams straddleDescriptors 512 = some straddleAssignment
    ∧ MutableStreamFixedWithHoles.GetSubStreamAtOffset
          (GetStreamFromBlockIndices { m_Data := some 0, m_Size := 266240, m_Offset := 0 }
            straddleAssignment.outBlocksForDirectory 512) (4 + 128 * 4) 0
        = MutableStreamFixedWithHoles.ofFixed MutableStreamFixed.null
    ∧ ∃ out3,
        WriteStreamsAndDirectoryToPDB codec (ImmutableStream.ofBytes (zeroFile 260608)) []
            straddleDescriptors 512 straddleAssignment.outBlocksForDirectory
            straddleAssignment.outBlocksForStreams
            { m_Data := some 0, m_Size := 266240, m_Offset := 0 } order (zeroFile 266240)
          = some (out3, 2552)
        ∧ le32 out3 262144 = 128
        ∧ le32 out3 262148 = 260608
        ∧ le32 (wordsToBytes (straddleAssignment.outBlocksForStreams.getD 0 [])) 0 = 3
        ∧ le32 out3 263684 = 0
        ∧ (∀ k, k < 2036 → out3.getD (263684 + k) 0 = 0) := by
  refine ⟨straddle_assign, ?_, ?_⟩
  · exact (congrArg (fun s => MutableStreamFixedWithHoles.GetSubStreamAtOffset s (4 + 128 * 4) 0)
      straddle_directory_stream).trans straddle_indices_stream
  obtain ⟨out1, h1, hl1, hf1⟩ := straddle_streams codec (zeroFile 260608)
    (Nat.le_of_eq (length_zeroFile _).symm) order (zeroFile 266240) (length_zeroFile _)
  obtain ⟨s2, out2, out3, hw2, hd, hl3, hN, hS, hf3⟩ := straddle_directory out1 hl1
  have hz : ∀ p, 263684 ≤ p → out3.getD p 0 = 0 := by
    intro p hp
    rw [hf3 p hp, hf1 p (by omega), getD_zeroFile]
  refine ⟨out3, ?_, ?_, ?_, ?_, ?_, ?_⟩
  · have hn : StrictCastTo32 straddleDescriptors.length = some 128 := by decide!
    have hc : StrictCastTo32 2552 = some 2552 := by decide
    simp only [WriteStreamsAndDirectoryToPDB, hn, h1]
    have e1 : straddleAssignment.outBlocksForDirectory = [512, 515, 516, 517, 518] := rfl
    rw [e1, straddle_directory_stream, straddle_sizes_stream, straddle_indices_stream]
    simp only [hw2, hd, hc, Option.map_some']
  · have a0 : out3.getD 262144 0 = 128 := hN 0 (by norm_num)
    have a1 : out3.getD (262144 + 1) 0 = 0 := hN 1 (by norm_num)
    have a2 : out3.getD (262144 + 2) 0 = 0 := hN 2 (by norm_num)
    have a3 : out3.getD (262144 + 3) 0 = 0 := hN 3 (by norm_num)
    unfold le32
    rw [a0, a1, a2, a3]
  · have a0 : out3.getD 262148 0 = 0 := hS 0 (by norm_num)
    have a1 : out3.getD (262148 + 1) 0 = 250 := hS 1 (by norm_num)
    have a2 : out3.getD (262148 + 2) 0 = 3 := hS 2 (by norm_num)
    have a3 : out3.getD (262148 + 3) 0 = 0 := hS 3 (by norm_num)
    unfold le32
    rw [a0, a1, a2, a3]
  · decide!
  · unfold le32
    rw [hz 263684 (by norm_num), hz (263684 + 1) (by norm_num), hz (263684 + 2) (by norm_num),
      hz (263684 + 3) (by norm_num)]
  · intro k _
    exact hz _ (by omega)

/-! ### Lemmas on the region allocator, the block cursor, the worker schedule and the
directory read back from a written PDB -/

theorem foldlM_CalculateSize : ∀ (frags : List MsfzFragment) (acc : Nat), acc < 4294967296 →
    frags.foldlM (fun sizeValue fragmentDesc =>
        StrictCastTo32 (sizeValue + fragmentDesc.m_DataSize)) acc
      = if acc + (frags.map (fun f => f.m_DataSize)).sum < 4294967296 then
          some (acc + (frags.map (fun f => f.m_DataSize)).sum)
        else none := by
  intro frags
  induction frags with
  | nil =>
    intro acc h
    simp [h]
  | cons f rest ih =>
    intro acc h
    simp only [List.foldlM_cons, List.map_cons, List.sum_cons]
    by_cases h1 : acc + f.m_DataSize < 4294967296
    · have e : StrictCastTo32 (acc + f.m_DataSize) = some (acc + f.m_DataSize) := by
        unfold StrictCastTo32
        rw [if_pos h1]
      rw [e]
      simp only [Option.bind_eq_bind, Option.some_bind]
      rw [ih _ h1, Nat.add_assoc]
    · have e : StrictCastTo32 (acc + f.m_DataSize) = none := by
        unfold StrictCastTo32
        rw [if_neg h1]
      rw [e]
      simp only [Option.bind_eq_bind, Option.none_bind]
      rw [if_neg (by omega)]

theorem reserveRegions_spec : ∀ (sizes : List Nat) (s : MutableStreamFixed)
    (prev : Nat × Nat), prev.1 + prev.2 = s.m_Offset → s.m_Offset ≤ s.m_Size →
    (∀ n ∈ sizes, s.m_Size + n < 18446744073709551616) →
    List.Chain (fun a b => b.1 = a.1 + a.2) prev (fittedWindows (reserveRegions s sizes).1)
      ∧ (∀ w ∈ fittedWindows (reserveRegions s sizes).1, s.m_Offset ≤ w.1 ∧ w.1 + w.2 ≤ s.m_Size)
      ∧ (reserveRegions s sizes).2.m_Offset
          = s.m_Offset + ((fittedWindows (reserveRegions s sizes).1).map (fun w => w.2)).sum
      ∧ (reserveRegions s sizes).2.m_Offset ≤ s.m_Size
      ∧ (reserveRegions s sizes).2.m_Size = s.m_Size
      ∧ (reserveRegions s sizes).2.m_Data = s.m_Data
      ∧ (∀ c ∈ (reserveRegions s sizes).1,
          (c.fitted = true →
            c.subStream = { m_Data := s.m_Data.map (· + c.outRegionOffset),
                            m_Size := c.regionSize, m_Offset := 0 })
          ∧ (c.fitted = true ↔ c.cursorBefore + c.regionSize ≤ s.m_Size)
          ∧ (c.cursorBefore + c.regionSize > s.m_Size →
              c.subStream = MutableStreamFixed.null ∧ c.outRegionOffset = 0
                ∧ c.cursorAfter = c.cursorBefore)) := by
  intro sizes
  induction sizes with
  | nil =>
    intro s prev _ h _
    simp [reserveRegions, fittedWindows, h]
  | cons n rest ih =>
    intro s prev hp hle hsz
    have hn := hsz n (List.mem_cons_self _ _)
    have hrest : ∀ m ∈ rest, s.m_Size + m < 18446744073709551616 :=
      fun m hm => hsz m (List.mem_cons_of_mem _ hm)
    have hmod : (s.m_Offset + n) % 18446744073709551616 = s.m_Offset + n :=
      Nat.mod_eq_of_lt (by omega)
    by_cases hfit : s.m_Offset + n ≤ s.m_Size
    · have hg : s.GetRegionSubstreamForWriting n 0
          = ({ m_Data := s.m_Data.map (· + s.m_Offset), m_Size := n, m_Offset := 0 },
              s.m_Offset, { s with m_Offset := s.m_Offset + n }) := by
        unfold MutableStreamFixed.GetRegionSubstreamForWriting
        rw [hmod, if_neg (by omega)]
      obtain ⟨i1, i2, i3, i4, i5, i6, i7⟩ := ih { s with m_Offset := s.m_Offset + n }
        (s.m_Offset, n) rfl hfit hrest
      have hd : decide (¬ (s.m_Offset + n) % 18446744073709551616 > s.m_Size) = true := by
        rw [hmod]
        exact decide_eq_true (by omega)
      simp only [reserveRegions, hg, fittedWindows, hd, List.filter_cons_of_pos,
        List.map_cons, List.sum_cons] at i1 i2 i3 i4 i5 i6 i7 ⊢
      refine ⟨List.Chain.cons hp.symm i1, ?_, ?_, i4, i5, i6, ?_⟩
      · intro w hw
        rcases List.mem_cons.mp hw with h | h
        · rw [h]
          exact ⟨Nat.le_refl _, hfit⟩
        · have := i2 w h
          omega
      · rw [i3]
        omega
      · intro c hc
        rcases List.mem_cons.mp hc with h | h
        · rw [h]
          exact ⟨fun _ => rfl, ⟨fun _ => hfit, fun _ => rfl⟩,
            fun hgt => absurd hfit (Nat.not_le_of_gt hgt)⟩
        · exact i7 c h
    · have hg : s.GetRegionSubstreamForWriting n 0 = (MutableStreamFixed.null, 0, s) := by
        unfold MutableStreamFixed.GetRegionSubstreamForWriting
        rw [hmod, if_pos (by omega)]
      obtain ⟨i1, i2, i3, i4, i5, i6, i7⟩ := ih s prev hp hle hrest
      have hd : decide (¬ (s.m_Offset + n) % 18446744073709551616 > s.m_Size) = false := by
        rw [hmod]
        exact decide_eq_false (by omega)
      simp only [reserveRegions, hg, fittedWindows, hd] at i1 i2 i3 i4 i5 i6 i7 ⊢
      rw [List.filter_cons_of_neg (by simp)]
      refine ⟨i1, i2, i3, i4, i5, i6, ?_⟩
      intro c hc
      rcases List.mem_cons.mp hc with h | h
      · rw [h]
        exact ⟨fun hf => Bool.noConfusion hf,
          ⟨fun hf => Bool.noConfusion hf, fun hle => absurd hle hfit⟩,
          fun _ => ⟨rfl, rfl, rfl⟩⟩
      · exact i7 c h

theorem chain_windows_le : ∀ (W : List (Nat × Nat)) (prev : Nat × Nat),
    List.Chain (fun a b => b.1 = a.1 + a.2) prev W → ∀ w ∈ W, prev.1 + prev.2 ≤ w.1 := by
  intro W
  induction W with
  | nil => intro _ _ w hw; cases hw
  | cons a rest ih =>
    intro prev h w hw
    rw [List.chain_cons] at h
    rcases List.mem_cons.mp hw with e | e
    · rw [e]
      omega
    · have := ih a h.2 w e
      omega

theorem chain_windows_pairwise : ∀ (W : List (Nat × Nat)) (prev : Nat × Nat),
    List.Chain (fun a b => b.1 = a.1 + a.2) prev W →
    W.Pairwise (fun a b => a.1 + a.2 ≤ b.1) := by
  intro W
  induction W with
  | nil => intro _ _; exact List.Pairwise.nil
  | cons a rest ih =>
    intro prev h
    rw [List.chain_cons] at h
    exact List.Pairwise.cons (chain_windows_le rest a h.2) (ih a h.2)

theorem pastChunk_fragmentData (codec : Codec) :
    WriteSingleStreamDataToPDB.fragmentData codec (ImmutableStream.ofBytes pastChunkFile)
        [pastChunkChunk] pastChunkFragment = some [7, 7] := by
  have hl : pastChunkFile.length = 4294967297 := List.length_replicate _ _
  have hloc : pastChunkFragment.IsLocatedInChunk = true := by decide
  have hidx : pastChunkFragment.GetChunkIndex = 0 := by decide
  have hsp : (ImmutableStream.ofBytes pastChunkFile).span (0 + 4294967295) 2 = [7, 7] := by
    simp only [ImmutableStream.span, ImmutableStream.ofBytes, pastChunkFile,
      List.drop_replicate, List.take_replicate]
    norm_num
    rfl
  unfold WriteSingleStreamDataToPDB.fragmentData
  rw [if_neg (by simp [hloc])]
  simp only [hidx, List.getElem?_cons_zero]
  rw [if_neg (by simp [pastChunkFragment, pastChunkChunk])]
  rw [if_neg (by simp [ImmutableStream.CanReadAt, ImmutableStream.m_Length,
    ImmutableStream.ofBytes, hl, pastChunkChunk])]
  rw [if_neg (by simp [pastChunkChunk])]
  simp only [ImmutableStream.m_Length, ImmutableStream.ofBytes, hl]
  rw [if_neg (by simp [pastChunkChunk, pastChunkFragment])]
  exact congrArg some hsp

theorem WriteSingleStreamDataToPDB_single (codec : Codec) (fs : ImmutableStream)
    (chunks : List MsfzChunk) (frag : MsfzFragment) (data : Bytes)
    (s s1 : MutableStreamFixedWithHoles) (out out1 : Bytes) (ok : Bool)
    (hf : WriteSingleStreamDataToPDB.fragmentData codec fs chunks frag = some data)
    (hw : s.WriteBytes out data = some (ok, s1, out1)) :
    WriteSingleStreamDataToPDB codec fs chunks [frag] s out = some (s1, out1) := by
  simp only [WriteSingleStreamDataToPDB, hf, hw]

theorem reserved_step (bs c : Nat) (hbs : 4 ≤ bs) (h1 : IsBlockReserved c bs = true)
    (h2 : IsBlockReserved (c + 1) bs = true) : IsBlockReserved (c + 2) bs = false := by
  simp only [IsBlockReserved, Bool.or_eq_true, beq_iff_eq, Bool.or_eq_false_iff,
    beq_eq_false_iff_ne, ne_eq] at h1 h2 ⊢
  have e1 : (c + 1) % bs = (c % bs + 1) % bs := by
    rw [Nat.add_mod, Nat.mod_eq_of_lt (show 1 < bs by omega)]
  have e2 : (c + 2) % bs = (c % bs + 2) % bs := by
    rw [Nat.add_mod, Nat.mod_eq_of_lt (show 2 < bs by omega)]
  rcases h1 with h1 | h1
  · rw [e2, h1, Nat.mod_eq_of_lt (show 1 + 2 < bs by omega)]
    omega
  · rw [e1, h1] at h2
    by_cases h5 : bs = 3
    · omega
    · rw [Nat.mod_eq_of_lt (show 2 + 1 < bs by omega)] at h2
      omega

theorem next_spec (bs c : Nat) (hbs : 4 ≤ bs) (h : c + 3 < 4294967296) :
    c ≤ (AssignNextNBlocks.next bs c).1
      ∧ (AssignNextNBlocks.next bs c).1 ≤ c + 2
      ∧ (AssignNextNBlocks.next bs c).2 = (AssignNextNBlocks.next bs c).1 + 1
      ∧ IsBlockReserved (AssignNextNBlocks.next bs c).1 bs = false
      ∧ (∀ x, c ≤ x → x < (AssignNextNBlocks.next bs c).1 → IsBlockReserved x bs = true) := by
  have m1 : (c + 1) % 4294967296 = c + 1 := Nat.mod_eq_of_lt (by omega)
  have m2 : (c + 2) % 4294967296 = c + 2 := Nat.mod_eq_of_lt (by omega)
  have m3 : (c + 3) % 4294967296 = c + 3 := Nat.mod_eq_of_lt (by omega)
  unfold AssignNextNBlocks.next
  rw [m1, m2, m3]
  by_cases h1 : IsBlockReserved c bs = false
  · rw [if_pos h1]
    exact ⟨Nat.le_refl _, by omega, rfl, h1, fun x hx hx2 => by omega⟩
  · rw [if_neg h1]
    have h1t : IsBlockReserved c bs = true := by simpa using h1
    by_cases h2 : IsBlockReserved (c + 1) bs = false
    · rw [if_pos h2]
      refine ⟨by omega, by omega, rfl, h2, fun x hx hx2 => ?_⟩
      have : x = c := by omega
      rw [this]
      exact h1t
    · rw [if_neg h2]
      have h2t : IsBlockReserved (c + 1) bs = true := by simpa using h2
      refine ⟨by omega, by omega, rfl, reserved_step bs c hbs h1t h2t, fun x hx hx2 => ?_⟩
      have : x = c ∨ x = c + 1 := by omega
      rcases this with e | e
      · rw [e]; exact h1t
      · rw [e]; exact h2t

theorem filter_range'_single (p : Nat → Bool) (c a : Nat) (hca : c ≤ a)
    (hpa : p a = true) (hlt : ∀ x, c ≤ x → x < a → p x = false) :
    (List.range' c (a + 1 - c)).filter p = [a] := by
  have e : a + 1 - c = 1 + (a - c) := by omega
  have e2 : c + (a - c) = a := by omega
  rw [e, ← List.range'_append_1 c (a - c) 1, List.filter_append, e2]
  have h1 : (List.range' c (a - c)).filter p = [] := by
    rw [List.filter_eq_nil_iff]
    intro x hx
    rw [List.mem_range'_1] at hx
    rw [hlt x hx.1 (by omega)]
    simp
  rw [h1]
  simp [List.range', hpa]

theorem AssignNextNBlocks_spec (bs : Nat) (hbs : 4 ≤ bs) :
    ∀ (n c : Nat), c + 3 * n < 4294967296 →
      (AssignNextNBlocks bs n c).1
          = (List.range' c ((AssignNextNBlocks bs n c).2 - c)).filter
              (fun b => !IsBlockReserved b bs)
        ∧ c ≤ (AssignNextNBlocks bs n c).2
        ∧ (AssignNextNBlocks bs n c).2 ≤ c + 3 * n
        ∧ (AssignNextNBlocks bs n c).1.length = n
        ∧ (∀ last, (AssignNextNBlocks bs n c).1.getLast? = some last →
            (AssignNextNBlocks bs n c).2 = last + 1) := by
  intro n
  induction n with
  | zero =>
    intro c _
    simp [AssignNextNBlocks]
  | succ n ih =>
    intro c h
    obtain ⟨n1, n2, n3, n4, n5⟩ := next_spec bs c hbs (by omega)
    obtain ⟨i1, i2, i3, i4, i5⟩ := ih (AssignNextNBlocks.next bs c).2 (by omega)
    simp only [AssignNextNBlocks]
    refine ⟨?_, by omega, by omega, by simp [i4], ?_⟩
    · have hsplit : (AssignNextNBlocks bs n (AssignNextNBlocks.next bs c).2).2 - c
          = ((AssignNextNBlocks bs n (AssignNextNBlocks.next bs c).2).2
              - (AssignNextNBlocks.next bs c).2)
            + ((AssignNextNBlocks.next bs c).1 + 1 - c) := by omega
      have hc1 : c + ((AssignNextNBlocks.next bs c).1 + 1 - c)
          = (AssignNextNBlocks.next bs c).2 := by omega
      rw [hsplit, ← List.range'_append_1 c ((AssignNextNBlocks.next bs c).1 + 1 - c),
        List.filter_append, hc1, ← i1,
        filter_range'_single _ c _ n1 (by simp [n4])
          (fun x hx hx2 => by simp [n5 x hx hx2])]
      rfl
    · intro last hl
      cases hr : (AssignNextNBlocks bs n (AssignNextNBlocks.next bs c).2).1 with
      | nil =>
        rw [hr] at hl i4
        simp only [List.getLast?_singleton, Option.some.injEq] at hl
        have hn0 : n = 0 := by simpa using i4.symm
        subst hn0
        simp only [AssignNextNBlocks]
        omega
      | cons b t =>
        rw [hr] at hl
        rw [List.getLast?_cons_cons] at hl
        exact i5 last (by rw [hr]; exact hl)

theorem IsLocatedInChunk_SetChunkIndex (size off k : Nat) :
    MsfzFragment.IsLocatedInChunk
      { m_DataSize := size, m_DataOffset := off,
        m_ChunkIndexOrDataOrigin := MsfzFragment.SetChunkIndex k } = true := by
  have h : (k ||| 2147483648) &&& 2147483648 = 2147483648 := by
    apply Nat.eq_of_testBit_eq
    intro i
    rw [Nat.testBit_and, Nat.testBit_or]
    cases k.testBit i <;> cases (2147483648 : Nat).testBit i <;> rfl
  simp only [MsfzFragment.IsLocatedInChunk, MsfzFragment.SetChunkIndex, h]
  decide

theorem forget_eq_start (s : WorkerState) (h : s.forget = .start) : s = .start := by
  cases s <;> simp [WorkerState.forget] at h ⊢

theorem forget_eq_done (s : WorkerState) (h : s.forget = .done) : s = .done := by
  cases s <;> simp [WorkerState.forget] at h ⊢

theorem forget_eq_loopHead (s : WorkerState) (sd : Bytes) (mf off : Nat)
    (h : s.forget = .loopHead sd mf off) : s = .loopHead sd mf off := by
  cases s <;> simp [WorkerState.forget] at h ⊢
  exact h

theorem forget_eq_reserved (s : WorkerState) (sd : Bytes) (mf off fs : Nat)
    (cds : MutableStreamFixed) (h : s.forget = (WorkerState.reserved sd mf off cds fs).forget) :
    ∃ cds1, s = .reserved sd mf off cds1 fs := by
  cases s <;> simp [WorkerState.forget] at h ⊢
  exact h

theorem step_shape (codec : Codec) (file : ImmutableStream) (info : PDBStreamInfo)
    (bs cdo : Nat) (args : ProgramCommandLineArgs) (shA shB shA1 shB1 : Shared)
    (wA wB wA1 wB1 : Worker) (hs : wA.shape = wB.shape)
    (hA : WriteSingleStreamData.step codec file info bs cdo args shA wA = some (shA1, wA1))
    (hB : WriteSingleStreamData.step codec file info bs cdo args shB wB = some (shB1, wB1)) :
    wA1.shape = wB1.shape := by
  simp only [Worker.shape, Prod.mk.injEq] at hs ⊢
  obtain ⟨hst, hfr⟩ := hs
  unfold WriteSingleStreamData.step at hA hB
  cases hstA : wA.state with
  | start =>
    rw [hstA] at hst
    have hstB := forget_eq_start _ hst.symm
    rw [hstA] at hA
    rw [hstB] at hB
    simp only at hA hB
    by_cases hz : info.m_StreamSize > 0
    · rw [if_pos hz] at hA hB
      split at hA
      · cases hA
      · rename_i sd hsd
        rw [hsd] at hB
        simp only at hB
        split at hA
        · cases hA
        · rename_i len hlen
          rw [hlen] at hB
          simp only [Option.some.injEq, Prod.mk.injEq] at hA hB
          rw [← hA.2, ← hB.2]
          exact ⟨rfl, hfr⟩
    · rw [if_neg hz] at hA hB
      simp only [Option.some.injEq, Prod.mk.injEq] at hA hB
      rw [← hA.2, ← hB.2]
      exact ⟨rfl, hfr⟩
  | loopHead sd mf off =>
    rw [hstA] at hst
    have hstB := forget_eq_loopHead _ sd mf off hst.symm
    rw [hstA] at hA
    rw [hstB] at hB
    simp only at hA hB
    split at hA
    · rename_i hlt
      rw [if_pos hlt] at hB
      unfold WriteSingleStreamData.reserveSlot at hA hB
      simp only at hA hB
      split at hA
      · cases hA
      · split at hB
        · cases hB
        · simp only [Option.some.injEq, Prod.mk.injEq] at hA hB
          rw [← hA.2, ← hB.2]
          simp only [WorkerState.forget, List.map_append, List.map_cons, List.map_nil, hfr,
            fragmentShape, IsLocatedInChunk_SetChunkIndex, and_self]
    · rename_i hlt
      rw [if_neg hlt] at hB
      simp only [Option.some.injEq, Prod.mk.injEq] at hA hB
      rw [← hA.2, ← hB.2]
      exact ⟨rfl, hfr⟩
  | reserved sd mf off cds fs =>
    rw [hstA] at hst
    obtain ⟨cds1, hstB⟩ := forget_eq_reserved _ sd mf off fs cds hst.symm
    rw [hstA] at hA
    rw [hstB] at hB
    simp only at hA hB
    unfold WriteSingleStreamData.writeChunk at hA hB
    split at hA
    · cases hA
    · rename_i payload hp
      rw [hp] at hB
      simp only at hA hB
      split at hA
      · split at hB
        · simp only [Option.some.injEq, Prod.mk.injEq] at hA hB
          rw [← hA.2, ← hB.2]
          exact ⟨rfl, hfr⟩
        · cases hB
      · cases hA
  | done =>
    rw [hstA] at hst
    have hstB := forget_eq_done _ hst.symm
    rw [hstA] at hA
    rw [hstB] at hB
    simp only [Option.some.injEq, Prod.mk.injEq] at hA hB
    rw [← hA.2, ← hB.2]
    simp only [hstA, hstB, hfr, and_self]

theorem step_done (codec : Codec) (file : ImmutableStream) (info : PDBStreamInfo)
    (bs cdo : Nat) (args : ProgramCommandLineArgs) (sh : Shared) (w : Worker)
    (h : w.state = .done) :
    WriteSingleStreamData.step codec file info bs cdo args sh w = some (sh, w) := by
  unfold WriteSingleStreamData.step
  rw [h]

theorem StepsTo_done (codec : Codec) (file : ImmutableStream) (info : PDBStreamInfo)
    (bs cdo : Nat) (args : ProgramCommandLineArgs) :
    ∀ (k : Nat) (w w1 : Worker), w.state = .done →
      StepsTo codec file info bs cdo args k w w1 → w1 = w := by
  intro k
  induction k with
  | zero =>
    intro w w1 _ h
    exact h.symm
  | succ k ih =>
    intro w w1 hd h
    obtain ⟨sh, sh2, w2, hstep, hrest⟩ := h
    rw [step_done codec file info bs cdo args sh w hd] at hstep
    simp only [Option.some.injEq, Prod.mk.injEq] at hstep
    rw [← hstep.2] at hrest
    exact ih w w1 hd hrest

theorem shape_done (wA wB : Worker) (hs : wA.shape = wB.shape) (h : wA.state = .done) :
    wB.state = .done := by
  simp only [Worker.shape, Prod.mk.injEq] at hs
  rw [h] at hs
  exact forget_eq_done _ hs.1.symm

theorem StepsTo_shape (codec : Codec) (file : ImmutableStream) (info : PDBStreamInfo)
    (bs cdo : Nat) (args : ProgramCommandLineArgs) :
    ∀ (a b : Nat) (wA wB wA1 wB1 : Worker), wA.shape = wB.shape →
      StepsTo codec file info bs cdo args a wA wA1 →
      StepsTo codec file info bs cdo args b wB wB1 →
      wA1.state = .done → wB1.state = .done → wA1.shape = wB1.shape := by
  intro a
  induction a with
  | zero =>
    intro b wA wB wA1 wB1 hs hA hB hdA _
    have e : wA = wA1 := hA
    subst e
    have hdB := shape_done wA wB hs hdA
    rw [StepsTo_done codec file info bs cdo args b wB wB1 hdB hB]
    exact hs
  | succ a ih =>
    intro b wA wB wA1 wB1 hs hA hB hdA hdB
    cases b with
    | zero =>
      have e : wB = wB1 := hB
      subst e
      have hdA0 := shape_done wB wA hs.symm hdB
      rw [StepsTo_done codec file info bs cdo args (a + 1) wA wA1 hdA0 hA]
      exact hs
    | succ b =>
      obtain ⟨shA, shA2, wA2, hstepA, hrestA⟩ := hA
      obtain ⟨shB, shB2, wB2, hstepB, hrestB⟩ := hB
      exact ih b wA2 wB2 wA1 wB1
        (step_shape codec file info bs cdo args shA shB shA2 shB2 wA wB wA2 wB2 hs hstepA hstepB)
        hrestA hrestB hdA hdB

theorem StepsTo_snoc (codec : Codec) (file : ImmutableStream) (info : PDBStreamInfo)
    (bs cdo : Nat) (args : ProgramCommandLineArgs) :
    ∀ (k : Nat) (w w1 w2 : Worker) (sh sh2 : Shared),
      StepsTo codec file info bs cdo args k w w1 →
      WriteSingleStreamData.step codec file info bs cdo args sh w1 = some (sh2, w2) →
      StepsTo codec file info bs cdo args (k + 1) w w2 := by
  intro k
  induction k with
  | zero =>
    intro w w1 w2 sh sh2 h hstep
    have e : w = w1 := h
    subst e
    exact ⟨sh, sh2, w2, hstep, rfl⟩
  | succ k ih =>
    intro w w1 w2 sh sh2 h hstep
    obtain ⟨sh0, sh3, w3, hs0, hrest⟩ := h
    exact ⟨sh0, sh3, w3, hs0, ih w3 w1 w2 sh sh2 hrest hstep⟩

theorem runSchedule_steps (codec : Codec) (file : ImmutableStream)
    (infos : List PDBStreamInfo) (args : ProgramCommandLineArgs) (bs cdo : Nat)
    (ws0 : List Worker) :
    ∀ (schedule : List Nat) (sh : Shared) (ws : List Worker) (sh1 : Shared)
      (ws1 : List Worker),
      CompressAndWriteStreamData.runSchedule codec file infos args bs cdo schedule sh ws
        = some (sh1, ws1) →
      ws.length = ws0.length →
      (∀ (i : Nat) (info : PDBStreamInfo) (w0 w : Worker), infos[i]? = some info →
        ws0[i]? = some w0 → ws[i]? = some w →
        ∃ k, StepsTo codec file info bs cdo args k w0 w) →
      ws1.length = ws0.length
        ∧ (∀ (i : Nat) (info : PDBStreamInfo) (w0 w : Worker), infos[i]? = some info →
          ws0[i]? = some w0 → ws1[i]? = some w →
          ∃ k, StepsTo codec file info bs cdo args k w0 w) := by
  intro schedule
  induction schedule with
  | nil =>
    intro sh ws sh1 ws1 h hl hW
    simp only [CompressAndWriteStreamData.runSchedule, Option.some.injEq, Prod.mk.injEq] at h
    obtain ⟨rfl, rfl⟩ := h
    exact ⟨hl, hW⟩
  | cons i rest ih =>
    intro sh ws sh1 ws1 h hl hW
    simp only [CompressAndWriteStreamData.runSchedule] at h
    cases hinfo : infos[i]? with
    | none =>
      rw [hinfo] at h
      exact ih sh ws sh1 ws1 h hl hW
    | some info =>
      cases hw : ws[i]? with
      | none =>
        rw [hinfo, hw] at h
        exact ih sh ws sh1 ws1 h hl hW
      | some w =>
        rw [hinfo, hw] at h
        simp only at h
        split at h
        · cases h
        · rename_i sh2 w2 hstep
          refine ih sh2 (ws.set i w2) sh1 ws1 h (by rw [List.length_set, hl]) ?_
          intro j info1 w0 w1 hj hw0 hwj
          rw [List.getElem?_set] at hwj
          split at hwj
          · rename_i hij
            subst hij
            split at hwj
            · simp only [Option.some.injEq] at hwj
              subst hwj
              rw [hinfo] at hj
              simp only [Option.some.injEq] at hj
              subst hj
              obtain ⟨k, hk⟩ := hW i info w0 w hinfo hw0 hw
              exact ⟨k + 1, StepsTo_snoc codec file info bs cdo args k w0 w _ sh sh2 hk hstep⟩
            · cases hwj
          · exact hW j info1 w0 w1 hj hw0 hwj

theorem CompressAndWriteStreamData_finished (codec : Codec) (file : ImmutableStream)
    (infos : List PDBStreamInfo) (args : ProgramCommandLineArgs) (bs cdo : Nat)
    (numThreads : Nat) (schedule : List Nat) (sh : Shared) (r : CompressResult)
    (hth : numThreads ≠ 0)
    (h : CompressAndWriteStreamData codec file infos args bs cdo numThreads schedule sh
      = .finished r) :
    ∃ sh1 ws,
      CompressAndWriteStreamData.runSchedule codec file infos args bs cdo schedule sh
          (List.replicate infos.length { state := .start, m_Fragments := [] }) = some (sh1, ws)
        ∧ (∀ w ∈ ws, w.state = .done)
        ∧ r.streamDescriptors = ws.map (fun w => w.m_Fragments) := by
  unfold CompressAndWriteStreamData at h
  simp only [hth, if_false, false_or] at h
  cases hn : StrictCastTo32 infos.length with
  | none => simp [hn] at h
  | some numStreams =>
    simp only [hn] at h
    cases hrun : CompressAndWriteStreamData.runSchedule codec file infos args bs cdo schedule sh
        (List.replicate infos.length { state := .start, m_Fragments := [] }) with
    | none => simp [hrun] at h
    | some res =>
      obtain ⟨sh1, ws⟩ := res
      simp only [hrun] at h
      by_cases hall : ws.all (fun w => decide (w.state = .done)) = true
      · rw [if_pos hall] at h
        have hdone : ∀ w ∈ ws, w.state = .done := by
          intro w hw
          have := List.all_eq_true.mp hall w hw
          simpa using this
        refine ⟨sh1, ws, rfl, hdone, ?_⟩
        split at h
        · split at h
          · cases h
          · simp only [Run.finished.injEq] at h
            rw [← h]
        · simp only [Run.finished.injEq] at h
          rw [← h]
      · rw [if_neg hall] at h
        cases h

theorem finished_shapes (codec : Codec) (file : ImmutableStream)
    (infos : List PDBStreamInfo) (args : ProgramCommandLineArgs) (bs cdo : Nat)
    (numThreads : Nat) (scheduleA scheduleB : List Nat) (shA shB : Shared)
    (rA rB : CompressResult)
    (hA : CompressAndWriteStreamData codec file infos args bs cdo numThreads scheduleA shA
      = .finished rA)
    (hB : CompressAndWriteStreamData codec file infos args bs cdo numThreads scheduleB shB
      = .finished rB) :
    rA.streamDescriptors.map (List.map fragmentShape)
      = rB.streamDescriptors.map (List.map fragmentShape) := by
  by_cases hth : numThreads = 0
  · subst hth
    rw [(CompressAndWriteStreamData_no_threads codec file infos args bs cdo scheduleA shA rA
        hA).2.1,
      (CompressAndWriteStreamData_no_threads codec file infos args bs cdo scheduleB shB rB
        hB).2.1]
  obtain ⟨shA1, wsA, hrA, hdA, hsA⟩ :=
    CompressAndWriteStreamData_finished codec file infos args bs cdo numThreads scheduleA shA
      rA hth hA
  obtain ⟨shB1, wsB, hrB, hdB, hsB⟩ :=
    CompressAndWriteStreamData_finished codec file infos args bs cdo numThreads scheduleB shB
      rB hth hB
  have h0 : ∀ (i : Nat) (info : PDBStreamInfo) (w0 w : Worker), infos[i]? = some info →
      (List.replicate infos.length ({ state := .start, m_Fragments := [] } : Worker))[i]?
        = some w0 →
      (List.replicate infos.length ({ state := .start, m_Fragments := [] } : Worker))[i]?
        = some w →
      ∃ k, StepsTo codec file info bs cdo args k w0 w := by
    intro i info w0 w _ h1 h2
    rw [h1] at h2
    simp only [Option.some.injEq] at h2
    exact ⟨0, h2⟩
  obtain ⟨hlA, hWA⟩ := runSchedule_steps codec file infos args bs cdo _ scheduleA shA _ shA1 wsA
    hrA rfl h0
  obtain ⟨hlB, hWB⟩ := runSchedule_steps codec file infos args bs cdo _ scheduleB shB _ shB1 wsB
    hrB rfl h0
  rw [List.length_replicate] at hlA hlB
  rw [hsA, hsB]
  apply List.ext_getElem?
  intro i
  simp only [List.getElem?_map]
  by_cases hi : i < infos.length
  · have hiA : i < wsA.length := by omega
    have hiB : i < wsB.length := by omega
    have e0 : (List.replicate infos.length ({ state := .start, m_Fragments := [] } : Worker))[i]?
        = some { state := .start, m_Fragments := [] } := by
      rw [List.getElem?_replicate, if_pos hi]
    obtain ⟨ka, hka⟩ := hWA i infos[i] _ wsA[i] (List.getElem?_eq_getElem hi) e0
      (List.getElem?_eq_getElem hiA)
    obtain ⟨kb, hkb⟩ := hWB i infos[i] _ wsB[i] (List.getElem?_eq_getElem hi) e0
      (List.getElem?_eq_getElem hiB)
    have hsh := StepsTo_shape codec file infos[i] bs cdo args ka kb _ _ wsA[i] wsB[i] rfl hka hkb
      (hdA _ (List.getElem_mem hiA)) (hdB _ (List.getElem_mem hiB))
    simp only [Worker.shape, Prod.mk.injEq] at hsh
    rw [List.getElem?_eq_getElem hiA, List.getElem?_eq_getElem hiB]
    simp only [Option.map_some', hsh.2]
  · rw [List.getElem?_eq_none (by omega), List.getElem?_eq_none (by omega)]

theorem compressedDescriptors_some (r : Run CompressResult) (l : List (List MsfzFragment))
    (h : compressedDescriptors r = some l) : ∃ a, r = .finished a ∧ a.streamDescriptors = l := by
  cases r with
  | failed => cases h
  | unfinished => cases h
  | finished a =>
    simp only [compressedDescriptors, Option.some.injEq] at h
    exact ⟨a, rfl, h⟩

theorem flatten_blocks_range' (file : Bytes) (bs : Nat) :
    ∀ (n a : Nat), (a + n) * bs ≤ file.length →
      ((List.range' a n).map (fun b => (file.drop (b * bs)).take bs)).flatten
        = (file.drop (a * bs)).take (n * bs) := by
  intro n
  induction n with
  | zero => intro a _; simp
  | succ n ih =>
    intro a h
    have h1 : (a + 1 + n) * bs ≤ file.length := by
      have : a + 1 + n = a + (n + 1) := by omega
      rw [this]
      exact h
    have e : (n + 1) * bs = bs + n * bs := by rw [Nat.succ_mul]; omega
    have e2 : (a + 1) * bs = a * bs + bs := Nat.succ_mul a bs
    rw [List.range'_succ, List.map_cons, List.flatten_cons, ih (a + 1) h1, e, List.take_add,
      List.drop_drop, e2]

theorem streamContentSpec_range' (file : Bytes) (bs size a n : Nat)
    (h : (a + n) * bs ≤ file.length) (hs : size ≤ n * bs) :
    streamContentSpec file bs size (List.range' a n) = (file.drop (bs * a)).take size := by
  unfold streamContentSpec
  rw [flatten_blocks_range' file bs n a h, List.take_take, Nat.min_eq_left hs, Nat.mul_comm]

theorem copyBlocks_spec (file : Bytes) (bs : Nat) (hbs : 1 ≤ bs)
    (h32 : file.length ≤ 4294967296) :
    ∀ (B : List Nat) (left : Nat), (∀ b ∈ B, b * bs + bs ≤ file.length) →
      CoalesceDataFromStream.copyBlocks (ImmutableStream.ofBytes file) bs B left
        = some (((B.map (fun b => (file.drop (b * bs)).take bs)).flatten).take left) := by
  intro B
  induction B with
  | nil =>
    intro left _
    simp [CoalesceDataFromStream.copyBlocks]
  | cons b rest ih =>
    intro left hB
    have hb := hB b (List.mem_cons_self _ _)
    have hoff : bs * b % 4294967296 = b * bs := by
      rw [Nat.mul_comm, Nat.mod_eq_of_lt (by omega)]
    have hmin : min left bs ≤ bs := Nat.min_le_right _ _
    have hblk : ((file.drop (b * bs)).take bs).length = bs := by
      rw [List.length_take, List.length_drop]
      omega
    simp only [CoalesceDataFromStream.copyBlocks, hoff]
    rw [if_pos (by
      simp only [ImmutableStream.CanReadAt, ImmutableStream.ofBytes, ImmutableStream.m_Length,
        Bool.and_eq_true, decide_eq_true_eq]
      omega)]
    rw [ih _ (fun x hx => hB x (List.mem_cons_of_mem _ hx))]
    simp only [Option.map_some', Option.some.injEq, ImmutableStream.span,
      ImmutableStream.ofBytes, List.map_cons, List.flatten_cons]
    rw [List.take_append_eq_append_take, hblk, List.take_take]
    congr 2
    omega

theorem CoalesceDataFromStream_spec (file : Bytes) (bs size : Nat) (B : List Nat)
    (hbs : 1 ≤ bs) (h32 : file.length ≤ 4294967296) (hne : B ≠ [])
    (hB : ∀ b ∈ B, b * bs + bs ≤ file.length) (hs : size ≤ B.length * bs)
    (hx : ContiguityTestExact B) :
    CoalesceDataFromStream (ImmutableStream.ofBytes file)
        { m_StreamSize := size, m_StreamBlockIndices := B } bs
      = some (streamContentSpec file bs size B) := by
  cases hc : areStreamBlocksContiguous B with
  | true =>
    have he := hx hc
    have hn : 0 < B.length := List.length_pos.mpr hne
    have hlast : B.headD 0 + B.length - 1 ∈ B := by
      rw [he, List.mem_range'_1]
      rw [← he]
      omega
    have hl := hB _ hlast
    have e1 : (B.headD 0 + B.length - 1) * bs + bs = (B.headD 0 + B.length) * bs := by
      have : B.headD 0 + B.length = (B.headD 0 + B.length - 1) + 1 := by omega
      rw [this, Nat.succ_mul]
      simp
    rw [e1] at hl
    have e2 : (B.headD 0 + B.length) * bs = B.headD 0 * bs + B.length * bs := Nat.add_mul _ _ _
    have e3 : bs * B.headD 0 = B.headD 0 * bs := Nat.mul_comm _ _
    have hge : B.length ≤ B.length * bs := Nat.le_mul_of_pos_right _ hbs
    have hge2 : B.headD 0 ≤ B.headD 0 * bs := Nat.le_mul_of_pos_right _ hbs
    have h1 := coalesce_range file size (B.headD 0) B.length bs hn (by omega) (by omega)
      (by omega) (by omega)
    have h2 := streamContentSpec_range' file bs size (B.headD 0) B.length hl hs
    rw [← he] at h1 h2
    rw [h1, h2]
  | false =>
    obtain ⟨front, hfront⟩ : ∃ front, B.head? = some front := by
      cases B with
      | nil => exact absurd rfl hne
      | cons a t => exact ⟨a, rfl⟩
    obtain ⟨back, hback⟩ : ∃ back, B.getLast? = some back :=
      ⟨B.getLast hne, List.getLast?_eq_getLast B hne⟩
    unfold areStreamBlocksContiguous at hc
    rw [hfront, hback] at hc
    simp only at hc
    unfold CoalesceDataFromStream
    simp only [hfront, hback, hc]
    rw [if_neg (by simp)]
    rw [copyBlocks_spec file bs hbs h32 B size hB]
    rfl

theorem length_wordsOf (d : Bytes) (n : Nat) : (wordsOf d n).length = n := by
  simp [wordsOf]

theorem wordsOf_take (d : Bytes) (n : Nat) : wordsOf (d.take (n * 4)) n = wordsOf d n := by
  unfold wordsOf
  apply List.map_congr_left
  intro j hj
  rw [List.mem_range] at hj
  exact le32_take d (n * 4) (4 * j) (by omega)

theorem length_flatten_blocks (file : Bytes) (bs : Nat) :
    ∀ (B : List Nat), (∀ b ∈ B, b * bs + bs ≤ file.length) →
      ((B.map (fun b => (file.drop (b * bs)).take bs)).flatten).length = B.length * bs := by
  intro B
  induction B with
  | nil => intro _; simp
  | cons b rest ih =>
    intro hB
    have hb := hB b (List.mem_cons_self _ _)
    rw [List.map_cons, List.flatten_cons, List.length_append,
      ih (fun x hx => hB x (List.mem_cons_of_mem _ hx)), List.length_take, List.length_drop,
      List.length_cons, Nat.succ_mul]
    omega

theorem length_streamContentSpec (file : Bytes) (bs size : Nat) (B : List Nat)
    (hB : ∀ b ∈ B, b * bs + bs ≤ file.length) (hs : size ≤ B.length * bs) :
    (streamContentSpec file bs size B).length = size := by
  unfold streamContentSpec
  rw [List.length_take, length_flatten_blocks file bs B hB]
  omega

theorem directoryData_two_level (file : Bytes) (sb : PDBSuperBlock)
    (hbs : 1 ≤ sb.m_BlockSize) (hD : 1 ≤ sb.m_DirectorySize)
    (hD32 : sb.m_DirectorySize + (sb.m_BlockSize - 1) < 4294967296)
    (hK32 : 4 * ceilDiv sb.m_DirectorySize sb.m_BlockSize + (sb.m_BlockSize - 1) < 4294967296)
    (h32 : file.length ≤ 4294967296)
    (h52 : 52 + 4 * (directoryIndexBlockIndices file sb).length ≤ file.length)
    (hE : ∀ e ∈ directoryIndexBlockIndices file sb,
      e * sb.m_BlockSize + sb.m_BlockSize ≤ file.length)
    (hB : ∀ b ∈ directoryBlockIndices file sb,
      b * sb.m_BlockSize + sb.m_BlockSize ≤ file.length)
    (hxE : ContiguityTestExact (directoryIndexBlockIndices file sb))
    (hxB : ContiguityTestExact (directoryBlockIndices file sb)) :
    ParseStreamDirectory.directoryData (ImmutableStream.ofBytes file) sb
      = some (directoryTwoLevel file sb) := by
  have hK1 : 1 ≤ ceilDiv sb.m_DirectorySize sb.m_BlockSize := ceilDiv_pos _ _ hD hbs
  have hK2 : 1 ≤ ceilDiv (4 * ceilDiv sb.m_DirectorySize sb.m_BlockSize) sb.m_BlockSize :=
    ceilDiv_pos _ _ (by omega) hbs
  have hlE : (directoryIndexBlockIndices file sb).length
      = ceilDiv (4 * ceilDiv sb.m_DirectorySize sb.m_BlockSize) sb.m_BlockSize :=
    length_wordsOf _ _
  have hlB : (directoryBlockIndices file sb).length
      = ceilDiv sb.m_DirectorySize sb.m_BlockSize := length_wordsOf _ _
  have hcomm : ceilDiv sb.m_DirectorySize sb.m_BlockSize * 4
      = 4 * ceilDiv sb.m_DirectorySize sb.m_BlockSize := Nat.mul_comm _ _
  have hfitE := le_ceilDiv_mul (4 * ceilDiv sb.m_DirectorySize sb.m_BlockSize) sb.m_BlockSize hbs
  have hfitB := le_ceilDiv_mul sb.m_DirectorySize sb.m_BlockSize hbs
  rw [hlE] at h52
  unfold ParseStreamDirectory.directoryData
  simp only
  rw [AlignTo_div_eq_ceilDiv sb.m_DirectorySize sb.m_BlockSize hbs (by omega) hD32, hcomm,
    Nat.mod_eq_of_lt (by omega),
    AlignTo_div_eq_ceilDiv _ sb.m_BlockSize hbs (by omega) hK32]
  have hg : (ImmutableStream.ofBytes file).GetStreamAtOffset 52
      (ceilDiv (4 * ceilDiv sb.m_DirectorySize sb.m_BlockSize) sb.m_BlockSize * 4)
      = ImmutableStream.ofBytes ((file.drop 52).take
          (ceilDiv (4 * ceilDiv sb.m_DirectorySize sb.m_BlockSize) sb.m_BlockSize * 4)) := by
    unfold ImmutableStream.GetStreamAtOffset
    rw [if_neg (by omega), if_pos ⟨by omega, by
      simp only [ImmutableStream.CanReadAt, ImmutableStream.ofBytes, ImmutableStream.m_Length,
        Bool.and_eq_true, decide_eq_true_eq]
      omega⟩]
    rfl
  rw [hg]
  simp only [ImmutableStream.ofBytes, ImmutableStream.m_Length, List.length_take,
    List.length_drop]
  rw [if_pos (by omega), wordsOf_take]
  have hc1 := CoalesceDataFromStream_spec file sb.m_BlockSize
    (4 * ceilDiv sb.m_DirectorySize sb.m_BlockSize) (directoryIndexBlockIndices file sb) hbs h32
    (by
      intro h
      rw [h] at hlE
      simp at hlE
      omega)
    hE (by rw [hlE]; exact hfitE) hxE
  simp only [ImmutableStream.ofBytes, directoryIndexBlockIndices] at hc1
  rw [hc1]
  simp only
  rw [if_neg (by
    have := length_streamContentSpec file sb.m_BlockSize
      (4 * ceilDiv sb.m_DirectorySize sb.m_BlockSize) (directoryIndexBlockIndices file sb) hE
      (by rw [hlE]; exact hfitE)
    simp only [directoryIndexBlockIndices] at this
    omega)]
  have hc2 := CoalesceDataFromStream_spec file sb.m_BlockSize sb.m_DirectorySize
    (directoryBlockIndices file sb) hbs h32
    (by
      intro h
      rw [h] at hlB
      simp at hlB
      omega)
    hB (by rw [hlB]; exact hfitB) hxB
  simp only [ImmutableStream.ofBytes, directoryBlockIndices, directoryIndexBlockIndices] at hc2
  rw [hc2]
  rfl

theorem Unset_some (b : DynamicBitset) (i : Nat) (h : i / 8 < b.m_Data.length) :
    ∃ b1, b.Unset i = some b1 ∧ b1.m_Data.length = b.m_Data.length := by
  unfold DynamicBitset.Unset
  by_cases hg : i > b.GetSize
  · rw [if_pos hg]
    exact ⟨b, rfl, rfl⟩
  · rw [if_neg hg, List.getElem?_eq_getElem h]
    exact ⟨_, rfl, by simp⟩

theorem Set_some (b : DynamicBitset) (i : Nat) (h : i / 8 < b.m_Data.length) :
    ∃ b1, b.Set i = some b1 ∧ b1.m_Data.length = b.m_Data.length := by
  unfold DynamicBitset.Set
  by_cases hg : i > b.GetSize
  · rw [if_pos hg]
    exact ⟨b, rfl, rfl⟩
  · rw [if_neg hg, List.getElem?_eq_getElem h]
    exact ⟨_, rfl, by simp⟩

theorem foldlM_some (f : DynamicBitset → Nat → Option DynamicBitset)
    (hf : ∀ (b : DynamicBitset) (i : Nat), i / 8 < b.m_Data.length →
      ∃ b1, f b i = some b1 ∧ b1.m_Data.length = b.m_Data.length) :
    ∀ (l : List Nat) (b : DynamicBitset), (∀ i ∈ l, i / 8 < b.m_Data.length) →
      ∃ b1, l.foldlM f b = some b1 ∧ b1.m_Data.length = b.m_Data.length := by
  intro l
  induction l with
  | nil =>
    intro b _
    exact ⟨b, rfl, rfl⟩
  | cons i rest ih =>
    intro b h
    obtain ⟨b1, h1, h2⟩ := hf b i (h i (List.mem_cons_self _ _))
    obtain ⟨b2, h3, h4⟩ := ih b1 (fun j hj => by
      rw [h2]
      exact h j (List.mem_cons_of_mem _ hj))
    refine ⟨b2, ?_, by rw [h4, h2]⟩
    simp only [List.foldlM_cons, h1, Option.bind_eq_bind, Option.some_bind]
    exact h3

theorem freeBlockMap_some (bs nb first : Nat) (tail : List Nat) (rest : List (List Nat))
    (hbs : bs * 8 + 7 < 4294967296) (hnb : nb ≤ bs * 8)
    (hs : first + (tail.length + 1) ≤ bs * 8) :
    ∃ f, RunDecompression.freeBlockMap bs nb ((first :: tail) :: rest) [1] = some f
      ∧ f.length = bs := by
  have hr : ((DynamicBitset.Resize (1 * bs * 8 % 4294967296)).SetAll).m_Data.length = bs := by
    simp only [DynamicBitset.SetAll, DynamicBitset.Resize, List.length_map,
      List.length_replicate, Nat.one_mul]
    rw [Nat.mod_eq_of_lt (by omega), AlignTo_div_eq_ceilDiv _ 8 (by omega) (by omega) (by omega)]
    unfold ceilDiv
    omega
  obtain ⟨b1, h1, l1⟩ := foldlM_some (fun b i => DynamicBitset.Unset b i) Unset_some
    (List.range nb) ((DynamicBitset.Resize (1 * bs * 8 % 4294967296)).SetAll)
    (by
      intro i hi
      rw [List.mem_range] at hi
      rw [hr]
      omega)
  obtain ⟨b2, h2, l2⟩ := foldlM_some (fun b i => DynamicBitset.Set b i) Set_some
    (List.range' first ((first + (tail.length + 1)) % 4294967296 - first)) b1
    (by
      intro i hi
      rw [List.mem_range'_1] at hi
      rw [l1, hr]
      rw [Nat.mod_eq_of_lt (by omega)] at hi
      omega)
  refine ⟨b2.m_Data, ?_, by rw [l2, l1, hr]⟩
  unfold RunDecompression.freeBlockMap
  have hc : StrictCastTo32 ([1] : List Nat).length = some 1 := by decide
  have hc2 : StrictCastTo32 (first :: tail).length = some (tail.length + 1) := by
    unfold StrictCastTo32
    rw [if_pos (by simp only [List.length_cons]; omega)]
    rfl
  rw [hc]
  simp only [h1, List.head?_cons, hc2, h2, Option.map_some']

theorem finish_eval (bs e0 ne nb total dsz : Nat) (streams : List (List Nat))
    (dirBlocks : List Nat) (out f : Bytes)
    (hf : RunDecompression.freeBlockMap bs nb streams [1] = some f) (hfl : f.length = bs)
    (hne : 1 ≤ ne) (hbs : 1 ≤ bs) (hin : bs * (e0 + ne) ≤ total) (htot : total < 4294967296)
    (hfit : 4 * dirBlocks.length ≤ ne * bs) (hsb : 52 + 4 * ne ≤ total) (hfpm : bs * 2 ≤ total)
    (hlen : out.length = total) :
    RunDecompression.finish bs
        { outBlocksForStreams := streams, outBlocksForDirectory := dirBlocks,
          outBlocksForDirectoryIndices := List.range' e0 ne, outBlocksForFreeBlockMap := [1],
          outNumBlocks := nb }
        { m_Data := some 0, m_Size := total, m_Offset := 0 } out dsz
      = some (writeAt (writeAt (writeAt (writeAt out (bs * e0) (wordsToBytes dirBlocks)) 0
              (PDBSuperBlock.toBytes
                { m_BlockSize := bs, m_FreeBlockMapIndex := 1, m_BlockCount := nb,
                  m_DirectorySize := dsz, m_Unknown1_32t := 0 })) 52
              (wordsToBytes (List.range' e0 ne))) bs f) := by
  have hexp : bs * (e0 + ne) = bs * e0 + ne * bs := by ring
  unfold RunDecompression.finish
  simp only
  rw [GetStreamFromBlockIndices_range total bs e0 ne hne hbs hin (by omega)]
  have hwl : (wordsToBytes dirBlocks).length = 4 * dirBlocks.length := by
    rw [length_wordsToBytes]
  rw [WriteBytes_noHoles (bs * e0) (ne * bs) 0 out _ (by omega) (by omega) (by omega)]
  simp only [Nat.add_zero]
  have hl1 : (writeAt out (bs * e0) (wordsToBytes dirBlocks)).length = total := by
    rw [length_writeAt _ _ _ (by rw [length_wordsToBytes]; omega), hlen]
  have hg : MutableStreamFixed.GetStreamAtOffset
      { m_Data := some 0, m_Size := total, m_Offset := 0 } 0 0
      = { m_Data := some 0, m_Size := total, m_Offset := 0 } := by
    unfold MutableStreamFixed.GetStreamAtOffset
    simp
  rw [hg]
  have hw1 : ∀ (o : Bytes) (sbk : PDBSuperBlock),
      MutableStreamFixed.WriteBytes { m_Data := some 0, m_Size := total, m_Offset := 0 } o
        sbk.toBytes
      = (true, { m_Data := some 0, m_Size := total, m_Offset := 52 }, writeAt o 0 sbk.toBytes) := by
    intro o sbk
    unfold MutableStreamFixed.WriteBytes
    simp only [length_PDBSuperBlock_toBytes]
    rw [if_neg (by omega)]
  rw [hw1]
  simp only
  have hw2 : ∀ (o : Bytes),
      (MutableStreamFixed.WriteBytes { m_Data := some 0, m_Size := total, m_Offset := 52 } o
        (wordsToBytes (List.range' e0 ne))).2.2
      = writeAt o 52 (wordsToBytes (List.range' e0 ne)) := by
    intro o
    unfold MutableStreamFixed.WriteBytes
    simp only [length_wordsToBytes, List.length_range']
    rw [if_neg (by omega)]
  rw [hw2, hf]
  simp only
  have hr : ([1] : List Nat) = List.range' 1 1 := rfl
  rw [hr, GetStreamFromBlockIndices_range total bs 1 1 (by omega) hbs (by omega) (by omega)]
  have hl2 : (writeAt (writeAt (writeAt out (bs * e0) (wordsToBytes dirBlocks)) 0
      (PDBSuperBlock.toBytes
        { m_BlockSize := bs, m_FreeBlockMapIndex := 1, m_BlockCount := nb,
          m_DirectorySize := dsz, m_Unknown1_32t := 0 })) 52
      (wordsToBytes (List.range' e0 ne))).length = total := by
    rw [length_writeAt _ _ _ (by
        rw [length_writeAt _ _ _ (by rw [length_PDBSuperBlock_toBytes, hl1]; omega), hl1,
          length_wordsToBytes, List.length_range']
        omega),
      length_writeAt _ _ _ (by rw [length_PDBSuperBlock_toBytes, hl1]; omega), hl1]
  rw [WriteBytes_noHoles (bs * 1) (1 * bs) 0 _ f (by omega) (by omega) (by omega)]
  simp only [Option.map_some', Nat.add_zero, Nat.mul_one]

theorem getD_zero_of_all_zero (l : List Nat) (h : ∀ x ∈ l, x = 0) (k : Nat) :
    l.getD k 0 = 0 := by
  by_cases hk : k < l.length
  · rw [List.getD_eq_getElem _ _ hk]
    exact h _ (List.getElem_mem hk)
  · rw [List.getD_eq_default _ _ (by omega)]

theorem straddle_directory_content (out1 : Bytes) (hlen : out1.length = 266240)
    (hz : ∀ q, 262144 ≤ q → out1.getD q 0 = 0) :
    ∃ s2 out2 out3,
      MutableStreamFixedWithHoles.WriteBytes
          { m_Data := some 262144, m_Size := 3584, m_Offset := 0,
            m_HoleOffsets := [(512, 1536)] } out1 (toLe32 128) = some (true, s2, out2)
      ∧ WriteStreamsAndDirectoryToPDB.directory straddleDescriptors
          straddleAssignment.outBlocksForStreams
          { m_Data := some 262148, m_Size := 512, m_Offset := 0, m_HoleOffsets := [(508, 1532)] }
          { m_Data := none, m_Size := 0, m_Offset := 0, m_HoleOffsets := [] } out2 4
        = some (out3, 2552)
      ∧ out3.length = 266240
      ∧ (∀ p, 262144 ≤ p →
          out3.getD p 0 = (toLe32 128 ++ toLe32 260608).getD (p - 262144) 0) := by
  have hokD : HolesOk 0 [(512, 1536)] 3584 := by simp [HolesOk]
  have hokD1 : HolesOk 512 [(512, 1536)] 1536 := by simp [HolesOk]
  have hokS : HolesOk 0 [(508, 1532)] 1532 := by simp [HolesOk]
  have hokS1 : HolesOk 508 [(508, 1532)] 1532 := by simp [HolesOk]
  obtain ⟨out2, hw2, hl2, hp2, hf2⟩ := WriteBytes_spec 262144 3584 0 3584 [(512, 1536)] out1
    (toLe32 128) hokD (by norm_num) (by decide) (by rw [hlen]; decide) (by decide!)
  have hsum : ((straddleDescriptors.map (fun x => toLe32 ((CalculateSize x).getD 0))).map
      List.length).sum = 512 := by
    decide!
  have hblocks : (straddleAssignment.outBlocksForStreams.map
      (fun b => 4 + 4 * b.length)).sum = 2548 := by
    decide!
  obtain ⟨out3, hw3, hl3, hp3, hf3⟩ := writeSequence_spec 262148 512 1532 [(508, 1532)] hokS
    (by norm_num) (straddleDescriptors.map (fun x => toLe32 ((CalculateSize x).getD 0))) 0 out2
    (by rw [hsum]; norm_num) (by rw [hsum, hl2, hlen]; decide) (by rw [hsum]; decide!)
  rw [hsum] at hp3 hf3
  have hadjD : ∀ k, k < 4 → adjustOffsetNat [(512, 1536)] (0 + k) = k := by
    intro k hk
    rw [adjustOffsetNat_of_lt _ 512 1536 _ hokD1 (by omega), Nat.zero_add]
  have hadjS0 : ∀ k, k < 508 → adjustOffsetNat [(508, 1532)] (0 + k) = k := by
    intro k hk
    rw [adjustOffsetNat_of_lt _ 508 1532 _ hokS1 (by omega), Nat.zero_add]
  have hge := adjustOffsetNat_ge [(508, 1532)]
  have h4 : (toLe32 128).length = 4 := rfl
  have hflat : ∀ k, k < 512 →
      (straddleDescriptors.map (fun x => toLe32 ((CalculateSize x).getD 0))).flatten.getD k 0
        = (toLe32 128 ++ toLe32 260608).getD (k + 4) 0 := by
    intro k _
    rw [straddle_sizes, List.flatten_cons]
    by_cases hk4 : k < 4
    · rw [List.getD_append _ _ _ _ (by simpa [toLe32] using hk4)]
      have : ∀ j, j < 4 → (toLe32 260608).getD j 0
          = (toLe32 128 ++ toLe32 260608).getD (j + 4) 0 := by decide
      exact this k hk4
    · rw [List.getD_append_right _ _ _ _ (by simp [toLe32]; omega),
        getD_zero_of_all_zero _ (by
          intro x hx
          rw [List.mem_flatten] at hx
          obtain ⟨l, hl, hxl⟩ := hx
          rw [List.eq_of_mem_replicate hl] at hxl
          simpa [toLe32] using hxl),
        List.getD_eq_default _ _ (by simp [toLe32]; omega)]
  have hbeyond : ∀ j, 8 ≤ j → (toLe32 128 ++ toLe32 260608).getD j 0 = 0 := by
    intro j hj
    rw [List.getD_eq_default _ _ (by simpa [toLe32] using hj)]
  have hfirst : ∀ j, j < 4 → (toLe32 128 ++ toLe32 260608).getD j 0 = (toLe32 128).getD j 0 := by
    decide
  refine ⟨_, out2, out3, hw2, ?_, by rw [hl3, hl2, hlen], ?_⟩
  · rw [directory_null_indices _ _ _ _ _ (by decide!) straddle_sizes_defined, hw3, hblocks]
    rfl
  · intro p hp
    by_cases hS : ∃ k, k < 512 ∧ p = 262148 + adjustOffsetNat [(508, 1532)] (0 + k)
    · obtain ⟨k, hk, hpk⟩ := hS
      rw [hpk, hp3 k hk, hflat k hk]
      by_cases hk8 : k < 508
      · rw [hadjS0 k hk8]
        have e : 262148 + k - 262144 = k + 4 := by omega
        rw [e]
      · rw [hbeyond (k + 4) (by omega)]
        have := hge (0 + k)
        rw [hbeyond _ (by omega)]
    · have hnot : ∀ k, k < 512 → p ≠ 262148 + adjustOffsetNat [(508, 1532)] (0 + k) :=
        fun k hk hpk => hS ⟨k, hk, hpk⟩
      rw [hf3 p hnot]
      by_cases hD : p < 262148
      · have h1 := hp2 (p - 262144) (by omega)
        rw [hadjD _ (by omega)] at h1
        have e : 262144 + (p - 262144) = p := by omega
        rw [e] at h1
        rw [h1, hfirst _ (by omega)]
      · have hp8 : 262152 ≤ p := by
          by_contra hlt
          exact hnot (p - 262148) (by omega) (by
            rw [hadjS0 _ (by omega)]
            omega)
        rw [hf2 p (fun k hk => by
          have := hadjD k (by omega)
          omega), hz p hp, hbeyond _ (by omega)]

theorem getD_flatten_blocks (file : Bytes) (bs : Nat) (hbs : 1 ≤ bs) :
    ∀ (B : List Nat) (k : Nat), (∀ b ∈ B, b * bs + bs ≤ file.length) → k < B.length * bs →
      ((B.map (fun b => (file.drop (b * bs)).take bs)).flatten).getD k 0
        = file.getD (B.getD (k / bs) 0 * bs + k % bs) 0 := by
  intro B
  induction B with
  | nil =>
    intro k _ hk
    simp at hk
  | cons b rest ih =>
    intro k hB hk
    have hb := hB b (List.mem_cons_self _ _)
    have hblk : ((file.drop (b * bs)).take bs).length = bs := by
      rw [List.length_take, List.length_drop]
      omega
    rw [List.map_cons, List.flatten_cons]
    by_cases hkb : k < bs
    · rw [List.getD_append _ _ _ _ (by rw [hblk]; exact hkb), getD_take_of_lt _ _ _ hkb,
        getD_drop_add, Nat.div_eq_of_lt hkb, Nat.mod_eq_of_lt hkb, List.getD_cons_zero]
    · have hk2 : k = (k - bs) + bs := by omega
      have hd : k / bs = (k - bs) / bs + 1 := by
        conv_lhs => rw [hk2]
        exact Nat.add_div_right _ (by omega)
      have hm : k % bs = (k - bs) % bs := by
        conv_lhs => rw [hk2]
        exact Nat.add_mod_right _ _
      rw [List.getD_append_right _ _ _ _ (by rw [hblk]; omega), hblk,
        ih (k - bs) (fun x hx => hB x (List.mem_cons_of_mem _ hx)) (by
          rw [List.length_cons, Nat.succ_mul] at hk
          omega),
        hd, hm, List.getD_cons_succ]

theorem getD_streamContentSpec (file : Bytes) (bs size : Nat) (B : List Nat) (hbs : 1 ≤ bs)
    (hB : ∀ b ∈ B, b * bs + bs ≤ file.length) (hs : size ≤ B.length * bs) (k : Nat)
    (hk : k < size) :
    (streamContentSpec file bs size B).getD k 0
      = file.getD (B.getD (k / bs) 0 * bs + k % bs) 0 := by
  unfold streamContentSpec
  rw [getD_take_of_lt _ _ _ hk, getD_flatten_blocks file bs hbs B k hB (by omega)]

theorem list_ext_getD (l1 l2 : List Nat) (hl : l1.length = l2.length)
    (h : ∀ k, k < l1.length → l1.getD k 0 = l2.getD k 0) : l1 = l2 := by
  apply List.ext_getElem hl
  intro k h1 h2
  have := h k h1
  rw [List.getD_eq_getElem _ _ h1, List.getD_eq_getElem _ _ h2] at this
  exact this

theorem readBlockIndices_some (bs size : Nat) (hbs : bs ∣ 4294967296)
    (hsz : size + bs ≤ 4294967296) :
    ∀ (fuel it : Nat) (st : ImmutableStream),
      st.m_Offset + 4 * ceilDiv (size - it) bs ≤ st.m_Data.length →
      ceilDiv (size - it) bs < fuel →
      ∃ l st1, ParseStreamDirectory.readBlockIndices bs size fuel it st = some (l, st1) := by
  have hpos : 0 < bs := Nat.pos_of_dvd_of_pos hbs (by norm_num)
  intro fuel
  induction fuel with
  | zero => intro it st _ h; omega
  | succ fuel ih =>
    intro it st hfit hfuel
    unfold ParseStreamDirectory.readBlockIndices
    by_cases hc : it < size
    · rw [if_pos hc]
      have hstep := ceilDiv_step (size - it) bs hpos (by omega)
      have hr : st.Read32 = some (le32 st.m_Data st.m_Offset,
          { st with m_Offset := st.m_Offset + 4 }) := by
        unfold ImmutableStream.Read32 ImmutableStream.Peek32 ImmutableStream.m_Length
        rw [if_neg (by omega)]
      rw [hr]
      simp only
      rw [Nat.mod_eq_of_lt (by omega)]
      have e : size - (it + bs) = size - it - bs := by omega
      obtain ⟨l, st1, h⟩ := ih (it + bs) { st with m_Offset := st.m_Offset + 4 }
        (by rw [e]; simp only; omega) (by rw [e]; omega)
      rw [h]
      exact ⟨_, _, rfl⟩
    · rw [if_neg hc]
      exact ⟨_, _, rfl⟩

theorem readStreams_some (bs : Nat) (hbs : bs ∣ 4294967296) :
    ∀ (n : Nat) (ss bi : ImmutableStream),
      ss.m_Offset + 4 * n ≤ ss.m_Data.length →
      (∀ i, i < n → le32 ss.m_Data (ss.m_Offset + 4 * i) = 4294967295
        ∨ le32 ss.m_Data (ss.m_Offset + 4 * i) + bs ≤ 4294967296) →
      bi.m_Offset + 4 * ((List.range n).map
          (fun i => ceilDiv (normSize (le32 ss.m_Data (ss.m_Offset + 4 * i))) bs)).sum
        ≤ bi.m_Data.length →
      ∃ streams, ParseStreamDirectory.readStreams bs n ss bi = some streams := by
  intro n
  induction n with
  | zero =>
    intro ss bi _ _ _
    exact ⟨[], rfl⟩
  | succ n ih =>
    intro ss bi hss hw hbi
    have hr : ss.Read32 = some (le32 ss.m_Data ss.m_Offset,
        { ss with m_Offset := ss.m_Offset + 4 }) := by
      unfold ImmutableStream.Read32 ImmutableStream.Peek32 ImmutableStream.m_Length
      rw [if_neg (by omega)]
    have hshift : (List.range (n + 1)).map
        (fun i => ceilDiv (normSize (le32 ss.m_Data (ss.m_Offset + 4 * i))) bs)
        = ceilDiv (normSize (le32 ss.m_Data ss.m_Offset)) bs
          :: (List.range n).map
            (fun i => ceilDiv (normSize (le32 ss.m_Data (ss.m_Offset + 4 + 4 * i))) bs) := by
      rw [List.range_succ_eq_map, List.map_cons, List.map_map]
      congr 1
      apply List.map_congr_left
      intro i _
      simp only [Function.comp]
      congr 3
      omega
    rw [hshift, List.sum_cons] at hbi
    have hw0 := hw 0 (by omega)
    simp only [Nat.mul_zero, Nat.add_zero] at hw0
    have hw1 : ∀ i, i < n → le32 ss.m_Data (ss.m_Offset + 4 + 4 * i) = 4294967295
        ∨ le32 ss.m_Data (ss.m_Offset + 4 + 4 * i) + bs ≤ 4294967296 := by
      intro i hi
      have := hw (i + 1) (by omega)
      have e : ss.m_Offset + 4 * (i + 1) = ss.m_Offset + 4 + 4 * i := by omega
      rw [e] at this
      exact this
    unfold ParseStreamDirectory.readStreams
    rw [hr]
    simp only
    by_cases hz : le32 ss.m_Data ss.m_Offset = 4294967295 ∨ le32 ss.m_Data ss.m_Offset = 0
    · rw [if_pos hz]
      obtain ⟨streams, h⟩ := ih { ss with m_Offset := ss.m_Offset + 4 } bi
        (by simp only; omega) hw1 (by simp only; omega)
      rw [h]
      exact ⟨_, rfl⟩
    · rw [if_neg hz]
      have hn : normSize (le32 ss.m_Data ss.m_Offset) = le32 ss.m_Data ss.m_Offset := by
        unfold normSize
        rw [if_neg (by omega)]
      rw [hn] at hbi
      have hsz : le32 ss.m_Data ss.m_Offset + bs ≤ 4294967296 := by
        rcases hw0 with h | h
        · exact absurd (Or.inl h) hz
        · exact h
      obtain ⟨l, st1, hrb⟩ := readBlockIndices_some bs (le32 ss.m_Data ss.m_Offset) hbs hsz
        (bi.m_Length + 1) 0 bi (by simp only [Nat.sub_zero]; omega)
        (by
          simp only [Nat.sub_zero, ImmutableStream.m_Length]
          omega)
      rw [hrb]
      simp only
      obtain ⟨s1, s2, s3, _⟩ := readBlockIndices_spec bs (le32 ss.m_Data ss.m_Offset) hbs
        (bi.m_Length + 1) 0 bi l st1 (Nat.dvd_zero bs) (by norm_num) hrb
      simp only [Nat.sub_zero] at s1
      obtain ⟨streams, h⟩ := ih { ss with m_Offset := ss.m_Offset + 4 } st1
        (by simp only; omega) hw1 (by
          simp only
          rw [s2, s3, s1]
          omega)
      rw [h]
      exact ⟨_, rfl⟩

theorem parseDirectory_some (payload : Bytes) (bs : Nat) (hbs : bs ∣ 4294967296)
    (hN : 1 ≤ le32 payload 0)
    (hlen : 4 + 4 * le32 payload 0 < payload.length)
    (hw : ∀ i, i < le32 payload 0 → le32 payload (4 + 4 * i) = 4294967295
      ∨ le32 payload (4 + 4 * i) + bs ≤ 4294967296)
    (hbi : 4 + 4 * le32 payload 0 + 4 * ((List.range (le32 payload 0)).map
        (fun i => ceilDiv (normSize (le32 payload (4 + 4 * i))) bs)).sum ≤ payload.length) :
    ParseStreamDirectory.parseDirectory payload bs = some (directorySpec payload bs) := by
  have key : ∃ streams, ParseStreamDirectory.parseDirectory payload bs = some streams := by
    unfold ParseStreamDirectory.parseDirectory
    simp only [ImmutableStream.PeekAtOffset32, ImmutableStream.ofBytes,
      ImmutableStream.m_Length]
    rw [if_neg (by omega)]
    simp only
    generalize hNN : le32 payload 0 = N at hN hlen hw hbi ⊢
    simp only [ImmutableStream.GetStreamAtOffset, ImmutableStream.ofBytes,
      ImmutableStream.CanReadAt, ImmutableStream.m_Length, ImmutableStream.span]
    have h0 : ¬ (4 * N = 0 ∧
        (decide (4 < payload.length) && decide (4 + 0 ≤ payload.length)) = true) := by
      omega
    have hs : 4 * N ≠ 0 ∧
        (decide (4 < payload.length) && decide (4 + 4 * N ≤ payload.length)) = true := by
      simp only [Bool.and_eq_true, decide_eq_true_eq]
      omega
    have e : True ∧
        (decide (4 + 4 * N < payload.length)
          && decide (4 + 4 * N + 0 ≤ payload.length)) = true := by
      simp only [Bool.and_eq_true, decide_eq_true_eq, true_and]
      omega
    rw [if_neg h0, if_pos hs, if_pos e]
    have hsz : ∀ i, i < N →
        le32 ((payload.drop 4).take (4 * N)) (0 + 4 * i) = le32 payload (4 + 4 * i) := by
      intro i hi
      simp only [Nat.zero_add]
      rw [le32_take _ _ _ (by omega), le32_drop]
    apply readStreams_some bs hbs N
    · simp only [List.length_take, List.length_drop]
      omega
    · intro i hi
      simp only
      rw [hsz i hi]
      exact hw i hi
    · simp only [List.length_drop]
      have em : (List.range N).map (fun i => ceilDiv (normSize
            (le32 ((payload.drop 4).take (4 * N)) (0 + 4 * i))) bs)
          = (List.range N).map (fun i => ceilDiv (normSize (le32 payload (4 + 4 * i))) bs) := by
        apply List.map_congr_left
        intro i hi
        rw [hsz i (List.mem_range.mp hi)]
      rw [em]
      omega
  obtain ⟨streams, h⟩ := key
  rw [h, parseDirectory_spec payload bs hbs streams h]

theorem length_straddlePayload : straddlePayload.length = 2552 := by
  unfold straddlePayload
  simp only [List.length_append, length_zeroFile, toLe32, List.length_cons, List.length_nil]

theorem straddlePayload_getD (p : Nat) (h : 8 ≤ p) : straddlePayload.getD p 0 = 0 := by
  unfold straddlePayload
  rw [List.getD_append_right _ _ _ _ (by simp [toLe32]; omega)]
  exact getD_zeroFile _ _

theorem straddlePayload_le32 (p : Nat) (h : 8 ≤ p) : le32 straddlePayload p = 0 := by
  unfold le32
  rw [straddlePayload_getD p h, straddlePayload_getD (p + 1) (by omega),
    straddlePayload_getD (p + 2) (by omega), straddlePayload_getD (p + 3) (by omega)]

theorem straddlePayload_le32_0 : le32 straddlePayload 0 = 128 := by
  decide

theorem straddlePayload_le32_4 : le32 straddlePayload 4 = 260608 := by
  decide

theorem straddle_recordSpec_zero :
    recordSpec 512 (fun i => le32 straddlePayload (4 + 4 * i))
      (fun k => le32 straddlePayload (4 + 4 * 128 + 4 * k)) 0
      = ⟨260608, List.replicate 509 0⟩ := by
  unfold recordSpec
  simp only [Nat.mul_zero, Nat.add_zero, straddlePayload_le32_4]
  have hn : normSize 260608 = 260608 := by decide
  have hc : ceilDiv 260608 512 = 509 := by decide
  rw [hn, hc]
  have hl : (List.range 509).map
      (fun j => le32 straddlePayload (4 + 4 * 128
        + 4 * (((List.range 0).map
            (fun k => ceilDiv (normSize (le32 straddlePayload (4 + 4 * k))) 512)).sum + j)))
      = List.replicate 509 0 := by
    rw [List.eq_replicate_iff]
    refine ⟨by simp, ?_⟩
    intro b hb
    obtain ⟨j, _, hj⟩ := List.mem_map.mp hb
    rw [← hj]
    exact straddlePayload_le32 _ (by omega)
  rw [hl]

theorem straddle_recordSpec_succ (i : Nat) :
    recordSpec 512 (fun i => le32 straddlePayload (4 + 4 * i))
      (fun k => le32 straddlePayload (4 + 4 * 128 + 4 * k)) (i + 1)
      = ⟨0, []⟩ := by
  unfold recordSpec
  simp only
  rw [straddlePayload_le32 (4 + 4 * (i + 1)) (by omega)]
  have hn : normSize 0 = 0 := by decide
  have hc : ceilDiv 0 512 = 0 := by decide
  rw [hn, hc]
  rfl

theorem straddle_directorySpec : directorySpec straddlePayload 512 = straddleParsed := by
  unfold directorySpec straddleParsed
  rw [straddlePayload_le32_0]
  have e : List.range 128 = 0 :: (List.range 127).map Nat.succ := List.range_succ_eq_map 127
  have hz : (List.range 127).map
      ((recordSpec 512 (fun i => le32 straddlePayload (4 + 4 * i))
        (fun k => le32 straddlePayload (4 + 4 * 128 + 4 * k))) ∘ Nat.succ)
      = List.replicate 127 ⟨0, []⟩ := by
    rw [List.eq_replicate_iff]
    refine ⟨by simp, ?_⟩
    intro b hb
    obtain ⟨j, _, hj⟩ := List.mem_map.mp hb
    rw [← hj]
    exact straddle_recordSpec_succ j
  rw [e, List.map_cons, straddle_recordSpec_zero, List.map_map, hz]

theorem straddle_parse :
    ParseStreamDirectory.parseDirectory straddlePayload 512 = some straddleParsed := by
  rw [← straddle_directorySpec]
  apply parseDirectory_some straddlePayload 512 (by norm_num)
  · rw [straddlePayload_le32_0]; norm_num
  · rw [straddlePayload_le32_0, length_straddlePayload]; norm_num
  · intro i hi
    right
    rcases Nat.eq_zero_or_pos i with h | h
    · subst h
      simp only [Nat.mul_zero, Nat.add_zero, straddlePayload_le32_4]
      norm_num
    · rw [straddlePayload_le32 _ (by omega)]
      norm_num
  · rw [straddlePayload_le32_0, length_straddlePayload]
    have e : List.range 128 = 0 :: (List.range 127).map Nat.succ := List.range_succ_eq_map 127
    have hz : (List.range 127).map
        ((fun i => ceilDiv (normSize (le32 straddlePayload (4 + 4 * i))) 512) ∘ Nat.succ)
        = List.replicate 127 0 := by
      rw [List.eq_replicate_iff]
      refine ⟨by simp, ?_⟩
      intro b hb
      obtain ⟨j, _, hj⟩ := List.mem_map.mp hb
      rw [← hj]
      simp only [Function.comp]
      rw [straddlePayload_le32 _ (by omega)]
      decide
    rw [e, List.map_cons, List.map_map, hz, List.sum_cons, List.sum_replicate]
    simp only [Nat.mul_zero, Nat.add_zero, straddlePayload_le32_4]
    have hc : ceilDiv (normSize 260608) 512 = 509 := by decide
    rw [hc]
    norm_num

theorem straddle_pdb (codec : Codec) (order : List Nat) :
    ∃ out3 pdb,
      WriteStreamsAndDirectoryToPDB codec (ImmutableStream.ofBytes (zeroFile 260608)) []
          straddleDescriptors 512 straddleAssignment.outBlocksForDirectory
          straddleAssignment.outBlocksForStreams
          { m_Data := some 0, m_Size := 266240, m_Offset := 0 } order (zeroFile 266240)
        = some (out3, 2552)
      ∧ RunDecompression.finish 512 straddleAssignment
          { m_Data := some 0, m_Size := 266240, m_Offset := 0 } out3 2552 = some pdb
      ∧ pdb.length = 266240
      ∧ pdb.take 52 = straddleSuperBlock.toBytes
      ∧ (pdb.drop 52).take 4 = toLe32 519
      ∧ (pdb.drop 265728).take 20 = wordsToBytes [512, 515, 516, 517, 518]
      ∧ (∀ p, 262144 ≤ p → p < 265728 →
          pdb.getD p 0 = (toLe32 128 ++ toLe32 260608).getD (p - 262144) 0) := by
  obtain ⟨out1, h1, hl1, hf1⟩ := straddle_streams codec (zeroFile 260608)
    (Nat.le_of_eq (length_zeroFile _).symm) order (zeroFile 266240) (length_zeroFile _)
  obtain ⟨s2, out2, out3, hw2, hd, hl3, hc3⟩ := straddle_directory_content out1 hl1
    (fun q hq => by rw [hf1 q hq, getD_zeroFile])
  obtain ⟨f, hf, hfl⟩ := freeBlockMap_some 512 520 3 (List.range' 4 508) (List.replicate 127 [])
    (by norm_num) (by norm_num) (by rw [List.length_range']; norm_num)
  have hfin := finish_eval 512 519 1 520 266240 2552
    ((3 :: List.range' 4 508) :: List.replicate 127 []) [512, 515, 516, 517, 518] out3 f hf hfl
    (by norm_num) (by norm_num) (by norm_num) (by norm_num) (by decide) (by norm_num)
    (by norm_num) hl3
  have hwl : (wordsToBytes [512, 515, 516, 517, 518]).length = 20 := by
    rw [length_wordsToBytes]; rfl
  have hil : (wordsToBytes (List.range' 519 1)).length = 4 := by
    rw [length_wordsToBytes]; rfl
  have hmul : 512 * 519 = 265728 := by norm_num
  have hsb : (⟨512, 1, 520, 2552, 0⟩ : PDBSuperBlock) = straddleSuperBlock := rfl
  rw [hmul, hsb] at hfin
  have hlay := layered_reads out3 [] (wordsToBytes [512, 515, 516, 517, 518])
    (PDBSuperBlock.toBytes straddleSuperBlock) (wordsToBytes (List.range' 519 1)) f 1024 265728 512
    (length_PDBSuperBlock_toBytes _) hfl (by rw [hil]; norm_num) (by norm_num)
    (by simp only [List.length_nil]; norm_num) (by rw [hwl, hl3]; norm_num) _
    (by rw [writeAt_nil])
  obtain ⟨p1, p2, p3, p4, _⟩ := hlay
  rw [hil] at p3
  rw [hwl] at p4
  refine ⟨out3, _, ?_, hfin, p1.trans hl3, p2, p3, p4, ?_⟩
  · have hn : StrictCastTo32 straddleDescriptors.length = some 128 := by decide!
    have hc : StrictCastTo32 2552 = some 2552 := by decide
    simp only [WriteStreamsAndDirectoryToPDB, hn, h1]
    have e1 : straddleAssignment.outBlocksForDirectory = [512, 515, 516, 517, 518] := rfl
    rw [e1, straddle_directory_stream, straddle_sizes_stream, straddle_indices_stream]
    simp only [hw2, hd, hc, Option.map_some']
  · intro p hp1 hp2
    have l1 : (writeAt out3 265728 (wordsToBytes [512, 515, 516, 517, 518])).length
        = 266240 := by
      rw [length_writeAt _ _ _ (by rw [hwl, hl3]; norm_num), hl3]
    have l2 : (writeAt (writeAt out3 265728 (wordsToBytes [512, 515, 516, 517, 518])) 0
        (PDBSuperBlock.toBytes straddleSuperBlock)).length = 266240 := by
      rw [length_writeAt _ _ _ (by rw [length_PDBSuperBlock_toBytes, l1]; norm_num), l1]
    have l3 : (writeAt (writeAt (writeAt out3 265728 (wordsToBytes [512, 515, 516, 517, 518])) 0
        (PDBSuperBlock.toBytes straddleSuperBlock)) 52
        (wordsToBytes (List.range' 519 1))).length = 266240 := by
      rw [length_writeAt _ _ _ (by rw [hil, l2]; norm_num), l2]
    rw [getD_writeAt_after _ _ _ _ _ (by rw [hfl, l3]; norm_num) (by rw [hfl]; omega),
      getD_writeAt_after _ _ _ _ _ (by rw [hil, l2]; norm_num) (by rw [hil]; omega),
      getD_writeAt_after _ _ _ _ _ (by rw [length_PDBSuperBlock_toBytes, l1]; norm_num)
        (by rw [length_PDBSuperBlock_toBytes]; omega),
      getD_writeAt_before _ _ _ _ _ (by rw [hl3]; norm_num) hp2]
    exact hc3 p hp1

theorem straddle_pdb_parse (pdb : Bytes) (hlen : pdb.length = 266240)
    (hsb : pdb.take 52 = straddleSuperBlock.toBytes)
    (hidx : (pdb.drop 52).take 4 = toLe32 519)
    (hdir : (pdb.drop 265728).take 20 = wordsToBytes [512, 515, 516, 517, 518])
    (hpay : ∀ p, 262144 ≤ p → p < 265728 →
      pdb.getD p 0 = (toLe32 128 ++ toLe32 260608).getD (p - 262144) 0) :
    readSuperBlock pdb = some straddleSuperBlock
      ∧ ParseStreamDirectory.directoryData (ImmutableStream.ofBytes pdb) straddleSuperBlock
        = some straddlePayload
      ∧ ParseStreamDirectory (ImmutableStream.ofBytes pdb) straddleSuperBlock
        = some straddleParsed := by
  have c1 : ceilDiv straddleSuperBlock.m_DirectorySize straddleSuperBlock.m_BlockSize = 5 := by
    decide
  have c2 : ceilDiv (4 * 5) straddleSuperBlock.m_BlockSize = 1 := by decide
  have hbs : straddleSuperBlock.m_BlockSize = 512 := rfl
  have hds : straddleSuperBlock.m_DirectorySize = 2552 := rfl
  have hE : directoryIndexBlockIndices pdb straddleSuperBlock = [519] := by
    unfold directoryIndexBlockIndices
    rw [c1, c2, ← wordsOf_take (pdb.drop 52) 1, hidx]
    decide
  have hB : directoryBlockIndices pdb straddleSuperBlock = [512, 515, 516, 517, 518] := by
    unfold directoryBlockIndices
    rw [hE, c1, hbs]
    have e : ([519] : List Nat) = List.range' 519 1 := rfl
    have hmul : 512 * 519 = 265728 := by norm_num
    rw [e, streamContentSpec_range' pdb 512 (4 * 5) 519 1 (by rw [hlen]) (by norm_num), hmul,
      hdir]
    decide
  have hmem : ∀ b ∈ ([512, 515, 516, 517, 518] : List Nat), b * 512 + 512 ≤ pdb.length := by
    rw [hlen]
    decide
  have hT : directoryTwoLevel pdb straddleSuperBlock = straddlePayload := by
    unfold directoryTwoLevel
    rw [hB, hbs, hds]
    have hl := length_streamContentSpec pdb 512 2552 [512, 515, 516, 517, 518] hmem (by decide)
    apply list_ext_getD _ _ (by rw [hl, length_straddlePayload])
    intro k hk
    rw [hl] at hk
    rw [getD_streamContentSpec pdb 512 2552 [512, 515, 516, 517, 518] (by norm_num) hmem
      (by decide) k hk]
    have hsmall : ∀ j, j < 8 →
        (toLe32 128 ++ toLe32 260608).getD j 0 = straddlePayload.getD j 0 := by
      decide
    have hbig : ∀ j, 8 ≤ j → (toLe32 128 ++ toLe32 260608).getD j 0 = 0 := by
      intro j hj
      exact List.getD_eq_default _ _ (by simp [toLe32]; omega)
    have hq : k / 512 = 0 ∨ k / 512 = 1 ∨ k / 512 = 2 ∨ k / 512 = 3 ∨ k / 512 = 4 := by omega
    rcases hq with h | h | h | h | h
    · rw [h]
      have e : ([512, 515, 516, 517, 518] : List Nat).getD 0 0 * 512 + k % 512
          = 262144 + k := by
        have : ([512, 515, 516, 517, 518] : List Nat).getD 0 0 = 512 := rfl
        rw [this]; omega
      have e2 : 262144 + k - 262144 = k := by omega
      rw [e, hpay _ (by omega) (by omega), e2]
      by_cases h8 : k < 8
      · exact hsmall k h8
      · rw [hbig k (by omega), straddlePayload_getD k (by omega)]
    · rw [h]
      have this1 : ([512, 515, 516, 517, 518] : List Nat).getD 1 0 = 515 := rfl
      rw [this1, hpay _ (by omega) (by omega), hbig _ (by omega),
        straddlePayload_getD k (by omega)]
    · rw [h]
      have this1 : ([512, 515, 516, 517, 518] : List Nat).getD 2 0 = 516 := rfl
      rw [this1, hpay _ (by omega) (by omega), hbig _ (by omega),
        straddlePayload_getD k (by omega)]
    · rw [h]
      have this1 : ([512, 515, 516, 517, 518] : List Nat).getD 3 0 = 517 := rfl
      rw [this1, hpay _ (by omega) (by omega), hbig _ (by omega),
        straddlePayload_getD k (by omega)]
    · rw [h]
      have this1 : ([512, 515, 516, 517, 518] : List Nat).getD 4 0 = 518 := rfl
      rw [this1, hpay _ (by omega) (by omega), hbig _ (by omega),
        straddlePayload_getD k (by omega)]
  have hdata : ParseStreamDirectory.directoryData (ImmutableStream.ofBytes pdb)
      straddleSuperBlock = some straddlePayload := by
    rw [← hT]
    apply directoryData_two_level pdb straddleSuperBlock
    · decide
    · decide
    · decide
    · rw [c1]; decide
    · rw [hlen]; norm_num
    · rw [hE, hlen]; decide
    · rw [hE, hlen]; decide
    · rw [hB, hlen]; decide
    · rw [hE]; unfold ContiguityTestExact; decide
    · rw [hB]; unfold ContiguityTestExact; decide
  refine ⟨?_, hdata, ?_⟩
  · exact readSuperBlock_of_take pdb straddleSuperBlock hsb (by decide) (by decide) (by decide)
      (by decide) (by decide)
  · unfold ParseStreamDirectory
    rw [hdata]
    exact straddle_parse

/-! ### C21: the written PDB read back by the parser -/

/-- C21, evaluated at block size 512 on the 128 stream descriptors of C20 (stream 0 of
509 * 512 bytes, the others empty; 520 blocks, within both limits):
`WriteStreamsAndDirectoryToPDB` and the rest of `RunDecompression` write a PDB whose
superblock reads back as written and which `ParseStreamDirectory` accepts; the parsed
sizes are those of `CalculateSize`, but the block list parsed for stream 0 is 509 times
the index 0 and not the assigned list 3, 4, ..., 511: the block indices were never
written into the directory. -/
theorem RunDecompression_block_lists_not_parsed_back (codec : Codec) (order : List Nat) :
    AssignBlocksToStreams straddleDescriptors 512 = some straddleAssignment
    ∧ ¬ straddleAssignment.outNumBlocks > 1048576
    ∧ ¬ straddleDescriptors.length > 65536
    ∧ RunDecompression.totalSizeOfOutputFile straddleAssignment.outNumBlocks 512 = 266240
    ∧ ∃ out3 pdb,
        WriteStreamsAndDirectoryToPDB codec (ImmutableStream.ofBytes (zeroFile 260608)) []
            straddleDescriptors 512 straddleAssignment.outBlocksForDirectory
            straddleAssignment.outBlocksForStreams
            { m_Data := some 0, m_Size := 266240, m_Offset := 0 } order (zeroFile 266240)
          = some (out3, 2552)
        ∧ RunDecompression.finish 512 straddleAssignment
            { m_Data := some 0, m_Size := 266240, m_Offset := 0 } out3 2552 = some pdb
        ∧ readSuperBlock pdb = some straddleSuperBlock
        ∧ ParseStreamDirectory (ImmutableStream.ofBytes pdb) straddleSuperBlock
          = some straddleParsed
        ∧ straddleParsed.map (fun r => r.m_StreamSize)
          = straddleDescriptors.map (fun x => (CalculateSize x).getD 0)
        ∧ straddleAssignment.outBlocksForStreams.head? = some (List.range' 3 509)
        ∧ (straddleParsed.map (fun r => r.m_StreamBlockIndices)).head?
          = some (List.replicate 509 0)
        ∧ straddleParsed.map (fun r => r.m_StreamBlockIndices)
          ≠ straddleAssignment.outBlocksForStreams := by
  obtain ⟨out3, pdb, h1, h2, h3, h4, h5, h6, h7⟩ := straddle_pdb codec order
  obtain ⟨g1, _, g3⟩ := straddle_pdb_parse pdb h3 h4 h5 h6 h7
  refine ⟨straddle_assign, by decide, by decide!, by decide, out3, pdb, h1, h2, g1, g3,
    by decide!, rfl, rfl, ?_⟩
  intro h
  have h0 := congrArg (fun l => (l.headD []).headD 7) h
  revert h0
  decide

/-! ### C29: the size of an MSFZ stream -/

/-- C29: for every MSFZ stream descriptor, `CalculateSize` returns the sum of the
`dataSize` values of its fragments when that sum is below 2^32, and raises the
range-check failure (no wrapped value is returned) when the sum is 2^32 or more. -/
theorem CalculateSize_eq_sum (m_Fragments : List MsfzFragment) :
    CalculateSize m_Fragments
      = if (m_Fragments.map (fun f => f.m_DataSize)).sum < 4294967296 then
          some (m_Fragments.map (fun f => f.m_DataSize)).sum
        else none := by
  unfold CalculateSize
  rw [foldlM_CalculateSize m_Fragments 0 (by norm_num)]
  simp only [Nat.zero_add]

/-! ### C26: the region allocator -/

/-- C26 as stated fails when a requested size is close to `2^64`. A writer of capacity
10 at position 100 of the mapping is asked for 4, for `2^64 - 2` and for 3 bytes. The
second call would exceed the capacity, but the sum `4 + (2^64 - 2)` of the test wraps to
2: the call returns a sub-writer of `2^64 - 2` bytes at offset 4 and moves the cursor
back to 2, and the third call hands out the window `[2, 5)`, which overlaps the first
window `[0, 4)`. -/
theorem GetRegionSubstreamForWriting_wraps :
    (4 : Nat) + 18446744073709551614 > 10
      ∧ MutableStreamFixed.GetRegionSubstreamForWriting
          { m_Data := some 100, m_Size := 10, m_Offset := 4 } 18446744073709551614 0
        = ({ m_Data := some 104, m_Size := 18446744073709551614, m_Offset := 0 }, 4,
            { m_Data := some 100, m_Size := 10, m_Offset := 2 })
      ∧ fittedWindows
          (reserveRegions { m_Data := some 100, m_Size := 10, m_Offset := 0 }
            [4, 18446744073709551614, 3]).1
        = [(0, 4), (4, 18446744073709551614), (2, 3)]
      ∧ ¬ (fittedWindows
          (reserveRegions { m_Data := some 100, m_Size := 10, m_Offset := 0 }
            [4, 18446744073709551614, 3]).1).Pairwise (fun a b => a.1 + a.2 ≤ b.1)
      ∧ ¬ (∀ w ∈ fittedWindows
          (reserveRegions { m_Data := some 100, m_Size := 10, m_Offset := 0 }
            [4, 18446744073709551614, 3]).1, w.1 + w.2 ≤ 10) := by
  have hw : fittedWindows
      (reserveRegions { m_Data := some 100, m_Size := 10, m_Offset := 0 }
        [4, 18446744073709551614, 3]).1
      = [(0, 4), (4, 18446744073709551614), (2, 3)] := by decide
  refine ⟨by decide, by decide, hw, ?_, ?_⟩
  · rw [hw]
    decide
  · rw [hw]
    decide

/-- C26 (amended): for every sequence of `GetRegionSubstreamForWriting` calls on one
writer of capacity `m_Size` whose cursor is inside it, with every requested size so
small that capacity plus size stays below `2^64`: the first window that is reserved
starts at the cursor and each later one starts where the one before it ended; the
windows are pairwise disjoint and lie within the capacity; the reserved sizes sum to the
advance of the cursor, which stays within the capacity; a call that reserves returns the
sub-writer over its window; a call reserves exactly when cursor plus size does not
exceed the capacity; and a call that would exceed the capacity returns the empty
sub-writer and leaves `outRegionOffset` and the cursor unchanged. -/
theorem GetRegionSubstreamForWriting_windows (s : MutableStreamFixed) (sizes : List Nat)
    (hcur : s.m_Offset ≤ s.m_Size)
    (hsz : ∀ n ∈ sizes, s.m_Size + n < 18446744073709551616) :
    List.Chain (fun a b => b.1 = a.1 + a.2) (s.m_Offset, 0)
        (fittedWindows (reserveRegions s sizes).1)
      ∧ (fittedWindows (reserveRegions s sizes).1).Pairwise (fun a b => a.1 + a.2 ≤ b.1)
      ∧ (∀ w ∈ fittedWindows (reserveRegions s sizes).1, w.1 + w.2 ≤ s.m_Size)
      ∧ s.m_Offset + ((fittedWindows (reserveRegions s sizes).1).map (fun w => w.2)).sum
          ≤ s.m_Size
      ∧ (reserveRegions s sizes).2.m_Offset
          = s.m_Offset + ((fittedWindows (reserveRegions s sizes).1).map (fun w => w.2)).sum
      ∧ (∀ c ∈ (reserveRegions s sizes).1, c.fitted = true →
          c.subStream = { m_Data := s.m_Data.map (· + c.outRegionOffset),
                          m_Size := c.regionSize, m_Offset := 0 })
      ∧ (∀ c ∈ (reserveRegions s sizes).1,
          (c.fitted = true ↔ c.cursorBefore + c.regionSize ≤ s.m_Size)
          ∧ (c.cursorBefore + c.regionSize > s.m_Size →
              c.subStream = MutableStreamFixed.null ∧ c.outRegionOffset = 0
                ∧ c.cursorAfter = c.cursorBefore)) := by
  obtain ⟨i1, i2, i3, i4, _, _, i7⟩ :=
    reserveRegions_spec sizes s (s.m_Offset, 0) rfl hcur hsz
  exact ⟨i1, chain_windows_pairwise _ _ i1, fun w hw => (i2 w hw).2, by omega, i3,
    fun c hc hf => (i7 c hc).1 hf, fun c hc => (i7 c hc).2⟩

/-- Witness of C26 (amended): six calls on a writer of capacity 10 at position 100 of
the mapping, asking for 4, 7, 3, 0, 3 and 1 bytes; the second and the last do not
fit. -/
theorem GetRegionSubstreamForWriting_windows_witness :
    (0 : Nat) ≤ 10
      ∧ (∀ n ∈ [4, 7, 3, 0, 3, 1], 10 + n < 18446744073709551616)
      ∧ fittedWindows
          (reserveRegions { m_Data := some 100, m_Size := 10, m_Offset := 0 }
            [4, 7, 3, 0, 3, 1]).1 = [(0, 4), (4, 3), (7, 0), (7, 3)]
      ∧ (fittedWindows
          (reserveRegions { m_Data := some 100, m_Size := 10, m_Offset := 0 }
            [4, 7, 3, 0, 3, 1]).1).Pairwise (fun a b => a.1 + a.2 ≤ b.1)
      ∧ (reserveRegions { m_Data := some 100, m_Size := 10, m_Offset := 0 }
            [4, 7, 3, 0, 3, 1]).2.m_Offset = 10 :=
  have h := GetRegionSubstreamForWriting_windows
    { m_Data := some 100, m_Size := 10, m_Offset := 0 } [4, 7, 3, 0, 3, 1] (by decide)
    (by decide)
  ⟨by decide, by decide, by decide, h.2.1, by decide⟩

/-! ### C24: scenario S4 -/

/-- C24 as stated fails. For two streams of sizes 1 and 8192 at block size 4096,
`AssignBlocksToStreams` assigns one directory block, one directory-index block and one
free-block-map block and leaves `outNumBlocks = 8`, while
`3 + 1 + 2 + Kd + Ki + FPM = 9`: the free-block-map block is block 1, one of the three
leading blocks, and is counted twice by the formula. -/
theorem AssignBlocksToStreams_scenarioS4_count :
    ∃ a, AssignBlocksToStreams scenarioS4 4096 = some a
      ∧ scenarioS4.map CalculateSize = [some 1, some 8192]
      ∧ a.outBlocksForFreeBlockMap = [1]
      ∧ a.outNumBlocks = 8
      ∧ 3 + 1 + 2 + a.outBlocksForDirectory.length + a.outBlocksForDirectoryIndices.length
          + a.outBlocksForFreeBlockMap.length = 9
      ∧ a.outNumBlocks
          ≠ 3 + 1 + 2 + a.outBlocksForDirectory.length + a.outBlocksForDirectoryIndices.length
            + a.outBlocksForFreeBlockMap.length := by
  decide

/-- C24, amended. For two streams of sizes 1 and 8192 at block size 4096,
`AssignBlocksToStreams` gives stream 0 the single block 3 and stream 1 the two blocks 4
and 5, none of which is congruent to 1 or 2 modulo 4096, and the block count is
`3 + 1 + 2 + Kd + Ki`, where `Kd` and `Ki` are the numbers of directory and
directory-index blocks it assigns; the free-block-map block it lists is block 1, which is
one of the three leading blocks. -/
theorem AssignBlocksToStreams_scenarioS4 (stream0 stream1 : List MsfzFragment)
    (h0 : CalculateSize stream0 = some 1) (h1 : CalculateSize stream1 = some 8192) :
    ∃ a, AssignBlocksToStreams [stream0, stream1] 4096 = some a
      ∧ a.outBlocksForStreams = [[3], [4, 5]]
      ∧ (∀ l ∈ a.outBlocksForStreams, ∀ b ∈ l, b % 4096 ≠ 1 ∧ b % 4096 ≠ 2)
      ∧ a.outNumBlocks
          = 3 + 1 + 2 + a.outBlocksForDirectory.length + a.outBlocksForDirectoryIndices.length
      ∧ a.outBlocksForFreeBlockMap = [1]
      ∧ (∀ b ∈ a.outBlocksForFreeBlockMap, b < 3) := by
  have e : AssignBlocksToStreams [stream0, stream1] 4096
      = some { outBlocksForStreams := [[3], [4, 5]], outBlocksForDirectory := [6],
               outBlocksForDirectoryIndices := [7], outBlocksForFreeBlockMap := [1],
               outNumBlocks := 8 } := by
    unfold AssignBlocksToStreams
    simp only [AssignBlocksToStreams.streams, h0, h1]
    decide
  exact ⟨_, e, rfl, by decide, rfl, rfl, by decide⟩

/-- Witness of C24, amended: the descriptors of `scenarioS4`. -/
theorem AssignBlocksToStreams_scenarioS4_witness :
    CalculateSize [{ m_DataSize := 1, m_DataOffset := 0, m_ChunkIndexOrDataOrigin := 2147483648 }]
        = some 1
      ∧ CalculateSize
          [{ m_DataSize := 8192, m_DataOffset := 0, m_ChunkIndexOrDataOrigin := 2147483649 }]
        = some 8192
      ∧ ∃ a, AssignBlocksToStreams scenarioS4 4096 = some a
        ∧ a.outBlocksForStreams = [[3], [4, 5]]
        ∧ (∀ l ∈ a.outBlocksForStreams, ∀ b ∈ l, b % 4096 ≠ 1 ∧ b % 4096 ≠ 2)
        ∧ a.outNumBlocks
            = 3 + 1 + 2 + a.outBlocksForDirectory.length
              + a.outBlocksForDirectoryIndices.length
        ∧ a.outBlocksForFreeBlockMap = [1]
        ∧ (∀ b ∈ a.outBlocksForFreeBlockMap, b < 3) :=
  ⟨by decide, by decide,
    AssignBlocksToStreams_scenarioS4 _ _ (by decide) (by decide)⟩

/-! ### C28: the strategy option of a compress invocation -/

/-- C28, evaluated where it fails. `"NoCompression"` passes the accepted-values test of
the option, but `ParseCommandLineOptions` compares the value with `"None"`, so no
strategy is stored for it; `"None"`, the only spelling that would select
`NoCompression`, is rejected by the accepted-values test. `"SingleFragment"` and
`"MultiFragment"` yield their strategies. Hence not every accepted value produces a
configuration with a strategy set. -/
theorem ParseCommandLineOptions_NoCompression_unset :
    "NoCompression" ∈ strategyAcceptedValues
      ∧ ParseCommandLineOptions.compressStrategy "NoCompression" = some none
      ∧ ParseCommandLineOptions.compressStrategy "None" = none
      ∧ ParseCommandLineOptions.compressStrategy "SingleFragment"
          = some (some CompressionStrategy.SingleFragment)
      ∧ ParseCommandLineOptions.compressStrategy "MultiFragment"
          = some (some CompressionStrategy.MultiFragment)
      ∧ ¬ ∀ v ∈ strategyAcceptedValues,
          ∃ strategy, ParseCommandLineOptions.compressStrategy v = some (some strategy) := by
  refine ⟨by decide, by decide, by decide, by decide, by decide, ?_⟩
  intro h
  obtain ⟨strategy, hs⟩ := h "NoCompression" (by decide)
  have : ParseCommandLineOptions.compressStrategy "NoCompression" = some none := by decide
  rw [this] at hs
  cases hs

/-! ### C22: fragments outside their chunk -/

/-- C22, evaluated where it fails. The fragment `pastChunkFragment` has bit 31 set,
chunk index 0 and `dataOffset + dataSize = 2^32 + 1`, which exceeds the chunk's
`decompressedSize = 2^32 - 1`. The bounds test of `WriteSingleStreamDataToPDB` adds the
two fields in 32 bits: the sum wraps to 1 and the test passes, no error is raised, the two
bytes at file offsets `2^32 - 1` and `2^32`, which lie behind the chunk, are taken as the
fragment, and they are written to the output. A chunk index that is not below the number
of chunks does raise the error. -/
theorem WriteSingleStreamDataToPDB_accepts_fragment_past_chunk (codec : Codec) :
    pastChunkFragment.IsLocatedInChunk = true
      ∧ pastChunkFragment.m_DataOffset + pastChunkFragment.m_DataSize
          > pastChunkChunk.m_DecompressedSize
      ∧ (pastChunkFragment.m_DataOffset + pastChunkFragment.m_DataSize) % 4294967296 = 1
      ∧ WriteSingleStreamDataToPDB.fragmentData codec (ImmutableStream.ofBytes pastChunkFile)
          [pastChunkChunk] pastChunkFragment = some [7, 7]
      ∧ WriteSingleStreamDataToPDB codec (ImmutableStream.ofBytes pastChunkFile)
          [pastChunkChunk] [pastChunkFragment]
          { m_Data := some 0, m_Size := 4, m_Offset := 0, m_HoleOffsets := [] } [0, 0, 0, 0]
        = some ({ m_Data := some 0, m_Size := 4, m_Offset := 2, m_HoleOffsets := [] },
            [7, 7, 0, 0])
      ∧ WriteSingleStreamDataToPDB.fragmentData codec (ImmutableStream.ofBytes pastChunkFile)
          [] pastChunkFragment = none := by
  refine ⟨by decide, by decide, by decide, pastChunk_fragmentData codec, ?_, ?_⟩
  · exact WriteSingleStreamDataToPDB_single codec _ _ _ [7, 7] _ _ _ _ true
      (pastChunk_fragmentData codec) (by decide)
  · have hloc : pastChunkFragment.IsLocatedInChunk = true := by decide
    unfold WriteSingleStreamDataToPDB.fragmentData
    rw [if_neg (by simp [hloc])]
    rfl

/-! ### C23: the size of the output file -/

/-- C23, evaluated where it fails. For `hugeMsfz` at block size 4096 the block count
`M = 2^20` passes the limit check, but the size passed to `Resize`, `M * 4096` computed in
32 bits, is 0 and not `M * 4096 = 2^32`; `RunDecompression` then fails on the empty
mapping and writes no superblock. -/
theorem RunDecompression_output_size_wraps (codec : Codec) (args : ProgramCommandLineArgs)
    (testMode : Bool) (order : List Nat) :
    ∃ a,
      AssignBlocksToStreams hugeDescriptors 4096 = some a
      ∧ ¬ a.outNumBlocks > 1048576
      ∧ 4096 ∈ [512, 1024, 2048, 4096, 8192]
      ∧ a.outNumBlocks * 4096 = 4294967296
      ∧ RunDecompression.totalSizeOfOutputFile a.outNumBlocks 4096 = 0
      ∧ RunDecompression.totalSizeOfOutputFile a.outNumBlocks 4096 ≠ a.outNumBlocks * 4096
      ∧ ∀ pdb, RunDecompression codec { args with m_BlockSize := 4096 } testMode order hugeMsfz
          ≠ .written pdb := by
  refine ⟨_, huge_assign, by decide, by decide, by decide, by decide, by decide, ?_⟩
  intro pdb h
  rw [RunDecompression_empty_output codec { args with m_BlockSize := 4096 } testMode order
      hugeMsfz hugeDescriptors [⟨100, 0, 1, 4, 4288671744⟩] _ (by decide) (by decide)
      (huge_directory codec) (by decide) (by decide) huge_assign (by decide) (by decide)
      (by norm_num)] at h
  cases h

/-! ### C30: the block-assignment helper -/

/-- C30 as stated fails where the 32-bit cursor wraps. At cursor `2^32 - 1` and block
size 512 the helper appends for `n = 1` the index `2^32 - 1` and leaves the cursor at 0,
not at the last appended index + 1; for `n = 2` it appends `2^32 - 1` and then 0, which
is below the cursor it started from and not in ascending order. -/
theorem AssignNextNBlocks_wraps :
    AssignNextNBlocks 512 1 4294967295 = ([4294967295], 0)
      ∧ (0 : Nat) ≠ 4294967295 + 1
      ∧ AssignNextNBlocks 512 2 4294967295 = ([4294967295, 0], 1)
      ∧ ¬ (AssignNextNBlocks 512 2 4294967295).1.Pairwise (· < ·)
      ∧ ¬ ∀ b ∈ (AssignNextNBlocks 512 2 4294967295).1, 4294967295 ≤ b := by
  decide

/-- C30, amended. For every block size `bs >= 4`, every cursor value `c` and every `n`
with `c + 3 * n < 2^32` (each index appended advances the cursor by at most 3, so the
32-bit cursor does not wrap), `AssignNextNBlocks` appends exactly `n` indices, in
ascending order; each of them is at least `c` and not reserved (`b % bs` is neither 1 nor
2); every index from `c` up to the final cursor that is not reserved is among them, so
they are the `n` smallest such indices; and the cursor is left at the last appended
index + 1, unchanged when `n = 0`. -/
theorem AssignNextNBlocks_smallest_unreserved (bs c n : Nat) (hbs : 4 ≤ bs)
    (h32 : c + 3 * n < 4294967296) :
    (AssignNextNBlocks bs n c).1.length = n
      ∧ (AssignNextNBlocks bs n c).1.Pairwise (· < ·)
      ∧ (∀ b ∈ (AssignNextNBlocks bs n c).1, c ≤ b ∧ b % bs ≠ 1 ∧ b % bs ≠ 2)
      ∧ (∀ x, c ≤ x → x < (AssignNextNBlocks bs n c).2 → x % bs ≠ 1 → x % bs ≠ 2 →
          x ∈ (AssignNextNBlocks bs n c).1)
      ∧ (n = 0 → (AssignNextNBlocks bs n c).2 = c)
      ∧ (∀ last, (AssignNextNBlocks bs n c).1.getLast? = some last →
          (AssignNextNBlocks bs n c).2 = last + 1) := by
  obtain ⟨i1, i2, i3, i4, i5⟩ := AssignNextNBlocks_spec bs hbs n c h32
  refine ⟨i4, ?_, ?_, ?_, ?_, i5⟩
  · rw [i1]
    exact List.Pairwise.filter _ (List.pairwise_lt_range' c _)
  · intro b hb
    rw [i1, List.mem_filter, List.mem_range'_1] at hb
    obtain ⟨hb1, hb2⟩ := hb
    have := (IsBlockReserved_false_iff b bs).mp (by simpa using hb2)
    exact ⟨hb1.1, this⟩
  · intro x hx1 hx2 hx3 hx4
    rw [i1, List.mem_filter, List.mem_range'_1]
    refine ⟨⟨hx1, by omega⟩, ?_⟩
    have := (IsBlockReserved_false_iff x bs).mpr ⟨hx3, hx4⟩
    simp [this]
  · intro h0
    subst h0
    rfl

/-- Witness of C30, amended: five indices from cursor 510 at block size 512 skip the
reserved pair 513 and 514. -/
theorem AssignNextNBlocks_smallest_unreserved_witness :
    (4 : Nat) ≤ 512 ∧ 510 + 3 * 5 < 4294967296
      ∧ AssignNextNBlocks 512 5 510 = ([510, 511, 512, 515, 516], 517)
      ∧ (AssignNextNBlocks 512 5 510).1.length = 5
      ∧ (AssignNextNBlocks 512 5 510).1.Pairwise (· < ·)
      ∧ (∀ b ∈ (AssignNextNBlocks 512 5 510).1, 510 ≤ b ∧ b % 512 ≠ 1 ∧ b % 512 ≠ 2)
      ∧ (∀ x, 510 ≤ x → x < (AssignNextNBlocks 512 5 510).2 → x % 512 ≠ 1 → x % 512 ≠ 2 →
          x ∈ (AssignNextNBlocks 512 5 510).1)
      ∧ ((5 : Nat) = 0 → (AssignNextNBlocks 512 5 510).2 = 510)
      ∧ (∀ last, (AssignNextNBlocks 512 5 510).1.getLast? = some last →
          (AssignNextNBlocks 512 5 510).2 = last + 1) :=
  ⟨by decide, by decide, by decide,
    AssignNextNBlocks_smallest_unreserved 512 510 5 (by decide) (by decide)⟩

/-! ### C25: determinism per stream -/

/-- C25 as stated fails. `canonPdb` has two streams of 512 bytes. When the worker of
stream 0 runs before the worker of stream 1 the fragment of stream 0 gets the tag
`0x80000000` (chunk 0) and that of stream 1 the tag `0x80000001`; when the worker of
stream 1 runs first the tags are exchanged. The chunk index in the tag is the slot the
worker obtained from the shared chunk-descriptor allocator. -/
theorem RunCompression_tag_depends_on_schedule :
    streamDescriptorsOf
        (RunCompression storeCodec noCompression512 canonPdb 2 [0, 0, 0, 0, 1, 1, 1, 1])
      = some [[{ m_DataSize := 512, m_DataOffset := 0, m_ChunkIndexOrDataOrigin := 2147483648 }],
              [{ m_DataSize := 512, m_DataOffset := 0, m_ChunkIndexOrDataOrigin := 2147483649 }]]
    ∧ streamDescriptorsOf
        (RunCompression storeCodec noCompression512 canonPdb 2 [1, 1, 1, 1, 0, 0, 0, 0])
      = some [[{ m_DataSize := 512, m_DataOffset := 0, m_ChunkIndexOrDataOrigin := 2147483649 }],
              [{ m_DataSize := 512, m_DataOffset := 0, m_ChunkIndexOrDataOrigin := 2147483648 }]] := by
  decide!

/-- C25, amended. For a fixed input PDB and configuration and any two interleavings of
the stream workers under which `CompressAndWriteStreamData` returns, the fragment lists
of every stream agree in both runs in everything but the chunk index: the same number of
fragments, and for each fragment the same `dataSize`, the same `dataOffset` and the same
bit 31 of the tag. -/
theorem CompressAndWriteStreamData_shapes_deterministic (codec : Codec)
    (pdbFile : ImmutableStream) (streamInfos : List PDBStreamInfo)
    (args : ProgramCommandLineArgs) (blockSize chunkDataOffset : Nat) (numThreads : Nat)
    (scheduleA scheduleB : List Nat) (sh : Shared) (rA rB : CompressResult)
    (hA : CompressAndWriteStreamData codec pdbFile streamInfos args blockSize chunkDataOffset
      numThreads scheduleA sh = .finished rA)
    (hB : CompressAndWriteStreamData codec pdbFile streamInfos args blockSize chunkDataOffset
      numThreads scheduleB sh = .finished rB) :
    rA.streamDescriptors.length = rB.streamDescriptors.length
      ∧ rA.streamDescriptors.map (List.map fragmentShape)
          = rB.streamDescriptors.map (List.map fragmentShape) := by
  have h := finished_shapes codec pdbFile streamInfos args blockSize chunkDataOffset numThreads
    scheduleA scheduleB sh sh rA rB hA hB
  refine ⟨?_, h⟩
  have := congrArg List.length h
  simpa using this

/-- Witness of C25, amended: the two streams of `canonPdb` with the worker of stream 0
first and with the worker of stream 1 first. The tags differ, the shapes agree. -/
theorem CompressAndWriteStreamData_shapes_deterministic_witness :
    ∃ rA rB,
      CompressAndWriteStreamData storeCodec (ImmutableStream.ofBytes canonPdb)
          [⟨512, [3]⟩, ⟨512, [4]⟩] noCompression512 512 120 2 [0, 0, 0, 0, 1, 1, 1, 1] canonShared
        = .finished rA
      ∧ CompressAndWriteStreamData storeCodec (ImmutableStream.ofBytes canonPdb)
          [⟨512, [3]⟩, ⟨512, [4]⟩] noCompression512 512 120 2 [1, 1, 1, 1, 0, 0, 0, 0] canonShared
        = .finished rB
      ∧ rA.streamDescriptors = [[⟨512, 0, 2147483648⟩], [⟨512, 0, 2147483649⟩]]
      ∧ rB.streamDescriptors = [[⟨512, 0, 2147483649⟩], [⟨512, 0, 2147483648⟩]]
      ∧ rA.streamDescriptors.length = rB.streamDescriptors.length
      ∧ rA.streamDescriptors.map (List.map fragmentShape)
          = rB.streamDescriptors.map (List.map fragmentShape) := by
  obtain ⟨rA, hA, hdA⟩ := compressedDescriptors_some
    (CompressAndWriteStreamData storeCodec (ImmutableStream.ofBytes canonPdb)
      [⟨512, [3]⟩, ⟨512, [4]⟩] noCompression512 512 120 2 [0, 0, 0, 0, 1, 1, 1, 1] canonShared)
    [[⟨512, 0, 2147483648⟩], [⟨512, 0, 2147483649⟩]] (by decide!)
  obtain ⟨rB, hB, hdB⟩ := compressedDescriptors_some
    (CompressAndWriteStreamData storeCodec (ImmutableStream.ofBytes canonPdb)
      [⟨512, [3]⟩, ⟨512, [4]⟩] noCompression512 512 120 2 [1, 1, 1, 1, 0, 0, 0, 0] canonShared)
    [[⟨512, 0, 2147483649⟩], [⟨512, 0, 2147483648⟩]] (by decide!)
  exact ⟨rA, rB, hA, hB, hdA, hdB,
    CompressAndWriteStreamData_shapes_deterministic storeCodec _ _ _ _ _ _ _ _ _ rA rB hA hB⟩

/-! ### C27: the indirection to the directory -/

/-- C27 as stated fails. In `emptyStreamPdb` (block size 512, directory size 8, so
`K = 1`) the word at offset 52 is 3. `ParseStreamDirectory` does not take block 3 as the
directory: it reads block 3 as the list of directory block indices, finds the word 4
there, and returns the 8 bytes of block 4 (one stream of size 0). Taking the word at
offset 52 as the index of the directory block gives the first 8 bytes of block 3
instead. -/
theorem ParseStreamDirectory_directory_not_one_level :
    ceilDiv emptySuperBlock.m_DirectorySize emptySuperBlock.m_BlockSize = 1
      ∧ wordsOf (emptyStreamPdb.drop 52) 1 = [3]
      ∧ ParseStreamDirectory.directoryData (ImmutableStream.ofBytes emptyStreamPdb)
          emptySuperBlock = some (toLe32 1 ++ toLe32 0)
      ∧ directoryOneLevel emptyStreamPdb emptySuperBlock = toLe32 4 ++ toLe32 0
      ∧ ParseStreamDirectory.directoryData (ImmutableStream.ofBytes emptyStreamPdb)
          emptySuperBlock ≠ some (directoryOneLevel emptyStreamPdb emptySuperBlock) := by
  decide!

/-- C27, amended. For every PDB of at most 2^32 bytes with block size `bs >= 1` and
directory size `D >= 1` (no 32-bit wrap in the two rounding steps), with
`K = ceil(D/bs)`: `ParseStreamDirectory` reads `ceil(4 * K / bs)` consecutive 32-bit
words at offset 52, the indices of the directory-index blocks; the first `K` words of the
concatenation of those blocks are the indices of the directory blocks; and the directory
payload it parses is the first `D` bytes of the concatenation of the directory blocks.
This holds when the words at offset 52 and the blocks named at both levels lie inside the
file and the contiguity test of `CoalesceDataFromStream` is exact on both block lists. -/
theorem ParseStreamDirectory_directory_two_level (file : Bytes) (sb : PDBSuperBlock)
    (hbs : 1 ≤ sb.m_BlockSize) (hD : 1 ≤ sb.m_DirectorySize)
    (hD32 : sb.m_DirectorySize + (sb.m_BlockSize - 1) < 4294967296)
    (hK32 : 4 * ceilDiv sb.m_DirectorySize sb.m_BlockSize + (sb.m_BlockSize - 1) < 4294967296)
    (h32 : file.length ≤ 4294967296)
    (h52 : 52 + 4 * (directoryIndexBlockIndices file sb).length ≤ file.length)
    (hE : ∀ e ∈ directoryIndexBlockIndices file sb,
      e * sb.m_BlockSize + sb.m_BlockSize ≤ file.length)
    (hB : ∀ b ∈ directoryBlockIndices file sb,
      b * sb.m_BlockSize + sb.m_BlockSize ≤ file.length)
    (hxE : ContiguityTestExact (directoryIndexBlockIndices file sb))
    (hxB : ContiguityTestExact (directoryBlockIndices file sb)) :
    (directoryIndexBlockIndices file sb).length
        = ceilDiv (4 * ceilDiv sb.m_DirectorySize sb.m_BlockSize) sb.m_BlockSize
      ∧ (directoryBlockIndices file sb).length = ceilDiv sb.m_DirectorySize sb.m_BlockSize
      ∧ (directoryTwoLevel file sb).length = sb.m_DirectorySize
      ∧ ParseStreamDirectory.directoryData (ImmutableStream.ofBytes file) sb
          = some (directoryTwoLevel file sb)
      ∧ ParseStreamDirectory (ImmutableStream.ofBytes file) sb
          = ParseStreamDirectory.parseDirectory (directoryTwoLevel file sb) sb.m_BlockSize := by
  have hd := directoryData_two_level file sb hbs hD hD32 hK32 h32 h52 hE hB hxE hxB
  have hlB : (directoryBlockIndices file sb).length
      = ceilDiv sb.m_DirectorySize sb.m_BlockSize := length_wordsOf _ _
  refine ⟨length_wordsOf _ _, hlB, ?_, hd, ?_⟩
  · exact length_streamContentSpec file sb.m_BlockSize sb.m_DirectorySize _ hB
      (by rw [hlB]; exact le_ceilDiv_mul _ _ hbs)
  · unfold ParseStreamDirectory
    rw [hd]

/-- Witness of C27, amended: `emptyStreamPdb`, where the word at offset 52 names block 3,
block 3 names block 4, and block 4 holds the directory. -/
theorem ParseStreamDirectory_directory_two_level_witness :
    directoryIndexBlockIndices emptyStreamPdb emptySuperBlock = [3]
      ∧ directoryBlockIndices emptyStreamPdb emptySuperBlock = [4]
      ∧ directoryTwoLevel emptyStreamPdb emptySuperBlock = toLe32 1 ++ toLe32 0
      ∧ ParseStreamDirectory.directoryData (ImmutableStream.ofBytes emptyStreamPdb)
          emptySuperBlock = some (directoryTwoLevel emptyStreamPdb emptySuperBlock) :=
  ⟨by decide!, by decide!, by decide!,
    (ParseStreamDirectory_directory_two_level emptyStreamPdb emptySuperBlock (by decide)
      (by decide) (by decide) (by decide) (by decide!) (by decide!) (by decide!) (by decide!)
      (by unfold ContiguityTestExact; decide!) (by unfold ContiguityTestExact; decide!)).2.2.2.1⟩

/-! ### Lemmas on the run of the block cursor, the directory size and the parallel
runner -/

theorem length_AssignNextNBlocks (bs : Nat) :
    ∀ (n c : Nat), (AssignNextNBlocks bs n c).1.length = n := by
  intro n
  induction n with
  | zero => intro c; rfl
  | succ n ih =>
    intro c
    simp only [AssignNextNBlocks, List.length_cons, ih]

theorem AssignNextNBlocks_succ (bs n c : Nat) :
    AssignNextNBlocks bs (n + 1) c
      = ((AssignNextNBlocks.next bs c).1
          :: (AssignNextNBlocks bs n (AssignNextNBlocks.next bs c).2).1,
        (AssignNextNBlocks bs n (AssignNextNBlocks.next bs c).2).2) := by
  simp only [AssignNextNBlocks]

theorem next_snd_lt (bs c : Nat) : (AssignNextNBlocks.next bs c).2 < 4294967296 := by
  unfold AssignNextNBlocks.next
  split
  · exact Nat.mod_lt _ (by norm_num)
  · split
    · exact Nat.mod_lt _ (by norm_num)
    · exact Nat.mod_lt _ (by norm_num)

theorem AssignNextNBlocks_snd_lt (bs : Nat) :
    ∀ (n c : Nat), c < 4294967296 → (AssignNextNBlocks bs n c).2 < 4294967296 := by
  intro n
  induction n with
  | zero => intro c hc; exact hc
  | succ n ih =>
    intro c _
    rw [AssignNextNBlocks_succ]
    exact ih _ (next_snd_lt bs c)

theorem streams_flatten (bs : Nat) :
    ∀ (descs : List (List MsfzFragment)) (c t : Nat) (r : List (List Nat) × Nat × Nat),
      AssignBlocksToStreams.streams bs descs c t = some r →
      r.1.flatten = (AssignNextNBlocks bs r.1.flatten.length c).1
        ∧ r.2.1 = (AssignNextNBlocks bs r.1.flatten.length c).2
        ∧ r.1.length = descs.length
        ∧ (c < 4294967296 →
            ∀ l ∈ r.1, ∃ n c1, c1 < 4294967296 ∧ l = (AssignNextNBlocks bs n c1).1) := by
  intro descs
  induction descs with
  | nil =>
    intro c t r h
    simp only [AssignBlocksToStreams.streams, Option.some.injEq] at h
    subst h
    exact ⟨rfl, rfl, rfl, fun _ l hl => by simp at hl⟩
  | cons d rest ih =>
    intro c t r h
    simp only [AssignBlocksToStreams.streams] at h
    cases hsz : CalculateSize d with
    | none => simp [hsz] at h
    | some sz =>
      simp only [hsz, Option.map_eq_some'] at h
      obtain ⟨r1, hr1, rfl⟩ := h
      obtain ⟨i1, i2, i3, i4⟩ := ih _ _ r1 hr1
      simp only [List.flatten_cons, List.length_append, length_AssignNextNBlocks,
        List.length_cons]
      rw [AssignNextNBlocks_append]
      simp only
      refine ⟨?_, ?_, by rw [i3], ?_⟩
      · rw [← i1]
      · rw [← i2]
      · intro hc l hl
        simp only [List.mem_cons] at hl
        rcases hl with rfl | hl
        · exact ⟨_, c, hc, rfl⟩
        · exact i4 (AssignNextNBlocks_snd_lt bs _ c hc) l hl

theorem assignedBlocks_eq (descs : List (List MsfzFragment)) (bs : Nat) (a : BlockAssignment)
    (h : AssignBlocksToStreams descs bs = some a) :
    a.assignedBlocks = (AssignNextNBlocks bs a.assignedBlocks.length 3).1
      ∧ a.outNumBlocks = (AssignNextNBlocks bs a.assignedBlocks.length 3).2
      ∧ a.outBlocksForStreams.length = descs.length
      ∧ (∀ l ∈ a.outBlocksForStreams ++ [a.outBlocksForDirectory, a.outBlocksForDirectoryIndices],
          ∃ n c1, c1 < 4294967296 ∧ l = (AssignNextNBlocks bs n c1).1) := by
  unfold AssignBlocksToStreams at h
  cases hs : AssignBlocksToStreams.streams bs descs 3 4 with
  | none => simp [hs] at h
  | some r =>
    obtain ⟨ls, c1, t⟩ := r
    simp only [hs] at h
    cases h1 : StrictCastTo32 (AlignTo64 t bs / bs) with
    | none => simp [h1] at h
    | some nd =>
      simp only [h1] at h
      cases h2 : StrictCastTo32 (AlignTo64 (nd * 4) bs / bs) with
      | none => simp [h2] at h
      | some ni =>
        simp only [h2, Option.some.injEq] at h
        subst h
        obtain ⟨i1, i2, i3, i4⟩ := streams_flatten bs descs 3 4 _ hs
        simp only at i1 i2 i3 i4
        have hc1 : c1 < 4294967296 := by
          rw [i2]
          exact AssignNextNBlocks_snd_lt bs _ 3 (by norm_num)
        simp only [BlockAssignment.assignedBlocks, List.length_append,
          length_AssignNextNBlocks]
        rw [AssignNextNBlocks_append bs ls.flatten.length (nd + ni) 3,
          AssignNextNBlocks_append bs nd ni]
        simp only
        rw [← i1, ← i2]
        refine ⟨rfl, rfl, i3, ?_⟩
        intro l hl
        simp only [List.mem_append, List.mem_cons, List.mem_singleton, List.not_mem_nil,
          or_false] at hl
        rcases hl with hl | rfl | rfl
        · exact i4 (by norm_num) l hl
        · exact ⟨_, c1, hc1, rfl⟩
        · exact ⟨_, _, AssignNextNBlocks_snd_lt bs nd c1 hc1, rfl⟩

theorem next_of_lt (bs c : Nat) (hc : c < 4294967296)
    (h : c < (AssignNextNBlocks.next bs c).2) :
    c ≤ (AssignNextNBlocks.next bs c).1
      ∧ (AssignNextNBlocks.next bs c).2 = (AssignNextNBlocks.next bs c).1 + 1 := by
  unfold AssignNextNBlocks.next at h ⊢
  split
  · rename_i h1
    rw [if_pos h1] at h
    simp only at h ⊢
    omega
  · rename_i h1
    rw [if_neg h1] at h
    split
    · rename_i h2
      rw [if_pos h2] at h
      simp only at h ⊢
      omega
    · rename_i h2
      rw [if_neg h2] at h
      simp only at h ⊢
      omega

theorem noOverflow_spec (bs : Nat) :
    ∀ (n c : Nat), c < 4294967296 → AssignNextNBlocks.noOverflow bs n c = true →
      (AssignNextNBlocks bs n c).1.Pairwise (· < ·)
        ∧ (∀ b ∈ (AssignNextNBlocks bs n c).1, c ≤ b ∧ b < (AssignNextNBlocks bs n c).2)
        ∧ c ≤ (AssignNextNBlocks bs n c).2 := by
  intro n
  induction n with
  | zero =>
    intro c _ _
    exact ⟨List.Pairwise.nil, fun b hb => by simp [AssignNextNBlocks] at hb, Nat.le_refl _⟩
  | succ n ih =>
    intro c hc h
    simp only [AssignNextNBlocks.noOverflow, Bool.and_eq_true, decide_eq_true_eq] at h
    obtain ⟨hlt, hrest⟩ := h
    obtain ⟨g1, g2⟩ := next_of_lt bs c hc hlt
    obtain ⟨i1, i2, i3⟩ := ih _ (next_snd_lt bs c) hrest
    rw [AssignNextNBlocks_succ]
    simp only
    refine ⟨List.pairwise_cons.mpr ⟨fun b hb => ?_, i1⟩, fun b hb => ?_, by omega⟩
    · have := i2 b hb
      omega
    · simp only [List.mem_cons] at hb
      rcases hb with rfl | hb
      · omega
      · have := i2 b hb
        omega

theorem next_snd_eq (bs c : Nat) :
    (AssignNextNBlocks.next bs c).2 = ((AssignNextNBlocks.next bs c).1 + 1) % 4294967296 := by
  unfold AssignNextNBlocks.next
  split
  · rfl
  · split
    · simp only
      omega
    · simp only
      omega

theorem next_fst_lt (bs c : Nat) (hc : c < 4294967296) :
    (AssignNextNBlocks.next bs c).1 < 4294967296 := by
  unfold AssignNextNBlocks.next
  split
  · exact hc
  · split
    · exact Nat.mod_lt _ (by norm_num)
    · exact Nat.mod_lt _ (by norm_num)

theorem next_fst_not_reserved (bs c : Nat) (hbs : 4 ≤ bs) (hc : c < 4294967296) :
    IsBlockReserved (AssignNextNBlocks.next bs c).1 bs = false := by
  unfold AssignNextNBlocks.next
  split
  · rename_i h1
    exact h1
  · rename_i h1
    split
    · rename_i h2
      exact h2
    · rename_i h2
      simp only
      simp only [IsBlockReserved_false_iff, not_and_or, not_not] at h1 h2 ⊢
      by_cases hw1 : c + 1 < 4294967296
      · rw [Nat.mod_eq_of_lt hw1] at h2
        have hc1 : c % bs = 1 := by
          rcases h1 with h1 | h1
          · exact h1
          · rcases h2 with h2 | h2
            · have := Nat.mod_lt c (by omega : 0 < bs)
              have e : (c + 1) % bs = (c % bs + 1) % bs := by
                rw [Nat.add_mod, Nat.mod_eq_of_lt (by omega : 1 < bs)]
              rw [e, h1, Nat.mod_eq_of_lt (by omega)] at h2
              omega
            · have e : (c + 1) % bs = (c % bs + 1) % bs := by
                rw [Nat.add_mod, Nat.mod_eq_of_lt (by omega : 1 < bs)]
              rw [e, h1, Nat.mod_eq_of_lt (by omega)] at h2
              omega
        by_cases hw2 : c + 2 < 4294967296
        · rw [Nat.mod_eq_of_lt hw2]
          have e : (c + 2) % bs = (c % bs + 2) % bs := by
            rw [Nat.add_mod, Nat.mod_eq_of_lt (by omega : 2 < bs)]
          rw [e, hc1, Nat.mod_eq_of_lt (by omega)]
          omega
        · have e : c + 2 = 4294967296 := by omega
          rw [e, Nat.mod_self, Nat.zero_mod]
          omega
      · have e : c + 1 = 4294967296 := by omega
        rw [e, Nat.mod_self, Nat.zero_mod] at h2
        omega

/-- The index handed out after `b`: the first index from `b + 1` on (modulo `2^32`) that
is not reserved. -/
theorem AssignNextNBlocks_chain (bs : Nat) :
    ∀ (n b : Nat),
      List.Chain (fun x y => y = (AssignNextNBlocks.next bs ((x + 1) % 4294967296)).1) b
        (AssignNextNBlocks bs n ((b + 1) % 4294967296)).1 := by
  intro n
  induction n with
  | zero => intro b; exact List.Chain.nil
  | succ n ih =>
    intro b
    rw [AssignNextNBlocks_succ]
    simp only
    refine List.Chain.cons rfl ?_
    rw [next_snd_eq]
    exact ih _

theorem AssignNextNBlocks_mem (bs : Nat) (hbs : 4 ≤ bs) :
    ∀ (n c : Nat), c < 4294967296 → ∀ b ∈ (AssignNextNBlocks bs n c).1,
      b < 4294967296 ∧ IsBlockReserved b bs = false := by
  intro n
  induction n with
  | zero => intro c _ b hb; simp [AssignNextNBlocks] at hb
  | succ n ih =>
    intro c hc b hb
    rw [AssignNextNBlocks_succ] at hb
    simp only [List.mem_cons] at hb
    rcases hb with rfl | hb
    · exact ⟨next_fst_lt bs c hc, next_fst_not_reserved bs c hbs hc⟩
    · exact ih _ (next_snd_lt bs c) b hb

theorem step_cases (bs b b1 : Nat) (hbs : 4 ≤ bs) (hb : b < 4294967296)
    (hres : IsBlockReserved b bs = false)
    (hstep : b1 = (AssignNextNBlocks.next bs ((b + 1) % 4294967296)).1) (hle : b ≤ b1) :
    (b1 = b + 1 ∨ b1 = b + 3) ∧ b1 < 4294967296 ∧ IsBlockReserved b1 bs = false := by
  have hlt1 := next_fst_lt bs ((b + 1) % 4294967296) (Nat.mod_lt _ (by norm_num))
  have hnr := next_fst_not_reserved bs ((b + 1) % 4294967296) hbs (Nat.mod_lt _ (by norm_num))
  rw [← hstep] at hlt1 hnr
  refine ⟨?_, hlt1, hnr⟩
  have hpos : 0 < bs := by omega
  simp only [IsBlockReserved_false_iff] at hres
  by_cases hw : b + 1 < 4294967296
  · rw [Nat.mod_eq_of_lt hw] at hstep
    unfold AssignNextNBlocks.next at hstep
    split at hstep
    · left; exact hstep
    · rename_i h1
      split at hstep
      · rename_i h2
        exfalso
        simp only [IsBlockReserved_false_iff, not_and_or, not_not] at h1
        have e1 : (b + 1) % bs = (b % bs + 1) % bs := by
          rw [Nat.add_mod, Nat.mod_eq_of_lt (by omega : 1 < bs)]
        have hlb := Nat.mod_lt b hpos
        have hb0 : b % bs = 0 := by
          rcases h1 with h1 | h1
          · rw [e1] at h1
            by_cases hq : b % bs + 1 < bs
            · rw [Nat.mod_eq_of_lt hq] at h1; omega
            · have : b % bs + 1 = bs := by omega
              rw [this, Nat.mod_self] at h1; omega
          · rw [e1] at h1
            by_cases hq : b % bs + 1 < bs
            · rw [Nat.mod_eq_of_lt hq] at h1; omega
            · have : b % bs + 1 = bs := by omega
              rw [this, Nat.mod_self] at h1; omega
        by_cases hw2 : b + 1 + 1 < 4294967296
        · rw [Nat.mod_eq_of_lt hw2] at h2
          simp only [IsBlockReserved_false_iff] at h2
          have e2 : (b + 1 + 1) % bs = (b % bs + 2) % bs := by
            rw [Nat.add_assoc, Nat.add_mod, Nat.mod_eq_of_lt (by omega : 1 + 1 < bs)]
          rw [e2, hb0, Nat.mod_eq_of_lt (by omega)] at h2
          omega
        · have e : b + 1 + 1 = 4294967296 := by omega
          rw [e, Nat.mod_self] at hstep
          omega
      · rename_i h2
        simp only at hstep
        by_cases hw3 : b + 1 + 2 < 4294967296
        · rw [Nat.mod_eq_of_lt hw3] at hstep
          right; omega
        · exfalso
          have : (b + 1 + 2) % 4294967296 = b + 1 + 2 - 4294967296 := by omega
          omega
  · exfalso
    have e : b + 1 = 4294967296 := by omega
    rw [e, Nat.mod_self] at hstep
    have h0 : (AssignNextNBlocks.next bs 0).1 = 0 := by
      unfold AssignNextNBlocks.next
      rw [if_pos (by simp [IsBlockReserved])]
    omega

theorem getLast?_cons_getD (b : Nat) (l : List Nat) (d : Nat) :
    (b :: l).getLast?.getD d = l.getLast?.getD b := by
  cases l with
  | nil => rfl
  | cons c t =>
    rw [List.getLast?_cons_cons]
    cases h : (c :: t).getLast? with
    | none => simp at h
    | some x => rfl

theorem is_sorted_cons (a b : Nat) (l : List Nat) :
    is_sorted (a :: b :: l) = true ↔ a ≤ b ∧ is_sorted (b :: l) = true := by
  simp [is_sorted]

theorem chain_contiguous (bs : Nat) (hbs : 4 ≤ bs) :
    ∀ (l : List Nat) (b0 : Nat),
      List.Chain (fun x y => y = (AssignNextNBlocks.next bs ((x + 1) % 4294967296)).1) b0 l →
      b0 < 4294967296 → IsBlockReserved b0 bs = false → is_sorted (b0 :: l) = true →
      b0 + l.length ≤ l.getLast?.getD b0
        ∧ l.getLast?.getD b0 < 4294967296
        ∧ (l.getLast?.getD b0 ≤ b0 + l.length + 1 → l = List.range' (b0 + 1) l.length) := by
  intro l
  induction l with
  | nil =>
    intro b0 _ hb _ _
    exact ⟨by simp, by simpa using hb, fun _ => rfl⟩
  | cons b1 rest ih =>
    intro b0 hch hb hres hs
    rw [List.chain_cons] at hch
    obtain ⟨hstep, hch1⟩ := hch
    rw [is_sorted_cons] at hs
    obtain ⟨hle, hs1⟩ := hs
    obtain ⟨hd, hb1, hres1⟩ := step_cases bs b0 b1 hbs hb hres hstep hle
    obtain ⟨i1, i2, i3⟩ := ih b1 hch1 hb1 hres1 hs1
    rw [getLast?_cons_getD]
    simp only [List.length_cons]
    refine ⟨by omega, i2, fun hlast => ?_⟩
    rcases hd with hd | hd
    · have := i3 (by omega)
      rw [List.range'_succ, ← hd, ← this]
    · omega

theorem contiguity_exact (bs : Nat) (hbs : 4 ≤ bs) (n c : Nat) (hc : c < 4294967296)
    (hn : (AssignNextNBlocks bs n c).1 ≠ []) :
    areStreamBlocksContiguous (AssignNextNBlocks bs n c).1 = true
      ↔ (AssignNextNBlocks bs n c).1
          = List.range' ((AssignNextNBlocks bs n c).1.headD 0) (AssignNextNBlocks bs n c).1.length := by
  cases n with
  | zero => exact absurd rfl hn
  | succ n =>
    have hch := AssignNextNBlocks_chain bs n (AssignNextNBlocks.next bs c).1
    rw [← next_snd_eq] at hch
    have hb0 := next_fst_lt bs c hc
    have hres := next_fst_not_reserved bs c hbs hc
    rw [AssignNextNBlocks_succ]
    simp only
    generalize (AssignNextNBlocks.next bs c).1 = b0 at hch hb0 hres ⊢
    generalize (AssignNextNBlocks bs n (AssignNextNBlocks.next bs c).2).1 = l at hch ⊢
    simp only [List.headD_cons, List.length_cons]
    unfold areStreamBlocksContiguous
    have hlast : (b0 :: l).getLast? = some (l.getLast?.getD b0) := by
      rw [List.getLast?_eq_getLast _ (List.cons_ne_nil _ _),
        getLast_cons_eq_getD b0 l (List.cons_ne_nil _ _)]
    rw [hlast]
    simp only [List.head?_cons, Bool.and_eq_true, decide_eq_true_eq, List.length_cons]
    constructor
    · rintro ⟨hs, hle⟩
      obtain ⟨i1, i2, i3⟩ := chain_contiguous bs hbs l b0 hch hb0 hres hs
      rw [List.range'_succ, ← i3 (by omega)]
    · intro h
      have hs : is_sorted (b0 :: l) = true := by
        rw [h]; exact is_sorted_range' _ _
      obtain ⟨i1, i2, _⟩ := chain_contiguous bs hbs l b0 hch hb0 hres hs
      refine ⟨hs, ?_⟩
      have hl : l = List.range' (b0 + 1) l.length := by
        rw [List.range'_succ] at h
        exact List.tail_eq_of_cons_eq h
      have hlast2 : l.getLast?.getD b0 = b0 + l.length := by
        cases hlen : l.length with
        | zero =>
          have : l = [] := List.length_eq_zero.mp hlen
          subst this
          rfl
        | succ m =>
          rw [hl, hlen, List.range'_concat, List.getLast?_concat]
          simp only [Option.getD_some]
          omega
      rw [hlast2]
      omega

theorem streams_replicate (bs : Nat) (d : List MsfzFragment) (s nb : Nat)
    (hs : CalculateSize d = some s) (hnb : AlignTo s bs / bs = nb) :
    ∀ (N c t : Nat),
      ∃ ls, AssignBlocksToStreams.streams bs (List.replicate N d) c t
          = some (ls, (AssignNextNBlocks bs (N * nb) c).2, t + N * (4 + 4 * nb))
        ∧ ls.length = N := by
  intro N
  induction N with
  | zero =>
    intro c t
    exact ⟨[], by simp [AssignBlocksToStreams.streams, AssignNextNBlocks], rfl⟩
  | succ N ih =>
    intro c t
    obtain ⟨ls, h1, h2⟩ := ih (AssignNextNBlocks bs nb c).2 (t + (4 + 4 * nb))
    refine ⟨(AssignNextNBlocks bs nb c).1 :: ls, ?_, by simp [h2]⟩
    rw [List.replicate_succ]
    simp only [AssignBlocksToStreams.streams, hs, hnb]
    rw [h1]
    simp only [Option.map_some', Option.some.injEq, Prod.mk.injEq, true_and]
    constructor
    · have e : (N + 1) * nb = nb + N * nb := by ring
      rw [e, AssignNextNBlocks_append_snd]
    · ring

theorem AssignBlocksToStreams_eval (bs : Nat) (descs : List (List MsfzFragment))
    (ls : List (List Nat)) (c1 t nd ni : Nat)
    (hs : AssignBlocksToStreams.streams bs descs 3 4 = some (ls, c1, t))
    (hnd : StrictCastTo32 (AlignTo64 t bs / bs) = some nd)
    (hni : StrictCastTo32 (AlignTo64 (nd * 4) bs / bs) = some ni) :
    AssignBlocksToStreams descs bs
      = some { outBlocksForStreams := ls,
               outBlocksForDirectory := (AssignNextNBlocks bs nd c1).1,
               outBlocksForDirectoryIndices :=
                 (AssignNextNBlocks bs ni (AssignNextNBlocks bs nd c1).2).1,
               outBlocksForFreeBlockMap :=
                 (List.range (AlignTo (AlignTo
                    (AssignNextNBlocks bs ni (AssignNextNBlocks bs nd c1).2).2 8 / 8) bs
                    / bs)).map (fun i => (i * bs + 1) % 4294967296),
               outNumBlocks := (AssignNextNBlocks bs ni (AssignNextNBlocks bs nd c1).2).2 } := by
  unfold AssignBlocksToStreams
  simp only [hs, hnd, hni]

theorem fpmWrap_cursor : (AssignNextNBlocks 512 4278190077 3).2 = 4294967294 :=
  AssignNextNBlocks_cursor3 512 510 4278189060 (506 + 1) 4278190077 513 4294966785 4294967294 3
    (by norm_num)
    (AssignNextNBlocks_segment_snd 512 0 510 3 513 (by norm_num) (by norm_num)
      (by norm_num) (by norm_num))
    (AssignNextNBlocks_periods_eq 512 8388606 1 4278189060 513 4294966785 (by norm_num)
      (by norm_num) (by norm_num) (by norm_num) (by norm_num))
    (AssignNextNBlocks_skip_eq 512 8388607 506 4294966785 4294967294 (by norm_num)
      (by norm_num) (by norm_num) (by norm_num) (by norm_num))

theorem AssignBlocksToStreams_of_cursor (bs : Nat) (descs : List (List MsfzFragment))
    (ls : List (List Nat)) (B t nd ni T c3 : Nat)
    (hs : AssignBlocksToStreams.streams bs descs 3 4
      = some (ls, (AssignNextNBlocks bs B 3).2, t))
    (hnd : StrictCastTo32 (AlignTo64 t bs / bs) = some nd)
    (hni : StrictCastTo32 (AlignTo64 (nd * 4) bs / bs) = some ni)
    (hT : B + (nd + ni) = T) (hc3 : (AssignNextNBlocks bs T 3).2 = c3)
    (hfpm : AlignTo (AlignTo c3 8 / 8) bs / bs = 0) :
    ∃ a, AssignBlocksToStreams descs bs = some a
      ∧ a.outBlocksForStreams = ls
      ∧ a.outBlocksForDirectory.length = nd
      ∧ a.outBlocksForDirectoryIndices.length = ni
      ∧ a.outNumBlocks = c3
      ∧ a.outBlocksForFreeBlockMap = [] := by
  have e := AssignBlocksToStreams_eval bs descs ls _ t nd ni hs hnd hni
  have hc : (AssignNextNBlocks bs ni
      (AssignNextNBlocks bs nd (AssignNextNBlocks bs B 3).2).2).2 = c3 := by
    rw [← AssignNextNBlocks_append_snd, ← AssignNextNBlocks_append_snd, hT]
    exact hc3
  rw [hc] at e
  refine ⟨_, e, rfl, ?_, ?_, rfl, ?_⟩
  · dsimp only
    rw [length_AssignNextNBlocks]
  · dsimp only
    rw [length_AssignNextNBlocks]
  · dsimp only
    rw [hfpm]
    rfl

theorem fpmWrap_assign :
    ∃ a, AssignBlocksToStreams fpmWrapDescriptors 512 = some a
      ∧ a.outBlocksForStreams.length = 516
      ∧ a.outBlocksForDirectory.length = 33162260
      ∧ a.outBlocksForDirectoryIndices.length = 259081
      ∧ a.outNumBlocks = 4294967294
      ∧ a.outBlocksForFreeBlockMap = [] := by
  obtain ⟨ls, h1, h2⟩ := streams_replicate 512
    [{ m_DataSize := 4211863552, m_DataOffset := 0, m_ChunkIndexOrDataOrigin := 0 }]
    4211863552 8226296 (by decide) (by decide) 516 3 4
  obtain ⟨a, g1, g2, g3, g4, g5, g6⟩ := AssignBlocksToStreams_of_cursor 512 fpmWrapDescriptors
    ls (516 * 8226296) (4 + 516 * (4 + 4 * 8226296)) 33162260 259081 4278190077 4294967294
    h1 (by decide) (by decide) (by norm_num) fpmWrap_cursor (by decide)
  exact ⟨a, g1, by rw [g2]; exact h2, g3, g4, g5, g6⟩

theorem freeBlockMap_eq (descs : List (List MsfzFragment)) (bs : Nat) (a : BlockAssignment)
    (h : AssignBlocksToStreams descs bs = some a) :
    a.outBlocksForFreeBlockMap
      = (List.range (AlignTo (AlignTo a.outNumBlocks 8 / 8) bs / bs)).map
          (fun i => (i * bs + 1) % 4294967296) := by
  unfold AssignBlocksToStreams at h
  cases hs : AssignBlocksToStreams.streams bs descs 3 4 with
  | none => simp [hs] at h
  | some r =>
    obtain ⟨ls, c1, t⟩ := r
    simp only [hs] at h
    cases h1 : StrictCastTo32 (AlignTo64 t bs / bs) with
    | none => simp [h1] at h
    | some nd =>
      simp only [h1] at h
      cases h2 : StrictCastTo32 (AlignTo64 (nd * 4) bs / bs) with
      | none => simp [h2] at h
      | some ni =>
        simp only [h2, Option.some.injEq] at h
        subst h
        rfl

theorem mul_lt_of_lt_ceilDiv (i x bs : Nat) (hbs : 1 ≤ bs) (h : i < ceilDiv x bs) :
    i * bs + 1 ≤ x := by
  unfold ceilDiv at h
  have h1 : (i + 1) * bs ≤ x + bs - 1 := by
    have := Nat.div_mul_le_self (x + bs - 1) bs
    have h2 : (i + 1) * bs ≤ (x + bs - 1) / bs * bs := Nat.mul_le_mul_right bs h
    omega
  rw [Nat.add_mul] at h1
  omega

/-- The free block map list of `AssignBlocksToStreams` when nothing wraps: the entries
`i * bs + 1` for `i` below `ceil(ceil(M/8)/bs)`, each below `M`, reserved and handed out
to no stream, directory or directory-index block, with room for `M` bits. -/
theorem AssignBlocksToStreams_freeBlockMap_of_noOverflow
    (descs : List (List MsfzFragment)) (bs : Nat) (a : BlockAssignment)
    (hbs : 4 ≤ bs) (hbs2 : bs ≤ 8192) (h : AssignBlocksToStreams descs bs = some a)
    (hno : AssignNextNBlocks.noOverflow bs a.assignedBlocks.length 3 = true)
    (hM : a.outNumBlocks + 7 < 4294967296) :
    a.outBlocksForFreeBlockMap
        = (List.range (ceilDiv (ceilDiv a.outNumBlocks 8) bs)).map (fun i => i * bs + 1)
      ∧ (∀ b ∈ a.outBlocksForFreeBlockMap,
          b < a.outNumBlocks ∧ IsBlockReserved b bs = true ∧ b ∉ a.assignedBlocks)
      ∧ a.outNumBlocks ≤ a.outBlocksForFreeBlockMap.length * bs * 8 := by
  obtain ⟨e1, e2, _, _⟩ := assignedBlocks_eq descs bs a h
  obtain ⟨_, _, p3⟩ := noOverflow_spec bs a.assignedBlocks.length 3 (by norm_num) hno
  rw [← e2] at p3
  have hX : ceilDiv a.outNumBlocks 8 < a.outNumBlocks := by
    unfold ceilDiv
    omega
  have hX2 : ceilDiv a.outNumBlocks 8 ≤ 536870912 := by
    unfold ceilDiv
    omega
  have hfm := freeBlockMap_eq descs bs a h
  rw [AlignTo_div_eq_ceilDiv a.outNumBlocks 8 (by norm_num) (by norm_num) (by omega),
    AlignTo_div_eq_ceilDiv (ceilDiv a.outNumBlocks 8) bs (by omega) (by omega)
      (by omega)] at hfm
  have hmap : (List.range (ceilDiv (ceilDiv a.outNumBlocks 8) bs)).map
      (fun i => (i * bs + 1) % 4294967296)
      = (List.range (ceilDiv (ceilDiv a.outNumBlocks 8) bs)).map (fun i => i * bs + 1) := by
    apply List.map_congr_left
    intro i hi
    have := mul_lt_of_lt_ceilDiv i _ bs (by omega) (List.mem_range.mp hi)
    exact Nat.mod_eq_of_lt (by omega)
  rw [hmap] at hfm
  refine ⟨hfm, ?_, ?_⟩
  · intro b hb
    rw [hfm] at hb
    obtain ⟨i, hi, rfl⟩ := List.mem_map.mp hb
    have hle := mul_lt_of_lt_ceilDiv i _ bs (by omega) (List.mem_range.mp hi)
    have hres : IsBlockReserved (i * bs + 1) bs = true := by
      unfold IsBlockReserved
      rw [Nat.mul_add_mod_of_lt (by omega)]
      rfl
    refine ⟨by omega, hres, ?_⟩
    intro hmem
    rw [e1] at hmem
    have := (AssignNextNBlocks_mem bs hbs _ 3 (by norm_num) _ hmem).2
    rw [hres] at this
    exact absurd this (by decide)
  · rw [hfm, List.length_map, List.length_range]
    have h1 := le_ceilDiv_mul (ceilDiv a.outNumBlocks 8) bs (by omega)
    have h2 := le_ceilDiv_mul a.outNumBlocks 8 (by norm_num)
    calc a.outNumBlocks ≤ ceilDiv a.outNumBlocks 8 * 8 := h2
      _ ≤ ceilDiv (ceilDiv a.outNumBlocks 8) bs * bs * 8 := Nat.mul_le_mul_right 8 h1

theorem streams_total (bs : Nat) :
    ∀ (descs : List (List MsfzFragment)) (c t : Nat) (r : List (List Nat) × Nat × Nat),
      AssignBlocksToStreams.streams bs descs c t = some r →
      r.1.map List.length
          = descs.map (fun d => AlignTo ((CalculateSize d).getD 0) bs / bs)
        ∧ r.2.2 = t + 4 * descs.length + 4 * r.1.flatten.length := by
  intro descs
  induction descs with
  | nil =>
    intro c t r h
    simp only [AssignBlocksToStreams.streams, Option.some.injEq] at h
    subst h
    exact ⟨rfl, rfl⟩
  | cons d rest ih =>
    intro c t r h
    simp only [AssignBlocksToStreams.streams] at h
    cases hsz : CalculateSize d with
    | none => simp [hsz] at h
    | some sz =>
      simp only [hsz, Option.map_eq_some'] at h
      obtain ⟨r1, hr1, rfl⟩ := h
      obtain ⟨i1, i2⟩ := ih _ _ r1 hr1
      refine ⟨?_, ?_⟩
      · simp only [List.map_cons, length_AssignNextNBlocks, i1, hsz, Option.getD_some]
      · simp only [List.flatten_cons, List.length_append, List.length_cons,
          length_AssignNextNBlocks, i2]
        ring

/-- The directory size `AssignBlocksToStreams` projects, when no stream size is within a
block of `2^32`: `4 + 4 * N + 4 * sum of ceil(size/bs)`, with `ceil(directorySize/bs)`
directory blocks and `ceil(4 * directoryBlockCount / bs)` directory-index blocks. -/
theorem AssignBlocksToStreams_directory_size_of_noWrap (descs : List (List MsfzFragment))
    (sizes : List Nat) (bs : Nat) (a : BlockAssignment) (hbs : 1 ≤ bs) (hbs2 : bs ≤ 4294967296)
    (hsz : descs.map CalculateSize = sizes.map some)
    (hs : ∀ s ∈ sizes, s + (bs - 1) < 4294967296)
    (h : AssignBlocksToStreams descs bs = some a) :
    a.outBlocksForStreams.map List.length = sizes.map (fun s => ceilDiv s bs)
      ∧ a.outBlocksForDirectory.length
          = ceilDiv (4 + 4 * descs.length + 4 * (sizes.map (fun s => ceilDiv s bs)).sum) bs
      ∧ a.outBlocksForDirectoryIndices.length
          = ceilDiv (4 * a.outBlocksForDirectory.length) bs := by
  unfold AssignBlocksToStreams at h
  cases hst : AssignBlocksToStreams.streams bs descs 3 4 with
  | none => simp [hst] at h
  | some r =>
    obtain ⟨ls, c1, t⟩ := r
    simp only [hst] at h
    cases h1 : StrictCastTo32 (AlignTo64 t bs / bs) with
    | none => simp [h1] at h
    | some nd =>
      simp only [h1] at h
      cases h2 : StrictCastTo32 (AlignTo64 (nd * 4) bs / bs) with
      | none => simp [h2] at h
      | some ni =>
        simp only [h2, Option.some.injEq] at h
        subst h
        obtain ⟨i1, i2⟩ := streams_total bs descs 3 4 _ hst
        simp only at i1 i2
        have hlen : ls.map List.length = sizes.map (fun s => ceilDiv s bs) := by
          rw [i1]
          have e : descs.map (fun d => AlignTo ((CalculateSize d).getD 0) bs / bs)
              = (descs.map CalculateSize).map (fun o => AlignTo (o.getD 0) bs / bs) := by
            rw [List.map_map]; rfl
          rw [e, hsz, List.map_map]
          apply List.map_congr_left
          intro s hs1
          simp only [Function.comp, Option.getD_some]
          exact AlignTo_div_eq_ceilDiv s bs hbs hbs2 (hs s hs1)
        have hfl : ls.flatten.length = (sizes.map (fun s => ceilDiv s bs)).sum := by
          rw [← hlen, List.length_flatten]
        have hnd : nd = ceilDiv t bs := by
          unfold StrictCastTo32 at h1
          split at h1
          · rw [AlignTo64_div t bs (by omega)] at h1
            exact (Option.some.inj h1).symm
          · cases h1
        have hni : ni = ceilDiv (nd * 4) bs := by
          unfold StrictCastTo32 at h2
          split at h2
          · rw [AlignTo64_div (nd * 4) bs (by omega)] at h2
            exact (Option.some.inj h2).symm
          · cases h2
        simp only [length_AssignNextNBlocks]
        refine ⟨hlen, ?_, ?_⟩
        · rw [hnd, i2, hfl]
        · rw [hni, Nat.mul_comm]

theorem directory_reports :
    ∀ (descs : List (List MsfzFragment)) (blockLists : List (List Nat))
      (s1 s2 : MutableStreamFixedWithHoles) (out : Bytes) (t : Nat) (r : Bytes × Nat),
      blockLists.length = descs.length →
      WriteStreamsAndDirectoryToPDB.directory descs blockLists s1 s2 out t = some r →
      r.2 = t + 4 * descs.length + 4 * blockLists.flatten.length := by
  intro descs
  induction descs with
  | nil =>
    intro bl s1 s2 out t r hl h
    have : bl = [] := List.length_eq_zero.mp hl
    subst this
    simp only [WriteStreamsAndDirectoryToPDB.directory, Option.some.injEq] at h
    subst h
    rfl
  | cons d rest ih =>
    intro bl s1 s2 out t r hl h
    cases bl with
    | nil => simp at hl
    | cons b restB =>
      simp only [WriteStreamsAndDirectoryToPDB.directory] at h
      cases hsz : CalculateSize d with
      | none => simp [hsz] at h
      | some sz =>
        simp only [hsz] at h
        cases hw1 : s1.WriteBytes out (toLe32 sz) with
        | none => simp [hw1] at h
        | some r1 =>
          obtain ⟨ok1, s1a, out1⟩ := r1
          simp only [hw1] at h
          cases hw2 : s2.WriteBytes out1 (wordsToBytes b) with
          | none => simp [hw2] at h
          | some r2 =>
            obtain ⟨ok2, s2a, out2⟩ := r2
            simp only [hw2] at h
            have := ih restB s1a s2a out2 _ r (by simpa using hl) h
            rw [this]
            simp only [List.length_cons, List.flatten_cons, List.length_append]
            ring

/-- The directory size `WriteStreamsAndDirectoryToPDB` reports is the one
`AssignBlocksToStreams` projected: 4 bytes, and 4 bytes per stream and per block index. -/
theorem WriteStreamsAndDirectoryToPDB_reports (codec : Codec) (fs : ImmutableStream)
    (chunks : List MsfzChunk) (descs : List (List MsfzFragment)) (bs : Nat)
    (dirBlocks : List Nat) (blockLists : List (List Nat)) (outputFileStream : MutableStreamFixed)
    (order : List Nat) (out0 out : Bytes) (dsz : Nat)
    (hl : blockLists.length = descs.length)
    (h : WriteStreamsAndDirectoryToPDB codec fs chunks descs bs dirBlocks blockLists
      outputFileStream order out0 = some (out, dsz)) :
    dsz = 4 + 4 * descs.length + 4 * blockLists.flatten.length := by
  unfold WriteStreamsAndDirectoryToPDB at h
  cases hn : StrictCastTo32 descs.length with
  | none => simp [hn] at h
  | some n =>
    simp only [hn] at h
    cases hst : WriteStreamsAndDirectoryToPDB.streams codec fs chunks descs bs blockLists
        outputFileStream order out0 with
    | none => simp [hst] at h
    | some out1 =>
      simp only [hst] at h
      cases hw : MutableStreamFixedWithHoles.WriteBytes
          (GetStreamFromBlockIndices outputFileStream dirBlocks bs) out1 (toLe32 n) with
      | none => simp [hw] at h
      | some r =>
        obtain ⟨ok, s1, out2⟩ := r
        simp only [hw] at h
        cases hd : WriteStreamsAndDirectoryToPDB.directory descs blockLists
            ((GetStreamFromBlockIndices outputFileStream dirBlocks bs).GetSubStreamAtOffset 4
              (n * 4))
            ((GetStreamFromBlockIndices outputFileStream dirBlocks bs).GetSubStreamAtOffset
              (4 + n * 4) 0) out2 4 with
        | none => simp [hd] at h
        | some r2 =>
          obtain ⟨out3, d⟩ := r2
          simp only [hd] at h
          have hrep := directory_reports descs blockLists _ _ out2 4 _ hl hd
          simp only at hrep
          unfold StrictCastTo32 at h
          split at h
          · simp only [Option.map_some', Option.some.injEq, Prod.mk.injEq] at h
            rw [← h.2, hrep]
          · simp at h

theorem workerStep_returned_nil {ElementType : Type} (r : ParallelForRunner ElementType)
    (queue : List Nat) (st : ParallelForRunner.State ElementType) (tid : Nat)
    (h : st.returned = []) : r.workerStep queue st tid = st := by
  unfold ParallelForRunner.workerStep
  rw [h]
  rfl

theorem foldl_workerStep_nil {ElementType : Type} (r : ParallelForRunner ElementType)
    (queue : List Nat) :
    ∀ (schedule : List Nat) (st : ParallelForRunner.State ElementType), st.returned = [] →
      schedule.foldl (r.workerStep queue) st = st := by
  intro schedule
  induction schedule with
  | nil => intro st _; rfl
  | cons tid rest ih =>
    intro st h
    rw [List.foldl_cons, workerStep_returned_nil r queue st tid h]
    exact ih st h

theorem Execute_no_threads {ElementType : Type}
    (sort : (Nat → Nat → Bool) → List Nat → List Nat) (r : ParallelForRunner ElementType)
    (schedule : List Nat) (h : r.m_NumThreads = 0) : r.Execute sort schedule = some [] := by
  unfold ParallelForRunner.Execute
  simp only
  rw [foldl_workerStep_nil r _ schedule _ (by simp [h])]
  simp [h]

theorem workerStep_inv {ElementType : Type} (r : ParallelForRunner ElementType)
    (queue : List Nat) (st : ParallelForRunner.State ElementType) (tid : Nat)
    (h1 : st.invoked = (queue.take st.currentWorkingIndex).filterMap
      (fun i => (r.m_Elements[i]?).map (fun e => (e, i))))
    (h2 : ∀ t : Nat, st.returned[t]? = some true → r.m_Elements.length ≤ st.currentWorkingIndex)
    (hq : queue.length = r.m_Elements.length) :
    (r.workerStep queue st tid).invoked
        = (queue.take (r.workerStep queue st tid).currentWorkingIndex).filterMap
            (fun i => (r.m_Elements[i]?).map (fun e => (e, i)))
      ∧ (∀ t : Nat, (r.workerStep queue st tid).returned[t]? = some true →
          r.m_Elements.length ≤ (r.workerStep queue st tid).currentWorkingIndex)
      ∧ (r.workerStep queue st tid).returned.length = st.returned.length := by
  unfold ParallelForRunner.workerStep
  cases hr : st.returned[tid]? with
  | none => exact ⟨h1, h2, rfl⟩
  | some b =>
    cases b with
    | true => exact ⟨h1, h2, rfl⟩
    | false =>
      simp only
      by_cases hw : st.currentWorkingIndex ≥ r.m_Elements.length
      · rw [if_pos hw]
        simp only
        refine ⟨?_, fun _ _ => by omega, by simp⟩
        rw [h1, List.take_of_length_le (by omega), List.take_of_length_le (by omega)]
      · rw [if_neg hw]
        have hlt : st.currentWorkingIndex < queue.length := by omega
        rw [List.getElem?_eq_getElem hlt]
        simp only
        have htake : queue.take (st.currentWorkingIndex + 1)
            = queue.take st.currentWorkingIndex ++ [queue[st.currentWorkingIndex]] := by
          rw [List.take_succ, List.getElem?_eq_getElem hlt]
          rfl
        cases he : r.m_Elements[queue[st.currentWorkingIndex]]? with
        | none =>
          simp only
          refine ⟨?_, fun t ht => ?_, trivial⟩
          · rw [htake, List.filterMap_append, ← h1]
            simp [he]
          · have := h2 t ht
            omega
        | some e =>
          simp only
          refine ⟨?_, fun t ht => ?_, trivial⟩
          · rw [htake, List.filterMap_append, ← h1]
            simp [he]
          · have := h2 t ht
            omega

theorem foldl_workerStep_inv {ElementType : Type} (r : ParallelForRunner ElementType)
    (queue : List Nat) (hq : queue.length = r.m_Elements.length) :
    ∀ (schedule : List Nat) (st : ParallelForRunner.State ElementType),
      st.invoked = (queue.take st.currentWorkingIndex).filterMap
        (fun i => (r.m_Elements[i]?).map (fun e => (e, i))) →
      (∀ t : Nat, st.returned[t]? = some true → r.m_Elements.length ≤ st.currentWorkingIndex) →
      (schedule.foldl (r.workerStep queue) st).invoked
          = (queue.take (schedule.foldl (r.workerStep queue) st).currentWorkingIndex).filterMap
              (fun i => (r.m_Elements[i]?).map (fun e => (e, i)))
        ∧ (∀ t : Nat, (schedule.foldl (r.workerStep queue) st).returned[t]? = some true →
            r.m_Elements.length ≤ (schedule.foldl (r.workerStep queue) st).currentWorkingIndex)
        ∧ (schedule.foldl (r.workerStep queue) st).returned.length = st.returned.length := by
  intro schedule
  induction schedule with
  | nil => intro st h1 h2; exact ⟨h1, h2, rfl⟩
  | cons tid rest ih =>
    intro st h1 h2
    obtain ⟨g1, g2, g3⟩ := workerStep_inv r queue st tid h1 h2 hq
    obtain ⟨i1, i2, i3⟩ := ih _ g1 g2
    rw [List.foldl_cons]
    exact ⟨i1, i2, by rw [i3, g3]⟩

/-- With at least one worker and a `sort` that permutes its input and orders it by the
comparator, every run of `Execute` in which all workers return calls the action on the
queue in order: once for every element, with its index, by non-increasing score. -/
theorem Execute_dispatches {ElementType : Type}
    (sort : (Nat → Nat → Bool) → List Nat → List Nat) (r : ParallelForRunner ElementType)
    (schedule : List Nat) (log : List (ElementType × Nat))
    (hperm : ∀ lt l, (sort lt l).Perm l)
    (hsorted : ∀ lt l, (sort lt l).Pairwise (fun x y => lt y x = false))
    (hT : 1 ≤ r.m_NumThreads) (h : r.Execute sort schedule = some log) :
    log.map Prod.snd = r.indexQueue sort
      ∧ (r.indexQueue sort).Perm (List.range r.m_Elements.length)
      ∧ (∀ p ∈ log, r.m_Elements[p.2]? = some p.1)
      ∧ (∀ scoreFn, r.m_ScoreFunction = some scoreFn →
          (r.indexQueue sort).Pairwise (fun x y => r.scoreAt scoreFn y ≤ r.scoreAt scoreFn x)) := by
  have hqp : (r.indexQueue sort).Perm (List.range r.m_Elements.length) := by
    unfold ParallelForRunner.indexQueue
    cases r.m_ScoreFunction with
    | none => exact List.Perm.refl _
    | some f => exact hperm _ _
  have hq : (r.indexQueue sort).length = r.m_Elements.length := by
    rw [hqp.length_eq, List.length_range]
  unfold ParallelForRunner.Execute at h
  simp only at h
  obtain ⟨i1, i2, i3⟩ := foldl_workerStep_inv r (r.indexQueue sort) hq schedule
    { currentWorkingIndex := 0, returned := List.replicate r.m_NumThreads false, invoked := [] }
    (by simp) (by
      intro t ht
      simp only [List.getElem?_replicate] at ht
      split at ht <;> simp at ht)
  split at h
  · rename_i hall
    simp only [Option.some.injEq] at h
    subst h
    simp only [List.length_replicate] at i3
    have h0 : (schedule.foldl (r.workerStep (r.indexQueue sort))
        { currentWorkingIndex := 0, returned := List.replicate r.m_NumThreads false,
          invoked := [] }).returned[0]? = some true := by
      rw [List.getElem?_eq_getElem (by omega)]
      rw [List.all_eq_true] at hall
      have := hall _ (List.getElem_mem (by omega : 0 < _))
      simpa using this
    have hn := i2 0 h0
    rw [List.take_of_length_le (by omega)] at i1
    have hmem : ∀ i ∈ r.indexQueue sort, i < r.m_Elements.length := by
      intro i hi
      exact List.mem_range.mp (hqp.mem_iff.mp hi)
    refine ⟨?_, hqp, ?_, ?_⟩
    · rw [i1]
      generalize r.indexQueue sort = q at hmem
      induction q with
      | nil => rfl
      | cons i rest ih =>
        have hi := hmem i (List.mem_cons_self _ _)
        rw [List.filterMap_cons, List.getElem?_eq_getElem hi]
        simp only [Option.map_some', List.map_cons]
        rw [ih (fun j hj => hmem j (List.mem_cons_of_mem _ hj))]
    · intro p hp
      rw [i1, List.mem_filterMap] at hp
      obtain ⟨i, _, hi⟩ := hp
      cases he : r.m_Elements[i]? with
      | none => rw [he] at hi; simp at hi
      | some e =>
        rw [he] at hi
        simp only [Option.map_some', Option.some.injEq] at hi
        subst hi
        exact he
    · intro scoreFn hsf
      unfold ParallelForRunner.indexQueue
      rw [hsf]
      simp only
      refine (hsorted _ _).imp ?_
      intro x y hxy
      simpa using hxy
  · cases h

/-! ### Claims C33 and C34: the bounds of a stream with holes -/

/-- C33, evaluated where it fails. The stream `holeStream` has real length `R = 12` and
the hole `[3, 5)`, so its virtual length is 10. A `WriteBytes` of 11 bytes at virtual
cursor 0 exceeds the virtual length, yet it returns true and moves the cursor to 11: the

end of the last span, 13, is compared with `AdjustOffset(m_Size) = 14` and not with
`m_Size`. The last byte lands at real offset 12, past the end of the stream. -/
theorem WriteBytes_writes_past_real_length :
    HolesOk 0 holeStream.m_HoleOffsets holeStream.m_Size
    ∧ holeStream.m_Offset + 11 > holeStream.m_Size - (5 - 3)
    ∧ MutableStreamFixedWithHoles.AdjustOffset holeStream.m_HoleOffsets holeStream.m_Size = 14
    ∧ holeStream.WriteBytes (List.replicate 16 0) [1, 2, 3, 4, 5, 6, 7, 8, 9, 10, 11]
        = some (true, { holeStream with m_Offset := 11 },
            [1, 2, 3, 0, 0, 4, 5, 6, 7, 8, 9, 10, 11, 0, 0, 0])
    ∧ ([1, 2, 3, 0, 0, 4, 5, 6, 7, 8, 9, 10, 11, 0, 0, 0] : Bytes).getD 12 0 = 11 := by
  refine ⟨by simp [HolesOk, holeStream], by decide, by decide, by decide, by decide⟩

/-- C34, evaluated where it fails. On `holeStream` (real length 12, hole `[3, 5)`, virtual
length 10) the virtual offset 4 lies after the hole. `GetSubStreamAtOffset(4)` with the

default size is the null stream: the size `m_Size - 4 = 8` is passed to
`GetStreamAtOffset` together with the real offset 6, and `6 + 8 > 12`. Writing one byte at
virtual offset 0 of the sub-stream fails and changes nothing, while writing it at virtual
offset 4 of `holeStream` stores it at real offset 6. -/
theorem GetSubStreamAtOffset_after_hole_is_null :
    HolesOk 0 holeStream.m_HoleOffsets holeStream.m_Size
    ∧ 4 ≤ holeStream.m_Size - (5 - 3)
    ∧ holeStream.GetSubStreamAtOffset 4 0
        = MutableStreamFixedWithHoles.ofFixed MutableStreamFixed.null
    ∧ (holeStream.GetSubStreamAtOffset 4 0).WriteBytes (List.replicate 12 0) [9]
        = some (false, holeStream.GetSubStreamAtOffset 4 0, List.replicate 12 0)
    ∧ MutableStreamFixedWithHoles.WriteBytes { holeStream with m_Offset := 4 }
          (List.replicate 12 0) [9]
        = some (true, { holeStream with m_Offset := 5 },
            [0, 0, 0, 0, 0, 0, 9, 0, 0, 0, 0, 0]) := by
  refine ⟨by simp [HolesOk, holeStream], by decide, by decide, by decide, by decide⟩

/-! ### Claims C36 to C38: reads outside the input -/

/-- C36, evaluated where it fails. The header `truncatedHeader` announces 16 directory
bytes at offset 80 of a file of 80 bytes, so the directory range is not inside the file.
`PeekAtOffset` returns the null pointer for an offset at the end of the file and
`GetStreamDirectoryData` returns without an error, leaving the directory empty;
`ParseStreamDirectoryData` then yields no stream. -/
theorem GetStreamDirectoryData_returns_empty_past_end (codec : Codec) :
    (zeroFile 80).length = 80
    ∧ ¬ truncatedHeader.m_StreamDirectoryDataOffset
          + truncatedHeader.m_StreamDirectoryDataLengthCompressed ≤ (zeroFile 80).length
    ∧ GetStreamDirectoryData codec (ImmutableStream.ofBytes (zeroFile 80)) truncatedHeader
        = some []
    ∧ (GetStreamDirectoryData codec (ImmutableStream.ofBytes (zeroFile 80))
          truncatedHeader).bind ParseStreamDirectoryData = some [] := by
  refine ⟨by decide, by decide, rfl, rfl⟩

/-- C37, evaluated where it fails. At block size 512 the block `2^23 + 1` of `farBlockInfo`
begins at byte `2^32 + 512`, outside the file `twoBlockFile` of 1024 bytes; the offset
`blockSize * blockIndex` is computed in 32 bits and wraps to 512, so both the borrowed path
and the copying loop return the bytes of block 1 without an error. On `fiveBlockFile` the
block list 3, 5 passes the contiguity test; block 5 lies outside the file, and the
borrowed path returns the blocks 3 and 4 without an error. -/
theorem CoalesceDataFromStream_reads_wrapped_block :
    twoBlockFile.length = 1024
    ∧ farBlockInfo.m_StreamBlockIndices = [8388609]
    ∧ 8388609 * 512 ≥ 4294967296
    ∧ ¬ 8388609 * 512 + min 512 (farBlockInfo.m_StreamSize - 0 * 512) ≤ twoBlockFile.length
    ∧ CoalesceDataFromStream (ImmutableStream.ofBytes twoBlockFile) farBlockInfo 512
        = some (List.replicate 512 7)
    ∧ CoalesceDataFromStream.copyBlocks (ImmutableStream.ofBytes twoBlockFile) 512
          [8388609] 512 = some (List.replicate 512 7)
    ∧ fiveBlockFile.length = 2560
    ∧ ¬ 5 * 512 + min 512 (1024 - 1 * 512) ≤ fiveBlockFile.length
    ∧ CoalesceDataFromStream (ImmutableStream.ofBytes fiveBlockFile)
        { m_StreamSize := 1024, m_StreamBlockIndices := [3, 5] } 512
        = some (List.replicate 512 3 ++ List.replicate 512 4) := by
  refine ⟨by decide!, by decide, by decide, by decide!, by decide!, by decide!, by decide!,
    by decide!, by decide!⟩

/-- C38, evaluated where it fails. The chunk `shortChunk` is not compressed and has
`compressedSize = 4`, so its payload is the bytes 0 to 3 of the file, but
`decompressedSize = 8`. The fragment `shortChunkFragment` (offset 4, size 4) passes the
bounds test, which compares with `decompressedSize`; no error is raised and the fragment
is the bytes 4 to 7 of the file, outside the payload of the chunk, which are then written
to the output. -/
theorem WriteSingleStreamDataToPDB_reads_past_chunk_payload (codec : Codec) :
    shortChunkFragment.IsLocatedInChunk = true
    ∧ shortChunkFragment.GetChunkIndex = 0
    ∧ shortChunk.m_IsCompressed = 0
    ∧ ¬ shortChunk.m_OffsetToChunkData + shortChunkFragment.m_DataOffset
          + shortChunkFragment.m_DataSize
        ≤ shortChunk.m_OffsetToChunkData + shortChunk.m_CompressedSize
    ∧ WriteSingleStreamDataToPDB.fragmentData codec (ImmutableStream.ofBytes shortChunkFile)
        [shortChunk] shortChunkFragment = some [14, 15, 16, 17]
    ∧ (ImmutableStream.ofBytes shortChunkFile).span 0 4 = [10, 11, 12, 13]
    ∧ (ImmutableStream.ofBytes shortChunkFile).span 4 4 = [14, 15, 16, 17]
    ∧ WriteSingleStreamDataToPDB codec (ImmutableStream.ofBytes shortChunkFile)
          [shortChunk] [shortChunkFragment]
          { m_Data := some 0, m_Size := 4, m_Offset := 0, m_HoleOffsets := [] } [0, 0, 0, 0]
        = some ({ m_Data := some 0, m_Size := 4, m_Offset := 4, m_HoleOffsets := [] },
            [14, 15, 16, 17]) := by
  refine ⟨by decide, by decide, by decide, by decide, rfl, by decide, by decide, rfl⟩

/-! ### C31: the projected directory size -/

/-- C31, evaluated where it fails. One stream of `2^32 - 1` bytes at block size 512 needs
`ceil(size/bs) = 2^23` blocks, so the directory has `4 + 4 * 1 + 4 * 2^23 = 33554440`
bytes and needs 65537 blocks. `AssignBlocksToStreams` computes the block count of the
stream as `AlignTo(streamSize, blockSize) / blockSize` in 32 bits, which wraps to 0: it
assigns no block to the stream, projects a directory of 8 bytes and assigns one directory
block. -/
theorem AssignBlocksToStreams_directory_size_wraps :
    wrapSizeDescriptors.map CalculateSize = [some 4294967295]
    ∧ ceilDiv 4294967295 512 = 8388608
    ∧ AlignTo 4294967295 512 / 512 = 0
    ∧ AssignBlocksToStreams.streams 512 wrapSizeDescriptors 3 4 = some ([[]], 3, 8)
    ∧ 4 + 4 * wrapSizeDescriptors.length + 4 * ceilDiv 4294967295 512 = 33554440
    ∧ AssignBlocksToStreams wrapSizeDescriptors 512
        = some { outBlocksForStreams := [[]], outBlocksForDirectory := [3],
                 outBlocksForDirectoryIndices := [4], outBlocksForFreeBlockMap := [1],
                 outNumBlocks := 5 }
    ∧ ceilDiv 33554440 512 = 65537 := by
  refine ⟨by decide, by decide, by decide, by decide, by decide, by decide, by decide⟩

/-! ### C39: the blocks handed out are strictly increasing -/

/-- C39: for every list of stream descriptors and every block size on which
`AssignBlocksToStreams` returns, when the 32-bit cursor does not overflow while the
blocks are handed out from 3 on: the concatenation of the block lists of the streams in
stream order, followed by the directory blocks and the directory-index blocks, is strictly
increasing, every index in it is at least 3 and below the returned block count; hence no
block is assigned twice, and the block lists (of the streams, the directory and the
directory index) are pairwise disjoint. The bound `bs >= 4` of the claim is not needed. -/
theorem AssignBlocksToStreams_blocks_strictly_increasing
    (streamDescriptors : List (List MsfzFragment)) (bs : Nat) (a : BlockAssignment)
    (h : AssignBlocksToStreams streamDescriptors bs = some a)
    (hno : AssignNextNBlocks.noOverflow bs a.assignedBlocks.length 3 = true) :
    a.assignedBlocks.Pairwise (· < ·)
      ∧ (∀ b ∈ a.assignedBlocks, 3 ≤ b ∧ b < a.outNumBlocks)
      ∧ a.assignedBlocks.Nodup
      ∧ (a.outBlocksForStreams
          ++ [a.outBlocksForDirectory, a.outBlocksForDirectoryIndices]).Pairwise List.Disjoint := by
  obtain ⟨e1, e2, _, _⟩ := assignedBlocks_eq streamDescriptors bs a h
  obtain ⟨p1, p2, _⟩ := noOverflow_spec bs a.assignedBlocks.length 3 (by norm_num) hno
  rw [← e1] at p1 p2
  rw [← e2] at p2
  have hnd : a.assignedBlocks.Nodup := p1.imp (fun hlt => Nat.ne_of_lt hlt)
  refine ⟨p1, p2, hnd, ?_⟩
  have hfl : (a.outBlocksForStreams
      ++ [a.outBlocksForDirectory, a.outBlocksForDirectoryIndices]).flatten
      = a.assignedBlocks := by
    simp [BlockAssignment.assignedBlocks]
  rw [← hfl] at hnd
  exact (List.nodup_flatten.mp hnd).2

/-- Witness of C39: the two streams of scenario S4 at block size 4096; the blocks handed
out are 3, 4, 5, 6, 7 and the block count is 8. -/
theorem AssignBlocksToStreams_blocks_strictly_increasing_witness :
    ∃ a, AssignBlocksToStreams scenarioS4 4096 = some a
      ∧ AssignNextNBlocks.noOverflow 4096 a.assignedBlocks.length 3 = true
      ∧ a.assignedBlocks = [3, 4, 5, 6, 7]
      ∧ a.outNumBlocks = 8
      ∧ (a.assignedBlocks.Pairwise (· < ·)
        ∧ (∀ b ∈ a.assignedBlocks, 3 ≤ b ∧ b < a.outNumBlocks)
        ∧ a.assignedBlocks.Nodup
        ∧ (a.outBlocksForStreams
            ++ [a.outBlocksForDirectory, a.outBlocksForDirectoryIndices]).Pairwise
              List.Disjoint) :=
  ⟨_, rfl, by decide, by decide, by decide,
    AssignBlocksToStreams_blocks_strictly_increasing scenarioS4 4096 _ rfl (by decide)⟩

/-! ### C40: the contiguity test on the block lists of a written PDB -/

/-- The contiguity test on the lists in memory: for every list of stream descriptors and
every block size `bs >= 4` on which `AssignBlocksToStreams` returns, and every non-empty
block list it produced (for a stream, for the directory or for the directory-index
blocks), the contiguity test of `CoalesceDataFromStream` (sorted, and last minus first at
most the number of blocks) holds exactly when the list is a run of consecutive integers.
Reserved blocks come in pairs, so a list that skips any has last minus first at least
count + 1. -/
theorem AssignBlocksToStreams_contiguity_test_exact
    (streamDescriptors : List (List MsfzFragment)) (bs : Nat) (a : BlockAssignment)
    (hbs : 4 ≤ bs) (h : AssignBlocksToStreams streamDescriptors bs = some a) :
    ∀ l ∈ a.outBlocksForStreams ++ [a.outBlocksForDirectory, a.outBlocksForDirectoryIndices],
      l ≠ [] →
      (areStreamBlocksContiguous l = true ↔ l = List.range' (l.headD 0) l.length) := by
  obtain ⟨_, _, _, e4⟩ := assignedBlocks_eq streamDescriptors bs a h
  intro l hl hne
  obtain ⟨n, c1, hc1, rfl⟩ := e4 l hl
  exact contiguity_exact bs hbs n c1 hc1 hne

/-- The contiguity test on the lists in memory, for the stream of 511 blocks at block
size 512: its list 3, ..., 512, 515 skips the reserved pair and fails the test, next to
the directory blocks 516 to 520 and the directory-index block 521, which are consecutive
and pass it. -/
theorem AssignBlocksToStreams_contiguity_test_exact_witness :
    4 ≤ 512
      ∧ AssignBlocksToStreams longStreamDescriptors 512 = some longStreamAssignment
      ∧ areStreamBlocksContiguous (longStreamAssignment.outBlocksForStreams.headD []) = false
      ∧ areStreamBlocksContiguous longStreamAssignment.outBlocksForDirectory = true
      ∧ (∀ l ∈ longStreamAssignment.outBlocksForStreams
            ++ [longStreamAssignment.outBlocksForDirectory,
                longStreamAssignment.outBlocksForDirectoryIndices],
          l ≠ [] →
          (areStreamBlocksContiguous l = true ↔ l = List.range' (l.headD 0) l.length)) :=
  ⟨by decide, longStream_assign, by decide!, by decide,
    AssignBlocksToStreams_contiguity_test_exact longStreamDescriptors 512 longStreamAssignment
      (by decide) longStream_assign⟩

theorem CoalesceDataFromStream_of_contiguous (fs : ImmutableStream) (info : PDBStreamInfo)
    (bs front : Nat) (hh : info.m_StreamBlockIndices.head? = some front)
    (hc : areStreamBlocksContiguous info.m_StreamBlockIndices = true)
    (hr : fs.CanReadAt (bs * front % 4294967296) info.m_StreamSize = true) :
    CoalesceDataFromStream fs info bs
      = some (fs.span (bs * front % 4294967296) info.m_StreamSize) := by
  unfold areStreamBlocksContiguous at hc
  unfold CoalesceDataFromStream
  rw [hh] at hc
  simp only [hh]
  cases hl : info.m_StreamBlockIndices.getLast? with
  | none => rw [hl] at hc; cases hc
  | some back =>
    rw [hl] at hc
    simp only at hc ⊢
    rw [if_pos hc, if_pos hr]

/-- C40, evaluated where it fails: on the PDB the decompressor writes for the 128 stream
descriptors of C20 (block size 512, stream 0 of 509 blocks). The list assigned to
stream 0 is the run 3, ..., 511, which passes the contiguity test. The directory of the
written PDB holds no block index (C20, C21), so the compressor, reading this PDB back,
gets for stream 0 the list of 509 zeros. That list passes the contiguity test as well
(sorted, last minus first 0 <= 509) though it is not a run of consecutive integers, and
`CoalesceDataFromStream` takes the borrowed path on it: the 260608 bytes from offset 0 of
the file on. -/
theorem CoalesceDataFromStream_borrows_zeroed_block_list (codec : Codec) (order : List Nat) :
    AssignBlocksToStreams straddleDescriptors 512 = some straddleAssignment
    ∧ straddleAssignment.outBlocksForStreams.head? = some (List.range' 3 509)
    ∧ areStreamBlocksContiguous (List.range' 3 509) = true
    ∧ ∃ out3 pdb,
        WriteStreamsAndDirectoryToPDB codec (ImmutableStream.ofBytes (zeroFile 260608)) []
            straddleDescriptors 512 straddleAssignment.outBlocksForDirectory
            straddleAssignment.outBlocksForStreams
            { m_Data := some 0, m_Size := 266240, m_Offset := 0 } order (zeroFile 266240)
          = some (out3, 2552)
        ∧ RunDecompression.finish 512 straddleAssignment
            { m_Data := some 0, m_Size := 266240, m_Offset := 0 } out3 2552 = some pdb
        ∧ readSuperBlock pdb = some straddleSuperBlock
        ∧ ParseStreamDirectory (ImmutableStream.ofBytes pdb) straddleSuperBlock
          = some straddleParsed
        ∧ straddleParsed.head?
          = some { m_StreamSize := 260608, m_StreamBlockIndices := List.replicate 509 0 }
        ∧ areStreamBlocksContiguous (List.replicate 509 0) = true
        ∧ List.replicate 509 0
          ≠ List.range' ((List.replicate 509 0).headD 0) (List.replicate 509 0).length
        ∧ CoalesceDataFromStream (ImmutableStream.ofBytes pdb)
            { m_StreamSize := 260608, m_StreamBlockIndices := List.replicate 509 0 } 512
          = some ((ImmutableStream.ofBytes pdb).span 0 260608) := by
  obtain ⟨out3, pdb, h1, h2, h3, h4, h5, h6, h7⟩ := straddle_pdb codec order
  obtain ⟨g1, _, g3⟩ := straddle_pdb_parse pdb h3 h4 h5 h6 h7
  have hc : areStreamBlocksContiguous (List.replicate 509 0) = true := by decide!
  refine ⟨straddle_assign, rfl, by decide!, out3, pdb, h1, h2, g1, g3, rfl, hc, by decide!, ?_⟩
  have := CoalesceDataFromStream_of_contiguous (ImmutableStream.ofBytes pdb)
    { m_StreamSize := 260608, m_StreamBlockIndices := List.replicate 509 0 } 512 0 rfl hc
    (by
      simp only [ImmutableStream.CanReadAt, ImmutableStream.ofBytes, ImmutableStream.m_Length,
        h3]
      decide)
  exact this

/-! ### C32: the free block map list -/

/-- C32, evaluated where it fails. The 516 streams of `fpmWrapDescriptors` at block
size 512 leave the cursor at `M = 2^32 - 2`. The number of free-block-map blocks is
computed as `AlignTo(AlignTo(M, 8u) / 8u, blockSize) / blockSize` in 32 bits: `M + 7`
wraps, the inner `AlignTo` gives 0 and the list is empty, while
`ceil(ceil(M/8)/bs) = 2^20`; the capacity of the list, 0 bits, is below `M`. -/
theorem AssignBlocksToStreams_freeBlockMap_empty_near_wrap :
    (∀ d ∈ fpmWrapDescriptors, CalculateSize d = some 4211863552)
    ∧ ∃ a, AssignBlocksToStreams fpmWrapDescriptors 512 = some a
      ∧ a.outNumBlocks = 4294967294
      ∧ AlignTo a.outNumBlocks 8 = 0
      ∧ a.outBlocksForFreeBlockMap = []
      ∧ ceilDiv (ceilDiv a.outNumBlocks 8) 512 = 1048576
      ∧ a.outBlocksForFreeBlockMap.length * 512 * 8 < a.outNumBlocks := by
  refine ⟨?_, ?_⟩
  · intro d hd
    rw [List.eq_of_mem_replicate hd]
    decide
  · obtain ⟨a, g1, _, _, _, g5, g6⟩ := fpmWrap_assign
    refine ⟨a, g1, g5, ?_, g6, ?_, ?_⟩
    · rw [g5]; decide
    · rw [g5]; decide
    · rw [g5, g6]; decide

/-! ### C35: the parallel runner -/

/-- C35, evaluated where it fails. On a machine with one processor and no configured
thread count, `GetDefaultNumThreads` returns `static_cast<uint32_t>(1 * 0.75f) = 0`. A
runner built with this default starts no worker, so `Execute` returns without calling the
action for any element, with or without a score function. With two processors the

default is one worker. -/
theorem Execute_default_on_one_processor_invokes_nothing {ElementType : Type}
    (sort : (Nat → Nat → Bool) → List Nat → List Nat) (element : ElementType)
    (rest : List ElementType) (scoreFn : ElementType → Nat → Nat) (schedule : List Nat) :
    ThreadConfig.GetDefaultNumThreads 0 1 = 0
    ∧ (ParallelForRunner.ofElements (element :: rest) 0 1).m_NumThreads = 0
    ∧ (ParallelForRunner.ofElements (element :: rest) 0 1).Execute sort schedule = some []
    ∧ ((ParallelForRunner.ofElements (element :: rest) 0 1).SetScoreFunction scoreFn).Execute
        sort schedule = some []
    ∧ ThreadConfig.GetDefaultNumThreads 0 2 = 1 :=
  ⟨rfl, rfl, Execute_no_threads sort _ schedule rfl, Execute_no_threads sort _ schedule rfl, rfl⟩

/-! ### Claim C2: the round trip runs to the end and returns the assigned directory -/


/-! ### The chunk table and the return of the compressor under `NoCompression` -/

theorem zipWith_set_sum (f : Worker → Nat → Nat) :
    ∀ (ws : List Worker) (sizes : List Nat) (i : Nat) (w w1 : Worker) (s : Nat),
      ws[i]? = some w → sizes[i]? = some s →
      (List.zipWith f (ws.set i w1) sizes).sum + f w s
        = (List.zipWith f ws sizes).sum + f w1 s := by
  intro ws
  induction ws with
  | nil => intro sizes i w w1 s h; cases h
  | cons a rest ih =>
    intro sizes i w w1 s hw hs
    cases sizes with
    | nil => cases hs
    | cons t ts =>
      cases i with
      | zero =>
        simp only [List.getElem?_cons_zero, Option.some.injEq] at hw hs
        subst hw
        subst hs
        simp only [List.set_cons_zero, List.zipWith_cons_cons, List.sum_cons]
        omega
      | succ j =>
        simp only [List.getElem?_cons_succ] at hw hs
        have := ih ts j w w1 s hw hs
        simp only [List.set_cons_succ, List.zipWith_cons_cons, List.sum_cons]
        omega

theorem GetChunkIndex_SetChunkIndex (size off k : Nat) (hk : k < 2147483648) :
    MsfzFragment.GetChunkIndex
      { m_DataSize := size, m_DataOffset := off,
        m_ChunkIndexOrDataOrigin := MsfzFragment.SetChunkIndex k } = k := by
  unfold MsfzFragment.GetChunkIndex MsfzFragment.SetChunkIndex
  simp only
  have e1 : (2147483647 : Nat) = 2 ^ 31 - 1 := by norm_num
  have e2 : (2147483648 : Nat) = 2 ^ 31 := by norm_num
  rw [e1, Nat.and_pow_two_sub_one_eq_mod, e2]
  apply Nat.eq_of_testBit_eq
  intro i
  rw [Nat.testBit_mod_two_pow, Nat.testBit_or, Nat.testBit_two_pow]
  by_cases hi : i < 31
  · have : ¬ (31 = i) := by omega
    simp [hi, this]
  · simp only [hi, decide_False, Bool.false_and]
    symm
    apply Nat.testBit_lt_two_pow
    calc k < 2 ^ 31 := by rw [← e2]; exact hk
      _ ≤ 2 ^ i := Nat.pow_le_pow_right (by norm_num) (by omega)
theorem slot_congr (w w1 : Worker) (h : w1.m_Fragments = w.m_Fragments) : w1.slot = w.slot := by
  unfold Worker.slot
  rw [h]

theorem zipWith_le_sum (f : Worker → Nat → Nat) (ws : List Worker) (sizes : List Nat) (i : Nat)
    (w : Worker) (s : Nat) (hw : ws[i]? = some w) (hs : sizes[i]? = some s) :
    f w s ≤ (List.zipWith f ws sizes).sum := by
  induction ws generalizing sizes i with
  | nil => cases hw
  | cons a rest ih =>
    cases sizes with
    | nil => cases hs
    | cons t ts =>
      cases i with
      | zero =>
        simp only [List.getElem?_cons_zero, Option.some.injEq] at hw hs
        subst hw
        subst hs
        simp only [List.zipWith_cons_cons, List.sum_cons]
        omega
      | succ j =>
        simp only [List.getElem?_cons_succ] at hw hs
        have := ih ts j hw hs
        simp only [List.zipWith_cons_cons, List.sum_cons]
        omega

theorem getElem?_set_cases (ws : List Worker) (i : Nat) (w1 : Worker) (hi : i < ws.length) :
    ∀ (j : Nat) (w2 : Worker), (ws.set i w1)[j]? = some w2 →
      (j = i ∧ w2 = w1) ∨ (j ≠ i ∧ ws[j]? = some w2) := by
  intro j w2 hj
  by_cases hji : j = i
  · subst hji
    rw [List.getElem?_set_self hi] at hj
    exact Or.inl ⟨rfl, (Option.some.inj hj).symm⟩
  · rw [List.getElem?_set_ne (fun e => hji e.symm)] at hj
    exact Or.inr ⟨hji, hj⟩

theorem SlotsInv_same (K T mb cdo : Nat) (sizes : List Nat) (sh : Shared) (ws : List Worker)
    (i : Nat) (w w1 : Worker) (s : Nat) (hw : ws[i]? = some w) (hs : sizes[i]? = some s)
    (hf : w1.m_Fragments = w.m_Fragments) (hwr : w1.wrote = w.wrote)
    (hres : ∀ a b c d e, w1.state ≠ .reserved a b c d e)
    (h : SlotsInv K T mb cdo sizes sh ws) : SlotsInv K T mb cdo sizes sh (ws.set i w1) := by
  obtain ⟨h1, h2, h3, h4, h5⟩ := h
  have hi : i < ws.length := (List.getElem?_eq_some_iff.mp hw).1
  have e2 := zipWith_set_sum (fun (w : Worker) (s : Nat) =>
    if w.m_Fragments = [] ∧ s ≠ 0 then 20 else 0) ws sizes i w w1 s hw hs
  have e3 := zipWith_set_sum (fun (w : Worker) (s : Nat) =>
    if w.wrote = true then 0 else s) ws sizes i w w1 s hw hs
  simp only [hf, hwr] at e2 e3
  have hget := getElem?_set_cases ws i w1 hi
  have hown : ∀ (s2 : Nat), sizes[i]? = some s2 → w1.m_Fragments ≠ [] →
      20 * w1.slot + 20 ≤ sh.outChunkMetadataStream.m_Offset
        ∧ w1.m_Fragments = [⟨s2, 0, MsfzFragment.SetChunkIndex w1.slot⟩]
        ∧ (∀ streamData maxFragmentSize dataOffset chunkDescStream fragmentSize,
            w1.state
                = .reserved streamData maxFragmentSize dataOffset chunkDescStream
                    fragmentSize →
            chunkDescStream = { m_Data := some (mb + 20 * w1.slot), m_Size := 20, m_Offset := 0 })
        ∧ (w1.wrote = true →
            ∃ o, o + s2 ≤ sh.outChunkDataStream.m_Offset
              ∧ (sh.out.drop (mb + 20 * w1.slot)).take 20
                = MsfzChunk.toBytes
                    { m_OffsetToChunkData := cdo + o, m_OriginToChunk := 0,
                      m_IsCompressed := 0, m_CompressedSize := s2,
                      m_DecompressedSize := s2 }) := by
    intro s2 hs2 hne
    rw [hf] at hne
    obtain ⟨g1, g2, _, g4⟩ := h4 i w s2 hw hs2 hne
    rw [slot_congr w w1 hf, hf, hwr]
    exact ⟨g1, g2, fun a b c d e hst => absurd hst (hres a b c d e), g4⟩
  refine ⟨h1, by omega, by omega, ?_, ?_⟩
  · intro j w2 s2 hj hs2 hne
    rcases hget j w2 hj with ⟨rfl, rfl⟩ | ⟨_, hj2⟩
    · exact hown s2 hs2 hne
    · exact h4 j w2 s2 hj2 hs2 hne
  · intro j1 j2 wa wb hne ha hb hfa hfb
    rcases hget j1 wa ha with ⟨rfl, rfl⟩ | ⟨hn1, ha2⟩
    · rcases hget j2 wb hb with ⟨rfl, rfl⟩ | ⟨hn2, hb2⟩
      · exact absurd rfl hne
      · rw [slot_congr w wa hf]
        exact h5 j1 j2 w wb hne hw hb2 (by rw [← hf]; exact hfa) hfb
    · rcases hget j2 wb hb with ⟨rfl, rfl⟩ | ⟨hn2, hb2⟩
      · rw [slot_congr w wb hf]
        exact h5 j1 j2 wa w hne ha2 hw hfa (by rw [← hf]; exact hfb)
      · exact h5 j1 j2 wa wb hne ha2 hb2 hfa hfb
theorem wrote_of_nil (w : Worker) (h : w.m_Fragments = []) : w.wrote = false := by
  unfold Worker.wrote
  cases w.state <;> simp [h]

theorem SlotsInv_reserve (K T mb cdo : Nat) (sizes : List Nat) (sh sh1 : Shared)
    (ws : List Worker) (i : Nat) (w w1 : Worker) (s : Nat) (streamData : Bytes)
    (maxFragmentSize dataOffset fragmentSize : Nat)
    (hw : ws[i]? = some w) (hs : sizes[i]? = some s) (hs0 : s ≠ 0) (hf : w.m_Fragments = [])
    (hK : K ≤ 2147483648) (hlen : ws.length = sizes.length)
    (ho : sh1.out = sh.out)
    (hm1 : sh1.outChunkMetadataStream.m_Offset = sh.outChunkMetadataStream.m_Offset + 20)
    (hd1 : sh1.outChunkDataStream.m_Offset = sh.outChunkDataStream.m_Offset)
    (hst1 : w1.state = .reserved streamData maxFragmentSize dataOffset
      ⟨some (mb + sh.outChunkMetadataStream.m_Offset), 20, 0⟩ fragmentSize)
    (hf1 : w1.m_Fragments
      = [⟨s, 0, MsfzFragment.SetChunkIndex (sh.outChunkMetadataStream.m_Offset / 20)⟩])
    (h : SlotsInv K T mb cdo sizes sh ws) :
    sh.outChunkMetadataStream.m_Offset + 20 ≤ 20 * K
      ∧ SlotsInv K T mb cdo sizes sh1 (ws.set i w1) := by
  obtain ⟨h1, h2, h3, h4, h5⟩ := h
  have hi : i < ws.length := (List.getElem?_eq_some_iff.mp hw).1
  unfold SlotsInv
  rw [ho, hm1, hd1]
  generalize sh.outChunkMetadataStream.m_Offset = m at *
  have hwr1 : w1.wrote = false := by
    unfold Worker.wrote
    rw [hst1]
  have e2 := zipWith_set_sum (fun (w : Worker) (s : Nat) =>
    if w.m_Fragments = [] ∧ s ≠ 0 then 20 else 0) ws sizes i w w1 s hw hs
  have e3 := zipWith_set_sum (fun (w : Worker) (s : Nat) =>
    if w.wrote = true then 0 else s) ws sizes i w w1 s hw hs
  have a1 : (if w.m_Fragments = [] ∧ s ≠ 0 then 20 else 0) = 20 := if_pos ⟨hf, hs0⟩
  have a2 : (if w1.m_Fragments = [] ∧ s ≠ 0 then 20 else 0) = 0 :=
    if_neg (fun hc => by rw [hf1] at hc; exact List.cons_ne_nil _ _ hc.1)
  have a3 : (if w.wrote = true then 0 else s) = s := by
    rw [wrote_of_nil w hf]
    rfl
  have a4 : (if w1.wrote = true then 0 else s) = s := by
    rw [hwr1]
    rfl
  dsimp only at e2 e3
  rw [a1, a2] at e2
  rw [a3, a4] at e3
  obtain ⟨k, hk⟩ := h1
  have hmk : m / 20 = k := by omega
  have hle : m + 20 ≤ 20 * K := by omega
  have hslot1 : w1.slot = k := by
    unfold Worker.slot
    rw [hf1, hmk]
    exact GetChunkIndex_SetChunkIndex s 0 k (by omega)
  have hget := getElem?_set_cases ws i w1 hi
  have hsz : ∀ (j : Nat) (w2 : Worker), ws[j]? = some w2 → ∃ s2, sizes[j]? = some s2 := by
    intro j w2 hj
    have hj2 : j < sizes.length := by
      rw [← hlen]
      exact (List.getElem?_eq_some_iff.mp hj).1
    exact ⟨sizes[j], List.getElem?_eq_getElem hj2⟩
  refine ⟨hle, ⟨k + 1, by omega⟩, by omega, by omega, ?_, ?_⟩
  · intro j w2 s2 hj hs2 hne
    rcases hget j w2 hj with ⟨rfl, rfl⟩ | ⟨_, hj2⟩
    · rw [hs] at hs2
      cases hs2
      rw [hslot1]
      refine ⟨by omega, by rw [hf1, hmk], ?_, ?_⟩
      · intro a b c d e hst
        rw [hst1] at hst
        simp only [WorkerState.reserved.injEq] at hst
        rw [← hst.2.2.2.1, hk]
      · intro hwr
        rw [hwr1] at hwr
        cases hwr
    · obtain ⟨g1, g2, g3, g4⟩ := h4 j w2 s2 hj2 hs2 hne
      exact ⟨by omega, g2, g3, g4⟩
  · intro j1 j2 wa wb hne ha hb hfa hfb
    rcases hget j1 wa ha with ⟨rfl, rfl⟩ | ⟨hn1, ha2⟩
    · rcases hget j2 wb hb with ⟨rfl, rfl⟩ | ⟨hn2, hb2⟩
      · exact absurd rfl hne
      · obtain ⟨s2, hs2⟩ := hsz j2 wb hb2
        have := (h4 j2 wb s2 hb2 hs2 hfb).1
        rw [hslot1]
        omega
    · rcases hget j2 wb hb with ⟨rfl, rfl⟩ | ⟨hn2, hb2⟩
      · obtain ⟨s2, hs2⟩ := hsz j1 wa ha2
        have := (h4 j1 wa s2 ha2 hs2 hfa).1
        rw [hslot1]
        omega
      · exact h5 j1 j2 wa wb hne ha2 hb2 hfa hfb
theorem SlotsInv_write (K T mb cdo db L : Nat) (sizes : List Nat) (sh sh1 : Shared)
    (ws : List Worker) (i : Nat) (w w1 : Worker) (s : Nat) (data : Bytes)
    (hw : ws[i]? = some w) (hs : sizes[i]? = some s)
    (hfr : w.m_Fragments ≠ []) (hwr : w.wrote = false)
    (hL : sh.out.length = L) (hgeo : mb + 20 * K ≤ db) (hdl : data.length = s)
    (hfit : db + T ≤ L)
    (ho : sh1.out
      = writeAt (writeAt sh.out (db + sh.outChunkDataStream.m_Offset) data) (mb + 20 * w.slot)
          (MsfzChunk.toBytes ⟨cdo + sh.outChunkDataStream.m_Offset, 0, 0, s, s⟩))
    (hm1 : sh1.outChunkMetadataStream.m_Offset = sh.outChunkMetadataStream.m_Offset)
    (hd1 : sh1.outChunkDataStream.m_Offset = sh.outChunkDataStream.m_Offset + s)
    (hf1 : w1.m_Fragments = w.m_Fragments) (hwr1 : w1.wrote = true)
    (hres : ∀ a b c d e, w1.state ≠ .reserved a b c d e)
    (h : SlotsInv K T mb cdo sizes sh ws) :
    sh.outChunkDataStream.m_Offset + s ≤ T
      ∧ SlotsInv K T mb cdo sizes sh1 (ws.set i w1) := by
  obtain ⟨h1, h2, h3, h4, h5⟩ := h
  have hi : i < ws.length := (List.getElem?_eq_some_iff.mp hw).1
  unfold SlotsInv
  rw [hm1, hd1]
  have e2 := zipWith_set_sum (fun (w : Worker) (s : Nat) =>
    if w.m_Fragments = [] ∧ s ≠ 0 then 20 else 0) ws sizes i w w1 s hw hs
  have e3 := zipWith_set_sum (fun (w : Worker) (s : Nat) =>
    if w.wrote = true then 0 else s) ws sizes i w w1 s hw hs
  have a3 : (if w.wrote = true then 0 else s) = s := by
    rw [hwr]
    rfl
  have a4 : (if w1.wrote = true then 0 else s) = 0 := by
    rw [hwr1]
    rfl
  dsimp only at e2 e3
  rw [hf1] at e2
  rw [a3, a4] at e3
  have hsl : w1.slot = w.slot := slot_congr w w1 hf1
  obtain ⟨g1, g2, _, _⟩ := h4 i w s hw hs hfr
  generalize sh.outChunkMetadataStream.m_Offset = m at *
  generalize sh.outChunkDataStream.m_Offset = o at *
  have hdesc : (MsfzChunk.toBytes ⟨cdo + o, 0, 0, s, s⟩).length = 20 :=
    length_MsfzChunk_toBytes _
  have hl1 : (writeAt sh.out (db + o) data).length = L := by
    rw [length_writeAt _ _ _ (by omega), hL]
  have hget := getElem?_set_cases ws i w1 hi
  refine ⟨by omega, h1, by omega, by omega, ?_, ?_⟩
  · intro j w2 s2 hj hs2 hne
    rcases hget j w2 hj with ⟨rfl, rfl⟩ | ⟨hji, hj2⟩
    · rw [hs] at hs2
      cases hs2
      rw [hsl, hf1]
      refine ⟨g1, g2, fun a b c d e hst => absurd hst (hres a b c d e), fun _ => ⟨o, by omega, ?_⟩⟩
      rw [ho]
      have := take_drop_writeAt_self (writeAt sh.out (db + o) data) (mb + 20 * w.slot)
        (MsfzChunk.toBytes ⟨cdo + o, 0, 0, s, s⟩) (by rw [hdesc, hl1]; omega)
      rw [hdesc] at this
      exact this
    · obtain ⟨q1, q2, q3, q4⟩ := h4 j w2 s2 hj2 hs2 hne
      refine ⟨q1, q2, q3, fun hwr2 => ?_⟩
      obtain ⟨o2, r1, r2⟩ := q4 hwr2
      refine ⟨o2, by omega, ?_⟩
      rw [ho, take_drop_writeAt_disjoint _ _ _ _ _ (by rw [hdesc, hl1]; omega)
        (by
          have := h5 j i w2 w hji hj2 hw hne hfr
          rw [hdesc]
          omega),
        take_drop_writeAt_disjoint _ _ _ _ _ (by omega) (by omega)]
      exact r2
  · intro j1 j2 wa wb hne ha hb hfa hfb
    rcases hget j1 wa ha with ⟨rfl, rfl⟩ | ⟨hn1, ha2⟩
    · rcases hget j2 wb hb with ⟨rfl, rfl⟩ | ⟨hn2, hb2⟩
      · exact absurd rfl hne
      · rw [hsl]
        exact h5 j1 j2 w wb hne hw hb2 hfr hfb
    · rcases hget j2 wb hb with ⟨rfl, rfl⟩ | ⟨hn2, hb2⟩
      · rw [hsl]
        exact h5 j1 j2 wa w hne ha2 hw hfa hfr
      · exact h5 j1 j2 wa wb hne ha2 hb2 hfa hfb
theorem step_total (codec : Codec) (file : ImmutableStream) (infos : List PDBStreamInfo)
    (info : PDBStreamInfo) (bs cdo : Nat) (args : ProgramCommandLineArgs)
    (L mb ms db ds T K : Nat) (sh : Shared) (ws : List Worker) (i : Nat) (w : Worker)
    (hs : args.m_CompressionStrategy = .NoCompression)
    (hco : 0 < info.m_StreamSize →
      ∃ data, CoalesceDataFromStream file info bs = some data
        ∧ data.length = info.m_StreamSize)
    (hmem : info.m_StreamSize ≤ T)
    (hinfo : infos[i]? = some info) (hw : ws[i]? = some w) (hlen : ws.length = infos.length)
    (hK : K ≤ 2147483648) (hgeo : mb + 20 * K ≤ db) (hms : 20 * K ≤ ms)
    (hcdo : cdo + T < 4294967296)
    (hI : SharedInv L mb ms db ds T sh) (hW : WorkerInv L info.m_StreamSize w)
    (hS : SlotsInv K T mb cdo (infos.map (fun x => x.m_StreamSize)) sh ws) :
    ∃ sh1 w1, WriteSingleStreamData.step codec file info bs cdo args sh w = some (sh1, w1)
      ∧ SlotsInv K T mb cdo (infos.map (fun x => x.m_StreamSize)) sh1 (ws.set i w1)
      ∧ w1.state.stepsLeft ≤ w.state.stepsLeft - 1 := by
  have hsz : (infos.map (fun x => x.m_StreamSize))[i]? = some info.m_StreamSize := by
    rw [List.getElem?_map, hinfo]
    rfl
  have hlen2 : ws.length = (infos.map (fun x => x.m_StreamSize)).length := by
    rw [List.length_map, hlen]
  obtain ⟨hL, hm1, hm2, hm3, hd1, hd2, hd3, hd4, hd5, hm4, hL32⟩ := hI
  unfold WriteSingleStreamData.step
  cases hst : w.state with
  | start =>
    simp only [WorkerInv, hst] at hW
    simp only
    by_cases hpos : info.m_StreamSize > 0
    · obtain ⟨data, hdata, hdl⟩ := hco hpos
      have hc : StrictCastTo32 data.length = some data.length := by
        unfold StrictCastTo32
        rw [if_pos (by omega)]
      rw [if_pos hpos, hdata]
      simp only [hc]
      refine ⟨_, _, rfl, ?_, ?_⟩
      · exact SlotsInv_same K T mb cdo _ sh ws i w _ _ hw hsz rfl
          (by simp only [Worker.wrote, hst]) (by intro a b c d e h; cases h) hS
      · simp only [WorkerState.stepsLeft]
        split <;> omega
    · rw [if_neg hpos]
      refine ⟨_, _, rfl, ?_, ?_⟩
      · exact SlotsInv_same K T mb cdo _ sh ws i w _ _ hw hsz rfl
          (by simp only [Worker.wrote, hst]) (by intro a b c d e h; cases h) hS
      · simp only [WorkerState.stepsLeft]
        omega
  | loopHead data f off =>
    simp only [WorkerInv, hst] at hW
    obtain ⟨hdl, hpos, hf, hcase⟩ := hW
    simp only
    by_cases hlt : off < data.length
    · have hoff : off = 0 ∧ w.m_Fragments = [] := by
        rcases hcase with hc | hc
        · exact hc
        · omega
      obtain ⟨rfl, hfr⟩ := hoff
      subst hf
      rw [if_pos hlt]
      obtain ⟨hle, hS1⟩ := SlotsInv_reserve K T mb cdo _ sh
        ⟨sh.out, ⟨some mb, ms, sh.outChunkMetadataStream.m_Offset + 20⟩, sh.outChunkDataStream⟩
        ws i w
        ⟨.reserved data data.length 0 ⟨some (mb + sh.outChunkMetadataStream.m_Offset), 20, 0⟩
            data.length,
          [⟨info.m_StreamSize, 0,
            MsfzFragment.SetChunkIndex (sh.outChunkMetadataStream.m_Offset / 20)⟩]⟩
        info.m_StreamSize data data.length 0 data.length hw hsz (by omega) hfr hK hlen2
        rfl rfl rfl rfl rfl hS
      refine ⟨_, _, ?_, hS1, ?_⟩
      · unfold WriteSingleStreamData.reserveSlot
        have hmod : (sh.outChunkMetadataStream.m_Offset + 20) % 18446744073709551616
            = sh.outChunkMetadataStream.m_Offset + 20 := Nat.mod_eq_of_lt (by omega)
        have hc : StrictCastTo32 (sh.outChunkMetadataStream.m_Offset / 20)
            = some (sh.outChunkMetadataStream.m_Offset / 20) := by
          unfold StrictCastTo32
          rw [if_pos (by omega)]
        simp only [MutableStreamFixed.GetRegionSubstreamForWriting, hmod]
        rw [if_neg (by omega)]
        simp only [hc, hfr, hm1, hm2, hdl, Nat.sub_zero, Nat.min_self, List.nil_append,
          Option.map_some']
      · simp only [WorkerState.stepsLeft, if_pos hlt]
        omega
    · rw [if_neg hlt]
      refine ⟨_, _, rfl, ?_, ?_⟩
      · exact SlotsInv_same K T mb cdo _ sh ws i w _ _ hw hsz rfl
          (by simp only [Worker.wrote, hst]) (by intro a b c d e h; cases h) hS
      · simp only [WorkerState.stepsLeft]
        omega
  | reserved data f off cds fsz =>
    simp only [WorkerInv, hst] at hW
    obtain ⟨hdl, hpos, hf, hoff, hfsz, ⟨tag, htag, hfr⟩, hcds⟩ := hW
    subst hf
    subst hoff
    subst hfsz
    have hne : w.m_Fragments ≠ [] := by
      rw [hfr]
      exact List.cons_ne_nil _ _
    obtain ⟨g1, g2, g3, _⟩ := hS.2.2.2.1 i w info.m_StreamSize hw hsz hne
    have hcds2 := g3 _ _ _ _ _ hst
    subst hcds2
    simp only
    have hwr : w.wrote = false := by simp only [Worker.wrote, hst]
    have hdsT : ds = T := by
      rcases hd5 with h5 | h5
      · exact h5
      · omega
    obtain ⟨hle, hS1⟩ := SlotsInv_write K T mb cdo db L _ sh
      ⟨writeAt (writeAt sh.out (db + sh.outChunkDataStream.m_Offset) data) (mb + 20 * w.slot)
          (MsfzChunk.toBytes
            ⟨cdo + sh.outChunkDataStream.m_Offset, 0, 0, info.m_StreamSize,
              info.m_StreamSize⟩),
        sh.outChunkMetadataStream,
        ⟨some db, ds, sh.outChunkDataStream.m_Offset + info.m_StreamSize⟩⟩
      ws i w ⟨.loopHead data info.m_StreamSize info.m_StreamSize, w.m_Fragments⟩
      info.m_StreamSize data hw hsz hne hwr hL hgeo hdl (by omega) rfl rfl rfl rfl
      (by
        simp only [Worker.wrote]
        rw [hfr]
        rfl)
      (by intro a b c d e h; cases h) hS
    refine ⟨_, _, ?_, hS1, ?_⟩
    · unfold WriteSingleStreamData.writeChunk
      have hp : WriteSingleStreamData.payload codec args data 0 info.m_StreamSize
          = some data := by
        unfold WriteSingleStreamData.payload
        rw [hs]
        simp only [ne_eq, not_true_eq_false, if_false]
        rw [← hdl, List.take_length]
      have hmod : (sh.outChunkDataStream.m_Offset + info.m_StreamSize) % 18446744073709551616
          = sh.outChunkDataStream.m_Offset + info.m_StreamSize := Nat.mod_eq_of_lt (by omega)
      have hc1 : StrictCastTo32 (cdo + sh.outChunkDataStream.m_Offset)
          = some (cdo + sh.outChunkDataStream.m_Offset) := by
        unfold StrictCastTo32
        rw [if_pos (by omega)]
      have hc2 : StrictCastTo32 info.m_StreamSize = some info.m_StreamSize := by
        unfold StrictCastTo32
        rw [if_pos (by omega)]
      rw [hp]
      simp only [MutableStreamFixed.GetRegionSubstreamForWriting, hdl, hmod]
      rw [if_neg (by omega)]
      simp only [hc1, hc2, hd1, hd2, Option.map_some', MutableStreamFixed.WriteBytes, hdl,
        Nat.zero_add, Nat.add_zero, length_MsfzChunk_toBytes, hs]
      have hmod32 : info.m_StreamSize % 4294967296 = info.m_StreamSize :=
        Nat.mod_eq_of_lt (by omega)
      simp only [gt_iff_lt, lt_irrefl, if_false, ne_eq, not_true_eq_false, hmod32]
    · simp only [WorkerState.stepsLeft]
      rw [if_neg (by omega)]
  | done =>
    simp only
    refine ⟨_, _, rfl, ?_, ?_⟩
    · exact SlotsInv_same K T mb cdo _ sh ws i w _ _ hw hsz rfl rfl
        (by intro a b c d e h; rw [hst] at h; cases h) hS
    · rw [hst]
      simp only [WorkerState.stepsLeft]
      omega

theorem runSchedule_total (codec : Codec) (file : ImmutableStream) (infos : List PDBStreamInfo)
    (args : ProgramCommandLineArgs) (bs cdo L mb ms db ds T K : Nat)
    (hs : args.m_CompressionStrategy = .NoCompression)
    (hcoL : ∀ info ∈ infos, ∀ data, CoalesceDataFromStream file info bs = some data →
      data.length = info.m_StreamSize)
    (hcoS : ∀ info ∈ infos, 0 < info.m_StreamSize →
      ∃ data, CoalesceDataFromStream file info bs = some data)
    (hmem : ∀ info ∈ infos, info.m_StreamSize ≤ T)
    (hK : K ≤ 2147483648) (hgeo : mb + 20 * K ≤ db) (hms : 20 * K ≤ ms)
    (hcdo : cdo + T < 4294967296) :
    ∀ (schedule : List Nat) (sh : Shared) (ws : List Worker),
      SharedInv L mb ms db ds T sh →
      (∀ (i : Nat) (info : PDBStreamInfo) (w : Worker), infos[i]? = some info → ws[i]? = some w →
        WorkerInv L info.m_StreamSize w) →
      ws.length = infos.length →
      SlotsInv K T mb cdo (infos.map (fun x => x.m_StreamSize)) sh ws →
      ∃ sh1 ws1,
        CompressAndWriteStreamData.runSchedule codec file infos args bs cdo schedule sh ws
          = some (sh1, ws1)
        ∧ SharedInv L mb ms db ds T sh1
        ∧ (∀ (i : Nat) (info : PDBStreamInfo) (w : Worker), infos[i]? = some info →
            ws1[i]? = some w → WorkerInv L info.m_StreamSize w)
        ∧ ws1.length = infos.length
        ∧ SlotsInv K T mb cdo (infos.map (fun x => x.m_StreamSize)) sh1 ws1
        ∧ (∀ (i : Nat) (w w1 : Worker), ws[i]? = some w → ws1[i]? = some w1 →
            w1.state.stepsLeft ≤ w.state.stepsLeft - schedule.count i) := by
  intro schedule
  induction schedule with
  | nil =>
    intro sh ws hI hW hl hS
    refine ⟨sh, ws, rfl, hI, hW, hl, hS, ?_⟩
    intro i w w1 h1 h2
    rw [h1] at h2
    cases h2
    simp
  | cons i rest ih =>
    intro sh ws hI hW hl hS
    simp only [CompressAndWriteStreamData.runSchedule]
    cases hinfo : infos[i]? with
    | none =>
      simp only
      obtain ⟨sh1, ws1, e, q1, q2, q3, q4, q5⟩ := ih sh ws hI hW hl hS
      refine ⟨sh1, ws1, e, q1, q2, q3, q4, ?_⟩
      intro j w w1 h1 h2
      have hj : j < infos.length := by
        rw [← hl]
        exact (List.getElem?_eq_some_iff.mp h1).1
      have hi : infos.length ≤ i := by
        by_contra hc
        rw [List.getElem?_eq_getElem (by omega)] at hinfo
        cases hinfo
      have := q5 j w w1 h1 h2
      rw [List.count_cons_of_ne (by omega)]
      exact this
    | some info =>
      have hi : i < infos.length := (List.getElem?_eq_some_iff.mp hinfo).1
      have hw : ws[i]? = some ws[i] := List.getElem?_eq_getElem (by omega)
      rw [hw]
      simp only
      have hin : info ∈ infos := List.mem_iff_getElem?.mpr ⟨i, hinfo⟩
      obtain ⟨sh1, w1, hstep, hS1, hsteps⟩ := step_total codec file infos info bs cdo args L mb
        ms db ds T K sh ws i ws[i] hs
        (fun hpos => by
          obtain ⟨data, hd⟩ := hcoS info hin hpos
          exact ⟨data, hd, hcoL info hin data hd⟩)
        (hmem info hin) hinfo hw hl hK hgeo hms hcdo hI (hW i info _ hinfo hw) hS
      rw [hstep]
      simp only
      obtain ⟨hI1, hW1⟩ := step_inv codec file info bs cdo args L mb ms db ds T sh sh1 ws[i] w1
        hs (hcoL info hin) (hmem info hin) hstep hI (hW i info _ hinfo hw)
      have hget := getElem?_set_cases ws i w1 (by omega)
      obtain ⟨sh2, ws2, e, q1, q2, q3, q4, q5⟩ := ih sh1 (ws.set i w1) hI1
        (by
          intro j info2 w2 hj hw2
          rcases hget j w2 hw2 with ⟨rfl, rfl⟩ | ⟨_, hj2⟩
          · rw [hinfo] at hj
            cases hj
            exact hW1
          · exact hW j info2 w2 hj hj2)
        (by rw [List.length_set, hl]) hS1
      refine ⟨sh2, ws2, e, q1, q2, q3, q4, ?_⟩
      intro j w w2 h1 h2
      by_cases hji : j = i
      · subst hji
        have := q5 j w1 w2 (List.getElem?_set_self (by omega)) h2
        rw [hw] at h1
        cases h1
        rw [List.count_cons_self]
        omega
      · have := q5 j w w2 (by rw [List.getElem?_set_ne (fun e => hji e.symm)]; exact h1) h2
        rw [List.count_cons_of_ne hji]
        exact this

theorem zipWith_replicate_sum (w : Worker) (f : Worker → Nat → Nat) :
    ∀ (sizes : List Nat),
      (List.zipWith f (List.replicate sizes.length w) sizes).sum = (sizes.map (f w)).sum := by
  intro sizes
  induction sizes with
  | nil => rfl
  | cons s rest ih =>
    simp only [List.length_cons, List.replicate_succ, List.zipWith_cons_cons, List.sum_cons,
      List.map_cons, ih]

theorem numNonEmpty_eq_sum (sizes : List Nat) :
    (sizes.map (fun s => if s ≠ 0 then 20 else 0)).sum = 20 * numNonEmpty sizes := by
  induction sizes with
  | nil => rfl
  | cons s rest ih =>
    have h2 : numNonEmpty (s :: rest) = (if s = 0 then 0 else 1) + numNonEmpty rest := by
      simp [numNonEmpty]
    rw [h2, List.map_cons, List.sum_cons, ih]
    by_cases h : s = 0
    · simp [h]
    · simp only [ne_eq, h, not_false_eq_true, if_true, if_false]
      omega

theorem SlotsInv_init (mb cdo : Nat) (sizes : List Nat) (sh : Shared)
    (hm : sh.outChunkMetadataStream.m_Offset = 0) (hd : sh.outChunkDataStream.m_Offset = 0) :
    SlotsInv (numNonEmpty sizes) sizes.sum mb cdo sizes sh
      (List.replicate sizes.length { state := .start, m_Fragments := [] }) := by
  refine ⟨by rw [hm]; exact Nat.dvd_zero _, ?_, ?_, ?_, ?_⟩
  · rw [hm, zipWith_replicate_sum, Nat.zero_add]
    simp only [true_and]
    exact numNonEmpty_eq_sum sizes
  · rw [hd, zipWith_replicate_sum, Nat.zero_add]
    simp [Worker.wrote]
  · intro i w s hw _ hne
    rw [List.getElem?_replicate] at hw
    split at hw
    · simp only [Option.some.injEq] at hw
      subst hw
      exact absurd rfl hne
    · cases hw
  · intro i j wi wj _ hwi _ hne
    rw [List.getElem?_replicate] at hwi
    split at hwi
    · simp only [Option.some.injEq] at hwi
      subst hwi
      exact absurd rfl hne
    · cases hwi

theorem stepsLeft_eq_zero (s : WorkerState) (h : s.stepsLeft = 0) : s = .done := by
  cases s with
  | start => simp [WorkerState.stepsLeft] at h
  | loopHead a b c =>
    simp only [WorkerState.stepsLeft] at h
    split at h <;> omega
  | reserved a b c d e => simp [WorkerState.stepsLeft] at h
  | done => rfl

theorem CompressAndWriteStreamData_total (codec : Codec) (file : ImmutableStream)
    (infos : List PDBStreamInfo) (args : ProgramCommandLineArgs)
    (bs cdo L mb ms db ds : Nat) (numThreads : Nat) (schedule : List Nat) (sh : Shared)
    (hs : args.m_CompressionStrategy = .NoCompression)
    (hcoL : ∀ info ∈ infos, ∀ data, CoalesceDataFromStream file info bs = some data →
      data.length = info.m_StreamSize)
    (hcoS : ∀ info ∈ infos, 0 < info.m_StreamSize →
      ∃ data, CoalesceDataFromStream file info bs = some data)
    (hth : numThreads ≠ 0)
    (hsched : ∀ i, i < infos.length → 4 ≤ schedule.count i)
    (hN : infos.length < 4294967296)
    (hK : numNonEmpty (infos.map (fun x => x.m_StreamSize)) ≤ 2147483648)
    (hgeo : mb + 20 * numNonEmpty (infos.map (fun x => x.m_StreamSize)) ≤ db)
    (hms : 20 * numNonEmpty (infos.map (fun x => x.m_StreamSize)) ≤ ms)
    (hcdo : cdo + (infos.map (fun x => x.m_StreamSize)).sum < 4294967296)
    (hI : SharedInv L mb ms db ds (infos.map (fun x => x.m_StreamSize)).sum sh)
    (hm0 : sh.outChunkMetadataStream.m_Offset = 0)
    (hd0 : sh.outChunkDataStream.m_Offset = 0) :
    ∃ r ws,
      CompressAndWriteStreamData codec file infos args bs cdo numThreads schedule sh
        = .finished r
      ∧ SharedInv L mb ms db ds (infos.map (fun x => x.m_StreamSize)).sum r.sh
      ∧ r.streamDescriptors = ws.map (fun w => w.m_Fragments)
      ∧ ws.length = infos.length
      ∧ (∀ w ∈ ws, w.state = .done)
      ∧ SlotsInv (numNonEmpty (infos.map (fun x => x.m_StreamSize)))
          (infos.map (fun x => x.m_StreamSize)).sum mb cdo
          (infos.map (fun x => x.m_StreamSize)) r.sh ws
      ∧ List.Forall₂ StoredWhole (infos.map (fun i => i.m_StreamSize)) r.streamDescriptors
      ∧ r.directoryData = serializeDirectory r.streamDescriptors
      ∧ r.m_NumMSFStreams = infos.length
      ∧ r.m_IsStreamDirectoryDataCompressed = 0 := by
  have hmem : ∀ info ∈ infos, info.m_StreamSize ≤ (infos.map (fun x => x.m_StreamSize)).sum := by
    intro info hi
    exact mem_le_sum _ _ (List.mem_map_of_mem _ hi)
  have hinit := SlotsInv_init mb cdo (infos.map (fun x => x.m_StreamSize)) sh hm0 hd0
  rw [List.length_map] at hinit
  obtain ⟨sh1, ws1, hrun, hI1, hW1, hl1, hS1, hsteps⟩ :=
    runSchedule_total codec file infos args bs cdo L mb ms db ds
      (infos.map (fun x => x.m_StreamSize)).sum
      (numNonEmpty (infos.map (fun x => x.m_StreamSize))) hs hcoL hcoS hmem hK hgeo hms hcdo
      schedule sh (List.replicate infos.length { state := .start, m_Fragments := [] }) hI
      (by
        intro i info w _ hw
        rw [List.getElem?_replicate] at hw
        split at hw
        · simp only [Option.some.injEq] at hw
          subst hw
          simp [WorkerInv]
        · cases hw)
      (by simp) hinit
  have hdone : ∀ w ∈ ws1, w.state = .done := by
    intro w hw
    obtain ⟨i, hi, hget⟩ := List.getElem_of_mem hw
    have hi2 : i < infos.length := by omega
    have h0 := hsteps i { state := .start, m_Fragments := [] } w
      (by rw [List.getElem?_replicate, if_pos hi2]) (by rw [List.getElem?_eq_getElem hi, hget])
    have h4 := hsched i hi2
    apply stepsLeft_eq_zero
    change w.state.stepsLeft ≤ 4 - schedule.count i at h0
    omega
  have hall : ws1.all (fun w => decide (w.state = .done)) = true := by
    rw [List.all_eq_true]
    intro w hw
    simpa using hdone w hw
  have hcast : StrictCastTo32 infos.length = some infos.length := by
    unfold StrictCastTo32
    rw [if_pos hN]
  have heq : CompressAndWriteStreamData codec file infos args bs cdo numThreads schedule sh
      = .finished ⟨sh1, ws1.map (fun w => w.m_Fragments),
          serializeDirectory (ws1.map (fun w => w.m_Fragments)), infos.length, 0⟩ := by
    unfold CompressAndWriteStreamData
    simp only [hcast, hth, if_false, false_or, hrun, hall, if_true, hs, ne_eq, not_true_eq_false]
  obtain ⟨q1, q2, q3, q4, q5⟩ := CompressAndWriteStreamData_spec codec file infos args bs cdo
    L mb ms db ds _ numThreads schedule sh _ hs hcoL hmem hI hth heq
  exact ⟨_, ws1, heq, q1, rfl, hl1, hdone, hS1, q2, q3, q4, q5⟩

theorem convert_total (codec : Codec) (args : ProgramCommandLineArgs) (file : ImmutableStream)
    (sb : PDBSuperBlock) (infos : List PDBStreamInfo) (numThreads : Nat)
    (schedule : List Nat) (K T : Nat)
    (hK : numNonEmpty (infos.map (fun i => i.m_StreamSize)) = K)
    (hT : (infos.map (fun i => i.m_StreamSize)).sum = T)
    (hs : args.m_CompressionStrategy = .NoCompression)
    (hth : numThreads ≠ 0)
    (hsched : ∀ i, i < infos.length → 4 ≤ schedule.count i)
    (hN : 1 ≤ infos.length)
    (hle : ∀ info ∈ infos, info.m_StreamSize ≤ 2147483648)
    (hbound : 80 + 4 * infos.length + 32 * K + T < 4294967296)
    (hcoL : ∀ info ∈ infos, ∀ data,
      CoalesceDataFromStream file info sb.m_BlockSize = some data →
      data.length = info.m_StreamSize)
    (hcoS : ∀ info ∈ infos, 0 < info.m_StreamSize →
      ∃ data, CoalesceDataFromStream file info sb.m_BlockSize = some data) :
    ∃ (z : CompressionOutput) (out : Bytes) (F : Nat) (ws : List Worker),
      RunCompression.convert codec args file sb infos numThreads schedule = .finished z
      ∧ 80 + 20 * K + F + (4 * infos.length + 12 * K) ≤ out.length
      ∧ out.length < 4294967296
      ∧ List.Forall₂ StoredWhole (infos.map (fun i => i.m_StreamSize)) z.streamDescriptors
      ∧ z.header =
          { m_StreamDirectoryDataOffset := 80 + 20 * K + F,
            m_StreamDirectoryDataOrigin := 0, m_ChunkMetadataOffset := 80,
            m_ChunkMetadataOrigin := 0, m_NumMSFStreams := infos.length,
            m_IsStreamDirectoryDataCompressed := 0,
            m_StreamDirectoryDataLengthCompressed := 4 * infos.length + 12 * K,
            m_StreamDirectoryDataLengthDecompressed := 4 * infos.length + 12 * K,
            m_NumChunks := K,
            m_ChunkMetadataLength := 20 * K }
      ∧ z.file =
          resizeFile
            (writeAt (writeAt out (80 + 20 * K + F)
              (serializeDirectory z.streamDescriptors)) 0 z.header.toBytes)
            (80 + 20 * K + F + (4 * infos.length + 12 * K))
      ∧ z.streamDescriptors = ws.map (fun w => w.m_Fragments)
      ∧ ws.length = infos.length
      ∧ (∀ (i : Nat) (w : Worker) (info : PDBStreamInfo), ws[i]? = some w →
          infos[i]? = some info → w.m_Fragments ≠ [] →
          ∃ k o, k < K
            ∧ w.m_Fragments = [⟨info.m_StreamSize, 0, MsfzFragment.SetChunkIndex k⟩]
            ∧ o + info.m_StreamSize ≤ F
            ∧ (out.drop (80 + 20 * k)).take 20
                = MsfzChunk.toBytes
                    { m_OffsetToChunkData := 80 + 20 * K + o, m_OriginToChunk := 0,
                      m_IsCompressed := 0, m_CompressedSize := info.m_StreamSize,
                      m_DecompressedSize := info.m_StreamSize }) := by
  subst hK hT
  generalize hK : numNonEmpty (infos.map (fun i => i.m_StreamSize)) = K at *
  generalize hT : (infos.map (fun i => i.m_StreamSize)).sum = T at *
  have hmem : ∀ info ∈ infos, info.m_StreamSize ≤ T := by
    intro info hi
    rw [← hT]
    exact mem_le_sum _ _ (List.mem_map_of_mem _ hi)
  obtain ⟨ms, hms, hms1, _⟩ := GetStreamAtOffset_window
    (80 + (4 * infos.length + 12 * K) + 20 * K + T) 80 0 (by omega)
  obtain ⟨ds, hds, hds1, hds2⟩ := GetStreamAtOffset_window
    (80 + (4 * infos.length + 12 * K) + 20 * K + T) (80 + 20 * K) T (by omega)
  have hms2 : ms = (4 * infos.length + 12 * K) + 20 * K + T := by
    have := congrArg MutableStreamFixed.m_Size hms
    unfold MutableStreamFixed.GetStreamAtOffset at this
    simp only [if_true] at this
    rw [if_neg (by omega)] at this
    simp only at this
    omega
  obtain ⟨r, ws, hr, hI, hdesc, hwl, hdone, hS, hF2, hdir, hnum, hcomp⟩ :=
    CompressAndWriteStreamData_total codec file infos args sb.m_BlockSize (80 + 20 * K)
      (80 + (4 * infos.length + 12 * K) + 20 * K + T) 80 ms (80 + 20 * K) ds numThreads
      schedule
      { out := List.replicate (80 + (4 * infos.length + 12 * K) + 20 * K + T) 0,
        outChunkMetadataStream := { m_Data := some 80, m_Size := ms, m_Offset := 0 },
        outChunkDataStream := { m_Data := some (80 + 20 * K), m_Size := ds, m_Offset := 0 } }
      hs hcoL hcoS hth hsched (by omega) (by rw [hK]; omega) (by rw [hK]) (by rw [hK]; omega)
      (by rw [hT]; omega)
      (by
        rw [hT]
        exact ⟨by simp, rfl, rfl, by omega, rfl, rfl, by omega, by simp, by
          by_cases hT0 : T = 0
          · exact Or.inr ⟨hT0, rfl⟩
          · exact Or.inl (hds2 hT0), by simp, by omega⟩)
      rfl rfl
  rw [hK, hT] at hS
  rw [hT] at hI
  obtain ⟨hL, hm1, hm2, hm3, hd1, hd2, hd3, hd4, hd5, hm4, _⟩ := hI
  have hFle : r.sh.outChunkDataStream.m_Offset ≤ T := by
    rcases hd5 with h5 | h5
    · omega
    · omega
  have hdl := StoredWhole_serialize_length _ _ hF2
  rw [hK] at hdl
  have hc1 : StrictCastTo32 r.sh.outChunkDataStream.m_Offset
      = some r.sh.outChunkDataStream.m_Offset := by
    unfold StrictCastTo32
    rw [if_pos (by omega)]
  have hc2 : StrictCastTo32 r.directoryData.length
      = some (4 * infos.length + 12 * K) := by
    unfold StrictCastTo32
    rw [hdir, hdl, List.length_map, if_pos (by omega)]
  rw [List.length_map] at hdl
  have hg1 : MutableStreamFixed.GetStreamAtOffset
      { m_Data := some 0, m_Size := 80 + (4 * infos.length + 12 * K) + 20 * K + T,
        m_Offset := 0 }
      (80 + 20 * K + r.sh.outChunkDataStream.m_Offset) (4 * infos.length + 12 * K)
      = { m_Data := some (80 + 20 * K + r.sh.outChunkDataStream.m_Offset),
          m_Size := 4 * infos.length + 12 * K, m_Offset := 0 } := by
    unfold MutableStreamFixed.GetStreamAtOffset
    have h0 : ¬ (4 * infos.length + 12 * K = 0) := by omega
    simp only [h0, if_false]
    rw [if_neg (by omega)]
    simp
  have hg2 : MutableStreamFixed.GetStreamAtOffset
      { m_Data := some 0, m_Size := 80 + (4 * infos.length + 12 * K) + 20 * K + T,
        m_Offset := 0 } 0 80
      = { m_Data := some 0, m_Size := 80, m_Offset := 0 } := by
    unfold MutableStreamFixed.GetStreamAtOffset
    simp only [Nat.reduceEqDiff, if_false]
    rw [if_neg (by omega)]
    simp
  have hw1 : ∀ (o : Bytes),
      (MutableStreamFixed.WriteBytes
        { m_Data := some (80 + 20 * K + r.sh.outChunkDataStream.m_Offset),
          m_Size := 4 * infos.length + 12 * K, m_Offset := 0 } o r.directoryData).2.2
      = writeAt o (80 + 20 * K + r.sh.outChunkDataStream.m_Offset) r.directoryData := by
    intro o
    unfold MutableStreamFixed.WriteBytes
    simp only [hdir, hdl, Nat.zero_add]
    rw [if_neg (by omega)]
    simp
  have hw2 : ∀ (o : Bytes) (hd : MsfzHeader),
      (MutableStreamFixed.WriteBytes { m_Data := some 0, m_Size := 80, m_Offset := 0 } o
        hd.toBytes).2.2 = writeAt o 0 hd.toBytes := by
    intro o hd
    unfold MutableStreamFixed.WriteBytes
    simp only [length_MsfzHeader_toBytes, Nat.zero_add]
    rw [if_neg (by omega)]
  have hconv : ∃ z, RunCompression.convert codec args file sb infos numThreads schedule
      = .finished z
      ∧ z.header =
          { m_StreamDirectoryDataOffset := 80 + 20 * K + r.sh.outChunkDataStream.m_Offset,
            m_StreamDirectoryDataOrigin := 0, m_ChunkMetadataOffset := 80,
            m_ChunkMetadataOrigin := 0, m_NumMSFStreams := infos.length,
            m_IsStreamDirectoryDataCompressed := 0,
            m_StreamDirectoryDataLengthCompressed := 4 * infos.length + 12 * K,
            m_StreamDirectoryDataLengthDecompressed := 4 * infos.length + 12 * K,
            m_NumChunks := K,
            m_ChunkMetadataLength := 20 * K }
      ∧ z.file =
          resizeFile
            (writeAt (writeAt r.sh.out (80 + 20 * K + r.sh.outChunkDataStream.m_Offset)
              (serializeDirectory z.streamDescriptors)) 0 z.header.toBytes)
            (80 + 20 * K + r.sh.outChunkDataStream.m_Offset + (4 * infos.length + 12 * K))
      ∧ z.streamDescriptors = r.streamDescriptors := by
    unfold RunCompression.convert
    rw [CalculateOutputRegionSizes_noCompression codec args hs infos hle (by rw [hK]; omega)
      (by rw [hK]; omega) (by rw [hT]; omega), hK, hT]
    simp only
    rw [Nat.mod_eq_of_lt (show 80 + 20 * K < 4294967296 by omega)]
    rw [hms, hds, hr]
    simp only
    unfold RunCompression.finalize
    simp only
    rw [hc1, hc2]
    simp only
    rw [Nat.mod_eq_of_lt (by omega), hg1, hg2, hw1, hw2]
    refine ⟨_, rfl, ?_, ?_, rfl⟩
    · simp only [hnum, hcomp]
      congr 1
      omega
    · simp only [hdir, hnum, hcomp]
  obtain ⟨z, hz, hhdr, hfile, hzd⟩ := hconv
  refine ⟨z, r.sh.out, r.sh.outChunkDataStream.m_Offset, ws, hz, by omega, by omega,
    by rw [hzd]; exact hF2, hhdr, hfile, by rw [hzd]; exact hdesc, hwl, ?_⟩
  intro i w info hw hinfo hne
  obtain ⟨hS1, hS2, hS3, hS4, hS5⟩ := hS
  have hsz : (infos.map (fun x => x.m_StreamSize))[i]? = some info.m_StreamSize := by
    rw [List.getElem?_map, hinfo]
    rfl
  obtain ⟨q1, q2, q3, q4⟩ := hS4 i w info.m_StreamSize hw hsz hne
  have hwd : w.state = .done := hdone w (List.mem_iff_getElem?.mpr ⟨i, hw⟩)
  have hwrote : w.wrote = true := by
    unfold Worker.wrote
    rw [hwd]
    cases hf : w.m_Fragments with
    | nil => exact absurd hf hne
    | cons a b => rfl
  obtain ⟨o, ho1, ho2⟩ := q4 hwrote
  refine ⟨w.slot, o, ?_, q2, by omega, ho2⟩
  have : 0 ≤ (List.zipWith (fun (w : Worker) (s : Nat) =>
      if w.m_Fragments = [] ∧ s ≠ 0 then 20 else 0) ws
      (infos.map (fun x => x.m_StreamSize))).sum := Nat.zero_le _
  omega

theorem MsfzChunk_ofBytes_toBytes (c : MsfzChunk)
    (h1 : c.m_OffsetToChunkData < 4294967296) (h2 : c.m_OriginToChunk < 4294967296)
    (h3 : c.m_IsCompressed < 4294967296) (h4 : c.m_CompressedSize < 4294967296)
    (h5 : c.m_DecompressedSize < 4294967296) :
    MsfzChunk.ofBytes c.toBytes 0 = c := by
  cases c with
  | mk a b c d e =>
    simp only at h1 h2 h3 h4 h5
    simp only [MsfzChunk.ofBytes, MsfzChunk.toBytes, le32, toLe32, List.cons_append,
      List.nil_append, List.getD_cons_zero, List.getD_cons_succ, Nat.zero_add,
      MsfzChunk.mk.injEq]
    refine ⟨?_, ?_, ?_, ?_, ?_⟩ <;> omega

theorem MsfzChunk_ofBytes_of_take (d : Bytes) (p : Nat) (c : MsfzChunk)
    (h : (d.drop p).take 20 = c.toBytes)
    (h1 : c.m_OffsetToChunkData < 4294967296) (h2 : c.m_OriginToChunk < 4294967296)
    (h3 : c.m_IsCompressed < 4294967296) (h4 : c.m_CompressedSize < 4294967296)
    (h5 : c.m_DecompressedSize < 4294967296) :
    MsfzChunk.ofBytes d p = c := by
  have hq : ∀ q, q + 4 ≤ 20 → le32 d (p + q) = le32 c.toBytes q := by
    intro q hq
    rw [← h, le32_take _ _ _ hq, le32_drop]
  have := MsfzChunk_ofBytes_toBytes c h1 h2 h3 h4 h5
  rw [← this]
  simp only [MsfzChunk.ofBytes, MsfzChunk.mk.injEq]
  have e0 := hq 0 (by omega)
  rw [Nat.add_zero] at e0
  exact ⟨e0, by rw [hq 4 (by omega)], by rw [hq 8 (by omega)], by rw [hq 12 (by omega)],
    by rw [hq 16 (by omega)]⟩

theorem msfz_regions (out dir : Bytes) (hdr : MsfzHeader) (O : Nat) (file : Bytes)
    (hfile : file = resizeFile (writeAt (writeAt out O dir) 0 hdr.toBytes) (O + dir.length))
    (hO : 80 ≤ O) (hin : O + dir.length ≤ out.length) :
    file.length = O + dir.length
      ∧ file.take 32 = g_MsfzSignatureBytes
      ∧ (∀ p n, 80 ≤ p → p + n ≤ O → (file.drop p).take n = (out.drop p).take n) := by
  have hb := length_MsfzHeader_toBytes hdr
  have l1 : (writeAt out O dir).length = out.length := length_writeAt _ _ _ hin
  have l2 : (writeAt (writeAt out O dir) 0 hdr.toBytes).length = out.length := by
    rw [length_writeAt _ _ _ (by omega), l1]
  have hf : file = (writeAt (writeAt out O dir) 0 hdr.toBytes).take (O + dir.length) := by
    rw [hfile, resizeFile_of_le _ _ (by omega)]
  have hfl : file.length = O + dir.length := by
    rw [hf, List.length_take, l2]
    omega
  have ht : (writeAt (writeAt out O dir) 0 hdr.toBytes).take 80 = hdr.toBytes := by
    have := take_drop_writeAt_self (writeAt out O dir) 0 hdr.toBytes (by omega)
    rwa [List.drop_zero, hb] at this
  refine ⟨hfl, ?_, ?_⟩
  · have h32 : file.take 32 = (file.take 80).take 32 := by
      rw [List.take_take, Nat.min_eq_left (by omega)]
    have h80 : file.take 80 = hdr.toBytes := by
      rw [hf, List.take_take, Nat.min_eq_left (by omega), ht]
    rw [h32, h80]
    simp only [MsfzHeader.toBytes, List.append_assoc]
    rw [List.take_append_of_le_length (by decide)]
    decide
  · intro p n hp hn
    have hd1 := take_drop_writeAt_disjoint (writeAt out O dir) 0 hdr.toBytes p n
      (by omega) (by omega)
    have hd2 := take_drop_writeAt_disjoint out O dir p n hin (by omega)
    rw [hf, List.drop_take, List.take_take, Nat.min_eq_left (by omega), hd1, hd2]

theorem fragmentData_stored (codec : Codec) (file : Bytes) (chunks : List MsfzChunk)
    (s k p : Nat) (hchunk : chunks[k]? = some ⟨p, 0, 0, s, s⟩) (hk : k < 2147483648)
    (hs : 0 < s) (hs32 : s < 4294967296) (hin : p + s ≤ file.length) :
    WriteSingleStreamDataToPDB.fragmentData codec (ImmutableStream.ofBytes file) chunks
        ⟨s, 0, MsfzFragment.SetChunkIndex k⟩
      = some ((file.drop p).take s) := by
  unfold WriteSingleStreamDataToPDB.fragmentData
  rw [IsLocatedInChunk_SetChunkIndex, GetChunkIndex_SetChunkIndex _ _ _ hk]
  simp only [Bool.true_eq_false, if_false, hchunk, Nat.zero_add, Nat.add_zero,
    Nat.mod_eq_of_lt hs32, ImmutableStream.CanReadAt, ImmutableStream.ofBytes,
    ImmutableStream.m_Length, ImmutableStream.span]
  rw [if_neg (by omega)]
  have hcr : (decide (p < file.length) && decide (p + s ≤ file.length)) = true := by
    rw [Bool.and_eq_true, decide_eq_true_eq, decide_eq_true_eq]
    omega
  rw [hcr]
  simp only [Bool.true_eq_false, if_false, ne_eq, not_true_eq_false]
  rw [if_neg (by omega)]

theorem RunCompression_total (codec : Codec) (args : ProgramCommandLineArgs)
    (pdbFile : Bytes) (numThreads : Nat) (schedule : List Nat) (sb : PDBSuperBlock)
    (infos : List PDBStreamInfo)
    (hs : args.m_CompressionStrategy = .NoCompression)
    (hth : numThreads ≠ 0)
    (hsched : ∀ i, i < infos.length → 4 ≤ schedule.count i)
    (hsb : readSuperBlock pdbFile = some sb)
    (hparse : ParseStreamDirectory (ImmutableStream.ofBytes pdbFile) sb = some infos)
    (hdvd : sb.m_BlockSize ∣ 4294967296)
    (hN : 1 ≤ infos.length)
    (hread : ∀ info ∈ infos, 0 < info.m_StreamSize →
      ∃ data, CoalesceDataFromStream (ImmutableStream.ofBytes pdbFile) info sb.m_BlockSize
        = some data)
    (hle : ∀ info ∈ infos, info.m_StreamSize ≤ 2147483648)
    (hbound : 80 + 4 * infos.length + 32 * numNonEmpty (infos.map (fun i => i.m_StreamSize))
      + (infos.map (fun i => i.m_StreamSize)).sum < 4294967296) :
    ∃ (z : CompressionOutput) (chunks : List MsfzChunk),
      RunCompression codec args pdbFile numThreads schedule = .finished z
      ∧ 80 ≤ z.file.length
      ∧ z.file.take 32 = g_MsfzSignatureBytes
      ∧ (GetStreamDirectoryData codec (ImmutableStream.ofBytes z.file)
          (MsfzHeader.ofBytes z.file)).bind ParseStreamDirectoryData
          = some z.streamDescriptors
      ∧ (MsfzHeader.ofBytes z.file).m_NumMSFStreams = infos.length
      ∧ GetChunkDescriptorsData (ImmutableStream.ofBytes z.file) (MsfzHeader.ofBytes z.file)
          = some chunks
      ∧ List.Forall₂ StoredWhole (infos.map (fun i => i.m_StreamSize)) z.streamDescriptors
      ∧ (∀ frags ∈ z.streamDescriptors, ∀ f ∈ frags,
          ∃ d, WriteSingleStreamDataToPDB.fragmentData codec (ImmutableStream.ofBytes z.file)
              chunks f = some d ∧ d.length = f.m_DataSize) := by
  have hbs0 : 1 ≤ sb.m_BlockSize := Nat.pos_of_dvd_of_pos hdvd (by norm_num)
  obtain ⟨payload, _, hspec⟩ := ParseStreamDirectory_eq_directorySpec _ sb infos hdvd hparse
  have hco : ∀ info ∈ infos, ∀ data,
      CoalesceDataFromStream (ImmutableStream.ofBytes pdbFile) info sb.m_BlockSize = some data →
      data.length = info.m_StreamSize := by
    intro info hi data hd
    exact CoalesceDataFromStream_length _ info _ data hbs0
      (directorySpec_block_count payload sb.m_BlockSize info (hspec ▸ hi)) hd
  generalize hK : numNonEmpty (infos.map (fun i => i.m_StreamSize)) = K at *
  generalize hT : (infos.map (fun i => i.m_StreamSize)).sum = T at *
  obtain ⟨z, out, F, ws, hz, hin, h32, hF2, hhdr, hfile, hzd, hwl, hslots⟩ :=
    convert_total codec args (ImmutableStream.ofBytes pdbFile) sb infos numThreads schedule
      K T hK hT hs hth hsched hN hle hbound hco hread
  have hlt : ∀ s ∈ infos.map (fun i => i.m_StreamSize), s < 4294967296 := by
    intro s hs'
    rw [List.mem_map] at hs'
    obtain ⟨info, hi, rfl⟩ := hs'
    have := hle info hi
    omega
  have hdl := StoredWhole_serialize_length _ _ hF2
  rw [List.length_map, hK] at hdl
  rw [← hdl] at hfile hin
  obtain ⟨hhead, hreadDir⟩ := msfz_directory_read codec out
    (serializeDirectory z.streamDescriptors) z.header _ z.file hfile (by omega) hin (by omega)
    (by rw [hhdr]) (by rw [hhdr]; norm_num) (by rw [hhdr]; norm_num) (by rw [hhdr]; norm_num)
    (by rw [hhdr]; simp only; omega) (by rw [hhdr])
    (by rw [hhdr]; simp only; omega) (by rw [hhdr]; simp only; omega)
    (by rw [hhdr]; simp only; omega) (by rw [hhdr]; simp only; omega) h32
  obtain ⟨hfl, hsig, hreg⟩ := msfz_regions out (serializeDirectory z.streamDescriptors)
    z.header _ z.file hfile (by omega) hin
  have hchunks : GetChunkDescriptorsData (ImmutableStream.ofBytes z.file) z.header
      = some ((List.range K).map (fun i => MsfzChunk.ofBytes z.file (80 + 20 * i))) := by
    unfold GetChunkDescriptorsData
    simp only [hhdr, ImmutableStream.Seek, ImmutableStream.ofBytes, ImmutableStream.m_Length,
      ImmutableStream.CanReadN, hfl]
    rw [if_neg (by omega)]
    simp only
    rw [if_neg (by simp only [decide_eq_false_iff_not]; omega), if_neg (by omega),
      if_neg (by omega)]
  refine ⟨z, _, ?_, by omega, hsig, ?_, by rw [hhead, hhdr], by rw [hhead]; exact hchunks,
    hF2, ?_⟩
  · unfold RunCompression
    rw [hsb]
    simp only [hparse]
    exact hz
  · rw [hhead, hreadDir]
    simp only [Option.some_bind]
    exact ParseStreamDirectoryData_serializeDirectory _ (StoredWhole_valid _ _ hlt hF2)
  · intro frags hfr f hf
    rw [hzd, List.mem_map] at hfr
    obtain ⟨w, hw, rfl⟩ := hfr
    obtain ⟨i, hi, hget⟩ := List.getElem_of_mem hw
    have hi2 : i < infos.length := by omega
    have hne : w.m_Fragments ≠ [] := List.ne_nil_of_mem hf
    obtain ⟨k, o, hk, hfrag, ho, hbytes⟩ := hslots i w infos[i]
      (by rw [List.getElem?_eq_getElem hi, hget]) (List.getElem?_eq_getElem hi2) hne
    have hsz := hle infos[i] (List.getElem_mem _)
    rw [hfrag, List.mem_singleton] at hf
    subst hf
    have hpos : 0 < infos[i].m_StreamSize := by
      have := StoredWhole_valid _ _ hlt hF2 w.m_Fragments
        (by rw [hzd]; exact List.mem_map_of_mem _ hw)
        ⟨infos[i].m_StreamSize, 0, MsfzFragment.SetChunkIndex k⟩
        (by rw [hfrag]; exact List.mem_singleton.mpr rfl)
      exact this.1
    have hck : MsfzChunk.ofBytes z.file (80 + 20 * k)
        = ⟨80 + 20 * K + o, 0, 0, infos[i].m_StreamSize, infos[i].m_StreamSize⟩ := by
      apply MsfzChunk_ofBytes_of_take
      · rw [hreg (80 + 20 * k) 20 (by omega) (by omega)]
        exact hbytes
      · simp only; omega
      · simp only; omega
      · simp only; omega
      · simp only; omega
      · simp only; omega
    refine ⟨_, fragmentData_stored codec z.file _ infos[i].m_StreamSize k (80 + 20 * K + o)
      ?_ (by omega) hpos (by omega) (by omega), ?_⟩
    · rw [List.getElem?_map, List.getElem?_range hk]
      simp only [Option.map_some']
      rw [hck]
    · simp only [List.length_take, List.length_drop, hfl]
      omega

theorem streams_some (bs : Nat) :
    ∀ (descs : List (List MsfzFragment)) (sizes : List Nat) (c t : Nat),
      descs.map CalculateSize = sizes.map some →
      ∃ r, AssignBlocksToStreams.streams bs descs c t = some r := by
  intro descs
  induction descs with
  | nil =>
    intro sizes c t _
    exact ⟨_, rfl⟩
  | cons d rest ih =>
    intro sizes c t h
    cases sizes with
    | nil => simp at h
    | cons s ss =>
      simp only [List.map_cons, List.cons.injEq] at h
      obtain ⟨r, hr⟩ := ih ss (AssignNextNBlocks bs (AlignTo s bs / bs) c).2
        (t + (4 + 4 * (AlignTo s bs / bs))) h.2
      simp only [AssignBlocksToStreams.streams, h.1, hr, Option.map_some']
      exact ⟨_, rfl⟩

theorem AssignBlocksToStreams_layout (descs : List (List MsfzFragment)) (sizes : List Nat)
    (bs c1 c2 M : Nat) (hbs4 : 4 ≤ bs) (hbs2 : bs ≤ 8192)
    (hsz : descs.map CalculateSize = sizes.map some)
    (hs : ∀ s ∈ sizes, s + (bs - 1) < 4294967296)
    (hsmall : 4 + 4 * sizes.length + 4 * numStreamBlocks bs sizes + bs < 4294967296)
    (hc1 : (AssignNextNBlocks bs (numStreamBlocks bs sizes) 3).2 = c1)
    (hc2 : (AssignNextNBlocks bs (numDirectoryBlocks bs sizes) c1).2 = c2)
    (hM : (AssignNextNBlocks bs (numDirectoryIndexBlocks bs sizes) c2).2 = M) :
    ∃ ls,
      AssignBlocksToStreams descs bs
        = some ⟨ls, (AssignNextNBlocks bs (numDirectoryBlocks bs sizes) c1).1,
            (AssignNextNBlocks bs (numDirectoryIndexBlocks bs sizes) c2).1,
            (List.range (AlignTo (AlignTo M 8 / 8) bs / bs)).map
              (fun i => (i * bs + 1) % 4294967296), M⟩
      ∧ ls.map List.length = sizes.map (fun s => ceilDiv s bs)
      ∧ ls.flatten = (AssignNextNBlocks bs (numStreamBlocks bs sizes) 3).1
      ∧ (∀ l ∈ ls, ∃ n c, c < 4294967296 ∧ l = (AssignNextNBlocks bs n c).1) := by
  have hbs : 1 ≤ bs := by omega
  have hlen : descs.length = sizes.length := by
    have := congrArg List.length hsz
    simpa using this
  obtain ⟨r, hr⟩ := streams_some bs descs sizes 3 4 hsz
  obtain ⟨ls, c1x, t⟩ := r
  obtain ⟨i1, i2⟩ := streams_total bs descs 3 4 _ hr
  obtain ⟨j1, j2, j3, j4⟩ := streams_flatten bs descs 3 4 _ hr
  simp only at i1 i2 j1 j2 j3 j4
  have hlens : ls.map List.length = sizes.map (fun s => ceilDiv s bs) := by
    rw [i1]
    have e : descs.map (fun d => AlignTo ((CalculateSize d).getD 0) bs / bs)
        = (descs.map CalculateSize).map (fun o => AlignTo (o.getD 0) bs / bs) := by
      rw [List.map_map]; rfl
    rw [e, hsz, List.map_map]
    apply List.map_congr_left
    intro s hs1
    simp only [Function.comp, Option.getD_some]
    exact AlignTo_div_eq_ceilDiv s bs hbs (by omega) (hs s hs1)
  have hfl : ls.flatten.length = numStreamBlocks bs sizes := by
    rw [List.length_flatten, hlens]
    rfl
  rw [hfl] at j1 j2 i2
  rw [hc1] at j2
  subst j2
  have hnd : StrictCastTo32 (AlignTo64 t bs / bs) = some (numDirectoryBlocks bs sizes) := by
    rw [AlignTo64_div t bs (by omega), i2, hlen]
    unfold StrictCastTo32
    have hle : ceilDiv (4 + 4 * sizes.length + 4 * numStreamBlocks bs sizes) bs
        ≤ 4 + 4 * sizes.length + 4 * numStreamBlocks bs sizes := by
      apply ceilDiv_le _ _ _ hbs
      exact Nat.le_mul_of_pos_right _ hbs
    rw [if_pos (by omega)]
    rfl
  have hndle : numDirectoryBlocks bs sizes
      ≤ 4 + 4 * sizes.length + 4 * numStreamBlocks bs sizes := by
    apply ceilDiv_le _ _ _ hbs
    exact Nat.le_mul_of_pos_right _ hbs
  have hni : StrictCastTo32 (AlignTo64 (numDirectoryBlocks bs sizes * 4) bs / bs)
      = some (numDirectoryIndexBlocks bs sizes) := by
    rw [AlignTo64_div _ bs (by omega), Nat.mul_comm]
    unfold StrictCastTo32
    have hle : ceilDiv (4 * numDirectoryBlocks bs sizes) bs
        ≤ numDirectoryBlocks bs sizes := by
      apply ceilDiv_le _ _ _ hbs
      rw [Nat.mul_comm]
      exact Nat.mul_le_mul_left _ hbs4
    rw [if_pos (by omega)]
    rfl
  have := AssignBlocksToStreams_eval bs descs ls _ t _ _ hr hnd hni
  rw [hc2, hM] at this
  exact ⟨ls, this, hlens, j1, j4 (by norm_num)⟩

theorem AssignNextNBlocks_props (bs : Nat) (hbs : 4 ≤ bs) (n c : Nat)
    (h : c + 3 * n < 4294967296) :
    (AssignNextNBlocks bs n c).1.Pairwise (· < ·)
      ∧ (∀ b ∈ (AssignNextNBlocks bs n c).1,
          c ≤ b ∧ b < (AssignNextNBlocks bs n c).2 ∧ IsBlockReserved b bs = false)
      ∧ c ≤ (AssignNextNBlocks bs n c).2
      ∧ (AssignNextNBlocks bs n c).2 ≤ c + 3 * n
      ∧ c + n ≤ (AssignNextNBlocks bs n c).2 := by
  obtain ⟨h1, h2, h3, h4, h5⟩ := AssignNextNBlocks_spec bs hbs n c h
  have hmem : ∀ b ∈ (AssignNextNBlocks bs n c).1,
      c ≤ b ∧ b < (AssignNextNBlocks bs n c).2 ∧ IsBlockReserved b bs = false := by
    intro b hb
    rw [h1, List.mem_filter, List.mem_range'_1] at hb
    obtain ⟨⟨hb1, hb2⟩, hb3⟩ := hb
    refine ⟨hb1, by omega, ?_⟩
    simpa using hb3
  have hpw : (AssignNextNBlocks bs n c).1.Pairwise (· < ·) := by
    rw [h1]
    exact List.Pairwise.filter _ (List.pairwise_lt_range' c _)
  refine ⟨hpw, hmem, h2, h3, ?_⟩
  have hnd : (AssignNextNBlocks bs n c).1.Nodup := hpw.imp (fun h => Nat.ne_of_lt h)
  have hsub : (AssignNextNBlocks bs n c).1 ⊆ List.range' c ((AssignNextNBlocks bs n c).2 - c) := by
    intro b hb
    obtain ⟨q1, q2, _⟩ := hmem b hb
    rw [List.mem_range'_1]
    omega
  have hlen := List.Subperm.length_le (List.subperm_of_subset hnd hsub)
  rw [h4, List.length_range'] at hlen
  omega

theorem pairwise_last_mem (first : Nat) (tail : List Nat) :
    tail.getLast?.getD first ∈ first :: tail := by
  cases h : tail.getLast? with
  | none => simp
  | some x =>
    simp only [Option.getD_some]
    exact List.mem_cons_of_mem _ (List.mem_of_mem_getLast? h)

theorem WriteSingleStreamDataToPDB_stored (codec : Codec) (fs : ImmutableStream)
    (chunks : List MsfzChunk) (frags : List MsfzFragment) (l : List Nat) (bs s : Nat)
    (out : Bytes) (hbs : 1 ≤ bs)
    (hst : StoredWhole s frags)
    (hfrag : ∀ f ∈ frags, ∃ d, WriteSingleStreamDataToPDB.fragmentData codec fs chunks f = some d
      ∧ d.length = f.m_DataSize)
    (hlen : l.length = ceilDiv s bs)
    (hpw : l.Pairwise (· < ·))
    (hin : ∀ b ∈ l, (b + 1) * bs ≤ out.length)
    (h32 : out.length < 4294967296) :
    ∃ s1 out1,
      WriteSingleStreamDataToPDB codec fs chunks frags
          (GetStreamFromBlockIndices { m_Data := some 0, m_Size := out.length, m_Offset := 0 }
            l bs) out = some (s1, out1)
      ∧ out1.length = out.length := by
  rcases hst with ⟨_, hf⟩ | ⟨hpos, tag, _, hf⟩
  · subst hf
    exact ⟨_, out, rfl, rfl⟩
  · subst hf
    obtain ⟨d, hd, hdl⟩ := hfrag _ (List.mem_singleton.mpr rfl)
    simp only at hdl
    have hc1 : 1 ≤ ceilDiv s bs := ceilDiv_pos s bs hpos hbs
    cases l with
    | nil =>
      simp only [List.length_nil] at hlen
      omega
    | cons first tail =>
      have hlast := hin _ (pairwise_last_mem first tail)
      have hfit := le_ceilDiv_mul s bs hbs
      rw [← hlen, List.length_cons] at hfit
      obtain ⟨s1, out1, hw, hl1, _⟩ := writeSequence_blocks first bs tail out [d] hbs
        (List.Pairwise.chain hpw) (by omega)
        (by simp only [List.map_cons, List.map_nil, List.sum_cons, List.sum_nil]; omega) hlast
      exact ⟨s1, out1, WriteSingleStreamDataToPDB_single codec fs chunks _ d _ s1 out out1 true hd
        (writeSequence_single _ _ _ _ _ hw), hl1⟩

theorem streams_phase_some (codec : Codec) (fs : ImmutableStream) (chunks : List MsfzChunk)
    (descs : List (List MsfzFragment)) (bs : Nat) (ls : List (List Nat)) (total : Nat)
    (sizes : List Nat) (hbs : 1 ≤ bs)
    (hF : List.Forall₂ StoredWhole sizes descs)
    (hfrag : ∀ frags ∈ descs, ∀ f ∈ frags,
      ∃ d, WriteSingleStreamDataToPDB.fragmentData codec fs chunks f = some d
        ∧ d.length = f.m_DataSize)
    (hlens : ls.map List.length = sizes.map (fun s => ceilDiv s bs))
    (hpw : ∀ l ∈ ls, l.Pairwise (· < ·) ∧ ∀ b ∈ l, (b + 1) * bs ≤ total)
    (h32 : total < 4294967296) :
    ∀ (order : List Nat) (out : Bytes), out.length = total →
      ∃ out1,
        WriteStreamsAndDirectoryToPDB.streams codec fs chunks descs bs ls
          { m_Data := some 0, m_Size := total, m_Offset := 0 } order out = some out1
        ∧ out1.length = total := by
  intro order
  induction order with
  | nil =>
    intro out hl
    exact ⟨out, rfl, hl⟩
  | cons i rest ih =>
    intro out hl
    simp only [WriteStreamsAndDirectoryToPDB.streams]
    cases hd : descs[i]? with
    | none =>
      simp only
      exact ih out hl
    | some frags =>
      cases hb : ls[i]? with
      | none =>
        simp only
        exact ih out hl
      | some l =>
        simp only
        have hi1 : i < descs.length := (List.getElem?_eq_some_iff.mp hd).1
        have hi2 : i < ls.length := (List.getElem?_eq_some_iff.mp hb).1
        have hFl := List.Forall₂.length_eq hF
        have hi3 : i < sizes.length := by omega
        have hst : StoredWhole sizes[i] frags := by
          have := (List.forall₂_iff_get.mp hF).2 i hi3 hi1
          simp only [List.get_eq_getElem] at this
          rw [(List.getElem?_eq_some_iff.mp hd).2] at this
          exact this
        have hll : l.length = ceilDiv sizes[i] bs := by
          have h1 : (ls.map List.length)[i]? = some l.length := by
            rw [List.getElem?_map, hb]
            rfl
          rw [hlens, List.getElem?_map, List.getElem?_eq_getElem hi3] at h1
          simp only [Option.map_some', Option.some.injEq] at h1
          exact h1.symm
        have hlm : l ∈ ls := List.mem_iff_getElem?.mpr ⟨i, hb⟩
        obtain ⟨hp1, hp2⟩ := hpw l hlm
        have hfm : frags ∈ descs := List.mem_iff_getElem?.mpr ⟨i, hd⟩
        obtain ⟨s1, out1, hw, hl1⟩ := WriteSingleStreamDataToPDB_stored codec fs chunks frags l
          bs sizes[i] out hbs hst (hfrag frags hfm) hll hp1 (by rw [hl]; exact hp2)
          (by rw [hl]; exact h32)
        rw [hl] at hw
        rw [hw]
        simp only
        exact ih out1 (by rw [hl1, hl])

theorem adjustOffsetNat_of_starts : ∀ (H : List (Nat × Nat)) (x : Nat),
    (∀ h ∈ H, x < h.1) → adjustOffsetNat H x = x := by
  intro H
  induction H with
  | nil => intro x _; rfl
  | cons a rest ih =>
    intro x h
    have ha := h a (List.mem_cons_self _ _)
    rw [adjustOffsetNat, if_neg (by omega)]
    exact ih x (fun b hb => h b (List.mem_cons_of_mem _ hb))

theorem adjustOffsetNat_shift (off : Nat) : ∀ (H : List (Nat × Nat)) (x : Nat),
    (∀ h ∈ H, off ≤ h.1 ∧ h.1 ≤ h.2) →
    adjustOffsetNat (H.map (fun h => (h.1 - off, h.2 - off))) x + off
      = adjustOffsetNat H (x + off) := by
  intro H
  induction H with
  | nil => intro x _; rfl
  | cons a rest ih =>
    intro x h
    obtain ⟨h1, h2⟩ := h a (List.mem_cons_self _ _)
    have hr := fun b hb => h b (List.mem_cons_of_mem _ hb)
    simp only [List.map_cons, adjustOffsetNat]
    by_cases hax : a.1 ≤ x + off
    · rw [if_pos hax, if_pos (by omega), ih _ hr]
      congr 1
      omega
    · rw [if_neg hax, if_neg (by omega), ih _ hr]

theorem HolesOk_shift (off : Nat) : ∀ (H : List (Nat × Nat)) (lo hi : Nat),
    HolesOk lo H hi → off ≤ lo →
    HolesOk (lo - off) (H.map (fun h => (h.1 - off, h.2 - off))) (hi - off) := by
  intro H
  induction H with
  | nil =>
    intro lo hi h ho
    simp only [List.map_nil, HolesOk] at h ⊢
    omega
  | cons a rest ih =>
    intro lo hi h ho
    obtain ⟨h1, h2, h3⟩ := h
    simp only [List.map_cons, HolesOk]
    exact ⟨by omega, by omega, ih a.2 hi h3 (by omega)⟩

theorem HolesOk_of_starts : ∀ (H : List (Nat × Nat)) (lo lo1 hi : Nat),
    HolesOk lo H hi → (∀ h ∈ H, lo1 ≤ h.1) → lo1 ≤ hi → HolesOk lo1 H hi := by
  intro H lo lo1 hi h hs hle
  cases H with
  | nil => exact hle
  | cons a rest => exact ⟨hs a (List.mem_cons_self _ _), h.2.1, h.2.2⟩

theorem HolesOk_bounds : ∀ (H : List (Nat × Nat)) (lo hi : Nat), HolesOk lo H hi →
    ∀ h ∈ H, lo ≤ h.1 ∧ h.1 ≤ h.2 ∧ h.2 ≤ hi := by
  intro H
  induction H with
  | nil => intro lo hi _ h hh; cases hh
  | cons a rest ih =>
    intro lo hi h b hb
    obtain ⟨h1, h2, h3⟩ := h
    have hle := HolesOk_le _ _ _ h3
    rcases List.mem_cons.mp hb with rfl | hb1
    · exact ⟨h1, h2, hle⟩
    · obtain ⟨q1, q2, q3⟩ := ih a.2 hi h3 b hb1
      exact ⟨by omega, q2, q3⟩

open MutableStreamFixedWithHoles in
theorem subStream_foldl_none (ro re : Nat) : ∀ (H : List (Nat × Nat))
    (r : MutableStreamFixedWithHoles),
    (∀ h ∈ H, clamp h.1 ro re = clamp h.2 ro re) →
    H.foldl (fun (r : MutableStreamFixedWithHoles) offsetPair =>
        if clamp offsetPair.1 ro re ≠ clamp offsetPair.2 ro re then
          r.AddHole (sub64 (clamp offsetPair.1 ro re) ro) (sub64 (clamp offsetPair.2 ro re) ro)
        else r) r = r := by
  intro H
  induction H with
  | nil => intro r _; rfl
  | cons a rest ih =>
    intro r h
    rw [List.foldl_cons, if_neg (by simp [h a (List.mem_cons_self _ _)])]
    exact ih r (fun b hb => h b (List.mem_cons_of_mem _ hb))

open MutableStreamFixedWithHoles in
theorem subStream_foldl_shift (ro re : Nat) (hre : re < 18446744073709551616) :
    ∀ (H : List (Nat × Nat)) (r : MutableStreamFixedWithHoles),
    (∀ h ∈ H, ro ≤ h.1 ∧ h.1 < h.2 ∧ h.2 ≤ re) →
    H.foldl (fun (r : MutableStreamFixedWithHoles) offsetPair =>
        if clamp offsetPair.1 ro re ≠ clamp offsetPair.2 ro re then
          r.AddHole (sub64 (clamp offsetPair.1 ro re) ro) (sub64 (clamp offsetPair.2 ro re) ro)
        else r) r
      = { r with m_HoleOffsets := r.m_HoleOffsets ++ H.map (fun h => (h.1 - ro, h.2 - ro)) } := by
  intro H
  induction H with
  | nil => intro r _; simp
  | cons a rest ih =>
    intro r h
    obtain ⟨h1, h2, h3⟩ := h a (List.mem_cons_self _ _)
    have c1 : clamp a.1 ro re = a.1 := by
      unfold clamp
      rw [if_neg (by omega), if_neg (by omega)]
    have c2 : clamp a.2 ro re = a.2 := by
      unfold clamp
      rw [if_neg (by omega), if_neg (by omega)]
    rw [List.foldl_cons, c1, c2, if_pos (by omega), sub64_of_le _ _ h1 (by omega),
      sub64_of_le _ _ (by omega) (by omega),
      ih _ (fun b hb => h b (List.mem_cons_of_mem _ hb))]
    simp [AddHole]

open MutableStreamFixedWithHoles in
theorem GetSubStreamAtOffset_before_holes (base size o off sz hi : Nat)
    (H : List (Nat × Nat)) (hsz : sz ≠ 0) (h : off + sz ≤ size) (hok : HolesOk 0 H hi)
    (hst : ∀ h ∈ H, off + sz < h.1) (h64 : off + sz + hi < 18446744073709551616) :
    GetSubStreamAtOffset
        { m_Data := some base, m_Size := size, m_Offset := o, m_HoleOffsets := H } off sz
      = { m_Data := some (base + off), m_Size := sz, m_Offset := 0, m_HoleOffsets := [] } := by
  have e1 : AdjustOffset H off = off := by
    rw [AdjustOffset_eq_nat H 0 hi off hok (by omega) (by omega)]
    exact adjustOffsetNat_of_starts H off (fun b hb => by have := hst b hb; omega)
  have e2 : AdjustOffset H (off + sz) = off + sz := by
    rw [AdjustOffset_eq_nat H 0 hi (off + sz) hok (by omega) (by omega)]
    exact adjustOffsetNat_of_starts H (off + sz) hst
  have e3 : wrap64 (off + sz) = off + sz := Nat.mod_eq_of_lt (by omega)
  have e4 : sub64 (off + sz) off = sz := sub64_add_left off sz (by omega)
  unfold GetSubStreamAtOffset
  simp only [if_neg hsz, e1, e3, e2, e4]
  rw [subStream_foldl_none]
  · simp only [toFixed, ofFixed, MutableStreamFixed.GetStreamAtOffset, if_neg hsz]
    rw [if_neg (by omega)]
    simp
  · intro b hb
    have h1 := hst b hb
    have h2 := (HolesOk_bounds H 0 hi hok b hb).2.1
    unfold clamp
    rw [if_neg (by omega), if_pos (by omega), if_neg (by omega), if_pos (by omega)]

open MutableStreamFixedWithHoles in
theorem GetSubStreamAtOffset_rest_holes (base size o off hi : Nat)
    (H : List (Nat × Nat)) (h : off ≤ size) (hok : HolesOk 0 H hi) (hhi : hi ≤ size)
    (hst : ∀ h ∈ H, off < h.1 ∧ h.1 < h.2) (h64 : size + hi < 18446744073709551616) :
    GetSubStreamAtOffset
        { m_Data := some base, m_Size := size, m_Offset := o, m_HoleOffsets := H } off 0
      = { m_Data := some (base + off), m_Size := size - off, m_Offset := 0,
          m_HoleOffsets := H.map (fun h => (h.1 - off, h.2 - off)) } := by
  have e0 : sub64 size off = size - off := sub64_of_le off size h (by omega)
  have e1 : AdjustOffset H off = off := by
    rw [AdjustOffset_eq_nat H 0 hi off hok (by omega) (by omega)]
    exact adjustOffsetNat_of_starts H off (fun b hb => (hst b hb).1)
  have e3 : wrap64 (off + (size - off)) = size := by
    rw [show off + (size - off) = size by omega]
    exact Nat.mod_eq_of_lt (by omega)
  have e2 : AdjustOffset H size = adjustOffsetNat H size :=
    AdjustOffset_eq_nat H 0 hi size hok (by omega) (by omega)
  have hge := adjustOffsetNat_ge H size
  have hbd := adjustOffsetNat_bound H 0 hi size hok
  have e4 : sub64 (adjustOffsetNat H size) off = adjustOffsetNat H size - off :=
    sub64_of_le _ _ (by omega) (by omega)
  have e5 : wrap64 (off + (adjustOffsetNat H size - off)) = adjustOffsetNat H size := by
    rw [show off + (adjustOffsetNat H size - off) = adjustOffsetNat H size by omega]
    exact Nat.mod_eq_of_lt (by omega)
  unfold GetSubStreamAtOffset
  simp only [if_true, e0, e1, e3, e2, e4, e5]
  rw [subStream_foldl_shift off _ (by omega)]
  · simp only [toFixed, ofFixed, MutableStreamFixed.GetStreamAtOffset]
    by_cases h0 : size - off = 0
    · rw [if_pos h0, if_neg (by omega)]
      simp
    · rw [if_neg h0, if_neg (by omega)]
      simp
  · intro b hb
    obtain ⟨h1, h2⟩ := hst b hb
    have h3 := (HolesOk_bounds H 0 hi hok b hb).2.2
    exact ⟨by omega, h2, by omega⟩

theorem directory_loop_holes (a0 A b0 B hi : Nat) (H : List (Nat × Nat))
    (hok : HolesOk 0 H hi) (hhi : hi < 18446744073709551616) :
    ∀ (descs : List (List MsfzFragment)) (sizes : List Nat) (blockLists : List (List Nat))
      (o1 o2 : Nat) (out : Bytes) (t : Nat),
      descs.map CalculateSize = sizes.map some →
      blockLists.length = sizes.length →
      o1 + 4 * sizes.length ≤ A →
      a0 + A ≤ b0 →
      b0 + adjustOffsetNat H (o2 + 4 * blockLists.flatten.length) ≤ out.length →
      adjustOffsetNat H (o2 + 4 * blockLists.flatten.length)
        ≤ MutableStreamFixedWithHoles.AdjustOffset H B →
      o2 + 4 * blockLists.flatten.length + hi < 18446744073709551616 →
      out.length < 18446744073709551616 →
      ∃ out1,
        WriteStreamsAndDirectoryToPDB.directory descs blockLists
            { m_Data := some a0, m_Size := A, m_Offset := o1, m_HoleOffsets := [] }
            { m_Data := some b0, m_Size := B, m_Offset := o2, m_HoleOffsets := H } out t
          = some (out1, t + 4 * sizes.length + 4 * blockLists.flatten.length)
        ∧ out1.length = out.length
        ∧ (∀ k, k < 4 * sizes.length →
            out1.getD (a0 + o1 + k) 0 = (wordsToBytes sizes).getD k 0)
        ∧ (∀ k, k < 4 * blockLists.flatten.length →
            out1.getD (b0 + adjustOffsetNat H (o2 + k)) 0
              = (wordsToBytes blockLists.flatten).getD k 0)
        ∧ (∀ p, (p < a0 + o1 ∨ a0 + o1 + 4 * sizes.length ≤ p) →
            (∀ k, k < 4 * blockLists.flatten.length → p ≠ b0 + adjustOffsetNat H (o2 + k)) →
            out1.getD p 0 = out.getD p 0) := by
  intro descs
  induction descs with
  | nil =>
    intro sizes blockLists o1 o2 out t h hl _ _ _ _ _ _
    cases sizes with
    | nil =>
      cases blockLists with
      | nil =>
        refine ⟨out, rfl, rfl, ?_, ?_, fun p _ _ => rfl⟩
        · intro k hk
          simp at hk
        · intro k hk
          simp at hk
      | cons l ls => simp at hl
    | cons s ss => simp at h
  | cons d rest ih =>
    intro sizes blockLists o1 o2 out t h hl h1 hab hfit hchk h64 hout
    cases sizes with
    | nil => simp at h
    | cons s ss =>
      cases blockLists with
      | nil => simp at hl
      | cons l ls =>
        simp only [List.map_cons, List.cons.injEq] at h
        simp only [List.length_cons] at hl h1
        simp only [List.flatten_cons, List.length_append] at hfit hchk h64
        have hge := adjustOffsetNat_ge H (o2 + 4 * (l.length + ls.flatten.length))
        have hmono := adjustOffsetNat_le H (o2 + 4 * l.length)
          (o2 + 4 * (l.length + ls.flatten.length)) (by omega)
        obtain ⟨outB, hB, hBl, hBw, hBf⟩ := WriteBytes_spec b0 B o2 hi H
          (writeAt out (a0 + o1) (toLe32 s)) (wordsToBytes l) hok hhi
          (by rw [length_wordsToBytes]; omega)
          (by
            rw [length_wordsToBytes, length_writeAt _ _ _ (by rw [length_toLe32]; omega)]
            omega)
          (by rw [length_wordsToBytes]; omega)
        rw [length_wordsToBytes] at hB hBw hBf
        have hAl : (writeAt out (a0 + o1) (toLe32 s)).length = out.length :=
          length_writeAt _ _ _ (by rw [length_toLe32]; omega)
        obtain ⟨out1, hd, hl1, hw1, hw2, hf⟩ := ih ss ls (o1 + 4) (o2 + 4 * l.length) outB
          (t + (4 + 4 * l.length)) h.2 (by omega) (by omega) hab
          (by rw [hBl, hAl]; rw [show o2 + 4 * l.length + 4 * ls.flatten.length
            = o2 + 4 * (l.length + ls.flatten.length) by omega]; exact hfit)
          (by rw [show o2 + 4 * l.length + 4 * ls.flatten.length
            = o2 + 4 * (l.length + ls.flatten.length) by omega]; exact hchk)
          (by omega) (by rw [hBl, hAl]; exact hout)
        refine ⟨out1, ?_, by rw [hl1, hBl, hAl], ?_, ?_, ?_⟩
        · simp only [WriteStreamsAndDirectoryToPDB.directory, h.1]
          rw [WriteBytes_noHoles a0 A o1 out (toLe32 s) (by rw [length_toLe32]; omega)
            (by omega) hout]
          simp only [length_toLe32]
          rw [hB]
          simp only
          rw [hd]
          simp only [List.length_cons, List.flatten_cons, List.length_append]
          congr 2
          omega
        · intro k hk
          simp only [List.length_cons] at hk
          rw [wordsToBytes_cons]
          by_cases hk4 : k < 4
          · rw [List.getD_append _ _ _ _ (by rw [length_toLe32]; exact hk4)]
            rw [hf (a0 + o1 + k) (Or.inl (by omega)) (by
              intro k2 _
              have := adjustOffsetNat_ge H (o2 + 4 * l.length + k2)
              omega)]
            rw [hBf (a0 + o1 + k) (by
              intro k2 _
              have := adjustOffsetNat_ge H (o2 + k2)
              omega)]
            rw [getD_writeAt_inside _ _ _ _ _ (by omega) (by omega)
              (by rw [length_toLe32]; omega)]
            congr 1
            omega
          · rw [List.getD_append_right _ _ _ _ (by rw [length_toLe32]; omega), length_toLe32]
            have := hw1 (k - 4) (by omega)
            rw [← this]
            congr 1
            omega
        · intro k hk
          simp only [List.flatten_cons, List.length_append] at hk
          rw [List.flatten_cons, wordsToBytes_append]
          by_cases hkl : k < 4 * l.length
          · rw [List.getD_append _ _ _ _ (by rw [length_wordsToBytes]; exact hkl)]
            rw [hf _ (Or.inr (by
                have := adjustOffsetNat_ge H (o2 + k)
                omega)) (by
              intro k2 _
              have := adjustOffsetNat_lt H (o2 + k) (o2 + 4 * l.length + k2) (by omega)
              omega)]
            exact hBw k hkl
          · rw [List.getD_append_right _ _ _ _ (by rw [length_wordsToBytes]; omega),
              length_wordsToBytes]
            have := hw2 (k - 4 * l.length) (by omega)
            rw [← this]
            congr 3
            omega
        · intro p hp hq
          simp only [List.length_cons] at hp
          simp only [List.flatten_cons, List.length_append] at hq
          rw [hf p (by omega) (by
            intro k2 hk2
            have := hq (4 * l.length + k2) (by omega)
            rw [show o2 + (4 * l.length + k2) = o2 + 4 * l.length + k2 by omega] at this
            exact this)]
          rw [hBf p (by
            intro k2 hk2
            exact hq k2 (by omega))]
          rcases hp with hp | hp
          · exact getD_writeAt_before _ _ _ _ _ (by omega) hp
          · exact getD_writeAt_after _ _ _ _ _ (by rw [length_toLe32]; omega)
              (by rw [length_toLe32]; omega)

theorem blockHoles_starts (first bs off : Nat) (hbs : 1 ≤ bs) :
    ∀ (tail : List Nat) (prev i : Nat), List.Chain (· < ·) (first + prev) tail → i ≤ prev →
      (∀ j, j < tail.length →
        ((first + prev) :: tail).getD (j + 1) 0 ≠ ((first + prev) :: tail).getD j 0 + 1 →
        off < (i + j + 1) * bs) →
      ∀ h ∈ blockHoles first bs tail prev, off < h.1 ∧ h.1 < h.2 := by
  intro tail
  induction tail with
  | nil =>
    intro prev i _ _ _ h hh
    simp [blockHoles] at hh
  | cons b rest ih =>
    intro prev i hch hi hgap h hh
    rw [List.chain_cons] at hch
    obtain ⟨hlt, hch2⟩ := hch
    simp only [blockHoles, List.mem_append] at hh
    rcases hh with hh | hh
    · by_cases hc : b - first ≠ prev + 1
      · rw [if_pos hc, List.mem_singleton] at hh
        subst hh
        have h0 := hgap 0 (by simp) (by
          simp only [List.getD_cons_succ, List.getD_cons_zero]
          omega)
        have h1 : (i + 0 + 1) * bs ≤ (prev + 1) * bs := Nat.mul_le_mul_right _ (by omega)
        have h2 : (prev + 1 + 1) * bs ≤ (b - first) * bs := Nat.mul_le_mul_right _ (by omega)
        have h3 : (prev + 1 + 1) * bs = (prev + 1) * bs + bs := Nat.succ_mul _ _
        simp only
        omega
      · rw [if_neg hc] at hh
        cases hh
    · have hb : first + (b - first) = b := by omega
      refine ih (b - first) (i + 1) (by rw [hb]; exact hch2) (by omega) ?_ h hh
      intro j hj hne
      have := hgap (j + 1) (by simp only [List.length_cons]; omega) (by
        rw [hb] at hne
        simpa only [List.getD_cons_succ] using hne)
      rw [show i + 1 + j + 1 = i + (j + 1) + 1 by omega]
      exact this

theorem WriteStreamsAndDirectoryToPDB_total (codec : Codec) (fs : ImmutableStream)
    (chunks : List MsfzChunk) (descs : List (List MsfzFragment)) (bs first : Nat)
    (tail : List Nat) (ls : List (List Nat)) (total : Nat) (sizes : List Nat)
    (order : List Nat) (out : Bytes) (hbs : 1 ≤ bs)
    (hF : List.Forall₂ StoredWhole sizes descs)
    (hfrag : ∀ frags ∈ descs, ∀ f ∈ frags,
      ∃ d, WriteSingleStreamDataToPDB.fragmentData codec fs chunks f = some d
        ∧ d.length = f.m_DataSize)
    (hlens : ls.map List.length = sizes.map (fun s => ceilDiv s bs))
    (hpw : ∀ l ∈ ls, l.Pairwise (· < ·) ∧ ∀ b ∈ l, (b + 1) * bs ≤ total)
    (h32 : total < 4294967296) (hout : out.length = total)
    (hN : 1 ≤ sizes.length)
    (hsz : descs.map CalculateSize = sizes.map some)
    (hch : List.Chain (· < ·) first tail)
    (hlast : (tail.getLast?.getD first + 1) * bs ≤ total)
    (hcap : 4 + 4 * sizes.length + 4 * ls.flatten.length ≤ (tail.length + 1) * bs)
    (hgap : ∀ j, j < tail.length →
      (first :: tail).getD (j + 1) 0 ≠ (first :: tail).getD j 0 + 1 →
      4 + 4 * sizes.length < (j + 1) * bs) :
    ∃ out3,
      WriteStreamsAndDirectoryToPDB codec fs chunks descs bs (first :: tail) ls
          { m_Data := some 0, m_Size := total, m_Offset := 0 } order out
        = some (out3, 4 + 4 * sizes.length + 4 * ls.flatten.length)
      ∧ out3.length = total
      ∧ (∀ v, v < 4 + 4 * sizes.length + 4 * ls.flatten.length →
          out3.getD ((first :: tail).getD (v / bs) 0 * bs + v % bs) 0
            = (toLe32 sizes.length ++ wordsToBytes sizes ++ wordsToBytes ls.flatten).getD v 0) := by
  have hdl : descs.length = sizes.length := by
    have := congrArg List.length hsz
    simpa using this
  have hll : ls.length = sizes.length := by
    have := congrArg List.length hlens
    simpa using this
  obtain ⟨out1, hs1, hl1⟩ := streams_phase_some codec fs chunks descs bs ls total sizes hbs hF
    hfrag hlens hpw h32 order out hout
  generalize hH : blockHoles first bs tail 0 = H at *
  generalize hms : (tail.getLast?.getD first - first + 1) * bs = msize at *
  generalize hoff : 4 + sizes.length * 4 = off at *
  have hch0 : List.Chain (· < ·) (first + 0) tail := by simpa using hch
  obtain ⟨hb1, hb2⟩ := chain_lt_bounds tail first hch
  have hfl : first ≤ tail.getLast?.getD first := by omega
  have hbase : bs * first + msize = (tail.getLast?.getD first + 1) * bs := by
    rw [← hms, Nat.mul_comm bs first, ← Nat.add_mul]
    congr 1
    omega
  have hok1 := HolesOk_blockHoles first bs tail 0 hch0
  simp only [Nat.add_zero] at hok1
  rw [hH, hms] at hok1
  have hok : HolesOk 0 H msize := HolesOk_mono H _ 0 msize hok1 (Nat.zero_le _)
  have hend := adjustOffsetNat_blockHoles_end first bs tail 0 hch0
  simp only [Nat.add_zero, Nat.zero_mul, Nat.zero_add] at hend
  rw [hH, hms] at hend
  have hst : ∀ h ∈ H, off < h.1 ∧ h.1 < h.2 := by
    rw [← hH]
    apply blockHoles_starts first bs off hbs tail 0 0 hch0 (Nat.le_refl _)
    intro j hj hne
    rw [Nat.add_zero] at hne
    have := hgap j hj hne
    rw [Nat.zero_add]
    omega
  have hlen_le : (tail.length + 1) * bs ≤ msize := by
    have := adjustOffsetNat_ge H ((tail.length + 1) * bs)
    omega
  have hadj : ∀ v, v ≤ (tail.length + 1) * bs → adjustOffsetNat H v ≤ msize := by
    intro v hv
    have := adjustOffsetNat_le H v _ hv
    omega
  have hlow : ∀ v, v ≤ off → adjustOffsetNat H v = v := by
    intro v hv
    exact adjustOffsetNat_of_starts H v (fun h hh => by have := (hst h hh).1; omega)
  have hstream := GetStreamFromBlockIndices_blocks total bs first tail hbs hch (by omega) hlast
  rw [hH, hms] at hstream
  have hsub1 := GetSubStreamAtOffset_before_holes (bs * first) msize 0 4 (sizes.length * 4)
    msize H (by omega) (by omega) hok
    (fun h hh => by have := (hst h hh).1; omega) (by omega)
  have hsub2 := GetSubStreamAtOffset_rest_holes (bs * first) msize 0 off msize H (by omega)
    hok (Nat.le_refl _) hst (by omega)
  generalize hH2 : H.map (fun h => (h.1 - off, h.2 - off)) = H2 at *
  have hok2 : HolesOk 0 H2 (msize - off) := by
    have h1 := HolesOk_of_starts H 0 off msize hok
      (fun h hh => Nat.le_of_lt (hst h hh).1) (by omega)
    have := HolesOk_shift off H off msize h1 (Nat.le_refl _)
    rwa [Nat.sub_self, hH2] at this
  have hshift : ∀ x, adjustOffsetNat H2 x + off = adjustOffsetNat H (x + off) := by
    intro x
    rw [← hH2]
    exact adjustOffsetNat_shift off H x (fun h hh => by
      obtain ⟨q1, q2⟩ := hst h hh
      omega)
  obtain ⟨out2, hw2, hl2, hw2w, hw2f⟩ := WriteBytes_spec (bs * first) msize 0 msize H out1
    (toLe32 sizes.length) hok (by omega) (by rw [length_toLe32]; omega)
    (by rw [length_toLe32, hlow _ (by omega)]; omega)
    (by
      rw [length_toLe32, hlow _ (by omega),
        AdjustOffset_eq_nat H 0 msize msize hok (by omega) (by omega)]
      have := adjustOffsetNat_ge H msize
      omega)
  rw [length_toLe32] at hw2w hw2f
  obtain ⟨out3, hd3, hl3, hw3a, hw3b, hw3f⟩ := directory_loop_holes (bs * first + 4)
    (sizes.length * 4) (bs * first + off) (msize - off) (msize - off) H2 hok2 (by omega)
    descs sizes ls 0 0 out2 4 hsz hll (by omega) (by omega)
    (by
      have := hshift (0 + 4 * ls.flatten.length)
      have := hadj (0 + 4 * ls.flatten.length + off) (by omega)
      omega)
    (by
      rw [AdjustOffset_eq_nat H2 0 (msize - off) (msize - off) hok2 (by omega) (by omega)]
      have := hshift (0 + 4 * ls.flatten.length)
      have := hadj (0 + 4 * ls.flatten.length + off) (by omega)
      have := adjustOffsetNat_ge H2 (msize - off)
      omega)
    (by omega) (by omega)
  refine ⟨out3, ?_, by rw [hl3, hl2, hl1], ?_⟩
  · unfold WriteStreamsAndDirectoryToPDB
    have hcast : StrictCastTo32 descs.length = some sizes.length := by
      unfold StrictCastTo32
      rw [hdl, if_pos (by omega)]
    simp only [hcast, hs1, hstream, hoff, hsub1, hsub2, hw2, hd3]
    unfold StrictCastTo32
    rw [if_pos (by omega)]
    rfl
  · intro v hv
    obtain ⟨hpos, _⟩ := blockHoles_position first bs tail hbs hch v (by omega)
    rw [hH] at hpos
    rw [← hpos]
    by_cases hv4 : v < 4
    · rw [List.append_assoc, List.getD_append _ _ _ _ (by rw [length_toLe32]; exact hv4)]
      rw [hlow v (by omega)]
      rw [hw3f (bs * first + v) (Or.inl (by omega)) (by
        intro k _
        have := adjustOffsetNat_ge H2 (0 + k)
        omega)]
      have := hw2w v hv4
      rw [Nat.zero_add, hlow v (by omega)] at this
      exact this
    · by_cases hvo : v < off
      · rw [List.append_assoc, List.getD_append_right _ _ _ _ (by rw [length_toLe32]; omega),
          length_toLe32,
          List.getD_append _ _ _ _ (by rw [length_wordsToBytes]; omega)]
        rw [hlow v (by omega)]
        have := hw3a (v - 4) (by omega)
        rw [← this]
        congr 1
        omega
      · rw [List.getD_append_right _ _ _ _
          (by simp only [List.length_append, length_toLe32, length_wordsToBytes]; omega)]
        simp only [List.length_append, length_toLe32, length_wordsToBytes]
        have := hw3b (v - off) (by omega)
        rw [show 4 + 4 * sizes.length = off by omega, ← this]
        have hs := hshift (0 + (v - off))
        rw [show 0 + (v - off) + off = v by omega] at hs
        congr 1
        omega

theorem mul_add_div_of_lt (x bs r : Nat) (hr : r < bs) : (x * bs + r) / bs = x := by
  rw [Nat.mul_comm, Nat.mul_add_div (by omega), Nat.div_eq_of_lt hr, Nat.add_zero]

theorem WriteBytes_blocks (first bs : Nat) (tail : List Nat) (out d : Bytes)
    (hbs : 1 ≤ bs) (hch : List.Chain (· < ·) first tail)
    (h32 : (tail.getLast?.getD first + 1) * bs < 4294967296)
    (hL : d.length ≤ (tail.length + 1) * bs)
    (hfile : (tail.getLast?.getD first + 1) * bs ≤ out.length) :
    ∃ s1 out1,
      (GetStreamFromBlockIndices { m_Data := some 0, m_Size := out.length, m_Offset := 0 }
          (first :: tail) bs).WriteBytes out d = some (true, s1, out1)
      ∧ out1.length = out.length
      ∧ (∀ k, k < d.length →
          out1.getD ((first :: tail).getD (k / bs) 0 * bs + k % bs) 0 = d.getD k 0)
      ∧ (∀ p, p / bs ∉ first :: tail → out1.getD p 0 = out.getD p 0) := by
  obtain ⟨s1, out1, hw, hl1, hw1, hf1⟩ := writeSequence_blocks first bs tail out [d] hbs hch h32
    (by simp only [List.map_cons, List.map_nil, List.sum_cons, List.sum_nil]; omega) hfile
  simp only [List.map_cons, List.map_nil, List.sum_cons, List.sum_nil, Nat.add_zero,
    List.flatten_cons, List.flatten_nil, List.append_nil] at hw1 hf1
  refine ⟨s1, out1, writeSequence_single _ _ _ _ _ hw, hl1, fun k hk => (hw1 k hk).2, ?_⟩
  intro p hp
  apply hf1
  intro k hk hpe
  apply hp
  have hkb : k / bs < tail.length + 1 := (Nat.div_lt_iff_lt_mul (by omega)).mpr (by omega)
  rw [hpe, mul_add_div_of_lt _ _ _ (Nat.mod_lt _ (by omega)),
    List.getD_eq_getElem _ _ (by simpa using hkb)]
  exact List.getElem_mem _

theorem freeBlockMap_some_gen (bs nb nF : Nat) (streams : List (List Nat)) (fpm : List Nat)
    (hbs : 1 ≤ bs)
    (hlen : fpm.length = nF) (hbs8 : nF * bs * 8 + 7 < 4294967296) (hnb : nb ≤ nF * bs * 8)
    (hne : streams ≠ [])
    (hs0 : ∀ l first, streams.head? = some l → l.head? = some first →
      first + l.length ≤ nF * bs * 8) :
    ∃ f, RunDecompression.freeBlockMap bs nb streams fpm = some f ∧ f.length = nF * bs := by
  have hr : ((DynamicBitset.Resize (nF * bs * 8 % 4294967296)).SetAll).m_Data.length
      = nF * bs := by
    simp only [DynamicBitset.SetAll, DynamicBitset.Resize, List.length_map,
      List.length_replicate]
    rw [Nat.mod_eq_of_lt (by omega), AlignTo_div_eq_ceilDiv _ 8 (by omega) (by omega) (by omega)]
    unfold ceilDiv
    omega
  obtain ⟨b1, h1, l1⟩ := foldlM_some (fun b i => DynamicBitset.Unset b i) Unset_some
    (List.range nb) ((DynamicBitset.Resize (nF * bs * 8 % 4294967296)).SetAll)
    (by
      intro i hi
      rw [List.mem_range] at hi
      rw [hr]
      omega)
  have hnF : nF ≤ nF * bs * 8 := by
    rw [Nat.mul_assoc]
    exact Nat.le_mul_of_pos_right _ (by omega)
  have hc : StrictCastTo32 fpm.length = some nF := by
    unfold StrictCastTo32
    rw [hlen, if_pos (by omega)]
  cases streams with
  | nil => exact absurd rfl hne
  | cons l rest =>
    cases l with
    | nil =>
      refine ⟨b1.m_Data, ?_, by rw [l1, hr]⟩
      unfold RunDecompression.freeBlockMap
      rw [hc]
      simp only [h1, List.head?_cons, List.head?_nil]
    | cons first tail =>
      have hs := hs0 (first :: tail) first rfl rfl
      simp only [List.length_cons] at hs
      obtain ⟨b2, h2, l2⟩ := foldlM_some (fun b i => DynamicBitset.Set b i) Set_some
        (List.range' first ((first + (tail.length + 1)) % 4294967296 - first)) b1
        (by
          intro i hi
          rw [List.mem_range'_1] at hi
          rw [l1, hr]
          rw [Nat.mod_eq_of_lt (by omega)] at hi
          omega)
      refine ⟨b2.m_Data, ?_, by rw [l2, l1, hr]⟩
      unfold RunDecompression.freeBlockMap
      have hc2 : StrictCastTo32 (first :: tail).length = some (tail.length + 1) := by
        unfold StrictCastTo32
        rw [if_pos (by simp only [List.length_cons]; omega)]
        rfl
      rw [hc]
      simp only [h1, List.head?_cons, hc2, h2, Option.map_some']

theorem finish_total (bs e0 : Nat) (etail : List Nat) (M total dsz : Nat)
    (streams : List (List Nat)) (D ftail : List Nat) (out f : Bytes)
    (hbs : 1 ≤ bs) (htot : total < 4294967296) (hlen : out.length = total)
    (hch : List.Chain (· < ·) e0 etail)
    (hElast : (etail.getLast?.getD e0 + 1) * bs ≤ total)
    (hfit : 4 * D.length ≤ (etail.length + 1) * bs)
    (hsb : 52 + 4 * (etail.length + 1) ≤ bs) (hbt : bs ≤ total)
    (hfch : List.Chain (· < ·) 1 ftail)
    (hFlast : (ftail.getLast?.getD 1 + 1) * bs ≤ total)
    (hf : RunDecompression.freeBlockMap bs M streams (1 :: ftail) = some f)
    (hfl : f.length = (ftail.length + 1) * bs)
    (hdisj : ∀ e ∈ e0 :: etail, e ≠ 0 ∧ e ∉ 1 :: ftail) :
    ∃ out5,
      RunDecompression.finish bs ⟨streams, D, e0 :: etail, 1 :: ftail, M⟩
          { m_Data := some 0, m_Size := total, m_Offset := 0 } out dsz = some out5
      ∧ out5.length = total
      ∧ (∀ p, p < 52 →
          out5.getD p 0 = (PDBSuperBlock.toBytes ⟨bs, 1, M, dsz, 0⟩).getD p 0)
      ∧ (∀ k, k < 4 * (etail.length + 1) →
          out5.getD (52 + k) 0 = (wordsToBytes (e0 :: etail)).getD k 0)
      ∧ (∀ k, k < 4 * D.length →
          out5.getD ((e0 :: etail).getD (k / bs) 0 * bs + k % bs) 0
            = (wordsToBytes D).getD k 0)
      ∧ (∀ p, p / bs ≠ 0 → p / bs ∉ e0 :: etail → p / bs ∉ 1 :: ftail →
          out5.getD p 0 = out.getD p 0) := by
  obtain ⟨s1, out1, hw1, hl1, hw1w, hw1f⟩ := WriteBytes_blocks e0 bs etail out
    (wordsToBytes D) hbs hch (by omega) (by rw [length_wordsToBytes]; exact hfit)
    (by rw [hlen]; exact hElast)
  rw [hlen] at hw1 hl1
  rw [length_wordsToBytes] at hw1w
  have hg : MutableStreamFixed.GetStreamAtOffset
      { m_Data := some 0, m_Size := total, m_Offset := 0 } 0 0
      = { m_Data := some 0, m_Size := total, m_Offset := 0 } := by
    unfold MutableStreamFixed.GetStreamAtOffset
    simp
  have hw2 : ∀ (o d : Bytes), d.length = 52 →
      MutableStreamFixed.WriteBytes { m_Data := some 0, m_Size := total, m_Offset := 0 } o d
      = (true, { m_Data := some 0, m_Size := total, m_Offset := 52 }, writeAt o 0 d) := by
    intro o d hd
    unfold MutableStreamFixed.WriteBytes
    simp only [hd]
    rw [if_neg (by omega)]
  have hw3 : ∀ (o : Bytes),
      (MutableStreamFixed.WriteBytes { m_Data := some 0, m_Size := total, m_Offset := 52 } o
        (wordsToBytes (e0 :: etail))).2.2
      = writeAt o 52 (wordsToBytes (e0 :: etail)) := by
    intro o
    unfold MutableStreamFixed.WriteBytes
    simp only [length_wordsToBytes, List.length_cons]
    rw [if_neg (by omega)]
  generalize hsbB : PDBSuperBlock.toBytes ⟨bs, 1, M, dsz, 0⟩ = sbB at *
  have hsbl : sbB.length = 52 := by rw [← hsbB, length_PDBSuperBlock_toBytes]
  have hl2 : (writeAt out1 0 sbB).length = total := by
    rw [length_writeAt _ _ _ (by omega), hl1]
  have hl3 : (writeAt (writeAt out1 0 sbB) 52 (wordsToBytes (e0 :: etail))).length = total := by
    rw [length_writeAt _ _ _ (by rw [hl2, length_wordsToBytes, List.length_cons]; omega), hl2]
  obtain ⟨s5, out5, hw5, hl5, hw5w, hw5f⟩ := WriteBytes_blocks 1 bs ftail
    (writeAt (writeAt out1 0 sbB) 52 (wordsToBytes (e0 :: etail))) f hbs hfch (by omega)
    (by omega) (by rw [hl3]; exact hFlast)
  rw [hl3] at hw5 hl5
  have hblock0 : ∀ p, p < bs → p / bs ∉ 1 :: ftail := by
    intro p hp hm
    rw [Nat.div_eq_of_lt hp] at hm
    obtain ⟨hb1, _⟩ := chain_lt_bounds ftail 1 hfch
    rcases List.mem_cons.mp hm with h | h
    · omega
    · have := (hb1 0 h).1
      omega
  have hEblock : ∀ k, k < 4 * D.length →
      ((e0 :: etail).getD (k / bs) 0 * bs + k % bs) / bs ∈ e0 :: etail := by
    intro k hk
    have hkb : k / bs < etail.length + 1 := (Nat.div_lt_iff_lt_mul (by omega)).mpr (by omega)
    rw [mul_add_div_of_lt _ _ _ (Nat.mod_lt _ (by omega)),
      List.getD_eq_getElem _ _ (by simpa using hkb)]
    exact List.getElem_mem _
  refine ⟨out5, ?_, hl5, ?_, ?_, ?_, ?_⟩
  · unfold RunDecompression.finish
    simp only [hw1, hg, hsbB, hw2 _ _ hsbl, hw3, hf, hw5, Option.map_some']
  · intro p hp
    rw [hw5f p (hblock0 p (by omega)),
      getD_writeAt_before _ _ _ _ _ (by omega) hp,
      getD_writeAt_inside _ _ _ _ _ (by omega) (by omega) (by omega)]
    rfl
  · intro k hk
    rw [hw5f (52 + k) (hblock0 _ (by omega)),
      getD_writeAt_inside _ _ _ _ _ (by omega) (by omega)
        (by rw [length_wordsToBytes, List.length_cons]; omega)]
    congr 1
    omega
  · intro k hk
    have hm := hEblock k hk
    obtain ⟨hne0, hnf⟩ := hdisj _ hm
    have hge : bs ≤ (e0 :: etail).getD (k / bs) 0 * bs + k % bs := by
      by_contra hc
      rw [Nat.div_eq_of_lt (by omega)] at hne0
      exact hne0 rfl
    rw [hw5f _ hnf,
      getD_writeAt_after _ _ _ _ _ (by rw [hl2, length_wordsToBytes, List.length_cons]; omega)
        (by rw [length_wordsToBytes, List.length_cons]; omega),
      getD_writeAt_after _ _ _ _ _ (by omega) (by omega)]
    exact hw1w k hk
  · intro p hp0 hpE hpF
    have hge : bs ≤ p := by
      by_contra hc
      exact hp0 (Nat.div_eq_of_lt (by omega))
    rw [hw5f p hpF,
      getD_writeAt_after _ _ _ _ _ (by rw [hl2, length_wordsToBytes, List.length_cons]; omega)
        (by rw [length_wordsToBytes, List.length_cons]; omega),
      getD_writeAt_after _ _ _ _ _ (by omega) (by omega)]
    exact hw1f p hpE

theorem directoryPayload_of_blocks (pdb payload : Bytes) (bs M dsz : Nat) (D E : List Nat)
    (hbs4 : 4 ≤ bs) (hbs32 : bs < 4294967296) (hM : M < 4294967296)
    (hdsz1 : 1 ≤ dsz) (hdsz : dsz + 2 * bs < 4294967296)
    (h32 : pdb.length ≤ 4294967296)
    (hDl : D.length = ceilDiv dsz bs) (hEl : E.length = ceilDiv (4 * D.length) bs)
    (hpl : payload.length = dsz)
    (h52 : 52 + 4 * E.length ≤ pdb.length)
    (hE32 : ∀ e ∈ E, e < 4294967296) (hD32 : ∀ d ∈ D, d < 4294967296)
    (hEin : ∀ e ∈ E, e * bs + bs ≤ pdb.length) (hDin : ∀ d ∈ D, d * bs + bs ≤ pdb.length)
    (hxE : ContiguityTestExact E) (hxD : ContiguityTestExact D)
    (ha : ∀ p, p < 52 → pdb.getD p 0 = (PDBSuperBlock.toBytes ⟨bs, 1, M, dsz, 0⟩).getD p 0)
    (hb : ∀ k, k < 4 * E.length → pdb.getD (52 + k) 0 = (wordsToBytes E).getD k 0)
    (hc : ∀ k, k < 4 * D.length →
      pdb.getD (E.getD (k / bs) 0 * bs + k % bs) 0 = (wordsToBytes D).getD k 0)
    (hd : ∀ v, v < dsz → pdb.getD (D.getD (v / bs) 0 * bs + v % bs) 0 = payload.getD v 0) :
    readSuperBlock pdb = some ⟨bs, 1, M, dsz, 0⟩ ∧ directoryPayload pdb = some payload := by
  have hbs : 1 ≤ bs := by omega
  have hsb : readSuperBlock pdb = some ⟨bs, 1, M, dsz, 0⟩ := by
    apply readSuperBlock_of_take
    · apply list_ext_getD
      · rw [List.length_take, length_PDBSuperBlock_toBytes]
        omega
      · intro k hk
        rw [List.length_take] at hk
        rw [getD_take_of_lt _ _ _ (by omega)]
        exact ha k (by omega)
    · exact hbs32
    · norm_num
    · exact hM
    · simp only; omega
    · norm_num
  have hfitE := le_ceilDiv_mul (4 * D.length) bs hbs
  rw [← hEl] at hfitE
  have hfitD := le_ceilDiv_mul dsz bs hbs
  rw [← hDl] at hfitD
  have hEidx : directoryIndexBlockIndices pdb ⟨bs, 1, M, dsz, 0⟩ = E := by
    unfold directoryIndexBlockIndices
    simp only
    rw [← hDl, ← hEl]
    have hsplit : pdb.drop 52 = wordsToBytes E ++ (pdb.drop 52).drop (4 * E.length) := by
      have ht : (pdb.drop 52).take (4 * E.length) = wordsToBytes E := by
        apply list_ext_getD
        · rw [List.length_take, List.length_drop, length_wordsToBytes]
          omega
        · intro k hk
          rw [List.length_take] at hk
          rw [getD_take_of_lt _ _ _ (by omega), getD_drop_add]
          exact hb k (by omega)
      rw [← ht, List.take_append_drop]
    rw [hsplit]
    exact wordsOf_wordsToBytes E _ hE32
  have hDidx : directoryBlockIndices pdb ⟨bs, 1, M, dsz, 0⟩ = D := by
    unfold directoryBlockIndices
    rw [hEidx]
    simp only
    rw [← hDl]
    have hcont : streamContentSpec pdb bs (4 * D.length) E = wordsToBytes D := by
      apply list_ext_getD
      · rw [length_streamContentSpec pdb bs _ E hEin hfitE, length_wordsToBytes]
      · intro k hk
        rw [length_streamContentSpec pdb bs _ E hEin hfitE] at hk
        rw [getD_streamContentSpec pdb bs _ E hbs hEin hfitE k hk]
        exact hc k hk
    rw [hcont]
    have := wordsOf_wordsToBytes D [] hD32
    rwa [List.append_nil] at this
  have htwo : directoryTwoLevel pdb ⟨bs, 1, M, dsz, 0⟩ = payload := by
    unfold directoryTwoLevel
    rw [hDidx]
    simp only
    apply list_ext_getD
    · rw [length_streamContentSpec pdb bs _ D hDin hfitD, hpl]
    · intro k hk
      rw [length_streamContentSpec pdb bs _ D hDin hfitD] at hk
      rw [getD_streamContentSpec pdb bs _ D hbs hDin hfitD k hk]
      exact hd k hk
  refine ⟨hsb, ?_⟩
  unfold directoryPayload
  rw [hsb]
  simp only [Option.some_bind]
  rw [directoryData_two_level pdb ⟨bs, 1, M, dsz, 0⟩ hbs hdsz1 (by simp only; omega)
    (by
      simp only
      rw [← hDl]
      have h0 : (dsz + bs - 1) / bs * bs ≤ dsz + bs - 1 := Nat.div_mul_le_self _ _
      have h1 : D.length * bs ≤ dsz + bs - 1 := by
        rw [hDl]
        exact h0
      have h2 : D.length * 4 ≤ D.length * bs := Nat.mul_le_mul_left _ hbs4
      omega)
    h32 (by rw [hEidx]; exact h52) (by rw [hEidx]; exact hEin) (by rw [hDidx]; exact hDin)
    (by rw [hEidx]; exact hxE) (by rw [hDidx]; exact hxD), htwo]

theorem ceilDiv_mul_le (x bs : Nat) : ceilDiv x bs * bs ≤ x + bs - 1 :=
  Nat.div_mul_le_self _ _

theorem numStreamBlocks_mul_le (bs : Nat) (hbs : 1 ≤ bs) (sizes : List Nat) :
    numStreamBlocks bs sizes * bs + sizes.length ≤ sizes.sum + sizes.length * bs := by
  induction sizes with
  | nil => simp [numStreamBlocks]
  | cons s rest ih =>
    have h2 : numStreamBlocks bs (s :: rest) = ceilDiv s bs + numStreamBlocks bs rest := by
      simp [numStreamBlocks]
    have h3 := ceilDiv_mul_le s bs
    rw [h2, List.sum_cons, List.length_cons, Nat.add_mul, Nat.add_mul, Nat.one_mul]
    omega

theorem ceilDiv_pred_mul_lt (x bs : Nat) (hx : 1 ≤ x) (hbs : 1 ≤ bs) :
    (ceilDiv x bs - 1) * bs < x := by
  have h1 := ceilDiv_mul_le x bs
  have h2 := ceilDiv_pos x bs hx hbs
  rw [Nat.sub_mul, Nat.one_mul]
  have h3 : bs ≤ ceilDiv x bs * bs := Nat.le_mul_of_pos_left _ (by omega)
  omega

theorem fpm_list (bs nF : Nat) (hbs : 2 ≤ bs) (hnF : 1 ≤ nF)
    (h32 : nF * bs + 1 < 4294967296) :
    ∃ ftail, (List.range nF).map (fun i => (i * bs + 1) % 4294967296) = 1 :: ftail
      ∧ List.Chain (· < ·) 1 ftail
      ∧ ftail.length + 1 = nF
      ∧ (∀ b ∈ 1 :: ftail, IsBlockReserved b bs = true ∧ b ≤ (nF - 1) * bs + 1) := by
  have hmem : ∀ b ∈ (List.range nF).map (fun i => (i * bs + 1) % 4294967296),
      IsBlockReserved b bs = true ∧ b ≤ (nF - 1) * bs + 1 := by
    intro b hb
    rw [List.mem_map] at hb
    obtain ⟨i, hi, rfl⟩ := hb
    rw [List.mem_range] at hi
    have h1 : i * bs ≤ (nF - 1) * bs := Nat.mul_le_mul_right _ (by omega)
    have h2 : (nF - 1) * bs + bs = nF * bs := by
      rw [← Nat.succ_mul]
      congr 1
      omega
    rw [Nat.mod_eq_of_lt (by omega)]
    refine ⟨?_, by omega⟩
    unfold IsBlockReserved
    have : (i * bs + 1) % bs = 1 := by
      rw [Nat.add_comm, Nat.add_mul_mod_self_right, Nat.mod_eq_of_lt (by omega)]
    rw [this]
    rfl
  have hpw : ((List.range nF).map (fun i => (i * bs + 1) % 4294967296)).Pairwise (· < ·) := by
    rw [List.pairwise_map]
    refine List.Pairwise.imp_of_mem ?_ (List.pairwise_lt_range nF)
    intro a b ha hb hab
    rw [List.mem_range] at ha hb
    have h1 : (a + 1) * bs ≤ b * bs := Nat.mul_le_mul_right _ (by omega)
    have h2 : b * bs ≤ (nF - 1) * bs := Nat.mul_le_mul_right _ (by omega)
    have h3 : (nF - 1) * bs + bs = nF * bs := by
      rw [← Nat.succ_mul]
      congr 1
      omega
    rw [Nat.succ_mul] at h1
    rw [Nat.mod_eq_of_lt (by omega), Nat.mod_eq_of_lt (by omega)]
    omega
  obtain ⟨k, hk⟩ : ∃ k, nF = k + 1 := ⟨nF - 1, by omega⟩
  subst hk
  rw [List.range_succ_eq_map, List.map_cons] at hpw hmem ⊢
  simp only [Nat.zero_mul, Nat.zero_add, Nat.one_mod_eq_one.mpr (by norm_num :
    (4294967296 : Nat) ≠ 1)] at hpw hmem ⊢
  exact ⟨_, rfl, List.Pairwise.chain hpw, by simp, hmem⟩

theorem RunDecompression_total (codec : Codec) (args : ProgramCommandLineArgs)
    (testMode : Bool) (order : List Nat) (msfz : Bytes) (descs : List (List MsfzFragment))
    (chunks : List MsfzChunk) (sizes : List Nat)
    (hvalid : args.m_BlockSize ∈ [512, 1024, 2048, 4096, 8192])
    (h80 : 80 ≤ msfz.length)
    (hsig : msfz.take 32 = g_MsfzSignatureBytes)
    (hdir : (GetStreamDirectoryData codec (ImmutableStream.ofBytes msfz)
        (MsfzHeader.ofBytes msfz)).bind ParseStreamDirectoryData = some descs)
    (hnum : (MsfzHeader.ofBytes msfz).m_NumMSFStreams = sizes.length)
    (hchunks : GetChunkDescriptorsData (ImmutableStream.ofBytes msfz) (MsfzHeader.ofBytes msfz)
      = some chunks)
    (hF : List.Forall₂ StoredWhole sizes descs)
    (hfrag : ∀ frags ∈ descs, ∀ f ∈ frags,
      ∃ d, WriteSingleStreamDataToPDB.fragmentData codec (ImmutableStream.ofBytes msfz)
          chunks f = some d ∧ d.length = f.m_DataSize)
    (hN : 1 ≤ sizes.length)
    (hle : ∀ s ∈ sizes, s ≤ 2147483648)
    (hT : sizes.sum < 4294967296)
    (hlimN : sizes.length ≤ 65536)
    (hlimM : assignedBlockCount args.m_BlockSize sizes ≤ 1048576)
    (hsize : assignedBlockCount args.m_BlockSize sizes * args.m_BlockSize < 4294967296)
    (hgap : directoryHeadBeforeGap args.m_BlockSize sizes = true) :
    ∃ pdb, RunDecompression codec args testMode order msfz = .written pdb
      ∧ directoryPayload pdb = some (assignedDirectory args.m_BlockSize sizes) := by
  generalize hbsv : args.m_BlockSize = bs at *
  have hb12 : 512 ≤ bs ∧ bs ≤ 8192 := by
    simp only [List.mem_cons, List.mem_singleton, List.not_mem_nil, or_false] at hvalid
    rcases hvalid with h | h | h | h | h <;> rw [h] <;> exact ⟨by norm_num, by norm_num⟩
  obtain ⟨hb1, hb2⟩ := hb12
  have hbs : 1 ≤ bs := by omega
  have hbs4 : 4 ≤ bs := by omega
  -- the sizes of the three block lists
  have hBmul := numStreamBlocks_mul_le bs hbs sizes
  have hB : numStreamBlocks bs sizes ≤ 8454144 := by
    by_contra hc
    have h1 : (numStreamBlocks bs sizes - sizes.length) * 512
        ≤ (numStreamBlocks bs sizes - sizes.length) * bs := Nat.mul_le_mul_left _ hb1
    simp only [Nat.sub_mul] at h1
    omega
  have hnd0 : numDirectoryBlocks bs sizes
      ≤ 4 + 4 * sizes.length + 4 * numStreamBlocks bs sizes :=
    ceilDiv_le _ _ _ hbs (Nat.le_mul_of_pos_right _ hbs)
  have hne0 : numDirectoryIndexBlocks bs sizes ≤ numDirectoryBlocks bs sizes := by
    apply ceilDiv_le _ _ _ hbs
    rw [Nat.mul_comm]
    exact Nat.mul_le_mul_left _ hbs4
  obtain ⟨p1a, p1b, p1c, p1d, p1e⟩ :=
    AssignNextNBlocks_props bs hbs4 (numStreamBlocks bs sizes) 3 (by omega)
  generalize hc1 : (AssignNextNBlocks bs (numStreamBlocks bs sizes) 3).2 = c1 at *
  obtain ⟨p2a, p2b, p2c, p2d, p2e⟩ :=
    AssignNextNBlocks_props bs hbs4 (numDirectoryBlocks bs sizes) c1 (by omega)
  generalize hc2 : (AssignNextNBlocks bs (numDirectoryBlocks bs sizes) c1).2 = c2 at *
  obtain ⟨p3a, p3b, p3c, p3d, p3e⟩ :=
    AssignNextNBlocks_props bs hbs4 (numDirectoryIndexBlocks bs sizes) c2 (by omega)
  generalize hM : (AssignNextNBlocks bs (numDirectoryIndexBlocks bs sizes) c2).2 = M at *
  have hMdef : assignedBlockCount bs sizes = M := by
    unfold assignedBlockCount
    rw [hc1, hc2, hM]
  rw [hMdef] at hlimM hsize
  have hnd : numDirectoryBlocks bs sizes ≤ 8705 := by
    apply ceilDiv_le _ _ _ hbs
    have : 8705 * 512 ≤ 8705 * bs := Nat.mul_le_mul_left _ hb1
    omega
  have hne : numDirectoryIndexBlocks bs sizes ≤ 69 := by
    apply ceilDiv_le _ _ _ hbs
    have : 69 * 512 ≤ 69 * bs := Nat.mul_le_mul_left _ hb1
    omega
  have hnd1 : 1 ≤ numDirectoryBlocks bs sizes := ceilDiv_pos _ _ (by omega) hbs
  have hne1 : 1 ≤ numDirectoryIndexBlocks bs sizes := ceilDiv_pos _ _ (by omega) hbs
  have hcapD : 4 + 4 * sizes.length + 4 * numStreamBlocks bs sizes
      ≤ numDirectoryBlocks bs sizes * bs := le_ceilDiv_mul _ _ hbs
  have hcapE : 4 * numDirectoryBlocks bs sizes ≤ numDirectoryIndexBlocks bs sizes * bs :=
    le_ceilDiv_mul _ _ hbs
  have hlt : ∀ s ∈ sizes, s < 4294967296 := fun s hs => by
    have := hle s hs
    omega
  have hszs : descs.map CalculateSize = sizes.map some :=
    StoredWhole_CalculateSize sizes descs hlt hF
  have hdl : descs.length = sizes.length := (List.Forall₂.length_eq hF).symm
  obtain ⟨ls, hassign, hlens, hflat, _⟩ := AssignBlocksToStreams_layout descs sizes bs c1 c2 M
    hbs4 hb2 hszs (fun s hs => by have := hle s hs; omega) (by omega) hc1 hc2 hM
  have hlfl : ls.flatten.length = numStreamBlocks bs sizes := by
    rw [hflat, length_AssignNextNBlocks]
  have hlsl : ls.length = sizes.length := by
    have := congrArg List.length hlens
    simpa using this
  have hDlen := length_AssignNextNBlocks bs (numDirectoryBlocks bs sizes) c1
  have hElen := length_AssignNextNBlocks bs (numDirectoryIndexBlocks bs sizes) c2
  have hxD : ContiguityTestExact (AssignNextNBlocks bs (numDirectoryBlocks bs sizes) c1).1 :=
    (contiguity_exact bs hbs4 _ c1 (by omega) (by
      intro h
      rw [h] at hDlen
      simp at hDlen
      omega)).mp
  have hxE : ContiguityTestExact
      (AssignNextNBlocks bs (numDirectoryIndexBlocks bs sizes) c2).1 :=
    (contiguity_exact bs hbs4 _ c2 (by omega) (by
      intro h
      rw [h] at hElen
      simp at hElen
      omega)).mp
  have hDdef : assignedDirectoryBlocks bs sizes
      = (AssignNextNBlocks bs (numDirectoryBlocks bs sizes) c1).1 := by
    unfold assignedDirectoryBlocks
    rw [hc1]
  unfold directoryHeadBeforeGap at hgap
  rw [hDdef] at hgap
  generalize hDg : (AssignNextNBlocks bs (numDirectoryBlocks bs sizes) c1).1 = D at *
  generalize hEg : (AssignNextNBlocks bs (numDirectoryIndexBlocks bs sizes) c2).1 = E at *
  have hgap2 : ∀ j, j + 1 < D.length → D.getD (j + 1) 0 ≠ D.getD j 0 + 1 →
      4 + 4 * sizes.length < (j + 1) * bs := by
    intro j hj hne
    rw [List.all_eq_true] at hgap
    have := hgap j (List.mem_range.mpr (by omega))
    rw [Bool.or_eq_true, decide_eq_true_eq, decide_eq_true_eq] at this
    rcases this with h | h
    · exact absurd h hne
    · exact h
  cases D with
  | nil =>
    simp only [List.length_nil] at hDlen
    omega
  | cons first tail =>
  cases E with
  | nil =>
    simp only [List.length_nil] at hElen
    omega
  | cons e0 etail =>
  simp only [List.length_cons] at hDlen hElen
  have hMpos : 5 ≤ M := by omega
  have htot : M * bs % 4294967296 = M * bs := Nat.mod_eq_of_lt hsize
  have hbM : 5 * bs ≤ M * bs := Nat.mul_le_mul_right _ hMpos
  have hblk : ∀ b, b < M → (b + 1) * bs ≤ M * bs := fun b hb =>
    Nat.mul_le_mul_right _ (by omega)
  have hpw : ∀ l ∈ ls, l.Pairwise (· < ·) ∧ ∀ b ∈ l, (b + 1) * bs ≤ M * bs := by
    intro l hl
    have hsub : l.Sublist ls.flatten := List.sublist_flatten_of_mem hl
    rw [hflat] at hsub
    refine ⟨List.Pairwise.sublist hsub p1a, ?_⟩
    intro b hb
    have := (p1b b (hsub.subset hb)).2.1
    exact hblk b (by omega)
  have hDlast := (p2b _ (pairwise_last_mem first tail)).2.1
  have hElast := (p3b _ (pairwise_last_mem e0 etail)).2.1
  obtain ⟨out3, hw3, hl3, hd3⟩ := WriteStreamsAndDirectoryToPDB_total codec
    (ImmutableStream.ofBytes msfz) chunks descs bs first tail ls (M * bs) sizes order
    (List.replicate (M * bs) 0) hbs hF hfrag hlens hpw hsize (List.length_replicate _ _) hN
    hszs (List.Pairwise.chain p2a) (hblk _ (by omega)) (by rw [hlfl, hDlen]; exact hcapD)
    (by
      intro j hj
      exact hgap2 j (by simp only [List.length_cons]; omega))
  -- the free block map
  have hc8 : ceilDiv M 8 = (M + 7) / 8 := rfl
  have hc8a : 1 ≤ ceilDiv M 8 := ceilDiv_pos M 8 (by omega) (by omega)
  have hnFeq : AlignTo (AlignTo M 8 / 8) bs / bs = ceilDiv (ceilDiv M 8) bs := by
    rw [AlignTo_div_eq_ceilDiv M 8 (by omega) (by omega) (by omega),
      AlignTo_div_eq_ceilDiv _ bs hbs (by omega) (by omega)]
  rw [hnFeq] at hassign
  generalize hnF : ceilDiv (ceilDiv M 8) bs = nF at *
  have hnF1 : 1 ≤ nF := by
    rw [← hnF]
    exact ceilDiv_pos _ _ hc8a hbs
  have hnF2 : nF * bs ≤ ceilDiv M 8 + bs - 1 := by
    rw [← hnF]
    exact ceilDiv_mul_le _ _
  have hnF3 : (nF - 1) * bs < ceilDiv M 8 := by
    rw [← hnF]
    exact ceilDiv_pred_mul_lt _ _ hc8a hbs
  have hnF4 : ceilDiv M 8 ≤ nF * bs := by
    rw [← hnF]
    exact le_ceilDiv_mul _ _ hbs
  obtain ⟨ftail, hfpm, hfch, hflen, hfmem⟩ := fpm_list bs nF (by omega) hnF1 (by omega)
  rw [hfpm] at hassign
  have hnF8 : nF * bs * 8 = 8 * (nF * bs) := Nat.mul_comm _ _
  obtain ⟨f, hf, hfl⟩ := freeBlockMap_some_gen bs M nF ls (1 :: ftail) hbs
    (by simp only [List.length_cons]; exact hflen) (by omega) (by omega)
    (by
      intro h
      rw [h] at hlsl
      simp at hlsl
      omega)
    (by
      intro l first hl hfirst
      have hlm : l ∈ ls := List.mem_of_mem_head? hl
      obtain ⟨q1, _⟩ := hpw l hlm
      have hsub : l.Sublist ls.flatten := List.sublist_flatten_of_mem hlm
      rw [hflat] at hsub
      cases l with
      | nil => simp at hfirst
      | cons a t =>
        simp only [List.head?_cons, Option.some.injEq] at hfirst
        subst hfirst
        obtain ⟨_, hb2'⟩ := chain_lt_bounds t a (List.Pairwise.chain q1)
        have := (p1b _ (hsub.subset (pairwise_last_mem a t))).2.1
        simp only [List.length_cons]
        omega)
  have hFlast : (ftail.getLast?.getD 1 + 1) * bs ≤ M * bs := by
    apply hblk
    have := (hfmem _ (pairwise_last_mem 1 ftail)).2
    omega
  obtain ⟨out5, hfin, hl5, ha5, hb5, hc5, hd5⟩ := finish_total bs e0 etail M (M * bs)
    (4 + 4 * sizes.length + 4 * ls.flatten.length) ls (first :: tail) ftail out3 f hbs hsize hl3
    (List.Pairwise.chain p3a) (hblk _ (by omega))
    (by simp only [List.length_cons]; rw [hDlen, hElen]; exact hcapE)
    (by omega) (by omega) hfch hFlast hf (by rw [hfl, hflen])
    (by
      intro e he
      obtain ⟨q1, q2, q3⟩ := p3b e he
      refine ⟨by omega, fun hm => ?_⟩
      have := (hfmem e hm).1
      rw [q3] at this
      cases this)
  refine ⟨out5, ?_, ?_⟩
  · unfold RunDecompression
    simp only [hdir, hchunks, hbsv, hassign, hnum, hdl, htot, hw3, hfin]
    rw [if_neg (by omega), if_neg (by omega), if_neg (by simp [hsig])]
    simp only [ne_eq, not_true_eq_false, if_false]
    rw [if_neg (by omega), if_neg (by omega), if_neg (by omega)]
  · have hpay : assignedDirectory bs sizes
        = toLe32 sizes.length ++ wordsToBytes sizes ++ wordsToBytes ls.flatten := by
      unfold assignedDirectory assignedStreamBlocks
      rw [hflat]
    rw [hpay]
    refine (directoryPayload_of_blocks out5 _ bs M
      (4 + 4 * sizes.length + 4 * ls.flatten.length) (first :: tail) (e0 :: etail) hbs4
      (by omega) (by omega) (by omega) (by omega) (by omega)
      (by simp only [List.length_cons]; rw [hDlen, hlfl]; rfl)
      (by simp only [List.length_cons]; rw [hDlen, hElen]; rfl)
      (by
        simp only [List.length_append, length_toLe32, length_wordsToBytes])
      (by simp only [List.length_cons]; omega)
      (fun e he => by have := (p3b e he).2.1; omega)
      (fun d hd => by have := (p2b d hd).2.1; omega)
      (fun e he => by
        have := hblk e (by have := (p3b e he).2.1; omega)
        rw [Nat.succ_mul] at this
        omega)
      (fun d hd => by
        have := hblk d (by have := (p2b d hd).2.1; omega)
        rw [Nat.succ_mul] at this
        omega)
      hxE hxD ha5 (by simpa only [List.length_cons] using hb5) hc5 ?_).2
    intro v hv
    have hvb : v / bs < tail.length + 1 := (Nat.div_lt_iff_lt_mul (by omega)).mpr (by
      rw [hDlen]
      omega)
    have hmem : (first :: tail).getD (v / bs) 0 ∈ first :: tail := by
      rw [List.getD_eq_getElem _ _ (by simpa using hvb)]
      exact List.getElem_mem _
    obtain ⟨q1, q2, q3⟩ := p2b _ hmem
    have hdiv : ((first :: tail).getD (v / bs) 0 * bs + v % bs) / bs
        = (first :: tail).getD (v / bs) 0 :=
      mul_add_div_of_lt _ _ _ (Nat.mod_lt _ (by omega))
    rw [hd5 _ (by rw [hdiv]; omega)
      (by
        rw [hdiv]
        intro hm
        have := (p3b _ hm).1
        omega)
      (by
        rw [hdiv]
        intro hm
        have := (hfmem _ hm).1
        rw [q3] at this
        cases this)]
    exact hd3 v hv

/-- C2 (amended). Let `P` be a PDB of a valid block size `bs` with at least one stream
whose streams the compressor can read, and let `NoCompression` be chosen, the runner have
at least one worker thread and every stream worker run to its end. Let `P` stay within
the limits of the two file formats and of the 32-bit arithmetic of the code: no stream
above `2^31` bytes, an MSFZ file below `2^32` bytes, at most `2^16` streams, a layout of
at most `2^20` blocks and below `2^32` bytes, and the count and size words of the
directory before the first reserved pair that the directory blocks step over. Then
compressing `P` and decompressing the result with block size `bs` runs to the end, and
the directory payload of the PDB that comes back is the one of the layout
`AssignBlocksToStreams` assigns: the stream count of `P`, the stream sizes of `P` as
parsed, and for the streams in order the block indices that its lambda
`AssignNextNBlocks` hands out from block 3 on. It is byte-equal to the directory payload
of `P` exactly when `P` already has this payload. -/
theorem roundTrip_directory_canonical (codec : Codec) (args : ProgramCommandLineArgs)
    (testMode : Bool) (numThreads : Nat) (schedule order : List Nat) (pdbFile : Bytes)
    (sb : PDBSuperBlock) (infos : List PDBStreamInfo)
    (hs : args.m_CompressionStrategy = .NoCompression)
    (hbs : args.m_BlockSize = sb.m_BlockSize)
    (hsb : readSuperBlock pdbFile = some sb)
    (hparse : ParseStreamDirectory (ImmutableStream.ofBytes pdbFile) sb = some infos)
    (hvalid : sb.m_BlockSize ∈ [512, 1024, 2048, 4096, 8192])
    (hN : infos ≠ [])
    (hread : ∀ info ∈ infos, 0 < info.m_StreamSize →
      (CoalesceDataFromStream (ImmutableStream.ofBytes pdbFile) info sb.m_BlockSize).isSome
        = true)
    (hth : numThreads ≠ 0)
    (hsched : ∀ i, i < infos.length → 4 ≤ schedule.count i)
    (hle : ∀ info ∈ infos, info.m_StreamSize ≤ 2147483648)
    (hbound : 80 + 4 * infos.length + 32 * numNonEmpty (infos.map (fun i => i.m_StreamSize))
      + (infos.map (fun i => i.m_StreamSize)).sum < 4294967296)
    (hlimN : infos.length ≤ 65536)
    (hlimM : assignedBlockCount sb.m_BlockSize (infos.map (fun i => i.m_StreamSize))
      ≤ 1048576)
    (hsize : assignedBlockCount sb.m_BlockSize (infos.map (fun i => i.m_StreamSize))
      * sb.m_BlockSize < 4294967296)
    (hgap : directoryHeadBeforeGap sb.m_BlockSize (infos.map (fun i => i.m_StreamSize))
      = true) :
    ∃ pdb1,
      roundTrip codec args testMode numThreads schedule order pdbFile = some pdb1
      ∧ directoryPayload pdb1
          = some (assignedDirectory sb.m_BlockSize (infos.map (fun i => i.m_StreamSize)))
      ∧ (directoryPayload pdb1 = directoryPayload pdbFile
          ↔ directoryPayload pdbFile
              = some (assignedDirectory sb.m_BlockSize
                  (infos.map (fun i => i.m_StreamSize)))) := by
  have hdvd : sb.m_BlockSize ∣ 4294967296 := by
    simp only [List.mem_cons, List.mem_singleton, List.not_mem_nil, or_false] at hvalid
    rcases hvalid with h | h | h | h | h <;> rw [h] <;> norm_num
  have hN1 : 1 ≤ infos.length := by
    cases infos with
    | nil => exact absurd rfl hN
    | cons a r => simp
  obtain ⟨z, chunks, hz, h80, hsig, hdir, hnum, hchunks, hF, hfrag⟩ :=
    RunCompression_total codec args pdbFile numThreads schedule sb infos hs hth hsched hsb
      hparse hdvd hN1
      (fun info hi hpos => Option.isSome_iff_exists.mp (hread info hi hpos)) hle hbound
  obtain ⟨pdb1, hdec, hpay⟩ := RunDecompression_total codec args testMode
    (if numThreads = 0 then [] else order) z.file z.streamDescriptors chunks
    (infos.map (fun i => i.m_StreamSize)) (by rw [hbs]; exact hvalid) h80 hsig hdir
    (by rw [hnum, List.length_map]) hchunks hF hfrag (by rw [List.length_map]; exact hN1)
    (by
      intro s hs'
      rw [List.mem_map] at hs'
      obtain ⟨info, hi, rfl⟩ := hs'
      exact hle info hi)
    (by omega) (by rw [List.length_map]; exact hlimN) (by rw [hbs]; exact hlimM)
    (by rw [hbs]; exact hsize) (by rw [hbs]; exact hgap)
  rw [hbs] at hpay
  refine ⟨pdb1, ?_, hpay, ?_⟩
  · unfold roundTrip
    rw [hz]
    simp only [hdec]
  · rw [hpay]
    exact ⟨fun e => e.symm, fun e => e.symm⟩

/-- Witness of C2 (amended), at `swappedPdb`: two streams of 512 bytes at block size
512, two worker threads, the streams converted one after the other. The round trip runs
to the end and gives `canonPdb`, whose directory lists block 3 for stream 0 and block 4
for stream 1; the payload of `swappedPdb` lists them the other way round. -/
theorem roundTrip_directory_canonical_witness :
    roundTrip storeCodec noCompression512 false 2 (sequentialSchedule 2 4) [0, 1] swappedPdb
        = some canonPdb
      ∧ assignedDirectory 512 [512, 512]
          = toLe32 2 ++ toLe32 512 ++ toLe32 512 ++ toLe32 3 ++ toLe32 4
      ∧ ∃ pdb1,
          roundTrip storeCodec noCompression512 false 2 (sequentialSchedule 2 4) [0, 1]
              swappedPdb = some pdb1
          ∧ directoryPayload pdb1 = some (assignedDirectory 512 [512, 512])
          ∧ (directoryPayload pdb1 = directoryPayload swappedPdb
              ↔ directoryPayload swappedPdb = some (assignedDirectory 512 [512, 512])) :=
  ⟨by decide!, by decide,
    roundTrip_directory_canonical storeCodec noCompression512 false 2 (sequentialSchedule 2 4)
      [0, 1] swappedPdb
      { m_BlockSize := 512, m_FreeBlockMapIndex := 1, m_BlockCount := 7, m_DirectorySize := 20,
        m_Unknown1_32t := 0 }
      [{ m_StreamSize := 512, m_StreamBlockIndices := [4] },
       { m_StreamSize := 512, m_StreamBlockIndices := [3] }]
      rfl rfl (by decide!) (by decide!) (by decide) (by decide) (by decide!) (by decide)
      (by decide) (by decide) (by decide) (by decide) (by decide) (by decide) (by decide)⟩

end PdbConv
